import Mathlib

/-!
# Time-ordered message muxer (`plugins/utils/muxer/muxer.c`)

Shallow embedding of the muxer message iterator: upstream cursors with
their FIFO queues, the clock-class expectation state machine, the
timestamp extraction, the validation and selection loops, `next_one`
and `next`, the seek to the beginning; and of the muxer component: its
configuration, its ports and the creation of a message iterator.

Conventions of the embedding.

* A C function that may stop the process (a failed `BT_ASSERT`, a NULL
  dereference, `abort()`) returns an `Option`; `none` is that stop.
* `int64_t` values are `Int`: the code only copies and compares them.
  Where the range matters, a statement assumes the bound `INT64_MAX`.
* A `GPtrArray` is a `List`; a `GQueue` is a `List` whose head is the
  queue head.
* An upstream message iterator is an external object.  It is modelled
  by the list of answers it still has to give to successive calls of
  its `next` method, the answers it replays after a seek and the
  answers it gives to seeks.
* The answers of the framework to the muxer (a port was added or not)
  are arguments of the functions that ask for them; a map value object
  is the function from its keys to the values they are bound to.
* `unsigned int` and `size_t` counters are natural numbers modulo
  `UINT_MAX + 1` and `SIZE_MAX + 1`.
-/

namespace Muxer

/-! ## Framework types used by the muxer -/

/-- Statuses of `bt_message_iterator_status` and
`bt_self_message_iterator_status` (the code casts one to the other). -/
inductive bt_message_iterator_status
  | OK
  | END
  | AGAIN
  | ERROR
  | NOMEM
  deriving DecidableEq, Repr

/-- Modelled from the spec: the numeric values of the status enumerators
live in a framework header outside the sources; the fatal statuses
(error, out of memory) are the negative ones, `OK`, `END` and `AGAIN`
are not.  This is the test `status < 0` of the code. -/
def bt_message_iterator_status.is_negative : bt_message_iterator_status → Bool
  | .ERROR => true
  | .NOMEM => true
  | _ => false

/-- Message type discriminator (`bt_message_get_type`).  `OTHER` stands
for any type outside the listed ones (the `default:` branches). -/
inductive bt_message_type
  | EVENT
  | MESSAGE_ITERATOR_INACTIVITY
  | STREAM_BEGINNING
  | STREAM_END
  | PACKET_BEGINNING
  | PACKET_END
  | STREAM_ACTIVITY_BEGINNING
  | STREAM_ACTIVITY_END
  | DISCARDED_EVENTS
  | DISCARDED_PACKETS
  | OTHER
  deriving DecidableEq, Repr

/-- State of the default clock snapshot of a stream activity message. -/
inductive bt_message_stream_activity_clock_snapshot_state
  | KNOWN
  | UNKNOWN
  | INFINITE
  deriving DecidableEq, Repr

/-- Length of a UUID in bytes. -/
def BABELTRACE_UUID_LEN : Nat := 16

/-- A clock class: optional UUID (bytes), name, origin flag. -/
structure bt_clock_class where
  uuid : Option (List Nat)
  name : String
  origin_is_unix_epoch : Bool
  deriving DecidableEq, Repr

/-- A clock snapshot: its clock class and the outcome of
`bt_clock_snapshot_get_ns_from_origin` on it (`none` when the
conversion fails). -/
structure bt_clock_snapshot where
  clock_class : bt_clock_class
  ns_from_origin : Option Int
  deriving DecidableEq, Repr

/-- A message, seen through the accessors the muxer calls.

* `addr`: identity of the message object;
* `stream_class_default_clock_class`: default clock class of the class
  of the message's stream (`none` when the class has none);
* `default_clock_snapshot`: the default (for discarded events/packets:
  default beginning) clock snapshot lent by the message, `none` for a
  NULL pointer;
* `sa_cs_state`: clock snapshot state of a stream activity message. -/
structure bt_message where
  addr : Nat
  type : bt_message_type
  stream_class_default_clock_class : Option bt_clock_class
  default_clock_snapshot : Option bt_clock_snapshot
  sa_cs_state : bt_message_stream_activity_clock_snapshot_state
  deriving DecidableEq, Repr

/-- An upstream message iterator (external collaborator).

* `id`: identity of the iterator object;
* `pending`: the answers `(status, batch)` it gives to the next calls
  of its `next` method, in order; once the list is used up it answers
  `END`;
* `replay`: the answers it gives again from the start after a successful
  seek to the beginning;
* `can_seek`: answer of its `can_seek_beginning` method;
* `seek_answers`: statuses it gives to the next calls of its
  `seek_beginning` method; once used up it answers `OK`. -/
structure upstream_iterator where
  id : Nat
  pending : List (bt_message_iterator_status × List bt_message)
  replay : List (bt_message_iterator_status × List bt_message)
  can_seek : Bool
  seek_answers : List bt_message_iterator_status
  deriving DecidableEq, Repr

/-- Method `bt_self_component_port_input_message_iterator_next`: the
status, the batch (`msgs`, `count` is its length) and the iterator
afterwards. -/
def bt_self_component_port_input_message_iterator_next (u : upstream_iterator) :
    bt_message_iterator_status × List bt_message × upstream_iterator :=
  match u.pending with
  | [] => (.END, [], u)
  | (status, msgs) :: rest => (status, msgs, { u with pending := rest })

/-! ## Muxer data structures -/

/-- Component data (`struct muxer_comp`). -/
structure muxer_comp where
  next_port_num : Nat
  available_input_ports : Nat
  initializing_muxer_msg_iter : Bool
  assume_absolute_clock_classes : Bool
  deriving DecidableEq, Repr

/-- Cursor on one upstream (`struct muxer_upstream_msg_iter`):
`msg_iter` is `none` for NULL, `msgs` is the queue, head first. -/
structure muxer_upstream_msg_iter where
  msg_iter : Option upstream_iterator
  msgs : List bt_message
  deriving DecidableEq, Repr

/-- Clock class expectation of a muxer message iterator. -/
inductive muxer_msg_iter_clock_class_expectation
  | ANY
  | NONE
  | ABSOLUTE
  | NOT_ABS_SPEC_UUID
  | NOT_ABS_NO_UUID
  deriving DecidableEq, Repr

/-- Muxer message iterator (`struct muxer_msg_iter`). -/
structure muxer_msg_iter where
  active_muxer_upstream_msg_iters : List muxer_upstream_msg_iter
  ended_muxer_upstream_msg_iters : List muxer_upstream_msg_iter
  last_returned_ts_ns : Int
  clock_class_expectation : muxer_msg_iter_clock_class_expectation
  expected_clock_class_uuid : List Nat
  deriving DecidableEq, Repr

/-- Smallest `int64_t`. -/
def INT64_MIN : Int := -9223372036854775808

/-- Largest `int64_t`. -/
def INT64_MAX : Int := 9223372036854775807

/-- Copy of the first `n` bytes of `src` (`memcpy` into a buffer of `n` bytes). -/
def memcpy (src : List Nat) (n : Nat) : List Nat := src.take n

/-- Comparison of the first `n` bytes: `0` when they are equal. -/
def memcmp (a b : List Nat) (n : Nat) : Int :=
  if a.take n = b.take n then 0 else 1

/-- Removal `g_ptr_array_remove_index_fast`: the last element takes the
place of the removed one. -/
def g_ptr_array_remove_index_fast {α : Type} (arr : List α) (i : Nat) : List α :=
  match arr.getLast? with
  | none => arr
  | some last => if i + 1 = arr.length then arr.dropLast else (arr.set i last).dropLast

/-! ## UpstreamCursor: pulling -/

/-- Function `muxer_upstream_msg_iter_next`: status, cursor afterwards
and the `*is_ended` flag afterwards. -/
def muxer_upstream_msg_iter_next (c : muxer_upstream_msg_iter) (is_ended : Bool) :
    Option (bt_message_iterator_status × muxer_upstream_msg_iter × Bool) :=
  match c.msg_iter with
  | none => none
  | some u =>
    match bt_self_component_port_input_message_iterator_next u with
    | (.OK, msgs, u') =>
      -- BT_ASSERT(count > 0)
      if msgs.length > 0 then
        some (.OK, { msg_iter := some u', msgs := c.msgs ++ msgs }, is_ended)
      else none
    | (.AGAIN, _, u') => some (.AGAIN, { c with msg_iter := some u' }, is_ended)
    | (.END, _, u') => some (.OK, { c with msg_iter := some u' }, true)
    | (_, _, u') => some (.ERROR, { c with msg_iter := some u' }, is_ended)

/-! ## Timestamper -/

/-- Result of `get_msg_ts_ns`: `ok ts` is `ret == 0` with `*ts_ns = ts`,
`error` is `ret == -1`. -/
inductive ts_result
  | ok (ts_ns : Int)
  | error
  deriving DecidableEq, Repr

/-- Tail of `get_msg_ts_ns` once `clock_snapshot` is set: the call of
`bt_clock_snapshot_get_ns_from_origin`. -/
def get_ns_from_origin (clock_snapshot : Option bt_clock_snapshot) : Option ts_result :=
  match clock_snapshot with
  | none => none
  | some cs =>
    match cs.ns_from_origin with
    | some ts => some (.ok ts)
    | none => some .error

/-- Function `get_msg_ts_ns`. -/
def get_msg_ts_ns (it : muxer_msg_iter) (msg : bt_message) (last_returned_ts_ns : Int) :
    Option ts_result :=
  if it.clock_class_expectation = .NONE then
    some (.ok last_returned_ts_ns)
  else
    match msg.type with
    | .EVENT | .PACKET_BEGINNING | .PACKET_END | .DISCARDED_EVENTS | .DISCARDED_PACKETS =>
      -- BT_ASSERT(stream class default clock class)
      if msg.stream_class_default_clock_class.isSome then
        get_ns_from_origin msg.default_clock_snapshot
      else none
    | .STREAM_ACTIVITY_BEGINNING | .STREAM_ACTIVITY_END =>
      if msg.stream_class_default_clock_class.isSome then
        if msg.sa_cs_state ≠ .KNOWN then
          some (.ok last_returned_ts_ns)
        else get_ns_from_origin msg.default_clock_snapshot
      else none
    | .MESSAGE_ITERATOR_INACTIVITY =>
      get_ns_from_origin msg.default_clock_snapshot
    | _ => some (.ok last_returned_ts_ns)

/-! ## ClockPolicy -/

/-- Function `validate_clock_class`: the `int` result and the iterator
afterwards. -/
def validate_clock_class (it : muxer_msg_iter) (comp : muxer_comp)
    (clock_class : bt_clock_class) : Option (Int × muxer_msg_iter) :=
  let cc_uuid := clock_class.uuid
  let it1 : muxer_msg_iter :=
    if it.clock_class_expectation = .ANY then
      if clock_class.origin_is_unix_epoch then
        { it with clock_class_expectation := .ABSOLUTE }
      else
        match cc_uuid with
        | some u =>
          { it with
            clock_class_expectation := .NOT_ABS_SPEC_UUID
            expected_clock_class_uuid := memcpy u BABELTRACE_UUID_LEN }
        | none => { it with clock_class_expectation := .NOT_ABS_NO_UUID }
    else it
  if !comp.assume_absolute_clock_classes then
    match it1.clock_class_expectation with
    | .ABSOLUTE =>
      if !clock_class.origin_is_unix_epoch then some (-1, it1) else some (0, it1)
    | .NOT_ABS_NO_UUID =>
      if clock_class.origin_is_unix_epoch then some (-1, it1)
      else if cc_uuid.isSome then some (-1, it1)
      else some (0, it1)
    | .NOT_ABS_SPEC_UUID =>
      if clock_class.origin_is_unix_epoch then some (-1, it1)
      else
        match cc_uuid with
        | none => some (-1, it1)
        | some u =>
          if memcmp it1.expected_clock_class_uuid u BABELTRACE_UUID_LEN ≠ 0 then
            some (-1, it1)
          else some (0, it1)
    | .NONE => some (-1, it1)
    | .ANY => none
  else some (0, it1)

/-- Function `validate_new_stream_clock_class`; the argument is the
default clock class of the class of the stream. -/
def validate_new_stream_clock_class (it : muxer_msg_iter) (comp : muxer_comp)
    (clock_class : Option bt_clock_class) : Option (Int × muxer_msg_iter) :=
  match clock_class with
  | none =>
    if it.clock_class_expectation = .ANY then
      some (0, { it with clock_class_expectation := .NONE })
    else some (-1, it)
  | some cc => validate_clock_class it comp cc

/-! ## MuxerIterator: selection of the youngest message -/

/-- Clock validation of the head `msg` of a cursor, as done in the loop
of `muxer_msg_iter_youngest_upstream_msg_iter` before the timestamp is
computed: the `int` result and the iterator afterwards. -/
def validate_head_clock_class (it : muxer_msg_iter) (comp : muxer_comp) (msg : bt_message) :
    Option (Int × muxer_msg_iter) :=
  if msg.type = .STREAM_BEGINNING then
    validate_new_stream_clock_class it comp msg.stream_class_default_clock_class
  else if msg.type = .MESSAGE_ITERATOR_INACTIVITY then
    match msg.default_clock_snapshot with
    | none => none
    | some cs => validate_clock_class it comp cs.clock_class
  else some (0, it)

/-- Loop of `muxer_msg_iter_youngest_upstream_msg_iter` over the cursors
`cursors` that remain to be visited, the first of them at index `i`.
`chosen` is `*muxer_upstream_msg_iter` (the index of the cursor, `none`
for NULL); `youngest_ts_ns` is the local of that name, to which `*ts_ns`
is equal whenever a cursor is chosen.  The result is the status, the
iterator, the chosen cursor and `youngest_ts_ns` at the end of the loop. -/
def youngest_loop (comp : muxer_comp) :
    List muxer_upstream_msg_iter → Nat → muxer_msg_iter → Option Nat → Int →
    Option (bt_message_iterator_status × muxer_msg_iter × Option Nat × Int)
  | [], _, it, chosen, youngest_ts_ns => some (.OK, it, chosen, youngest_ts_ns)
  | cur :: rest, i, it, chosen, youngest_ts_ns =>
    match cur.msg_iter with
    | none => youngest_loop comp rest (i + 1) it chosen youngest_ts_ns
    | some _ =>
      -- BT_ASSERT(msgs->length > 0); msg = g_queue_peek_head(msgs)
      match cur.msgs with
      | [] => none
      | msg :: _ =>
        match validate_head_clock_class it comp msg with
        | none => none
        | some (ret, it1) =>
          if ret ≠ 0 then some (.ERROR, it1, chosen, youngest_ts_ns)
          else
            match get_msg_ts_ns it1 msg it1.last_returned_ts_ns with
            | none => none
            | some .error => some (.ERROR, it1, none, youngest_ts_ns)
            | some (.ok msg_ts_ns) =>
              if msg_ts_ns ≤ youngest_ts_ns then
                youngest_loop comp rest (i + 1) it1 (some i) msg_ts_ns
              else youngest_loop comp rest (i + 1) it1 chosen youngest_ts_ns

/-- Function `muxer_msg_iter_youngest_upstream_msg_iter`: status,
iterator afterwards, `*muxer_upstream_msg_iter` (index in the active
array) and `*ts_ns`. -/
def muxer_msg_iter_youngest_upstream_msg_iter (comp : muxer_comp) (it : muxer_msg_iter) :
    Option (bt_message_iterator_status × muxer_msg_iter × Option Nat × Int) :=
  match youngest_loop comp it.active_muxer_upstream_msg_iters 0 it none INT64_MAX with
  | none => none
  | some (.OK, it1, none, _) => some (.END, it1, none, INT64_MIN)
  | some r => some r

/-! ## MuxerIterator: validation of the cursors -/

/-- Function `validate_muxer_upstream_msg_iter`. -/
def validate_muxer_upstream_msg_iter (c : muxer_upstream_msg_iter) (is_ended : Bool) :
    Option (bt_message_iterator_status × muxer_upstream_msg_iter × Bool) :=
  if c.msgs.length > 0 ∨ c.msg_iter.isNone then some (.OK, c, is_ended)
  else muxer_upstream_msg_iter_next c is_ended

/-- One turn of the loop of `validate_muxer_upstream_msg_iters`, at an
index `i` inside the active array: `Sum.inl (i1, it1)` when the loop goes
on at index `i1` with iterator `it1`, `Sum.inr (status, it1)` when the
function leaves the loop with that status (`goto end`). -/
def validate_muxer_upstream_msg_iters_turn (i : Nat) (it : muxer_msg_iter) :
    Option ((Nat × muxer_msg_iter) ⊕ (bt_message_iterator_status × muxer_msg_iter)) :=
  match it.active_muxer_upstream_msg_iters[i]? with
  | none => none
  | some c =>
    match validate_muxer_upstream_msg_iter c false with
    | none => none
    | some (status, c1, is_ended) =>
      let it1 : muxer_msg_iter :=
        { it with
          active_muxer_upstream_msg_iters := it.active_muxer_upstream_msg_iters.set i c1 }
      if status ≠ .OK then some (Sum.inr (status, it1))
      else if is_ended then
        -- moved to the ended array, removed from the active one, i-- then i++
        some (Sum.inl (i,
          { it1 with
            ended_muxer_upstream_msg_iters := it1.ended_muxer_upstream_msg_iters ++ [c1]
            active_muxer_upstream_msg_iters :=
              g_ptr_array_remove_index_fast it1.active_muxer_upstream_msg_iters i }))
      else some (Sum.inl (i + 1, it1))

/-- Loop of `validate_muxer_upstream_msg_iters` from index `i` on.  Each
turn either moves to the next index or removes one cursor from the
active array, so `fuel` turns suffice when `fuel` is at least the length
of the active array minus `i`; with less the result is `none`. -/
def validate_muxer_upstream_msg_iters_loop :
    Nat → Nat → muxer_msg_iter → Option (bt_message_iterator_status × muxer_msg_iter)
  | 0, i, it =>
    if i < it.active_muxer_upstream_msg_iters.length then none else some (.OK, it)
  | fuel + 1, i, it =>
    if i < it.active_muxer_upstream_msg_iters.length then
      match validate_muxer_upstream_msg_iters_turn i it with
      | none => none
      | some (Sum.inl (i1, it1)) => validate_muxer_upstream_msg_iters_loop fuel i1 it1
      | some (Sum.inr r) => some r
    else some (.OK, it)

/-- Function `validate_muxer_upstream_msg_iters`. -/
def validate_muxer_upstream_msg_iters (it : muxer_msg_iter) :
    Option (bt_message_iterator_status × muxer_msg_iter) :=
  validate_muxer_upstream_msg_iters_loop it.active_muxer_upstream_msg_iters.length 0 it

/-! ## MuxerIterator: `next_one` and `next` -/

/-- Function `muxer_msg_iter_do_next_one`: status, `*msg` (`none` when
not written) and the iterator afterwards. -/
def muxer_msg_iter_do_next_one (comp : muxer_comp) (it : muxer_msg_iter) :
    Option (bt_message_iterator_status × Option bt_message × muxer_msg_iter) :=
  match validate_muxer_upstream_msg_iters it with
  | none => none
  | some (status, it1) =>
    if status ≠ .OK then some (status, none, it1)
    else
      match muxer_msg_iter_youngest_upstream_msg_iter comp it1 with
      | none => none
      | some (status, it2, chosen, next_return_ts) =>
        if status.is_negative ∨ status = .END then some (status, none, it2)
        else if next_return_ts < it2.last_returned_ts_ns then some (.ERROR, none, it2)
        else
          -- BT_ASSERT(status == OK); BT_ASSERT(muxer_upstream_msg_iter)
          if status ≠ .OK then none
          else
            match chosen with
            | none => none
            | some idx =>
              match it2.active_muxer_upstream_msg_iters[idx]? with
              | none => none
              | some c =>
                -- *msg = g_queue_pop_head(msgs); BT_ASSERT(*msg)
                match c.msgs with
                | [] => none
                | msg :: rest =>
                  some (.OK, some msg,
                    { it2 with
                      active_muxer_upstream_msg_iters :=
                        it2.active_muxer_upstream_msg_iters.set idx { c with msgs := rest }
                      last_returned_ts_ns := next_return_ts })

/-- Loop of `muxer_msg_iter_do_next`, with `remaining = capacity - i`
and `msgs` the `i` messages written so far; entered with status `OK`.
The result is the status on leaving the loop, the messages written and
the iterator. -/
def muxer_msg_iter_do_next_loop (comp : muxer_comp) :
    Nat → muxer_msg_iter → List bt_message →
    Option (bt_message_iterator_status × List bt_message × muxer_msg_iter)
  | 0, it, msgs => some (.OK, msgs, it)
  | remaining + 1, it, msgs =>
    match muxer_msg_iter_do_next_one comp it with
    | none => none
    | some (.OK, some msg, it1) => muxer_msg_iter_do_next_loop comp remaining it1 (msgs ++ [msg])
    | some (.OK, none, _) => none
    | some (status, _, it1) => some (status, msgs, it1)

/-- Function `muxer_msg_iter_do_next` (and `muxer_msg_iter_next`, which
only logs around it): status, the messages written to the output array
(`*count` is their number when it is written) and the iterator
afterwards. -/
def muxer_msg_iter_do_next (comp : muxer_comp) (it : muxer_msg_iter) (capacity : Nat) :
    Option (bt_message_iterator_status × List bt_message × muxer_msg_iter) :=
  match muxer_msg_iter_do_next_loop comp capacity it [] with
  | none => none
  | some (status, msgs, it1) =>
    if msgs.length > 0 then some (.OK, msgs, it1) else some (status, msgs, it1)

/-! ## Runs -/

/-- Trace of `n` successive calls of `muxer_msg_iter_do_next_one`,
whatever their statuses: for each call its status, its message and the
iterator after it.  The trace stops where the process stops. -/
def next_one_calls (comp : muxer_comp) :
    Nat → muxer_msg_iter → List (bt_message_iterator_status × Option bt_message × muxer_msg_iter)
  | 0, _ => []
  | n + 1, it =>
    match muxer_msg_iter_do_next_one comp it with
    | none => []
    | some r => r :: next_one_calls comp n r.2.2

/-- Calls of `muxer_msg_iter_do_next` with the given capacity, repeated
until one returns a status other than `OK`, at most `fuel` calls: the
status of the last call (`OK` when `fuel` calls all returned `OK`), the
messages of all the calls in order, and the iterator at the end. -/
def drain (comp : muxer_comp) (capacity : Nat) :
    Nat → muxer_msg_iter → Option (bt_message_iterator_status × List bt_message × muxer_msg_iter)
  | 0, it => some (.OK, [], it)
  | fuel + 1, it =>
    match muxer_msg_iter_do_next comp it capacity with
    | none => none
    | some (.OK, msgs, it1) =>
      match drain comp capacity fuel it1 with
      | none => none
      | some (status, more, it2) => some (status, msgs ++ more, it2)
    | some (status, msgs, it1) => some (status, msgs, it1)

/-! ## Notions used in the statements -/

/-- The two cursor arrays and the last returned timestamp of `it1` are
those of `it` (only the clock expectation may differ). -/
def same_cursors (it it1 : muxer_msg_iter) : Prop :=
  it1.active_muxer_upstream_msg_iters = it.active_muxer_upstream_msg_iters ∧
  it1.ended_muxer_upstream_msg_iters = it.ended_muxer_upstream_msg_iters ∧
  it1.last_returned_ts_ns = it.last_returned_ts_ns

/-- Timestamp that the loop of `muxer_msg_iter_youngest_upstream_msg_iter`
computes with `get_msg_ts_ns` for the head of the cursor at index `j` of
`cursors`, when the loop starts over `cursors` with iterator `it`: the
heads of the cursors before `j` and the head at `j` have gone through the
clock validation of the loop, in order.  It is `none` when the loop
computes no timestamp for that cursor (cursor skipped as it has no
iterator, loop stopped or left before). -/
def head_ts_in_loop (comp : muxer_comp) :
    List muxer_upstream_msg_iter → muxer_msg_iter → Nat → Option Int
  | [], _, _ => none
  | c :: rest, it, j =>
    match c.msg_iter with
    | none => if j = 0 then none else head_ts_in_loop comp rest it (j - 1)
    | some _ =>
      match c.msgs with
      | [] => none
      | msg :: _ =>
        match validate_head_clock_class it comp msg with
        | none => none
        | some (ret, it1) =>
          if ret ≠ 0 then none
          else if j = 0 then
            match get_msg_ts_ns it1 msg it1.last_returned_ts_ns with
            | some (.ok t) => some t
            | _ => none
          else head_ts_in_loop comp rest it1 (j - 1)

/-- All the cursors of an iterator: the active array then the ended one. -/
def all_cursors (it : muxer_msg_iter) : List muxer_upstream_msg_iter :=
  it.active_muxer_upstream_msg_iters ++ it.ended_muxer_upstream_msg_iters

/-- The last returned timestamp and the clock expectation of `it1` are those of `it`. -/
def same_clock (it it1 : muxer_msg_iter) : Prop :=
  it1.last_returned_ts_ns = it.last_returned_ts_ns ∧
  it1.clock_class_expectation = it.clock_class_expectation ∧
  it1.expected_clock_class_uuid = it.expected_clock_class_uuid

/-- Cursor `c1` is cursor `c` (same upstream iterator object) and its
queue is the queue of `c` with messages added at the tail, none removed. -/
def grown (c c1 : muxer_upstream_msg_iter) : Prop :=
  c1.msg_iter.map (·.id) = c.msg_iter.map (·.id) ∧ ∃ extra, c1.msgs = c.msgs ++ extra

/-- Iterator carried by the outcome of a turn of the validation loop. -/
def turn_iter :
    (Nat × muxer_msg_iter) ⊕ (bt_message_iterator_status × muxer_msg_iter) → muxer_msg_iter
  | Sum.inl (_, it) => it
  | Sum.inr (_, it) => it

/-- Timestamps stored by the calls of a trace that returned `OK`. -/
def emitted_ts (trace : List (bt_message_iterator_status × Option bt_message × muxer_msg_iter)) :
    List Int :=
  (trace.filter (fun r => decide (r.1 = .OK))).map (fun r => r.2.2.last_returned_ts_ns)

/-- No message is popped and no cursor is lost: every cursor of `it` is
found again in `it1`, its queue extended at the tail at most. -/
def queues_kept (it it1 : muxer_msg_iter) : Prop :=
  ∀ c ∈ all_cursors it, ∃ c1 ∈ all_cursors it1, grown c c1

/-- The first `k` turns of the validation loop from index `i`, all of
which go on with the loop: the index and the iterator reached after
them.  It is `none` when one of these turns leaves the loop (a status
other than `OK`) or stops the process. -/
def validate_turns : Nat → Nat → muxer_msg_iter → Option (Nat × muxer_msg_iter)
  | 0, i, it => some (i, it)
  | k + 1, i, it =>
    match validate_muxer_upstream_msg_iters_turn i it with
    | some (Sum.inl (i1, it1)) => validate_turns k i1 it1
    | _ => none

/-! ### Sample data -/

/-- A clock class with a Unix epoch origin and no UUID. -/
def sample_clock_class : bt_clock_class :=
  { uuid := none, name := "monotonic", origin_is_unix_epoch := true }

/-- An event message at `ts` nanoseconds from the origin. -/
def sample_event (addr : Nat) (ts : Int) : bt_message :=
  { addr := addr
    type := .EVENT
    stream_class_default_clock_class := some sample_clock_class
    default_clock_snapshot := some { clock_class := sample_clock_class, ns_from_origin := some ts }
    sa_cs_state := .KNOWN }

/-- An upstream iterator that gives the answers `answers`, then `END`. -/
def sample_upstream (id : Nat) (answers : List (bt_message_iterator_status × List bt_message)) :
    upstream_iterator :=
  { id := id, pending := answers, replay := answers, can_seek := true, seek_answers := [] }

/-- A cursor on `sample_upstream id answers` whose queue holds `msgs`. -/
def sample_cursor (id : Nat) (answers : List (bt_message_iterator_status × List bt_message))
    (msgs : List bt_message) : muxer_upstream_msg_iter :=
  { msg_iter := some (sample_upstream id answers), msgs := msgs }

/-- An iterator as `muxer_msg_iter_init` leaves it, over the given cursors. -/
def initial_iter (cursors : List muxer_upstream_msg_iter) : muxer_msg_iter :=
  { active_muxer_upstream_msg_iters := cursors
    ended_muxer_upstream_msg_iters := []
    last_returned_ts_ns := INT64_MIN
    clock_class_expectation := .ANY
    expected_clock_class_uuid := [] }

/-- A component with the default configuration. -/
def sample_comp : muxer_comp :=
  { next_port_num := 1
    available_input_ports := 1
    initializing_muxer_msg_iter := false
    assume_absolute_clock_classes := false }

/-- Scenario "Again propagation": A is empty and answers `AGAIN`, B holds
a message at 5. -/
def again_iter : muxer_msg_iter :=
  initial_iter [sample_cursor 0 [(.AGAIN, [])] [], sample_cursor 1 [] [sample_event 1 5]]

/-- Scenario for the state after `AGAIN`: A is empty and delivers one
message at 5, B is empty and answers `AGAIN`. -/
def pulled_then_again_iter : muxer_msg_iter :=
  initial_iter
    [sample_cursor 0 [(.OK, [sample_event 1 5])] [], sample_cursor 1 [(.AGAIN, [])] []]

/-- What a caller sees of a cursor: which upstream it is on, and its queue. -/
def cursor_view (c : muxer_upstream_msg_iter) : Option Nat × List bt_message :=
  (c.msg_iter.map (·.id), c.msgs)

/-- State of the muxer iterator proper: the active set, the ended set,
every queue, the last timestamp and the clock expectation (the progress
of the upstream iterators themselves is left out). -/
def iter_view (it : muxer_msg_iter) :
    List (Option Nat × List bt_message) × List (Option Nat × List bt_message) × Int ×
      muxer_msg_iter_clock_class_expectation × List Nat :=
  (it.active_muxer_upstream_msg_iters.map cursor_view,
    it.ended_muxer_upstream_msg_iters.map cursor_view,
    it.last_returned_ts_ns, it.clock_class_expectation, it.expected_clock_class_uuid)

/-- Cursor `c` after a pull that its upstream `u` answered without
giving messages. -/
def cursor_after_pull (c : muxer_upstream_msg_iter) (u : upstream_iterator) :
    muxer_upstream_msg_iter :=
  { c with msg_iter := some (bt_self_component_port_input_message_iterator_next u).2.2 }

/-- The iterator `again_iter` once A has answered `AGAIN`. -/
def again_iter_after : muxer_msg_iter :=
  initial_iter
    [{ msg_iter := some { sample_upstream 0 [(.AGAIN, [])] with pending := [] }, msgs := [] },
      sample_cursor 1 [] [sample_event 1 5]]

/-- The iterator `pulled_then_again_iter` after a call of `next`: the
message pulled from A sits in its queue. -/
def pulled_then_again_iter_after : muxer_msg_iter :=
  initial_iter
    [{ msg_iter := some { sample_upstream 0 [(.OK, [sample_event 1 5])] with pending := [] },
       msgs := [sample_event 1 5] },
      { msg_iter := some { sample_upstream 1 [(.AGAIN, [])] with pending := [] }, msgs := [] }]

/-- Scenario "Tie on timestamp": A, added first, delivers events at 10
and 30 (objects 1 and 2); B delivers events at 10 and 20 (objects 3 and 4). -/
def tie_iter : muxer_msg_iter :=
  initial_iter
    [sample_cursor 0 [(.OK, [sample_event 1 10, sample_event 2 30])] [],
      sample_cursor 1 [(.OK, [sample_event 3 10, sample_event 4 20])] []]

/-- The iterator `tie_iter` after the first `next_one`: both batches
pulled, the event at 10 of B popped. -/
def tie_iter_after : muxer_msg_iter :=
  { initial_iter
      [{ msg_iter := some
           { sample_upstream 0 [(.OK, [sample_event 1 10, sample_event 2 30])] with
             pending := [] },
         msgs := [sample_event 1 10, sample_event 2 30] },
        { msg_iter := some
            { sample_upstream 1 [(.OK, [sample_event 3 10, sample_event 4 20])] with
              pending := [] },
          msgs := [sample_event 4 20] }] with
    last_returned_ts_ns := 10 }

/-- Two active cursors with queued events: the head of the first is at
30, the head of the second at 20. -/
def two_heads_iter : muxer_msg_iter :=
  initial_iter
    [sample_cursor 0 [] [sample_event 1 30], sample_cursor 1 [] [sample_event 2 20]]

/-- Messages that an upstream iterator has still to deliver: the batches
of its pending `OK` answers, in order. -/
def upstream_messages (u : upstream_iterator) : List bt_message :=
  u.pending.flatMap (fun a => if a.1 = .OK then a.2 else [])

/-- The sequence of messages of a cursor from now on: its queue, head
first, then what its upstream has still to deliver. -/
def cursor_stream (c : muxer_upstream_msg_iter) : List bt_message :=
  c.msgs ++
    (match c.msg_iter with
    | none => []
    | some u => upstream_messages u)

/-- Identity of a cursor: the identity of its upstream iterator. -/
def cursor_id (c : muxer_upstream_msg_iter) : Option Nat := c.msg_iter.map (·.id)

/-- Identities of all the cursors of an iterator. -/
def cursor_ids (it : muxer_msg_iter) : List (Option Nat) := (all_cursors it).map cursor_id

/-- Messages of `out` that the labelling `labels` (one cursor identity
per message) attributes to the cursor `i`, in the order of `out`. -/
def emitted_from (labels : List (Option Nat)) (out : List bt_message) (i : Option Nat) :
    List bt_message :=
  ((labels.zip out).filter (fun p => decide (p.1 = i))).map (·.2)

/-- Calls of `next` with the capacities `capacities`, one after the
other and whatever their statuses: the messages they write, in order, and
the iterator after the last call.  The calls end where the process stops. -/
def next_calls (comp : muxer_comp) : List Nat → muxer_msg_iter → List bt_message × muxer_msg_iter
  | [], it => ([], it)
  | capacity :: capacities, it =>
    match muxer_msg_iter_do_next comp it capacity with
    | none => ([], it)
    | some (_, msgs, it1) =>
      ((msgs ++ (next_calls comp capacities it1).1), (next_calls comp capacities it1).2)

/-- Relation "the messages `out` were popped in queue order between `it`
and `it1`": there is a labelling of `out` by cursor identities such that
every cursor of `it1`, taken with the messages attributed to it put back
in front of its sequence, is a cursor of `it`, and conversely. -/
def fifo_run (it : muxer_msg_iter) (out : List bt_message) (it1 : muxer_msg_iter) : Prop :=
  ∃ labels : List (Option Nat), labels.length = out.length ∧
    (∀ l ∈ labels, l ∈ cursor_ids it) ∧
    ((all_cursors it1).map
      (fun c => (cursor_id c, emitted_from labels out (cursor_id c) ++ cursor_stream c))).Perm
      ((all_cursors it).map (fun c => (cursor_id c, cursor_stream c)))

/-- A stream beginning message of a stream whose class has the default
clock class `cc` (`none`: no default clock class). -/
def sample_stream_beginning (addr : Nat) (cc : Option bt_clock_class) : bt_message :=
  { addr := addr
    type := .STREAM_BEGINNING
    stream_class_default_clock_class := cc
    default_clock_snapshot := none
    sa_cs_state := .UNKNOWN }

/-- A stream end message of a stream whose class has the default clock class `cc`. -/
def sample_stream_end (addr : Nat) (cc : Option bt_clock_class) : bt_message :=
  { addr := addr
    type := .STREAM_END
    stream_class_default_clock_class := cc
    default_clock_snapshot := none
    sa_cs_state := .UNKNOWN }

/-- One connected input that delivers one stream without clock class:
its beginning, then its end. -/
def one_stream_no_clock_iter : muxer_msg_iter :=
  initial_iter
    [sample_cursor 0 [(.OK, [sample_stream_beginning 1 none, sample_stream_end 2 none])] []]

/-- One connected input that delivers two streams without clock class:
the two beginnings, then the two ends. -/
def two_streams_no_clock_iter : muxer_msg_iter :=
  initial_iter
    [sample_cursor 0
      [(.OK, [sample_stream_beginning 1 none, sample_stream_beginning 2 none,
        sample_stream_end 3 none, sample_stream_end 4 none])] []]

/-- An event message as the muxer expects it: its stream class has a
default clock class, and its default clock snapshot converts to an
`int64_t` number of nanoseconds from the origin. -/
def good_event (m : bt_message) : Prop :=
  m.type = .EVENT ∧ m.stream_class_default_clock_class.isSome = true ∧
    ∃ cs ts, m.default_clock_snapshot = some cs ∧ cs.ns_from_origin = some ts ∧
      INT64_MIN ≤ ts ∧ ts ≤ INT64_MAX

/-- Nanoseconds from the origin of the default clock snapshot of a message. -/
def msg_ts (m : bt_message) : Int :=
  (m.default_clock_snapshot.bind (·.ns_from_origin)).getD 0

/-- Merge of `x :: xs` with a second sequence, `merge_xs` being the merge
of `xs` with any sequence: the smaller head first, the head of the first
sequence on a tie. -/
def merge_ts_step (x : Int) (xs : List Int) (merge_xs : List Int → List Int) :
    List Int → List Int
  | [] => x :: xs
  | y :: ys =>
    if x ≤ y then x :: merge_xs (y :: ys) else y :: merge_ts_step x xs merge_xs ys

/-- Merge of two sequences of timestamps (of two sorted sequences: their
sorted merge). -/
def merge_ts : List Int → List Int → List Int
  | [] => fun ys => ys
  | x :: xs => merge_ts_step x xs (merge_ts xs)

/-- Sorted merge of sorted sequences of timestamps. -/
def sorted_merge : List (List Int) → List Int
  | [] => []
  | l :: ls => merge_ts l (sorted_merge ls)

/-- An upstream iterator that delivers the batches `batches` in order,
then reports `END`. -/
def batch_upstream (id : Nat) (batches : List (List bt_message)) : upstream_iterator :=
  { id := id
    pending := batches.map (fun b => (.OK, b))
    replay := batches.map (fun b => (.OK, b))
    can_seek := true
    seek_answers := [] }

/-- A fresh muxer iterator over one upstream per element of `upstreams`,
each given by the batches it delivers. -/
def merge_input (upstreams : List (List (List bt_message))) : muxer_msg_iter :=
  initial_iter
    (upstreams.enum.map (fun p => { msg_iter := some (batch_upstream p.1 p.2), msgs := [] }))

/-- Invariant of a cursor during a merge, above the timestamp `lo`: its
upstream has only non-empty batches left, all its messages to come are
good events, and their timestamps do not decrease, from `lo` on. -/
def good_cursor (lo : Int) (c : muxer_upstream_msg_iter) : Prop :=
  ∃ (u : upstream_iterator) (bs : List (List bt_message)), c.msg_iter = some u ∧
    u.pending = bs.map (fun b => (.OK, b)) ∧
    (∀ b ∈ bs, b ≠ []) ∧ (∀ m ∈ cursor_stream c, good_event m) ∧
    List.Chain (· ≤ ·) lo ((cursor_stream c).map msg_ts)

/-- Invariant of the iterator during a merge. -/
def merge_inv (it : muxer_msg_iter) : Prop :=
  it.clock_class_expectation ≠ .NONE ∧
    ∀ c ∈ it.active_muxer_upstream_msg_iters, good_cursor it.last_returned_ts_ns c

/-- Messages that the active cursors have still to give. -/
def remaining (it : muxer_msg_iter) : List bt_message :=
  it.active_muxer_upstream_msg_iters.flatMap cursor_stream

/-- Relation "between `it` and `it1` the merge emitted `out`": `out` and
what remains in `it1` are what remained in `it`, the timestamps of `out`
do not decrease, and none of them is above a timestamp that remains. -/
def merge_run (it : muxer_msg_iter) (out : List bt_message) (it1 : muxer_msg_iter) : Prop :=
  merge_inv it1 ∧ (remaining it).Perm (out ++ remaining it1) ∧
    (out.map msg_ts).Pairwise (· ≤ ·) ∧
    ∀ a ∈ out, ∀ x ∈ remaining it1, msg_ts a ≤ msg_ts x

/-- Scenario "Two streams, interleaved events": A delivers events at
10, 30 (one batch) and 50 (another batch), B delivers events at 20, 40
and 60 in one batch. -/
def interleaved_upstreams : List (List (List bt_message)) :=
  [[[sample_event 1 10, sample_event 2 30], [sample_event 3 50]],
    [[sample_event 4 20, sample_event 5 40, sample_event 6 60]]]

/-- The iterator `two_heads_iter` after the event at 20 was emitted. -/
def two_heads_iter_after : muxer_msg_iter :=
  { initial_iter [sample_cursor 0 [] [sample_event 1 30], sample_cursor 1 [] []] with
    last_returned_ts_ns := 20 }

/-- An iterator that has already returned the timestamp 50 and whose
only cursor holds an event at 30. -/
def late_event_iter : muxer_msg_iter :=
  { initial_iter [sample_cursor 0 [] [sample_event 1 30]] with last_returned_ts_ns := 50 }

/-- A clock class without Unix epoch origin, with the UUID `uuid`. -/
def sample_relative_clock_class (uuid : Option (List Nat)) : bt_clock_class :=
  { uuid := uuid, name := "relative", origin_is_unix_epoch := false }

/-- The sixteen bytes 0, 1, ..., 15. -/
def sample_uuid : List Nat := [0, 1, 2, 3, 4, 5, 6, 7, 8, 9, 10, 11, 12, 13, 14, 15]

/-- The fresh iterator without cursor, with the clock expectation `e`
and the expected UUID `uuid`. -/
def expecting_iter (e : muxer_msg_iter_clock_class_expectation) (uuid : List Nat) :
    muxer_msg_iter :=
  { initial_iter [] with clock_class_expectation := e, expected_clock_class_uuid := uuid }

/-- A component with `assume-absolute-clock-classes` set. -/
def assuming_comp : muxer_comp :=
  { sample_comp with assume_absolute_clock_classes := true }

/-- The clock class `cc` matches the locked expectation of `it`, in the
words of the specification: absolute expected and Unix epoch origin; or
non-absolute without UUID expected and no epoch origin, no UUID; or
non-absolute with the UUID `u` expected and no epoch origin, a UUID equal
to `u` on its sixteen bytes.  Nothing matches the expectation "no clock
class". -/
def clock_class_matches (it : muxer_msg_iter) (cc : bt_clock_class) : Prop :=
  match it.clock_class_expectation with
  | .ANY => True
  | .NONE => False
  | .ABSOLUTE => cc.origin_is_unix_epoch = true
  | .NOT_ABS_NO_UUID => cc.origin_is_unix_epoch = false ∧ cc.uuid = none
  | .NOT_ABS_SPEC_UUID =>
    cc.origin_is_unix_epoch = false ∧
      ∃ u, cc.uuid = some u ∧
        u.take BABELTRACE_UUID_LEN = it.expected_clock_class_uuid.take BABELTRACE_UUID_LEN

/-- A message iterator inactivity message with the clock snapshot `cs`. -/
def sample_inactivity (addr : Nat) (cs : Option bt_clock_snapshot) : bt_message :=
  { addr := addr
    type := .MESSAGE_ITERATOR_INACTIVITY
    stream_class_default_clock_class := none
    default_clock_snapshot := cs
    sa_cs_state := .UNKNOWN }

/-- Timestamp of a message by type, in the words of the specification:
for the messages that carry a clock snapshot (event, packet beginning and
end, discarded events and packets, message iterator inactivity) the
snapshot converted to nanoseconds from the origin, a failure when the
conversion fails; for a stream activity message the same when the
snapshot state is known, else the last returned timestamp; for every
other message the last returned timestamp. -/
def get_msg_ts_ns_reference (msg : bt_message) (last_returned_ts_ns : Int) : ts_result :=
  let converted : ts_result :=
    match msg.default_clock_snapshot.bind (·.ns_from_origin) with
    | some ts => .ok ts
    | none => .error
  match msg.type with
  | .EVENT => converted
  | .PACKET_BEGINNING => converted
  | .PACKET_END => converted
  | .DISCARDED_EVENTS => converted
  | .DISCARDED_PACKETS => converted
  | .MESSAGE_ITERATOR_INACTIVITY => converted
  | .STREAM_ACTIVITY_BEGINNING =>
    if msg.sa_cs_state = .KNOWN then converted else .ok last_returned_ts_ns
  | .STREAM_ACTIVITY_END =>
    if msg.sa_cs_state = .KNOWN then converted else .ok last_returned_ts_ns
  | _ => .ok last_returned_ts_ns

/-- What the assertions of `get_msg_ts_ns` and the framework ask of a
message: a message of a stream that is timestamped has a stream class
with a default clock class, and a message whose snapshot is read has one. -/
def msg_accessors_ok (msg : bt_message) : Prop :=
  match msg.type with
  | .EVENT | .PACKET_BEGINNING | .PACKET_END | .DISCARDED_EVENTS | .DISCARDED_PACKETS =>
    msg.stream_class_default_clock_class.isSome = true ∧
      msg.default_clock_snapshot.isSome = true
  | .STREAM_ACTIVITY_BEGINNING | .STREAM_ACTIVITY_END =>
    msg.stream_class_default_clock_class.isSome = true ∧
      (msg.sa_cs_state = .KNOWN → msg.default_clock_snapshot.isSome = true)
  | .MESSAGE_ITERATOR_INACTIVITY => msg.default_clock_snapshot.isSome = true
  | _ => True

/-- The clock expectation and the expected UUID of `it1` are those of `it`. -/
def same_expectation (it it1 : muxer_msg_iter) : Prop :=
  it1.clock_class_expectation = it.clock_class_expectation ∧
    it1.expected_clock_class_uuid = it.expected_clock_class_uuid

/-- An iterator that expects absolute clock classes and whose only
cursor holds the beginning of a stream with a non-absolute clock class,
then an event. -/
def locked_iter : muxer_msg_iter :=
  { initial_iter
      [sample_cursor 0 []
        [sample_stream_beginning 1 (some (sample_relative_clock_class none)),
          sample_event 2 5]] with
    clock_class_expectation := .ABSOLUTE }

/-- A cursor that needs no pull: it holds a message, or it has no iterator. -/
def cursor_ready (c : muxer_upstream_msg_iter) : Prop :=
  c.msgs ≠ [] ∨ c.msg_iter = none

/-- Method `bt_self_component_port_input_message_iterator_can_seek_beginning`. -/
def bt_self_component_port_input_message_iterator_can_seek_beginning
    (u : upstream_iterator) : Bool :=
  u.can_seek

/-- Method `bt_self_component_port_input_message_iterator_seek_beginning`:
the status and the iterator afterwards.  After a seek that succeeded the
iterator gives its answers again from the start. -/
def bt_self_component_port_input_message_iterator_seek_beginning (u : upstream_iterator) :
    bt_message_iterator_status × upstream_iterator :=
  match u.seek_answers with
  | [] => (.OK, { u with pending := u.replay })
  | .OK :: rest => (.OK, { u with pending := u.replay, seek_answers := rest })
  | status :: rest => (status, { u with seek_answers := rest })

/-- Loop of `empty_message_queue` over the queue: the head is popped
until the queue is empty. -/
def empty_message_queue_loop : List bt_message → List bt_message
  | [] => []
  | _ :: rest => empty_message_queue_loop rest

/-- Function `empty_message_queue`. -/
def empty_message_queue (c : muxer_upstream_msg_iter) : muxer_upstream_msg_iter :=
  { c with msgs := empty_message_queue_loop c.msgs }

/-- One of the two seeking loops of `muxer_msg_iter_seek_beginning`, over
the cursors of one array from the current index on: the status on leaving
the loop (`OK` at the end of the array) and the cursors afterwards. -/
def seek_beginning_loop :
    List muxer_upstream_msg_iter →
    Option (bt_message_iterator_status × List muxer_upstream_msg_iter)
  | [] => some (.OK, [])
  | c :: rest =>
    match c.msg_iter with
    | none => none
    | some u =>
      match bt_self_component_port_input_message_iterator_seek_beginning u with
      | (.OK, u1) =>
        match seek_beginning_loop rest with
        | none => none
        | some (status, rest1) =>
          some (status, empty_message_queue { c with msg_iter := some u1 } :: rest1)
      | (status, u1) => some (status, { c with msg_iter := some u1 } :: rest)

/-- Function `muxer_msg_iter_seek_beginning`: the status and the iterator
afterwards. -/
def muxer_msg_iter_seek_beginning (it : muxer_msg_iter) :
    Option (bt_message_iterator_status × muxer_msg_iter) :=
  -- Seek all ended upstream iterators first
  match seek_beginning_loop it.ended_muxer_upstream_msg_iters with
  | none => none
  | some (status, ended) =>
    if status ≠ .OK then some (status, { it with ended_muxer_upstream_msg_iters := ended })
    else
      -- Seek all previously active upstream iterators
      match seek_beginning_loop it.active_muxer_upstream_msg_iters with
      | none => none
      | some (status, active) =>
        if status ≠ .OK then
          some (status,
            { it with
              ended_muxer_upstream_msg_iters := ended
              active_muxer_upstream_msg_iters := active })
        else
          -- Make them all active
          some (.OK,
            { it with
              active_muxer_upstream_msg_iters := active ++ ended
              ended_muxer_upstream_msg_iters := []
              last_returned_ts_ns := INT64_MIN
              clock_class_expectation := .ANY })

/-- Function `muxer_upstream_msg_iters_can_all_seek_beginning`; `none`
when a cursor without iterator is reached. -/
def muxer_upstream_msg_iters_can_all_seek_beginning :
    List muxer_upstream_msg_iter → Option Bool
  | [] => some true
  | c :: rest =>
    match c.msg_iter with
    | none => none
    | some u =>
      if !bt_self_component_port_input_message_iterator_can_seek_beginning u then some false
      else muxer_upstream_msg_iters_can_all_seek_beginning rest

/-- Function `muxer_msg_iter_can_seek_beginning`. -/
def muxer_msg_iter_can_seek_beginning (it : muxer_msg_iter) : Option Bool :=
  match muxer_upstream_msg_iters_can_all_seek_beginning it.active_muxer_upstream_msg_iters with
  | none => none
  | some false => some false
  | some true =>
    match muxer_upstream_msg_iters_can_all_seek_beginning it.ended_muxer_upstream_msg_iters with
    | none => none
    | some false => some false
    | some true => some true

/-- A stream activity beginning message with the clock snapshot state
`state` and the clock snapshot `cs`. -/
def sample_stream_activity_beginning (addr : Nat)
    (state : bt_message_stream_activity_clock_snapshot_state) (cs : Option bt_clock_snapshot) :
    bt_message :=
  { addr := addr
    type := .STREAM_ACTIVITY_BEGINNING
    stream_class_default_clock_class := some sample_clock_class
    default_clock_snapshot := cs
    sa_cs_state := state }

/-- Scenario "Stream-activity with unknown clock": A delivers a stream
activity beginning whose snapshot state is unknown, then an event at 100. -/
def activity_unknown_iter : muxer_msg_iter :=
  initial_iter [sample_cursor 0
    [(.OK, [sample_stream_activity_beginning 1 .UNKNOWN none, sample_event 2 100])] []]

/-- A cursor after a successful seek of its upstream: the upstream is
the one the seek left, the queue is empty. -/
def cursor_after_seek (c : muxer_upstream_msg_iter) : muxer_upstream_msg_iter :=
  { msg_iter :=
      c.msg_iter.map (fun u => (bt_self_component_port_input_message_iterator_seek_beginning u).2)
    msgs := [] }

/-- The upstream of the cursor answers `OK` to a seek to the beginning. -/
def seek_succeeds (c : muxer_upstream_msg_iter) : Prop :=
  ∃ u, c.msg_iter = some u ∧
    (bt_self_component_port_input_message_iterator_seek_beginning u).1 = .OK

/-- A cursor after a seek of its upstream `u` that failed: only the
upstream has changed. -/
def cursor_after_failed_seek (c : muxer_upstream_msg_iter) (u : upstream_iterator) :
    muxer_upstream_msg_iter :=
  { c with msg_iter := some (bt_self_component_port_input_message_iterator_seek_beginning u).2 }

/-- An iterator with an ended cursor that holds nothing and an active
cursor that holds an event, after the timestamp 10 was returned. -/
def seek_sample_iter : muxer_msg_iter :=
  { active_muxer_upstream_msg_iters :=
      [{ msg_iter := some { sample_upstream 0 [(.OK, [sample_event 1 10, sample_event 2 30])] with
                            pending := [] },
         msgs := [sample_event 2 30] }]
    ended_muxer_upstream_msg_iters :=
      [{ msg_iter := some { sample_upstream 1 [(.OK, [sample_event 3 5])] with pending := [] },
         msgs := [] }]
    last_returned_ts_ns := 10
    clock_class_expectation := .ABSOLUTE
    expected_clock_class_uuid := [] }

/-- The iterator `seek_sample_iter` after a seek to the beginning. -/
def seek_sample_iter_after : muxer_msg_iter :=
  initial_iter
    [sample_cursor 0 [(.OK, [sample_event 1 10, sample_event 2 30])] [],
      sample_cursor 1 [(.OK, [sample_event 3 5])] []]

/-- The iterator after a seek to the beginning that every upstream accepted. -/
def iter_after_seek (it : muxer_msg_iter) : muxer_msg_iter :=
  { it with
    active_muxer_upstream_msg_iters :=
      it.active_muxer_upstream_msg_iters.map cursor_after_seek ++
        it.ended_muxer_upstream_msg_iters.map cursor_after_seek
    ended_muxer_upstream_msg_iters := []
    last_returned_ts_ns := INT64_MIN
    clock_class_expectation := .ANY }

/-- An iterator whose second cursor has an upstream that answers
`AGAIN` to a seek: one ended cursor, then two active cursors that hold
messages. -/
def seek_refused_iter : muxer_msg_iter :=
  { active_muxer_upstream_msg_iters :=
      [{ msg_iter := some { sample_upstream 1 [] with seek_answers := [.AGAIN] },
         msgs := [sample_event 2 30] },
        sample_cursor 2 [] [sample_event 3 40]]
    ended_muxer_upstream_msg_iters := [sample_cursor 0 [] []]
    last_returned_ts_ns := 10
    clock_class_expectation := .ABSOLUTE
    expected_clock_class_uuid := [] }

/-! ## MuxerFilter: the component -/

/-- Statuses of `bt_self_component_status` that the muxer tells apart:
`OK` (zero) and the others. -/
inductive bt_self_component_status
  | OK
  | ERROR
  | NOMEM
  | OTHER
  deriving DecidableEq, Repr

/-- A value object (`bt_value`), by type; only the Boolean payload is
read by the muxer. -/
inductive bt_value
  | null
  | bool (b : Bool)
  | integer (i : Int)
  | real
  | string (s : String)
  | array
  | map
  deriving DecidableEq, Repr

/-- A map value object: what each key is bound to (`none` when the key
is absent). -/
abbrev bt_value_map := String → Option bt_value

/-- Name of the parameter `ASSUME_ABSOLUTE_CLOCK_CLASSES_PARAM_NAME`. -/
def ASSUME_ABSOLUTE_CLOCK_CLASSES_PARAM_NAME : String := "assume-absolute-clock-classes"

/-- Largest `unsigned int`. -/
def UINT_MAX : Nat := 4294967295

/-- Largest `size_t`. -/
def SIZE_MAX : Nat := 18446744073709551615

/-- Function `bt_value_map_create`: the empty map. -/
def bt_value_map_create : bt_value_map := fun _ => none

/-- Function `bt_value_map_insert_entry`: `key` is bound to `value`, the
other keys are as before. -/
def bt_value_map_insert_entry (m : bt_value_map) (key : String) (value : bt_value) :
    bt_value_map :=
  fun k => if k = key then some value else m k

/-- Function `bt_value_map_extend`: the entries of `base`, replaced or
completed by those of `extension`. -/
def bt_value_map_extend (base extension : bt_value_map) : bt_value_map :=
  fun k =>
    match extension k with
    | some v => some v
    | none => base k

/-- Function `bt_value_map_borrow_entry_value`. -/
def bt_value_map_borrow_entry_value (m : bt_value_map) (key : String) : Option bt_value :=
  m key

/-- Function `bt_value_is_bool`. -/
def bt_value_is_bool : bt_value → Bool
  | .bool _ => true
  | _ => false

/-- Function `bt_value_bool_get`, on a value that may be NULL: `none`
when the value is NULL or is not a Boolean value. -/
def bt_value_bool_get : Option bt_value → Option Bool
  | some (.bool b) => some b
  | _ => none

/-- Function `get_default_params`. -/
def get_default_params : bt_value_map :=
  bt_value_map_insert_entry bt_value_map_create ASSUME_ABSOLUTE_CLOCK_CLASSES_PARAM_NAME
    (.bool false)

/-- Function `configure_muxer_comp`: the `int` result and the component
data afterwards. -/
def configure_muxer_comp (comp : muxer_comp) (params : bt_value_map) :
    Option (Int × muxer_comp) :=
  let default_params := get_default_params
  let real_params := bt_value_map_extend default_params params
  let assume_absolute_clock_classes :=
    bt_value_map_borrow_entry_value real_params ASSUME_ABSOLUTE_CLOCK_CLASSES_PARAM_NAME
  if (match assume_absolute_clock_classes with
      | some v => !bt_value_is_bool v
      | none => false) then
    some (-1, comp)
  else
    match bt_value_bool_get assume_absolute_clock_classes with
    | none => none
    | some bool_val => some (0, { comp with assume_absolute_clock_classes := bool_val })

/-- A port of the component, as the framework holds it: its name,
whether it is connected and, for a connected input port, what
`bt_self_component_port_input_message_iterator_create` gives on it
(`none` for NULL). -/
structure bt_port where
  name : String
  is_connected : Bool
  upstream : Option upstream_iterator
  deriving DecidableEq, Repr

/-- The filter component (`bt_self_component_filter`), as the framework
holds it: its input ports and output ports in creation order and its
user data (`none` for NULL). -/
structure bt_self_component_filter where
  input_ports : List bt_port
  output_ports : List bt_port
  data : Option muxer_comp
  deriving DecidableEq, Repr

/-- The text that `g_string_append_printf(s, "%u", n)` appends to `s`:
`n` in decimal. -/
def g_string_append_printf_u (s : String) (n : Nat) : String :=
  s ++ String.mk (Nat.toDigits 10 n)

/-- Function `bt_self_component_filter_add_input_port`, the framework
answering `answer`: on `OK` the port is added after the existing ones. -/
def bt_self_component_filter_add_input_port (self_comp : bt_self_component_filter)
    (name : String) (answer : bt_self_component_status) :
    bt_self_component_status × bt_self_component_filter :=
  if answer = .OK then
    (.OK, { self_comp with
      input_ports :=
        self_comp.input_ports ++ [{ name := name, is_connected := false, upstream := none }] })
  else (answer, self_comp)

/-- Function `bt_self_component_filter_add_output_port`, the framework
answering `answer`. -/
def bt_self_component_filter_add_output_port (self_comp : bt_self_component_filter)
    (name : String) (answer : bt_self_component_status) :
    bt_self_component_status × bt_self_component_filter :=
  if answer = .OK then
    (.OK, { self_comp with
      output_ports :=
        self_comp.output_ports ++ [{ name := name, is_connected := false, upstream := none }] })
  else (answer, self_comp)

/-- Function `add_available_input_port`; `answer` is the answer of the
framework to the addition of the port. -/
def add_available_input_port (self_comp : bt_self_component_filter)
    (answer : bt_self_component_status) :
    Option (bt_self_component_status × bt_self_component_filter) :=
  match self_comp.data with
  | none => none
  | some comp =>
    let port_name := g_string_append_printf_u "in" comp.next_port_num
    match bt_self_component_filter_add_input_port self_comp port_name answer with
    | (.OK, self_comp1) =>
      some (.OK,
        { self_comp1 with
          data := some
            { comp with
              available_input_ports := (comp.available_input_ports + 1) % (SIZE_MAX + 1)
              next_port_num := (comp.next_port_num + 1) % (UINT_MAX + 1) } })
    | (status, self_comp1) => some (status, self_comp1)

/-- Function `create_output_port`. -/
def create_output_port (self_comp : bt_self_component_filter)
    (answer : bt_self_component_status) :
    bt_self_component_status × bt_self_component_filter :=
  bt_self_component_filter_add_output_port self_comp "out" answer

/-- Function `muxer_init`; `input_answer` and `output_answer` are the
answers of the framework to the additions of the input port and of the
output port. -/
def muxer_init (self_comp : bt_self_component_filter) (params : bt_value_map)
    (input_answer output_answer : bt_self_component_status) :
    Option (bt_self_component_status × bt_self_component_filter) :=
  let comp : muxer_comp :=
    { next_port_num := 0
      available_input_ports := 0
      initializing_muxer_msg_iter := false
      assume_absolute_clock_classes := false }
  match configure_muxer_comp comp params with
  | none => none
  | some (ret, comp1) =>
    if ret ≠ 0 then some (.ERROR, { self_comp with data := none })
    else
      match add_available_input_port { self_comp with data := some comp1 } input_answer with
      | none => none
      | some (status, self_comp1) =>
        if status ≠ .OK then some (status, { self_comp1 with data := none })
        else
          match create_output_port self_comp1 output_answer with
          | (.OK, self_comp2) => some (.OK, self_comp2)
          | (status, self_comp2) => some (status, { self_comp2 with data := none })

/-- Function `muxer_input_port_connected`. -/
def muxer_input_port_connected (self_comp : bt_self_component_filter)
    (answer : bt_self_component_status) :
    Option (bt_self_component_status × bt_self_component_filter) :=
  add_available_input_port self_comp answer

/-- Parameters that bind the recognized key to `value` and another key
to an integer. -/
def sample_params (value : bt_value) : bt_value_map :=
  fun k =>
    if k = ASSUME_ABSOLUTE_CLOCK_CLASSES_PARAM_NAME then some value
    else if k = "verbose" then some (.integer 3)
    else none

/-- Number that a list of decimal digit characters denotes. -/
def decimal_value (digits : List Char) : Nat :=
  digits.foldl (fun acc c => acc * 10 + (c.toNat - 48)) 0

/-- A component before `muxer_init`: no port, no user data. -/
def new_component : bt_self_component_filter :=
  { input_ports := [], output_ports := [], data := none }

/-- The framework connects the input port of index `i`, which was not
connected, to an upstream on which message iterators `upstream` can be
created, then notifies the component (`muxer_input_port_connected`);
`answer` is the answer of the framework to the addition of a port.  It is
`none` when there is no such port, when the port is already connected, or
when the notification stops the process. -/
def connect_input_port (self_comp : bt_self_component_filter) (i : Nat)
    (upstream : upstream_iterator) (answer : bt_self_component_status) :
    Option (bt_self_component_status × bt_self_component_filter) :=
  match self_comp.input_ports[i]? with
  | none => none
  | some port =>
    if port.is_connected then none
    else
      muxer_input_port_connected
        { self_comp with
          input_ports :=
            self_comp.input_ports.set i
              { port with is_connected := true, upstream := some upstream } }
        answer

/-- Successive connections of input ports, each to a port that was not
connected and each notified with success: the component afterwards, or
`none` as soon as a connection is not possible or a notification does not
return `OK`. -/
def connect_input_ports (self_comp : bt_self_component_filter) :
    List (Nat × upstream_iterator × bt_self_component_status) →
    Option bt_self_component_filter
  | [] => some self_comp
  | (i, upstream, answer) :: rest =>
    match connect_input_port self_comp i upstream answer with
    | some (.OK, self_comp1) => connect_input_ports self_comp1 rest
    | _ => none

/-- Names of the input ports, in creation order. -/
def input_port_names (self_comp : bt_self_component_filter) : List String :=
  self_comp.input_ports.map (·.name)

/-- The input ports that are not connected. -/
def spare_input_ports (self_comp : bt_self_component_filter) : List bt_port :=
  self_comp.input_ports.filter (fun p => !p.is_connected)

/-- State of the ports after `muxer_init` and `k` connections. -/
def ports_after (self_comp : bt_self_component_filter) (k : Nat) : Prop :=
  self_comp.output_ports.map (·.name) = ["out"] ∧
    input_port_names self_comp = (List.range (k + 1)).map (g_string_append_printf_u "in") ∧
    (spare_input_ports self_comp).length = 1 ∧
    ∃ comp, self_comp.data = some comp ∧ comp.next_port_num = k + 1

/-- A component after `muxer_init` with `assume-absolute-clock-classes`
true and the connection of its first two input ports. -/
def two_connections_component : bt_self_component_filter :=
  { input_ports :=
      [{ name := "in0", is_connected := true, upstream := some (sample_upstream 0 []) },
        { name := "in1", is_connected := true, upstream := some (sample_upstream 1 []) },
        { name := "in2", is_connected := false, upstream := none }]
    output_ports := [{ name := "out", is_connected := false, upstream := none }]
    data := some
      { next_port_num := 3
        available_input_ports := 3
        initializing_muxer_msg_iter := false
        assume_absolute_clock_classes := true } }

/-- Function `muxer_msg_iter_add_upstream_msg_iter`: the `int` result
and the iterator afterwards. -/
def muxer_msg_iter_add_upstream_msg_iter (it : muxer_msg_iter)
    (self_msg_iter : upstream_iterator) : Int × muxer_msg_iter :=
  (0, { it with
    active_muxer_upstream_msg_iters :=
      it.active_muxer_upstream_msg_iters ++ [{ msg_iter := some self_msg_iter, msgs := [] }] })

/-- Function `create_msg_iter_on_input_port`: the iterator created
(`none` for NULL); the process stops on a port that is not connected. -/
def create_msg_iter_on_input_port (self_port : bt_port) : Option (Option upstream_iterator) :=
  if self_port.is_connected then some self_port.upstream else none

/-- Loop of `muxer_msg_iter_init_upstream_iterators` over the input
ports from the current index on. -/
def muxer_msg_iter_init_upstream_iterators_loop :
    List bt_port → muxer_msg_iter → Option (Int × muxer_msg_iter)
  | [], it => some (0, it)
  | port :: rest, it =>
    if !port.is_connected then
      -- Skip non-connected port
      muxer_msg_iter_init_upstream_iterators_loop rest it
    else
      match create_msg_iter_on_input_port port with
      | none => none
      | some none => some (-1, it)
      | some (some upstream_msg_iter) =>
        if (muxer_msg_iter_add_upstream_msg_iter it upstream_msg_iter).1 ≠ 0 then
          some (muxer_msg_iter_add_upstream_msg_iter it upstream_msg_iter)
        else
          muxer_msg_iter_init_upstream_iterators_loop rest
            (muxer_msg_iter_add_upstream_msg_iter it upstream_msg_iter).2

/-- Function `muxer_msg_iter_init_upstream_iterators`. -/
def muxer_msg_iter_init_upstream_iterators (self_comp : bt_self_component_filter)
    (it : muxer_msg_iter) : Option (Int × muxer_msg_iter) :=
  muxer_msg_iter_init_upstream_iterators_loop self_comp.input_ports it

/-- Function `muxer_msg_iter_init`: the status, the data of the message
iterator afterwards (`none` for NULL) and the component afterwards. -/
def muxer_msg_iter_init (self_comp : bt_self_component_filter) :
    Option (bt_message_iterator_status × Option muxer_msg_iter × bt_self_component_filter) :=
  match self_comp.data with
  | none => none
  | some comp =>
    if comp.initializing_muxer_msg_iter then
      some (.ERROR, none,
        { self_comp with data := some { comp with initializing_muxer_msg_iter := false } })
    else
      let it : muxer_msg_iter :=
        { active_muxer_upstream_msg_iters := []
          ended_muxer_upstream_msg_iters := []
          last_returned_ts_ns := INT64_MIN
          clock_class_expectation := .ANY
          expected_clock_class_uuid := List.replicate BABELTRACE_UUID_LEN 0 }
      match muxer_msg_iter_init_upstream_iterators self_comp it with
      | none => none
      | some (ret, it1) =>
        if ret ≠ 0 then
          some (.ERROR, none,
            { self_comp with data := some { comp with initializing_muxer_msg_iter := false } })
        else
          some (.OK, some it1,
            { self_comp with data := some { comp with initializing_muxer_msg_iter := false } })

/-- An event message at `ts` nanoseconds from the origin of the clock
class `cc`. -/
def sample_event_of (addr : Nat) (cc : bt_clock_class) (ts : Int) : bt_message :=
  { addr := addr
    type := .EVENT
    stream_class_default_clock_class := some cc
    default_clock_snapshot := some { clock_class := cc, ns_from_origin := some ts }
    sa_cs_state := .KNOWN }

/-- Scenario "Clock incompatibility": A begins a stream with a clock
class of Unix epoch origin and delivers events at 10 and 30; B begins a
stream with a clock class without epoch origin, with a UUID, and delivers
events at 20 and 40. -/
def clock_mix_iter : muxer_msg_iter :=
  initial_iter
    [sample_cursor 0
        [(.OK, [sample_stream_beginning 1 (some sample_clock_class),
          sample_event_of 2 sample_clock_class 10, sample_event_of 3 sample_clock_class 30])] [],
      sample_cursor 1
        [(.OK, [sample_stream_beginning 4 (some (sample_relative_clock_class (some sample_uuid))),
          sample_event_of 5 (sample_relative_clock_class (some sample_uuid)) 20,
          sample_event_of 6 (sample_relative_clock_class (some sample_uuid)) 40])] []]

/-- A cursor with an empty queue on the upstream `u`. -/
def fresh_cursor (u : upstream_iterator) : muxer_upstream_msg_iter :=
  { msg_iter := some u, msgs := [] }

/-- The upstream iterator of a cursor as it is at the beginning: the
iterator with all the answers it replays still to give (`none` for a
cursor without iterator). -/
def cursor_origin (c : muxer_upstream_msg_iter) : Option upstream_iterator :=
  c.msg_iter.map (fun u => { u with pending := u.replay })

/-- The upstream of the cursor has only `OK` answers left to give before
it ends. -/
def only_ok_left (c : muxer_upstream_msg_iter) : Prop :=
  ∀ u, c.msg_iter = some u → ∀ a ∈ u.pending, a.1 = .OK

/-- Every upstream has only `OK` answers left, and the cursors of the
ended array have nothing left to give. -/
def ended_are_done (it : muxer_msg_iter) : Prop :=
  (∀ c ∈ all_cursors it, only_ok_left c) ∧
    ∀ c ∈ it.ended_muxer_upstream_msg_iters, cursor_stream c = []

/-- An iterator at the start of a merge: the invariant of a merge holds,
every upstream has only `OK` answers left, the ended array is empty and
the cursors are on different upstreams. -/
def merge_start (it : muxer_msg_iter) : Prop :=
  merge_inv it ∧ ended_are_done it ∧ it.ended_muxer_upstream_msg_iters = [] ∧
    (cursor_ids it).Nodup

/-- The scenario "Seek round-trip": calls of `next` until `END` (at most
`fuel` calls), a seek to the beginning that returns `OK`, calls of `next`
until `END` again; the two output sequences.  It is `none` when a step
does not end that way. -/
def drain_seek_drain (comp : muxer_comp) (capacity fuel : Nat) (it : muxer_msg_iter) :
    Option (List bt_message × List bt_message) :=
  match drain comp capacity fuel it with
  | some (.END, out1, it1) =>
    match muxer_msg_iter_seek_beginning it1 with
    | some (.OK, it2) =>
      match drain comp capacity fuel it2 with
      | some (.END, out2, _) => some (out1, out2)
      | _ => none
    | _ => none
  | _ => none

/-- Two upstreams that each deliver one event, both at 10. -/
def tied_upstreams : List (List (List bt_message)) :=
  [[[sample_event 1 10]], [[sample_event 2 10]]]

/-- Calls of `next` with the given capacity, repeated as long as they
return `AGAIN`, at most `fuel` calls: the status of the last call
(`AGAIN` when `fuel` calls all returned `AGAIN`), the messages written by
all the calls and the iterator at the end. -/
def next_while_again (comp : muxer_comp) (capacity : Nat) :
    Nat → muxer_msg_iter → List bt_message →
    Option (bt_message_iterator_status × List bt_message × muxer_msg_iter)
  | 0, it, acc => some (.AGAIN, acc, it)
  | fuel + 1, it, acc =>
    match muxer_msg_iter_do_next comp it capacity with
    | none => none
    | some (.AGAIN, msgs, it1) => next_while_again comp capacity fuel it1 (acc ++ msgs)
    | some (status, msgs, it1) => some (status, acc ++ msgs, it1)

/-- A cursor with an empty queue whose upstream `u` has the answers
`pending` still to give. -/
def waiting_cursor (u : upstream_iterator)
    (pending : List (bt_message_iterator_status × List bt_message)) :
    muxer_upstream_msg_iter :=
  { msg_iter := some { u with pending := pending }, msgs := [] }

/-- An upstream that answers `NOMEM` to the next pull; its cursor holds
the event at 5. -/
def nomem_cursor : muxer_upstream_msg_iter :=
  sample_cursor 0 [(.NOMEM, [])] [sample_event 1 5]

/-- Contract of the upstream of a cursor: every `OK` answer it still has
to give carries at least one message. -/
def honours_contract (c : muxer_upstream_msg_iter) : Prop :=
  ∀ u ∈ c.msg_iter, ∀ a ∈ u.pending, a.1 = .OK → a.2 ≠ []

instance honours_contract_decidable : DecidablePred honours_contract :=
  fun c => by unfold honours_contract; infer_instance

/-- Three cursors: the first one has nothing queued and its upstream has
ended, the second one holds an event at 10, the last one has nothing
queued and its upstream answers one event at 5. -/
def swap_iter : muxer_msg_iter :=
  initial_iter
    [sample_cursor 0 [] [],
      sample_cursor 1 [] [sample_event 1 10],
      sample_cursor 2 [(.OK, [sample_event 2 5])] []]

/-- The iterator `swap_iter` after validation: the last cursor took the
slot of the first one and was pulled there. -/
def swap_iter_after : muxer_msg_iter :=
  { swap_iter with
    active_muxer_upstream_msg_iters :=
      [{ msg_iter := some { sample_upstream 2 [(.OK, [sample_event 2 5])] with pending := [] }
         msgs := [sample_event 2 5] },
        sample_cursor 1 [] [sample_event 1 10]]
    ended_muxer_upstream_msg_iters := [sample_cursor 0 [] []] }

/-- States of a muxer message iterator that are reachable from a freshly
initialised one by calls of `next_one`, `next` and `seek_beginning`,
whatever these calls return. -/
inductive reachable : muxer_msg_iter → Prop
  | fresh (self_comp self_comp1 : bt_self_component_filter) (it : muxer_msg_iter) :
      muxer_msg_iter_init self_comp = some (.OK, some it, self_comp1) → reachable it
  | after_next_one (comp : muxer_comp) (it it1 : muxer_msg_iter)
      (st : bt_message_iterator_status) (om : Option bt_message) :
      reachable it → muxer_msg_iter_do_next_one comp it = some (st, om, it1) → reachable it1
  | after_next (comp : muxer_comp) (it it1 : muxer_msg_iter) (capacity : Nat)
      (st : bt_message_iterator_status) (msgs : List bt_message) :
      reachable it → muxer_msg_iter_do_next comp it capacity = some (st, msgs, it1) →
      reachable it1
  | after_seek (it it1 : muxer_msg_iter) (st : bt_message_iterator_status) :
      reachable it → muxer_msg_iter_seek_beginning it = some (st, it1) → reachable it1

/-- The iterator that `muxer_msg_iter_init` builds on
`two_connections_component`. -/
def two_connections_iter : muxer_msg_iter :=
  { active_muxer_upstream_msg_iters :=
      [fresh_cursor (sample_upstream 0 []), fresh_cursor (sample_upstream 1 [])]
    ended_muxer_upstream_msg_iters := []
    last_returned_ts_ns := INT64_MIN
    clock_class_expectation := .ANY
    expected_clock_class_uuid := List.replicate BABELTRACE_UUID_LEN 0 }

/-- The iterator `two_connections_iter` after a call of `next_one`: both
upstreams have ended. -/
def two_connections_iter_ended : muxer_msg_iter :=
  { two_connections_iter with
    active_muxer_upstream_msg_iters := []
    ended_muxer_upstream_msg_iters :=
      [fresh_cursor (sample_upstream 0 []), fresh_cursor (sample_upstream 1 [])] }

/-- The nanoseconds from origin that the clock snapshot of the message
gives, if any, are at most `INT64_MAX`, as every `int64_t` is. -/
def ts_le_int64_max (msg : bt_message) : Prop :=
  ∀ cs ∈ msg.default_clock_snapshot, ∀ ns ∈ cs.ns_from_origin, ns ≤ INT64_MAX

instance ts_le_int64_max_decidable : DecidablePred ts_le_int64_max :=
  fun msg => by unfold ts_le_int64_max; infer_instance

/-- One cursor that holds an event at `INT64_MAX`. -/
def int64_max_iter : muxer_msg_iter :=
  initial_iter [sample_cursor 0 [] [sample_event 1 INT64_MAX]]

/-- The iterator `int64_max_iter` after the event was emitted. -/
def int64_max_iter_after : muxer_msg_iter :=
  { initial_iter [sample_cursor 0 [] []] with last_returned_ts_ns := INT64_MAX }

/-- Two cursors that hold events whose clock classes differ: one of Unix
epoch origin, one without epoch origin and with a UUID. -/
def mixed_events_iter : muxer_msg_iter :=
  initial_iter
    [sample_cursor 0 [] [sample_event_of 1 sample_clock_class 10],
      sample_cursor 1 [] [sample_event_of 2 (sample_relative_clock_class (some sample_uuid)) 20]]

/-- The iterator `mixed_events_iter` after the event at 10 was emitted. -/
def mixed_events_iter_after : muxer_msg_iter :=
  { initial_iter
      [sample_cursor 0 [] [],
        sample_cursor 1 [] [sample_event_of 2 (sample_relative_clock_class (some sample_uuid)) 20]]
    with last_returned_ts_ns := 10 }

/-- Two cursors: the first one holds the beginning of a stream whose class
has no default clock class, the second one holds a stream end, which has
no timestamp either and wins the tie as the later cursor. -/
def revalidated_head_iter : muxer_msg_iter :=
  initial_iter
    [sample_cursor 0 [] [sample_stream_beginning 1 none],
      sample_cursor 1 [] [sample_stream_end 2 none]]

/-- The iterator `revalidated_head_iter` after a first call of
`next_one`: the stream end was emitted and the expectation is "no clock
class". -/
def revalidated_head_iter_after : muxer_msg_iter :=
  { initial_iter
      [sample_cursor 0 [] [sample_stream_beginning 1 none], sample_cursor 1 [] []]
    with clock_class_expectation := .NONE }

/-- One cursor that holds the beginning of a stream whose class has a
default clock class of Unix epoch origin. -/
def stream_beginning_head_iter : muxer_msg_iter :=
  initial_iter [sample_cursor 0 [] [sample_stream_beginning 1 (some sample_clock_class)]]

/-- The timestamp that a message has of its own: what its clock snapshot
converts to, for the messages whose snapshot `get_msg_ts_ns` reads (a
stream activity message only when the snapshot state is known); `none`
for the messages to which `get_msg_ts_ns` gives the last returned
timestamp. -/
def own_ts (m : bt_message) : Option Int :=
  match m.type with
  | .EVENT | .PACKET_BEGINNING | .PACKET_END | .DISCARDED_EVENTS | .DISCARDED_PACKETS
  | .MESSAGE_ITERATOR_INACTIVITY => m.default_clock_snapshot.bind (·.ns_from_origin)
  | .STREAM_ACTIVITY_BEGINNING | .STREAM_ACTIVITY_END =>
    if m.sa_cs_state = .KNOWN then m.default_clock_snapshot.bind (·.ns_from_origin) else none
  | _ => none

/-- A message of any type as the muxer expects it: it satisfies the
assertions of `get_msg_ts_ns`, and its clock snapshot, when it has one,
converts to an `int64_t` number of nanoseconds from the origin. -/
def timed_msg (m : bt_message) : Prop :=
  msg_accessors_ok m ∧
    ∀ cs ∈ m.default_clock_snapshot, cs.ns_from_origin.isSome = true ∧
      ∀ ts ∈ cs.ns_from_origin, INT64_MIN ≤ ts ∧ ts ≤ INT64_MAX

instance msg_accessors_ok_decidable : DecidablePred msg_accessors_ok :=
  fun m => by unfold msg_accessors_ok; split <;> infer_instance

instance timed_msg_decidable : DecidablePred timed_msg :=
  fun m => by unfold timed_msg; infer_instance

/-- Timestamps with which the messages of a sequence are emitted, the
last returned timestamp being `lo` before the first: the own timestamp of
a message that has one, else the timestamp of the message before. -/
def eff_ts : Int → List bt_message → List Int
  | _, [] => []
  | lo, m :: ms => (own_ts m).getD lo :: eff_ts ((own_ts m).getD lo) ms

/-- The messages of a sequence, each with the timestamp with which it
is emitted. -/
def annot (lo : Int) (ms : List bt_message) : List (Int × bt_message) :=
  (eff_ts lo ms).zip ms

/-- The clock class that the muxer checks when the message is at the
head of a queue: the default clock class of the stream class for a stream
beginning, the clock class of the snapshot for a message iterator
inactivity; `none` for the other messages, which are not checked. -/
def checked_clock_class (m : bt_message) : Option bt_clock_class :=
  if m.type = .STREAM_BEGINNING then m.stream_class_default_clock_class
  else if m.type = .MESSAGE_ITERATOR_INACTIVITY then
    m.default_clock_snapshot.map (·.clock_class)
  else none

/-- Two clock classes are of the same kind for the muxer: both have a
Unix epoch origin, or none has and either both have no UUID or both have
one, the same on its sixteen bytes. -/
def same_clock_kind (a b : bt_clock_class) : Prop :=
  a.origin_is_unix_epoch = b.origin_is_unix_epoch ∧
    (a.origin_is_unix_epoch = false →
      a.uuid.map (fun u => u.take BABELTRACE_UUID_LEN) =
        b.uuid.map (fun u => u.take BABELTRACE_UUID_LEN))

instance same_clock_kind_decidable (a b : bt_clock_class) : Decidable (same_clock_kind a b) := by
  unfold same_clock_kind; infer_instance

/-- Messages that pass the clock class checks of the component together:
no stream without default clock class begins, and, unless
`assume-absolute-clock-classes` is set, the clock classes checked are all
of the same kind. -/
def clock_compatible (comp : muxer_comp) (ms : List bt_message) : Prop :=
  (∀ m ∈ ms, m.type = .STREAM_BEGINNING → m.stream_class_default_clock_class.isSome = true) ∧
    (comp.assume_absolute_clock_classes = false →
      ∀ m1 ∈ ms, ∀ m2 ∈ ms, ∀ a ∈ checked_clock_class m1, ∀ b ∈ checked_clock_class m2,
        same_clock_kind a b)

instance clock_compatible_decidable (comp : muxer_comp) (ms : List bt_message) :
    Decidable (clock_compatible comp ms) := by
  unfold clock_compatible; infer_instance

/-- Invariant of the clock class expectation while messages of `ms` are
merged: it is not "no clock class", and once it is set, without
`assume-absolute-clock-classes`, it is matched by a clock class checked
on one of the messages. -/
def clock_inv (comp : muxer_comp) (ms : List bt_message) (it : muxer_msg_iter) : Prop :=
  it.clock_class_expectation ≠ .NONE ∧
    (comp.assume_absolute_clock_classes = false → it.clock_class_expectation ≠ .ANY →
      ∃ m1 ∈ ms, ∃ a ∈ checked_clock_class m1, clock_class_matches it a)

/-- Invariant of the iterator while the messages `ms` are merged: the
invariant of the expectation; the upstreams have only non-empty `OK`
batches left and the ended cursors nothing; every cursor has an upstream
iterator, different from the others; the messages to come are messages
of `ms` that the muxer expects, and in every cursor the timestamps with
which they are emitted do not decrease, from the last returned timestamp
on, which is an `int64_t`. -/
def gen_inv (comp : muxer_comp) (ms : List bt_message) (it : muxer_msg_iter) : Prop :=
  clock_inv comp ms it ∧ ended_are_done it ∧
    (∀ c ∈ all_cursors it, honours_contract c ∧ c.msg_iter ≠ none) ∧
    (∀ c ∈ all_cursors it, ∀ m ∈ cursor_stream c, timed_msg m ∧ m ∈ ms) ∧
    (∀ c ∈ all_cursors it, List.Chain (· ≤ ·) it.last_returned_ts_ns
      (eff_ts it.last_returned_ts_ns (cursor_stream c))) ∧
    it.last_returned_ts_ns ≤ INT64_MAX ∧ (cursor_ids it).Nodup

/-- Elements of `out`, messages with the timestamps with which they were
emitted, that the labelling `labels` (one cursor identity per element)
attributes to the cursor `i`, in the order of `out`. -/
def emitted_with_ts (labels : List (Option Nat)) (out : List (Int × bt_message))
    (i : Option Nat) : List (Int × bt_message) :=
  ((labels.zip out).filter (fun p => decide (p.1 = i))).map (·.2)

/-- The sequence of messages of a cursor from now on, each with the
timestamp with which it is emitted when the messages are merged. -/
def cursor_annot (it : muxer_msg_iter) (c : muxer_upstream_msg_iter) :
    List (Int × bt_message) :=
  annot it.last_returned_ts_ns (cursor_stream c)

/-- Relation "between `it` and `it1` the messages of `out` were popped
in queue order, with the timestamps of `out`": there is a labelling of
`out` by cursor identities such that every cursor of `it1`, taken with
the elements attributed to it put back in front of its sequence, is a
cursor of `it`, and conversely. -/
def timed_fifo_run (it : muxer_msg_iter) (out : List (Int × bt_message))
    (it1 : muxer_msg_iter) : Prop :=
  ∃ labels : List (Option Nat), labels.length = out.length ∧
    (∀ l ∈ labels, l ∈ cursor_ids it) ∧
    ((all_cursors it1).map
      (fun c => (cursor_id c, emitted_with_ts labels out (cursor_id c) ++ cursor_annot it1 c))).Perm
      ((all_cursors it).map (fun c => (cursor_id c, cursor_annot it c)))

/-- Number of messages that the cursors have still to give. -/
def pending_count (it : muxer_msg_iter) : Nat :=
  ((all_cursors it).flatMap cursor_stream).length

/-- Relation "between `it` and `it1` the merge emitted `out`", messages
with their timestamps: the invariant holds at the end, the messages were
popped in queue order, as many messages less remain, and the timestamps
do not decrease from the last returned timestamp of `it` to that of
`it1`. -/
def gen_run (comp : muxer_comp) (ms : List bt_message) (it : muxer_msg_iter)
    (out : List (Int × bt_message)) (it1 : muxer_msg_iter) : Prop :=
  gen_inv comp ms it1 ∧ timed_fifo_run it out it1 ∧
    pending_count it = out.length + pending_count it1 ∧
    List.Chain (· ≤ ·) it.last_returned_ts_ns (out.map (·.1) ++ [it1.last_returned_ts_ns])

/-- Two streams, each with its beginning, one event and its end, the
event of the second upstream being the older one. -/
def two_streams_upstreams : List (List (List bt_message)) :=
  [[[sample_stream_beginning 1 (some sample_clock_class), sample_event 2 30,
      sample_stream_end 3 (some sample_clock_class)]],
    [[sample_stream_beginning 4 (some sample_clock_class), sample_event 5 10,
      sample_stream_end 6 (some sample_clock_class)]]]

/-- Scenario "Clock incompatibility" with a second stream of A whose
class has no default clock class: A begins a stream with a clock class of
Unix epoch origin, then a stream without clock class; B begins a stream
with a clock class without epoch origin, with a UUID. -/
def clock_mix_clockless_iter : muxer_msg_iter :=
  initial_iter
    [sample_cursor 0
        [(.OK, [sample_stream_beginning 1 (some sample_clock_class),
          sample_stream_beginning 2 none])] [],
      sample_cursor 1
        [(.OK, [sample_stream_beginning 3
          (some (sample_relative_clock_class (some sample_uuid)))])] []]

/-- The upstreams of the scenario "Clock incompatibility", by batches. -/
def clock_mix_upstreams : List (List (List bt_message)) :=
  [[[sample_stream_beginning 1 (some sample_clock_class),
      sample_event_of 2 sample_clock_class 10, sample_event_of 3 sample_clock_class 30]],
    [[sample_stream_beginning 4 (some (sample_relative_clock_class (some sample_uuid))),
      sample_event_of 5 (sample_relative_clock_class (some sample_uuid)) 20,
      sample_event_of 6 (sample_relative_clock_class (some sample_uuid)) 40]]]

/-- Every cursor has an upstream iterator, and the timestamps are in the
range of an `int64_t`: the last returned timestamp and what the clock
snapshots of the queued and coming messages give are at most `INT64_MAX`. -/
def within_int64 (it : muxer_msg_iter) : Prop :=
  (∀ c ∈ all_cursors it, c.msg_iter ≠ none) ∧
    (∀ c ∈ all_cursors it, ∀ m ∈ cursor_stream c, ts_le_int64_max m) ∧
    it.last_returned_ts_ns ≤ INT64_MAX

/-- No message that a cursor has still to give is the beginning of a
stream whose class has no default clock class. -/
def no_clockless_stream (it : muxer_msg_iter) : Prop :=
  ∀ c ∈ all_cursors it, ∀ m ∈ cursor_stream c,
    m.type = .STREAM_BEGINNING → m.stream_class_default_clock_class.isSome = true

/-- One upstream that delivers a stream whose class has no default clock
class, its beginning and its end, and one upstream that delivers nothing. -/
def clockless_upstreams : List (List (List bt_message)) :=
  [[[sample_stream_beginning 1 none, sample_stream_end 2 none]], []]

/-! # Theorems -/

/-! ## Clock policy and selection: frame and specification lemmas -/

theorem same_cursors_refl (it : muxer_msg_iter) : same_cursors it it := ⟨rfl, rfl, rfl⟩

theorem same_cursors_trans {a b c : muxer_msg_iter} (h1 : same_cursors a b)
    (h2 : same_cursors b c) : same_cursors a c :=
  ⟨h2.1.trans h1.1, h2.2.1.trans h1.2.1, h2.2.2.trans h1.2.2⟩

theorem validate_clock_class_same_cursors {it it1 : muxer_msg_iter} {comp : muxer_comp}
    {cc : bt_clock_class} {r : Int}
    (h : validate_clock_class it comp cc = some (r, it1)) : same_cursors it it1 := by
  unfold validate_clock_class at h
  simp only at h
  repeat' split at h
  all_goals first
    | (simp at h; done)
    | (simp only [Option.some.injEq, Prod.mk.injEq] at h; obtain ⟨_, rfl⟩ := h
       simp [same_cursors])

theorem validate_clock_class_locked {it it1 : muxer_msg_iter} {comp : muxer_comp}
    {cc : bt_clock_class} {r : Int}
    (h : validate_clock_class it comp cc = some (r, it1))
    (hne : it.clock_class_expectation ≠ .ANY) : it1 = it := by
  unfold validate_clock_class at h
  simp only [hne, if_false] at h
  repeat' split at h
  all_goals first
    | (simp at h; done)
    | (simp only [Option.some.injEq, Prod.mk.injEq] at h; exact h.2.symm)

theorem validate_new_stream_clock_class_same_cursors {it it1 : muxer_msg_iter}
    {comp : muxer_comp} {cc : Option bt_clock_class} {r : Int}
    (h : validate_new_stream_clock_class it comp cc = some (r, it1)) : same_cursors it it1 := by
  unfold validate_new_stream_clock_class at h
  cases cc with
  | none =>
    simp only at h
    split_ifs at h <;> simp at h <;> obtain ⟨_, rfl⟩ := h <;> simp [same_cursors]
  | some c => exact validate_clock_class_same_cursors h

theorem validate_new_stream_clock_class_locked {it it1 : muxer_msg_iter}
    {comp : muxer_comp} {cc : Option bt_clock_class} {r : Int}
    (h : validate_new_stream_clock_class it comp cc = some (r, it1))
    (hne : it.clock_class_expectation ≠ .ANY) : it1 = it := by
  unfold validate_new_stream_clock_class at h
  cases cc with
  | none =>
    simp only [hne, if_false] at h
    simp at h; exact h.2.symm
  | some c => exact validate_clock_class_locked h hne

theorem validate_head_clock_class_same_cursors {it it1 : muxer_msg_iter}
    {comp : muxer_comp} {msg : bt_message} {r : Int}
    (h : validate_head_clock_class it comp msg = some (r, it1)) : same_cursors it it1 := by
  unfold validate_head_clock_class at h
  split_ifs at h
  · exact validate_new_stream_clock_class_same_cursors h
  · split at h
    · simp at h
    · exact validate_clock_class_same_cursors h
  · simp at h; obtain ⟨_, rfl⟩ := h; exact same_cursors_refl _

theorem validate_head_clock_class_locked {it it1 : muxer_msg_iter}
    {comp : muxer_comp} {msg : bt_message} {r : Int}
    (h : validate_head_clock_class it comp msg = some (r, it1))
    (hne : it.clock_class_expectation ≠ .ANY) : it1 = it := by
  unfold validate_head_clock_class at h
  split_ifs at h
  · exact validate_new_stream_clock_class_locked h hne
  · split at h
    · simp at h
    · exact validate_clock_class_locked h hne
  · simp at h; exact h.2.symm

/-- Heads that are neither a stream beginning nor an inactivity message
are not submitted to the clock policy. -/
theorem validate_head_clock_class_other {it : muxer_msg_iter} {comp : muxer_comp}
    {msg : bt_message} (h1 : msg.type ≠ .STREAM_BEGINNING)
    (h2 : msg.type ≠ .MESSAGE_ITERATOR_INACTIVITY) :
    validate_head_clock_class it comp msg = some (0, it) := by
  simp [validate_head_clock_class, h1, h2]

theorem youngest_loop_same_cursors (comp : muxer_comp) :
    ∀ (cursors : List muxer_upstream_msg_iter) (i : Nat) (it : muxer_msg_iter)
      (chosen : Option Nat) (y : Int) (st : bt_message_iterator_status)
      (it1 : muxer_msg_iter) (ch1 : Option Nat) (y1 : Int),
      youngest_loop comp cursors i it chosen y = some (st, it1, ch1, y1) →
      same_cursors it it1 ∧ (st = .OK ∨ st = .ERROR) := by
  intro cursors
  induction cursors with
  | nil =>
    intro i it chosen y st it1 ch1 y1 h
    simp [youngest_loop] at h
    obtain ⟨rfl, rfl, _, _⟩ := h
    exact ⟨same_cursors_refl _, Or.inl rfl⟩
  | cons cur rest ih =>
    intro i it chosen y st it1 ch1 y1 h
    unfold youngest_loop at h
    split at h
    · exact ih _ _ _ _ _ _ _ _ h
    · split at h
      · simp at h
      · split at h
        · simp at h
        · rename_i ret it2 hv
          have hs := validate_head_clock_class_same_cursors hv
          split_ifs at h
          · simp at h; obtain ⟨rfl, rfl, _, _⟩ := h
            exact ⟨hs, Or.inr rfl⟩
          · split at h
            · simp at h
            · simp at h; obtain ⟨rfl, rfl, _, _⟩ := h
              exact ⟨hs, Or.inr rfl⟩
            · split_ifs at h
              · have := ih _ _ _ _ _ _ _ _ h
                exact ⟨same_cursors_trans hs this.1, this.2⟩
              · have := ih _ _ _ _ _ _ _ _ h
                exact ⟨same_cursors_trans hs this.1, this.2⟩

theorem youngest_same_cursors {comp : muxer_comp} {it it1 : muxer_msg_iter}
    {st : bt_message_iterator_status} {ch : Option Nat} {ts : Int}
    (h : muxer_msg_iter_youngest_upstream_msg_iter comp it = some (st, it1, ch, ts)) :
    same_cursors it it1 ∧ (st = .OK ∨ st = .END ∨ st = .ERROR) ∧ (st = .OK → ch.isSome) := by
  unfold muxer_msg_iter_youngest_upstream_msg_iter at h
  split at h
  · simp at h
  · rename_i it2 y hl
    have := youngest_loop_same_cursors comp _ _ _ _ _ _ _ _ _ hl
    simp at h; obtain ⟨rfl, rfl, rfl, rfl⟩ := h
    exact ⟨this.1, Or.inr (Or.inl rfl), by simp⟩
  · rename_i r hnot hl
    simp at h; subst h
    have := youngest_loop_same_cursors comp _ _ _ _ _ _ _ _ _ hl
    refine ⟨this.1, ?_, ?_⟩
    · rcases this.2 with h | h
      · exact Or.inl h
      · exact Or.inr (Or.inr h)
    · intro hst
      subst hst
      cases ch with
      | none => exact absurd rfl (hnot it1 ts)
      | some x => simp


theorem youngest_loop_spec (comp : muxer_comp) :
    ∀ (cursors : List muxer_upstream_msg_iter) (i : Nat) (it : muxer_msg_iter)
      (chosen : Option Nat) (y : Int) (it1 : muxer_msg_iter) (ch1 : Option Nat) (y1 : Int),
      youngest_loop comp cursors i it chosen y = some (.OK, it1, ch1, y1) →
      (∀ j t, head_ts_in_loop comp cursors it j = some t → y1 ≤ t) ∧ y1 ≤ y ∧
      ((ch1 = chosen ∧ y1 = y ∧
          ∀ j t, head_ts_in_loop comp cursors it j = some t → y < t) ∨
        (∃ k, ch1 = some (i + k) ∧ head_ts_in_loop comp cursors it k = some y1 ∧
          ∀ j t, k < j → head_ts_in_loop comp cursors it j = some t → y1 < t)) := by
  intro cursors
  induction cursors with
  | nil =>
    intro i it chosen y it1 ch1 y1 h
    simp [youngest_loop] at h
    obtain ⟨_, rfl, rfl⟩ := h
    simp [head_ts_in_loop]
  | cons cur rest ih =>
    intro i it chosen y it1 ch1 y1 h
    unfold youngest_loop at h
    split at h
    · -- cursor without iterator: skipped
      rename_i hnone
      obtain ⟨hall, hle, hcase⟩ := ih _ _ _ _ _ _ _ h
      have hts : ∀ j, head_ts_in_loop comp (cur :: rest) it (j + 1)
          = head_ts_in_loop comp rest it j := by
        intro j; simp [head_ts_in_loop, hnone]
      have hts0 : head_ts_in_loop comp (cur :: rest) it 0 = none := by
        simp [head_ts_in_loop, hnone]
      refine ⟨?_, hle, ?_⟩
      · intro j t hj
        cases j with
        | zero => simp [hts0] at hj
        | succ j => rw [hts] at hj; exact hall j t hj
      · rcases hcase with ⟨h1, h2, h3⟩ | ⟨k, h1, h2, h3⟩
        · left
          refine ⟨h1, h2, ?_⟩
          intro j t hj
          cases j with
          | zero => simp [hts0] at hj
          | succ j => rw [hts] at hj; exact h3 j t hj
        · right
          refine ⟨k + 1, by rw [h1]; congr 1; omega, by rw [hts]; exact h2, ?_⟩
          intro j t hkj hj
          cases j with
          | zero => omega
          | succ j => rw [hts] at hj; exact h3 j t (by omega) hj
    · rename_i u hsome
      split at h
      · simp at h
      · rename_i msg tl hmsgs
        split at h
        · simp at h
        · rename_i ret it2 hv
          split_ifs at h with hret
          · simp at h
          · split at h
            · simp at h
            · simp at h
            · rename_i t0 hg
              have hts : ∀ j, head_ts_in_loop comp (cur :: rest) it (j + 1)
                  = head_ts_in_loop comp rest it2 j := by
                intro j; simp [head_ts_in_loop, hsome, hmsgs, hv, hret]
              have hts0 : head_ts_in_loop comp (cur :: rest) it 0 = some t0 := by
                simp [head_ts_in_loop, hsome, hmsgs, hv, hret, hg]
              split_ifs at h with hle0
              · obtain ⟨hall, hle, hcase⟩ := ih _ _ _ _ _ _ _ h
                refine ⟨?_, le_trans hle hle0, ?_⟩
                · intro j t hj
                  cases j with
                  | zero => rw [hts0] at hj; simp at hj; omega
                  | succ j => rw [hts] at hj; exact hall j t hj
                · right
                  rcases hcase with ⟨h1, h2, h3⟩ | ⟨k, h1, h2, h3⟩
                  · refine ⟨0, by simpa using h1, by rw [hts0, h2], ?_⟩
                    intro j t hkj hj
                    cases j with
                    | zero => omega
                    | succ j => rw [hts] at hj; rw [h2]; exact h3 j t hj
                  · refine ⟨k + 1, by rw [h1]; congr 1; omega, by rw [hts]; exact h2, ?_⟩
                    intro j t hkj hj
                    cases j with
                    | zero => omega
                    | succ j => rw [hts] at hj; exact h3 j t (by omega) hj
              · obtain ⟨hall, hle, hcase⟩ := ih _ _ _ _ _ _ _ h
                refine ⟨?_, hle, ?_⟩
                · intro j t hj
                  cases j with
                  | zero => rw [hts0] at hj; simp at hj; omega
                  | succ j => rw [hts] at hj; exact hall j t hj
                · rcases hcase with ⟨h1, h2, h3⟩ | ⟨k, h1, h2, h3⟩
                  · left
                    refine ⟨h1, h2, ?_⟩
                    intro j t hj
                    cases j with
                    | zero => rw [hts0] at hj; simp at hj; omega
                    | succ j => rw [hts] at hj; exact h3 j t hj
                  · right
                    refine ⟨k + 1, by rw [h1]; congr 1; omega, by rw [hts]; exact h2, ?_⟩
                    intro j t hkj hj
                    cases j with
                    | zero => omega
                    | succ j => rw [hts] at hj; exact h3 j t (by omega) hj

/-- When the loop ends with `OK`, it computed a timestamp for the head of
every cursor that has an iterator. -/
theorem youngest_loop_head_ts_defined (comp : muxer_comp) :
    ∀ (cursors : List muxer_upstream_msg_iter) (i : Nat) (it : muxer_msg_iter)
      (chosen : Option Nat) (y : Int) (it1 : muxer_msg_iter) (ch1 : Option Nat) (y1 : Int),
      youngest_loop comp cursors i it chosen y = some (.OK, it1, ch1, y1) →
      ∀ j c, cursors[j]? = some c → c.msg_iter.isSome →
        ∃ t, head_ts_in_loop comp cursors it j = some t := by
  intro cursors
  induction cursors with
  | nil => intro i it chosen y it1 ch1 y1 _ j c hj; simp at hj
  | cons cur rest ih =>
    intro i it chosen y it1 ch1 y1 h j c hj hlive
    unfold youngest_loop at h
    split at h
    · rename_i hnone
      cases j with
      | zero => simp at hj; subst hj; simp [hnone] at hlive
      | succ j =>
        simp at hj
        have := ih _ _ _ _ _ _ _ h j c hj hlive
        simpa [head_ts_in_loop, hnone] using this
    · rename_i u hsome
      split at h
      · simp at h
      · rename_i msg tl hmsgs
        split at h
        · simp at h
        · rename_i ret it2 hv
          split_ifs at h with hret
          · simp at h
          · split at h
            · simp at h
            · simp at h
            · rename_i t0 hg
              cases j with
              | zero => exact ⟨t0, by simp [head_ts_in_loop, hsome, hmsgs, hv, hret, hg]⟩
              | succ j =>
                simp at hj
                split_ifs at h
                · have := ih _ _ _ _ _ _ _ h j c hj hlive
                  simpa [head_ts_in_loop, hsome, hmsgs, hv, hret] using this
                · have := ih _ _ _ _ _ _ _ h j c hj hlive
                  simpa [head_ts_in_loop, hsome, hmsgs, hv, hret] using this

/-- Once the expectation has left `ANY`, the timestamp computed in the
loop for a head is the one `get_msg_ts_ns` gives in the state of the call. -/
theorem head_ts_in_loop_locked (comp : muxer_comp) :
    ∀ (cursors : List muxer_upstream_msg_iter) (it : muxer_msg_iter) (j : Nat) (t : Int),
      it.clock_class_expectation ≠ .ANY →
      head_ts_in_loop comp cursors it j = some t →
      ∃ c msg, cursors[j]? = some c ∧ c.msgs.head? = some msg ∧
        get_msg_ts_ns it msg it.last_returned_ts_ns = some (.ok t) := by
  intro cursors
  induction cursors with
  | nil => intro it j t _ h; simp [head_ts_in_loop] at h
  | cons cur rest ih =>
    intro it j t hne h
    rw [head_ts_in_loop] at h
    split at h
    · split_ifs at h with hj
      obtain ⟨c, msg, h1, h2, h3⟩ := ih it (j - 1) t hne h
      refine ⟨c, msg, ?_, h2, h3⟩
      obtain ⟨k, rfl⟩ : ∃ k, j = k + 1 := ⟨j - 1, by omega⟩
      simpa using h1
    · split at h
      · simp at h
      · rename_i msg tl hmsgs
        split at h
        · simp at h
        · rename_i ret it2 hv
          have hit : it2 = it := validate_head_clock_class_locked hv hne
          subst hit
          split_ifs at h with hret hj
          · split at h
            · rename_i t0 hg
              simp at h; subst h; subst hj
              exact ⟨cur, msg, by simp, by simp [hmsgs], hg⟩
            · simp at h
          · obtain ⟨c, msg1, h1, h2, h3⟩ := ih _ (j - 1) t hne h
            refine ⟨c, msg1, ?_, h2, h3⟩
            obtain ⟨k, rfl⟩ : ∃ k, j = k + 1 := ⟨j - 1, by omega⟩
            simpa using h1

theorem upstream_next_id (u : upstream_iterator) :
    (bt_self_component_port_input_message_iterator_next u).2.2.id = u.id := by
  unfold bt_self_component_port_input_message_iterator_next
  split <;> simp

theorem muxer_upstream_msg_iter_next_cases {c c1 : muxer_upstream_msg_iter} {e e1 : Bool}
    {st : bt_message_iterator_status}
    (h : muxer_upstream_msg_iter_next c e = some (st, c1, e1)) :
    ∃ u, c.msg_iter = some u ∧
      c1.msg_iter = some (bt_self_component_port_input_message_iterator_next u).2.2 ∧
      ((bt_self_component_port_input_message_iterator_next u).1 = .OK ∧ st = .OK ∧ e1 = e ∧
          (bt_self_component_port_input_message_iterator_next u).2.1 ≠ [] ∧
          c1.msgs = c.msgs ++ (bt_self_component_port_input_message_iterator_next u).2.1 ∨
        (bt_self_component_port_input_message_iterator_next u).1 = .AGAIN ∧ st = .AGAIN ∧
          e1 = e ∧ c1.msgs = c.msgs ∨
        (bt_self_component_port_input_message_iterator_next u).1 = .END ∧ st = .OK ∧
          e1 = true ∧ c1.msgs = c.msgs ∨
        ((bt_self_component_port_input_message_iterator_next u).1 = .ERROR ∨
          (bt_self_component_port_input_message_iterator_next u).1 = .NOMEM) ∧ st = .ERROR ∧
          e1 = e ∧ c1.msgs = c.msgs) := by
  unfold muxer_upstream_msg_iter_next at h
  split at h
  · simp at h
  · rename_i u hu
    refine ⟨u, hu, ?_⟩
    generalize bt_self_component_port_input_message_iterator_next u = r at h ⊢
    obtain ⟨s, msgs, u1⟩ := r
    cases s <;> simp at h ⊢
    · obtain ⟨hne, rfl, rfl, rfl⟩ := h
      simp
      intro hnil; simp [hnil] at hne
    · obtain ⟨rfl, rfl, rfl⟩ := h; simp
    · obtain ⟨rfl, rfl, rfl⟩ := h; simp
    · obtain ⟨rfl, rfl, rfl⟩ := h; simp
    · obtain ⟨rfl, rfl, rfl⟩ := h; simp

theorem validate_muxer_upstream_msg_iter_grown {c c1 : muxer_upstream_msg_iter} {e e1 : Bool}
    {st : bt_message_iterator_status}
    (h : validate_muxer_upstream_msg_iter c e = some (st, c1, e1)) :
    grown c c1 ∧ (st = .OK ∨ st = .AGAIN ∨ st = .ERROR) ∧
      (st ≠ .OK → c1.msgs = c.msgs) ∧
      (e1 = true → e = false → st = .OK ∧ c.msgs = [] ∧ c1.msgs = []) := by
  unfold validate_muxer_upstream_msg_iter at h
  split_ifs at h with hv
  · simp at h; obtain ⟨rfl, rfl, rfl⟩ := h
    refine ⟨⟨rfl, [], by simp⟩, Or.inl rfl, fun _ => rfl, ?_⟩
    intro h1 h2; simp [h1] at h2
  · have hmsgs : c.msgs = [] := by
      by_contra hne
      exact hv (Or.inl (List.length_pos.mpr hne))
    obtain ⟨u, hu, hu1, hc⟩ := muxer_upstream_msg_iter_next_cases h
    have hid : c1.msg_iter.map (·.id) = c.msg_iter.map (·.id) := by
      rw [hu, hu1]; simp [upstream_next_id]
    rcases hc with ⟨_, rfl, rfl, _, hq⟩ | ⟨_, rfl, rfl, hq⟩ | ⟨_, rfl, rfl, hq⟩ |
        ⟨_, rfl, rfl, hq⟩
    · exact ⟨⟨hid, _, hq⟩, Or.inl rfl, fun hh => absurd rfl hh,
        fun h1 h2 => by simp [h1] at h2⟩
    · exact ⟨⟨hid, [], by simp [hq]⟩, Or.inr (Or.inl rfl), fun _ => hq,
        fun h1 h2 => by simp [h1] at h2⟩
    · exact ⟨⟨hid, [], by simp [hq]⟩, Or.inl rfl, fun _ => hq,
        fun _ _ => ⟨rfl, hmsgs, by rw [hq, hmsgs]⟩⟩
    · exact ⟨⟨hid, [], by simp [hq]⟩, Or.inr (Or.inr rfl), fun _ => hq,
        fun h1 h2 => by simp [h1] at h2⟩

theorem validate_turn_cases {i : Nat} {it : muxer_msg_iter}
    {r : (Nat × muxer_msg_iter) ⊕ (bt_message_iterator_status × muxer_msg_iter)}
    (h : validate_muxer_upstream_msg_iters_turn i it = some r) :
    ∃ c st c1 e, it.active_muxer_upstream_msg_iters[i]? = some c ∧
      validate_muxer_upstream_msg_iter c false = some (st, c1, e) ∧
      ((st ≠ .OK ∧ r = Sum.inr (st,
          { it with
            active_muxer_upstream_msg_iters := it.active_muxer_upstream_msg_iters.set i c1 })) ∨
        (st = .OK ∧ e = true ∧ r = Sum.inl (i,
          { it with
            ended_muxer_upstream_msg_iters := it.ended_muxer_upstream_msg_iters ++ [c1]
            active_muxer_upstream_msg_iters :=
              g_ptr_array_remove_index_fast (it.active_muxer_upstream_msg_iters.set i c1) i })) ∨
        (st = .OK ∧ e = false ∧ r = Sum.inl (i + 1,
          { it with
            active_muxer_upstream_msg_iters :=
              it.active_muxer_upstream_msg_iters.set i c1 }))) := by
  unfold validate_muxer_upstream_msg_iters_turn at h
  split at h
  · simp at h
  · rename_i c hc
    split at h
    · simp at h
    · rename_i st c1 e hv
      refine ⟨c, st, c1, e, hc, hv, ?_⟩
      simp only at h
      split_ifs at h with h1 h2
      · left; simp at h; exact ⟨h1, h.symm⟩
      · right; left; simp at h1 h; exact ⟨h1, h2, h.symm⟩
      · right; right; simp at h1 h2 h; exact ⟨h1, h2, h.symm⟩

/-- Induction principle of the validation loop: a reflexive and
transitive relation that every turn establishes holds between the
iterator at the start of the loop and the one at its end. -/
theorem validate_loop_induct (P : muxer_msg_iter → muxer_msg_iter → Prop)
    (hrefl : ∀ it, P it it) (htrans : ∀ a b c, P a b → P b c → P a c)
    (hturn : ∀ i it r, validate_muxer_upstream_msg_iters_turn i it = some r →
      P it (turn_iter r)) :
    ∀ (fuel i : Nat) (it : muxer_msg_iter) (st : bt_message_iterator_status)
      (it1 : muxer_msg_iter),
      validate_muxer_upstream_msg_iters_loop fuel i it = some (st, it1) → P it it1 := by
  intro fuel
  induction fuel with
  | zero =>
    intro i it st it1 h
    simp [validate_muxer_upstream_msg_iters_loop] at h
    obtain ⟨_, _, rfl⟩ := h
    exact hrefl _
  | succ n ih =>
    intro i it st it1 h
    rw [validate_muxer_upstream_msg_iters_loop] at h
    split_ifs at h with hi
    · split at h
      · simp at h
      · rename_i i1 it2 ht
        exact htrans _ _ _ (hturn _ _ _ ht) (ih _ _ _ _ h)
      · rename_i r ht
        simp at h; subst h
        exact hturn _ _ _ ht
    · simp at h; obtain ⟨_, rfl⟩ := h; exact hrefl _

theorem validate_turn_same_clock {i : Nat} {it : muxer_msg_iter}
    {r : (Nat × muxer_msg_iter) ⊕ (bt_message_iterator_status × muxer_msg_iter)}
    (h : validate_muxer_upstream_msg_iters_turn i it = some r) :
    same_clock it (turn_iter r) := by
  obtain ⟨c, st, c1, e, _, _, hr | hr | hr⟩ := validate_turn_cases h
  · rw [hr.2]; exact ⟨rfl, rfl, rfl⟩
  · rw [hr.2.2]; exact ⟨rfl, rfl, rfl⟩
  · rw [hr.2.2]; exact ⟨rfl, rfl, rfl⟩

theorem validate_same_clock {it it1 : muxer_msg_iter} {st : bt_message_iterator_status}
    (h : validate_muxer_upstream_msg_iters it = some (st, it1)) : same_clock it it1 :=
  validate_loop_induct same_clock (fun _ => ⟨rfl, rfl, rfl⟩)
    (fun _ _ _ h1 h2 => ⟨h2.1.trans h1.1, h2.2.1.trans h1.2.1, h2.2.2.trans h1.2.2⟩)
    (fun _ _ _ ht => validate_turn_same_clock ht) _ _ _ _ _ h

theorem validate_loop_status :
    ∀ (fuel i : Nat) (it : muxer_msg_iter) (st : bt_message_iterator_status)
      (it1 : muxer_msg_iter),
      validate_muxer_upstream_msg_iters_loop fuel i it = some (st, it1) →
      st = .OK ∨ st = .AGAIN ∨ st = .ERROR := by
  intro fuel
  induction fuel with
  | zero =>
    intro i it st it1 h
    simp [validate_muxer_upstream_msg_iters_loop] at h
    exact Or.inl h.2.1.symm
  | succ n ih =>
    intro i it st it1 h
    rw [validate_muxer_upstream_msg_iters_loop] at h
    split_ifs at h with hi
    · split at h
      · simp at h
      · exact ih _ _ _ _ h
      · rename_i r ht
        simp at h; subst h
        obtain ⟨c, st0, c1, e, _, hv, hr | hr | hr⟩ := validate_turn_cases ht
        · simp at hr; obtain ⟨_, rfl, _⟩ := hr
          exact (validate_muxer_upstream_msg_iter_grown hv).2.1
        · simp at hr
        · simp at hr
    · simp at h; exact Or.inl h.1.symm

theorem do_next_one_cases {comp : muxer_comp} {it it' : muxer_msg_iter}
    {st : bt_message_iterator_status} {om : Option bt_message}
    (h : muxer_msg_iter_do_next_one comp it = some (st, om, it')) :
    ∃ sv it1, validate_muxer_upstream_msg_iters it = some (sv, it1) ∧
      ((sv ≠ .OK ∧ st = sv ∧ om = none ∧ it' = it1) ∨
        (sv = .OK ∧ ∃ sy it2 ch ts,
          muxer_msg_iter_youngest_upstream_msg_iter comp it1 = some (sy, it2, ch, ts) ∧
          ((sy ≠ .OK ∧ st = sy ∧ om = none ∧ it' = it2) ∨
            (sy = .OK ∧ ts < it2.last_returned_ts_ns ∧ st = .ERROR ∧ om = none ∧ it' = it2) ∨
            (sy = .OK ∧ it2.last_returned_ts_ns ≤ ts ∧ st = .OK ∧
              ∃ idx c msg rest, ch = some idx ∧
                it2.active_muxer_upstream_msg_iters[idx]? = some c ∧ c.msgs = msg :: rest ∧
                om = some msg ∧
                it' = { it2 with
                  active_muxer_upstream_msg_iters :=
                    it2.active_muxer_upstream_msg_iters.set idx { c with msgs := rest }
                  last_returned_ts_ns := ts })))) := by
  unfold muxer_msg_iter_do_next_one at h
  split at h
  · simp at h
  · rename_i sv it1 hv
    refine ⟨sv, it1, hv, ?_⟩
    split_ifs at h with hsv
    · left; simp at h; obtain ⟨rfl, rfl, rfl⟩ := h; exact ⟨hsv, rfl, rfl, rfl⟩
    · right
      simp at hsv
      refine ⟨hsv, ?_⟩
      split at h
      · simp at h
      · rename_i sy it2 ch ts hy
        refine ⟨sy, it2, ch, ts, hy, ?_⟩
        have hyy := (youngest_same_cursors hy).2.1
        split_ifs at h with h1 h2 h3
        · left
          simp at h; obtain ⟨rfl, rfl, rfl⟩ := h
          refine ⟨?_, rfl, rfl, rfl⟩
          rcases h1 with h1 | h1
          · intro hh; rw [hh] at h1; simp [bt_message_iterator_status.is_negative] at h1
          · rw [h1]; simp
        · right; left
          simp at h; obtain ⟨rfl, rfl, rfl⟩ := h
          refine ⟨?_, h2, rfl, rfl, rfl⟩
          rcases hyy with hh | hh | hh
          · exact hh
          · exact absurd (Or.inr hh) h1
          · exact absurd (Or.inl (by rw [hh]; rfl)) h1
        · right; right
          simp at h3
          refine ⟨h3, not_lt.mp h2, ?_⟩
          split at h
          · simp at h
          · rename_i idx
            split at h
            · simp at h
            · rename_i c hc
              split at h
              · simp at h
              · rename_i msg rest hm
                simp at h
                obtain ⟨rfl, rfl, rfl⟩ := h
                exact ⟨rfl, idx, c, msg, rest, rfl, hc, hm, rfl, rfl⟩

/-- A call of `next_one` that returns `OK` stores a timestamp not below
the previous one; a call that returns another status keeps it. -/
theorem do_next_one_last_ts {comp : muxer_comp} {it it' : muxer_msg_iter}
    {st : bt_message_iterator_status} {om : Option bt_message}
    (h : muxer_msg_iter_do_next_one comp it = some (st, om, it')) :
    (st = .OK → it.last_returned_ts_ns ≤ it'.last_returned_ts_ns) ∧
      (st ≠ .OK → it'.last_returned_ts_ns = it.last_returned_ts_ns) := by
  obtain ⟨sv, it1, hv, hc⟩ := do_next_one_cases h
  have h1 := (validate_same_clock hv).1
  rcases hc with ⟨hsv, rfl, rfl, rfl⟩ | ⟨rfl, sy, it2, ch, ts, hy, hc⟩
  · exact ⟨fun hh => absurd hh hsv, fun _ => h1⟩
  · have h2 := (youngest_same_cursors hy).1.2.2
    rcases hc with ⟨hsy, rfl, rfl, rfl⟩ | ⟨rfl, _, rfl, rfl, rfl⟩ |
        ⟨rfl, hle, rfl, idx, c, msg, rest, _, _, _, rfl, rfl⟩
    · exact ⟨fun hh => absurd hh hsy, fun _ => h2.trans h1⟩
    · exact ⟨fun hh => by simp at hh, fun _ => h2.trans h1⟩
    · refine ⟨fun _ => ?_, fun hh => absurd rfl hh⟩
      simp only
      rw [← h1, ← h2]; exact hle

/-- C1: over any sequence of `next_one` calls from any iterator state, the
timestamps stored in `last_returned_ts_ns` by the calls that return `OK`
form a non-decreasing sequence that starts at or above the value held
before the first call. -/
theorem C1_emitted_timestamps_non_decreasing (comp : muxer_comp) (n : Nat)
    (it : muxer_msg_iter) :
    List.Chain (· ≤ ·) it.last_returned_ts_ns (emitted_ts (next_one_calls comp n it)) := by
  induction n generalizing it with
  | zero => simp [next_one_calls, emitted_ts]
  | succ n ih =>
    rw [next_one_calls]
    split
    · simp [emitted_ts]
    · rename_i r hr
      obtain ⟨st, om, it'⟩ := r
      have hl := do_next_one_last_ts hr
      have ih' := ih it'
      by_cases hst : st = .OK
      · subst hst
        simp only [emitted_ts, List.filter_cons, decide_True, if_true, List.map_cons]
        exact List.Chain.cons (hl.1 rfl) ih'
      · simp only [emitted_ts, List.filter_cons, hst, decide_False]
        rw [← hl.2 hst]
        exact ih'

theorem set_perm_cons_eraseIdx {α : Type} (x : α) :
    ∀ (l : List α) (i : Nat), i < l.length → (l.set i x).Perm (x :: l.eraseIdx i) := by
  intro l
  induction l with
  | nil => intro i h; simp at h
  | cons a t ih =>
    intro i h
    cases i with
    | zero => simp
    | succ i =>
      simp only [List.set_cons_succ, List.eraseIdx_cons_succ]
      exact ((ih i (by simpa using h)).cons a).trans (List.Perm.swap x a _)

theorem perm_cons_eraseIdx_of_getElem? {α : Type} :
    ∀ (l : List α) (i : Nat) (c : α), l[i]? = some c → l.Perm (c :: l.eraseIdx i) := by
  intro l
  induction l with
  | nil => intro i c h; simp at h
  | cons a t ih =>
    intro i c h
    cases i with
    | zero => simp at h; subst h; simp
    | succ i =>
      simp only [List.getElem?_cons_succ] at h
      simp only [List.eraseIdx_cons_succ]
      exact ((ih i c h).cons a).trans (List.Perm.swap c a _)

theorem eraseIdx_set_self {α : Type} (x : α) :
    ∀ (l : List α) (i : Nat), (l.set i x).eraseIdx i = l.eraseIdx i := by
  intro l
  induction l with
  | nil => intro i; simp
  | cons a t ih =>
    intro i
    cases i with
    | zero => simp
    | succ i => simp [ih i]

theorem take_set_self {α : Type} (x : α) :
    ∀ (l : List α) (i : Nat), (l.set i x).take i = l.take i := by
  intro l
  induction l with
  | nil => intro i; simp
  | cons a t ih =>
    intro i
    cases i with
    | zero => simp
    | succ i => simp [ih i]

theorem remove_index_fast_perm {α : Type} (l : List α) (i : Nat) (h : i < l.length) :
    (g_ptr_array_remove_index_fast l i).Perm (l.eraseIdx i) := by
  unfold g_ptr_array_remove_index_fast
  have hne : l ≠ [] := by intro hh; simp [hh] at h
  obtain ⟨init, last, rfl⟩ : ∃ init last, l = init ++ [last] :=
    ⟨l.dropLast, l.getLast hne, (List.dropLast_append_getLast hne).symm⟩
  have hl : (init ++ [last]).getLast? = some last := by simp
  rw [hl]
  simp only [List.length_append, List.length_singleton] at h ⊢
  split_ifs with hi
  · have : i = init.length := by omega
    subst this
    simp [List.eraseIdx_append_of_length_le]
  · have hlt : i < init.length := by omega
    rw [List.set_append_left _ _ hlt, List.dropLast_concat,
      List.eraseIdx_append_of_lt_length hlt]
    exact (set_perm_cons_eraseIdx last init i hlt).trans
      (List.perm_append_singleton last (init.eraseIdx i)).symm

theorem remove_index_fast_take {α : Type} (l : List α) (i : Nat) (h : i < l.length) :
    (g_ptr_array_remove_index_fast l i).take i = l.take i := by
  unfold g_ptr_array_remove_index_fast
  have hne : l ≠ [] := by intro hh; simp [hh] at h
  obtain ⟨init, last, rfl⟩ : ∃ init last, l = init ++ [last] :=
    ⟨l.dropLast, l.getLast hne, (List.dropLast_append_getLast hne).symm⟩
  have hl : (init ++ [last]).getLast? = some last := by simp
  rw [hl]
  simp only [List.length_append, List.length_singleton] at h ⊢
  split_ifs with hi
  · have : i = init.length := by omega
    subst this
    simp
  · have hlt : i < init.length := by omega
    rw [List.set_append_left _ _ hlt, List.dropLast_concat, take_set_self,
      List.take_append_of_le_length (by omega)]

theorem remove_index_fast_length {α : Type} (l : List α) (i : Nat) (h : i < l.length) :
    (g_ptr_array_remove_index_fast l i).length + 1 = l.length := by
  have := (remove_index_fast_perm l i h).length_eq
  rw [this, List.length_eraseIdx]
  simp [h]; omega

/-- A turn of the validation loop validates one cursor `c` into `c1` and
keeps all the others: the cursors before and after it are `c :: others`
and `c1 :: others` up to their order. -/
theorem validate_turn_perm {i : Nat} {it : muxer_msg_iter}
    {r : (Nat × muxer_msg_iter) ⊕ (bt_message_iterator_status × muxer_msg_iter)}
    (h : validate_muxer_upstream_msg_iters_turn i it = some r) :
    ∃ c st c1 e others, validate_muxer_upstream_msg_iter c false = some (st, c1, e) ∧
      (all_cursors it).Perm (c :: others) ∧
      (all_cursors (turn_iter r)).Perm (c1 :: others) := by
  obtain ⟨c, st, c1, e, hc, hv, hr⟩ := validate_turn_cases h
  have hi : i < it.active_muxer_upstream_msg_iters.length := by
    by_contra hh
    rw [List.getElem?_eq_none (not_lt.mp hh)] at hc
    simp at hc
  refine ⟨c, st, c1, e,
    it.active_muxer_upstream_msg_iters.eraseIdx i ++ it.ended_muxer_upstream_msg_iters,
    hv, ?_, ?_⟩
  · unfold all_cursors
    exact (perm_cons_eraseIdx_of_getElem? _ i c hc).append_right _
  · have hset : ((it.active_muxer_upstream_msg_iters.set i c1) ++
        it.ended_muxer_upstream_msg_iters).Perm
        (c1 :: (it.active_muxer_upstream_msg_iters.eraseIdx i ++
          it.ended_muxer_upstream_msg_iters)) :=
      (set_perm_cons_eraseIdx c1 _ i hi).append_right _
    rcases hr with ⟨_, rfl⟩ | ⟨_, _, rfl⟩ | ⟨_, _, rfl⟩
    · exact hset
    · simp only [turn_iter, all_cursors]
      have hlen : i < (it.active_muxer_upstream_msg_iters.set i c1).length := by simpa using hi
      have h1 := remove_index_fast_perm (it.active_muxer_upstream_msg_iters.set i c1) i hlen
      rw [eraseIdx_set_self] at h1
      rw [← List.append_assoc]
      exact ((h1.append_right _).append_right _).trans
        (List.perm_append_singleton c1 _)
    · exact hset

theorem grown_refl (c : muxer_upstream_msg_iter) : grown c c := ⟨rfl, [], by simp⟩

theorem grown_trans {a b c : muxer_upstream_msg_iter} (h1 : grown a b) (h2 : grown b c) :
    grown a c := by
  obtain ⟨hi1, e1, hq1⟩ := h1
  obtain ⟨hi2, e2, hq2⟩ := h2
  exact ⟨hi2.trans hi1, e1 ++ e2, by rw [hq2, hq1, List.append_assoc]⟩

theorem validate_queues_kept {it it1 : muxer_msg_iter} {st : bt_message_iterator_status}
    (h : validate_muxer_upstream_msg_iters it = some (st, it1)) : queues_kept it it1 := by
  refine validate_loop_induct queues_kept (fun it c hc => ⟨c, hc, grown_refl c⟩) ?_ ?_
    _ _ _ _ _ h
  · intro a b c hab hbc x hx
    obtain ⟨y, hy, hxy⟩ := hab x hx
    obtain ⟨z, hz, hyz⟩ := hbc y hy
    exact ⟨z, hz, grown_trans hxy hyz⟩
  · intro i it r ht x hx
    obtain ⟨c, st, c1, e, others, hv, hp, hp1⟩ := validate_turn_perm ht
    have hx' := hp.mem_iff.mp hx
    rcases List.mem_cons.mp hx' with rfl | hmem
    · exact ⟨c1, hp1.mem_iff.mpr (List.mem_cons_self _ _),
        (validate_muxer_upstream_msg_iter_grown hv).1⟩
    · exact ⟨x, hp1.mem_iff.mpr (List.mem_cons_of_mem _ hmem), grown_refl x⟩

/-! ## Validation loop: turns -/

theorem validate_turn_lt {i : Nat} {it : muxer_msg_iter}
    {r : (Nat × muxer_msg_iter) ⊕ (bt_message_iterator_status × muxer_msg_iter)}
    (h : validate_muxer_upstream_msg_iters_turn i it = some r) :
    i < it.active_muxer_upstream_msg_iters.length := by
  obtain ⟨c, _, _, _, hc, _⟩ := validate_turn_cases h
  by_contra hh
  rw [List.getElem?_eq_none (not_lt.mp hh)] at hc
  simp at hc

/-- Each turn that goes on uses up one unit of "array length minus index". -/
theorem validate_turn_measure {i i1 : Nat} {it it1 : muxer_msg_iter}
    (h : validate_muxer_upstream_msg_iters_turn i it = some (Sum.inl (i1, it1))) :
    it1.active_muxer_upstream_msg_iters.length - i1 + 1 =
      it.active_muxer_upstream_msg_iters.length - i ∧
      i1 ≤ it1.active_muxer_upstream_msg_iters.length := by
  have hi := validate_turn_lt h
  obtain ⟨c, st, c1, e, _, _, hr | hr | hr⟩ := validate_turn_cases h
  · simp at hr
  · simp at hr
    obtain ⟨_, _, h1, h2⟩ := hr
    have hlen : i < (it.active_muxer_upstream_msg_iters.set i c1).length := by simpa using hi
    have := remove_index_fast_length _ i hlen
    rw [h2, h1]
    simp at this ⊢
    omega
  · simp at hr
    obtain ⟨_, _, h1, h2⟩ := hr
    rw [h2, h1]
    simp
    omega

theorem validate_turns_measure :
    ∀ (k i : Nat) (it : muxer_msg_iter) (j : Nat) (itj : muxer_msg_iter),
      validate_turns k i it = some (j, itj) →
      i ≤ it.active_muxer_upstream_msg_iters.length →
      itj.active_muxer_upstream_msg_iters.length - j + k =
        it.active_muxer_upstream_msg_iters.length - i ∧
        j ≤ itj.active_muxer_upstream_msg_iters.length := by
  intro k
  induction k with
  | zero =>
    intro i it j itj h hi
    simp [validate_turns] at h
    obtain ⟨rfl, rfl⟩ := h
    exact ⟨by simp, hi⟩
  | succ k ih =>
    intro i it j itj h hi
    rw [validate_turns] at h
    split at h
    · rename_i i1 it1 ht
      have hm := validate_turn_measure ht
      have := ih _ _ _ _ h hm.2
      exact ⟨by omega, this.2⟩
    · simp at h

/-- The loop run after `k` turns that go on is the loop run from the
point these turns reach. -/
theorem validate_loop_after_turns :
    ∀ (k i : Nat) (it : muxer_msg_iter) (j : Nat) (itj : muxer_msg_iter) (fuel : Nat),
      validate_turns k i it = some (j, itj) →
      validate_muxer_upstream_msg_iters_loop (fuel + k) i it =
        validate_muxer_upstream_msg_iters_loop fuel j itj := by
  intro k
  induction k with
  | zero =>
    intro i it j itj fuel h
    simp [validate_turns] at h
    obtain ⟨rfl, rfl⟩ := h
    rfl
  | succ k ih =>
    intro i it j itj fuel h
    rw [validate_turns] at h
    split at h
    · rename_i i1 it1 ht
      have hi := validate_turn_lt ht
      rw [← Nat.add_assoc, validate_muxer_upstream_msg_iters_loop]
      simp only [hi, if_true, ht]
      exact ih _ _ _ _ _ h
    · simp at h

/-- Validation of a cursor with an empty queue whose upstream answers `AGAIN`. -/
theorem validate_muxer_upstream_msg_iter_again {c : muxer_upstream_msg_iter}
    {u : upstream_iterator} (hq : c.msgs = []) (hu : c.msg_iter = some u)
    (ha : (bt_self_component_port_input_message_iterator_next u).1 = .AGAIN) :
    validate_muxer_upstream_msg_iter c false = some (.AGAIN, cursor_after_pull c u, false) := by
  unfold validate_muxer_upstream_msg_iter muxer_upstream_msg_iter_next cursor_after_pull
  simp only [hq, hu, List.length_nil, gt_iff_lt, lt_self_iff_false, Option.isNone_some,
    Bool.false_eq_true, or_self, if_false]
  generalize bt_self_component_port_input_message_iterator_next u = r at ha ⊢
  obtain ⟨s, msgs, u1⟩ := r
  simp only at ha
  subst ha
  rfl

/-- If the validation loop, after `k` turns that all go on, comes to a
cursor with an empty queue whose upstream answers `AGAIN`, then
`next_one` returns `AGAIN` without a message, and the iterator is the
one these turns reached, the upstream of that cursor having answered. -/
theorem do_next_one_again_of_turns (comp : muxer_comp) {it itj : muxer_msg_iter} {k j : Nat}
    {c : muxer_upstream_msg_iter} {u : upstream_iterator}
    (hk : validate_turns k 0 it = some (j, itj))
    (hc : itj.active_muxer_upstream_msg_iters[j]? = some c)
    (hq : c.msgs = []) (hu : c.msg_iter = some u)
    (ha : (bt_self_component_port_input_message_iterator_next u).1 = .AGAIN) :
    muxer_msg_iter_do_next_one comp it =
      some (.AGAIN, none,
        { itj with
          active_muxer_upstream_msg_iters :=
            itj.active_muxer_upstream_msg_iters.set j (cursor_after_pull c u) }) := by
  have hj : j < itj.active_muxer_upstream_msg_iters.length := by
    by_contra hh
    rw [List.getElem?_eq_none (not_lt.mp hh)] at hc
    simp at hc
  have hm := (validate_turns_measure k 0 it j itj hk (Nat.zero_le _)).1
  have hfuel : it.active_muxer_upstream_msg_iters.length =
      (itj.active_muxer_upstream_msg_iters.length - j - 1 + 1) + k := by omega
  have hv : validate_muxer_upstream_msg_iters it =
      some (.AGAIN,
        { itj with
          active_muxer_upstream_msg_iters :=
            itj.active_muxer_upstream_msg_iters.set j (cursor_after_pull c u) }) := by
    unfold validate_muxer_upstream_msg_iters
    rw [hfuel, validate_loop_after_turns k 0 it j itj _ hk,
      validate_muxer_upstream_msg_iters_loop]
    simp only [hj, if_true]
    unfold validate_muxer_upstream_msg_iters_turn
    simp [hc, validate_muxer_upstream_msg_iter_again hq hu ha]
  unfold muxer_msg_iter_do_next_one
  simp [hv]

/-! ## Loop of `next` -/

theorem do_next_loop_acc (comp : muxer_comp) :
    ∀ (k : Nat) (it : muxer_msg_iter) (acc : List bt_message)
      (st : bt_message_iterator_status) (msgs : List bt_message) (it1 : muxer_msg_iter),
      muxer_msg_iter_do_next_loop comp k it acc = some (st, msgs, it1) →
      ∃ more, msgs = acc ++ more ∧ more.length ≤ k ∧ (st = .OK → more.length = k) := by
  intro k
  induction k with
  | zero =>
    intro it acc st msgs it1 h
    simp [muxer_msg_iter_do_next_loop] at h
    obtain ⟨_, rfl, _⟩ := h
    exact ⟨[], by simp⟩
  | succ k ih =>
    intro it acc st msgs it1 h
    rw [muxer_msg_iter_do_next_loop] at h
    split at h
    · simp at h
    · rename_i msg it2 hn
      obtain ⟨more, hm, hl, hs⟩ := ih _ _ _ _ _ h
      refine ⟨msg :: more, by simp [hm], by simp; omega, fun hh => by simp [hs hh]⟩
    · simp at h
    · rename_i st0 om it0 hne1 hne2 hn
      simp at h
      obtain ⟨rfl, rfl, rfl⟩ := h
      refine ⟨[], by simp, by simp, ?_⟩
      intro hh
      subst hh
      cases om <;> simp_all

/-- A call of `next` that returns a status other than `OK` made exactly
one call of `next_one`, which returned that status. -/
theorem do_next_not_ok {comp : muxer_comp} {it it1 : muxer_msg_iter} {capacity : Nat}
    {st : bt_message_iterator_status} {msgs : List bt_message}
    (h : muxer_msg_iter_do_next comp it capacity = some (st, msgs, it1)) (hst : st ≠ .OK) :
    msgs = [] ∧ muxer_msg_iter_do_next_one comp it = some (st, none, it1) := by
  unfold muxer_msg_iter_do_next at h
  split at h
  · simp at h
  · rename_i st0 msgs0 it0 hl
    split_ifs at h with hlen
    · simp at h; exact absurd h.1.symm hst
    · simp at h
      obtain ⟨rfl, rfl, rfl⟩ := h
      have hnil : msgs0 = [] := by
        cases msgs0 with
        | nil => rfl
        | cons a t => simp at hlen
      subst hnil
      refine ⟨rfl, ?_⟩
      cases capacity with
      | zero => simp [muxer_msg_iter_do_next_loop] at hl; exact absurd hl.1.symm hst
      | succ k =>
        rw [muxer_msg_iter_do_next_loop] at hl
        split at hl
        · simp at hl
        · obtain ⟨more, hm, _⟩ := do_next_loop_acc comp _ _ _ _ _ _ hl
          simp at hm
        · simp at hl
        · rename_i st1 om it2 _ _ hn
          simp at hl
          obtain ⟨rfl, rfl⟩ := hl
          obtain ⟨sv, itv, _, hc⟩ := do_next_one_cases hn
          have hom : om = none := by
            rcases hc with ⟨_, _, h1, _⟩ | ⟨_, _, _, _, _, _, hc⟩
            · exact h1
            · rcases hc with ⟨_, _, h1, _⟩ | ⟨_, _, _, h1, _⟩ | ⟨_, _, h1, _⟩
              · exact h1
              · exact h1
              · exact absurd h1 hst
          rw [hn, hom]

/-- A call of `next` with room for one message at least returns what a
first `next_one` that does not return `OK` returns. -/
theorem do_next_of_do_next_one_not_ok {comp : muxer_comp} {it it1 : muxer_msg_iter}
    {capacity : Nat} {st : bt_message_iterator_status} {om : Option bt_message}
    (h : muxer_msg_iter_do_next_one comp it = some (st, om, it1)) (hst : st ≠ .OK)
    (hc : 1 ≤ capacity) :
    muxer_msg_iter_do_next comp it capacity = some (st, [], it1) := by
  obtain ⟨k, rfl⟩ : ∃ k, capacity = k + 1 := ⟨capacity - 1, by omega⟩
  unfold muxer_msg_iter_do_next
  rw [muxer_msg_iter_do_next_loop, h]
  cases st <;> simp at hst ⊢

/-- C7: with an empty active array (no connected input), a call of `next`
with a capacity of one or more returns `END`, writes no message and
leaves the iterator as it is. -/
theorem C7_no_input_returns_end (comp : muxer_comp) (it : muxer_msg_iter) (capacity : Nat)
    (h : it.active_muxer_upstream_msg_iters = []) (hc : 1 ≤ capacity) :
    muxer_msg_iter_do_next comp it capacity = some (.END, [], it) := by
  have hone : muxer_msg_iter_do_next_one comp it = some (.END, none, it) := by
    unfold muxer_msg_iter_do_next_one validate_muxer_upstream_msg_iters
    simp [h, validate_muxer_upstream_msg_iters_loop,
      muxer_msg_iter_youngest_upstream_msg_iter, youngest_loop]
  exact do_next_of_do_next_one_not_ok hone (by simp) hc

/-- Witness of C7: a fresh iterator without cursor, capacity 4. -/
theorem C7_no_input_returns_end_witness :
    (initial_iter []).active_muxer_upstream_msg_iters = [] ∧ 1 ≤ 4 ∧
      muxer_msg_iter_do_next sample_comp (initial_iter []) 4 =
        some (.END, [], initial_iter []) :=
  ⟨rfl, by decide, C7_no_input_returns_end sample_comp (initial_iter []) 4 rfl (by decide)⟩

/-- C8: if the validation loop, after `k` turns in which no validated
cursor gave a status other than `OK`, comes to an active cursor `c` with
an empty queue whose upstream answers `AGAIN` to the pull, then
`next_one` returns `AGAIN` and emits no message, whatever the other
active cursors hold in their queues. -/
theorem C8_again_propagates (comp : muxer_comp) (it itj : muxer_msg_iter) (k j : Nat)
    (c : muxer_upstream_msg_iter) (u : upstream_iterator)
    (hk : validate_turns k 0 it = some (j, itj))
    (hc : itj.active_muxer_upstream_msg_iters[j]? = some c)
    (hq : c.msgs = []) (hu : c.msg_iter = some u)
    (ha : (bt_self_component_port_input_message_iterator_next u).1 = .AGAIN) :
    muxer_msg_iter_do_next_one comp it =
      some (.AGAIN, none,
        { itj with
          active_muxer_upstream_msg_iters :=
            itj.active_muxer_upstream_msg_iters.set j (cursor_after_pull c u) }) :=
  do_next_one_again_of_turns comp hk hc hq hu ha

/-- Witness of C8, the scenario "Again propagation": A is empty and
answers `AGAIN`, B holds a message at 5; the first `next_one` returns
`AGAIN`, not the message of B. -/
theorem C8_again_propagates_witness :
    validate_turns 0 0 again_iter = some (0, again_iter) ∧
      again_iter.active_muxer_upstream_msg_iters[0]? =
        some (sample_cursor 0 [(.AGAIN, [])] []) ∧
      (again_iter.active_muxer_upstream_msg_iters.map (·.msgs)) = [[], [sample_event 1 5]] ∧
      muxer_msg_iter_do_next_one sample_comp again_iter =
        some (.AGAIN, none,
          { again_iter with
            active_muxer_upstream_msg_iters :=
              again_iter.active_muxer_upstream_msg_iters.set 0
                (cursor_after_pull (sample_cursor 0 [(.AGAIN, [])] [])
                  (sample_upstream 0 [(.AGAIN, [])])) }) :=
  ⟨rfl, rfl, rfl,
    C8_again_propagates sample_comp again_iter again_iter 0 0
      (sample_cursor 0 [(.AGAIN, [])] []) (sample_upstream 0 [(.AGAIN, [])]) rfl rfl rfl rfl rfl⟩

/-- C9: when `next_one`, or `next`, returns `AGAIN`, it hands out no
message, no message was popped from any queue (every cursor is still
there, its queue extended at the tail at most), and the last returned
timestamp and the clock expectation are those of before the call. -/
theorem C9_again_commits_nothing (comp : muxer_comp) (it it1 : muxer_msg_iter) :
    (∀ om, muxer_msg_iter_do_next_one comp it = some (.AGAIN, om, it1) →
        om = none ∧ queues_kept it it1 ∧ same_clock it it1) ∧
      (∀ capacity msgs, muxer_msg_iter_do_next comp it capacity = some (.AGAIN, msgs, it1) →
        msgs = [] ∧ queues_kept it it1 ∧ same_clock it it1) := by
  have hone : ∀ om, muxer_msg_iter_do_next_one comp it = some (.AGAIN, om, it1) →
      om = none ∧ queues_kept it it1 ∧ same_clock it it1 := by
    intro om h
    obtain ⟨sv, itv, hv, hc⟩ := do_next_one_cases h
    rcases hc with ⟨_, rfl, rfl, rfl⟩ | ⟨_, sy, it2, ch, ts, hy, hc⟩
    · exact ⟨rfl, validate_queues_kept hv, validate_same_clock hv⟩
    · have hst := (youngest_same_cursors hy).2.1
      rcases hc with ⟨_, rfl, _⟩ | ⟨_, _, h1, _⟩ | ⟨_, _, h1, _⟩
      · simp at hst
      · simp at h1
      · simp at h1
  refine ⟨hone, ?_⟩
  intro capacity msgs h
  obtain ⟨hm, h1⟩ := do_next_not_ok h (by simp)
  exact ⟨hm, (hone none h1).2⟩

/-- Witness of C9: in the scenario "Again propagation" both `next_one`
and `next` return `AGAIN`; the message of B stays in its queue. -/
theorem C9_again_commits_nothing_witness :
    muxer_msg_iter_do_next_one sample_comp again_iter =
        some (.AGAIN, none, again_iter_after) ∧
      muxer_msg_iter_do_next sample_comp again_iter 4 = some (.AGAIN, [], again_iter_after) ∧
      queues_kept again_iter again_iter_after ∧ same_clock again_iter again_iter_after :=
  ⟨by decide, by decide,
    ((C9_again_commits_nothing sample_comp again_iter again_iter_after).1 none
      (by decide)).2⟩

theorem muxer_msg_iter_eta (it : muxer_msg_iter) :
    { it with active_muxer_upstream_msg_iters := it.active_muxer_upstream_msg_iters } = it := by
  cases it; rfl

theorem set_of_getElem? {α : Type} :
    ∀ (l : List α) (i : Nat) (p : α), l[i]? = some p → l.set i p = l := by
  intro l
  induction l with
  | nil => intro i p h; simp at h
  | cons a t ih =>
    intro i p h
    cases i with
    | zero => simp at h; simp [h]
    | succ i => simp at h; simp [ih i p h]

theorem validate_muxer_upstream_msg_iter_ready {c : muxer_upstream_msg_iter} (e : Bool)
    (h : c.msgs ≠ [] ∨ c.msg_iter = none) :
    validate_muxer_upstream_msg_iter c e = some (.OK, c, e) := by
  unfold validate_muxer_upstream_msg_iter
  have : c.msgs.length > 0 ∨ c.msg_iter.isNone = true := by
    rcases h with h | h
    · exact Or.inl (List.length_pos.mpr h)
    · exact Or.inr (by simp [h])
  simp only [this, if_true]

/-- Turns over cursors that need no pull leave the iterator as it is. -/
theorem validate_turns_ready :
    ∀ (k i : Nat) (it : muxer_msg_iter),
      (∀ j, i ≤ j → j < i + k →
        ∃ p, it.active_muxer_upstream_msg_iters[j]? = some p ∧
          (p.msgs ≠ [] ∨ p.msg_iter = none)) →
      validate_turns k i it = some (i + k, it) := by
  intro k
  induction k with
  | zero => intro i it _; rfl
  | succ k ih =>
    intro i it h
    obtain ⟨p, hp, hr⟩ := h i (le_refl i) (by omega)
    have hi : i < it.active_muxer_upstream_msg_iters.length := by
      by_contra hh
      rw [List.getElem?_eq_none (not_lt.mp hh)] at hp
      simp at hp
    have hset : it.active_muxer_upstream_msg_iters.set i p =
        it.active_muxer_upstream_msg_iters := set_of_getElem? _ i p hp
    have ht : validate_muxer_upstream_msg_iters_turn i it = some (Sum.inl (i + 1, it)) := by
      unfold validate_muxer_upstream_msg_iters_turn
      simp [hp, validate_muxer_upstream_msg_iter_ready false hr, hset, muxer_msg_iter_eta]
    rw [validate_turns, ht]
    simp only
    rw [ih (i + 1) it (fun j h1 h2 => h j (by omega) (by omega))]
    congr 2
    omega

/-- C10, amended: when the cursor whose upstream answers `AGAIN` is the
first one that has to pull (every cursor before it in the active array
holds messages, or has no iterator), a call of `next` with a capacity of
one or more returns `AGAIN` without a message, and the active set, the
ended set, every queue, the last returned timestamp and the clock
expectation after the call are those of before the call. -/
theorem C10_again_first_pull_keeps_state (comp : muxer_comp) (it : muxer_msg_iter)
    (capacity : Nat) (before : List muxer_upstream_msg_iter) (c : muxer_upstream_msg_iter)
    (after : List muxer_upstream_msg_iter) (u : upstream_iterator)
    (hact : it.active_muxer_upstream_msg_iters = before ++ c :: after)
    (hbefore : ∀ p ∈ before, p.msgs ≠ [] ∨ p.msg_iter = none)
    (hq : c.msgs = []) (hu : c.msg_iter = some u)
    (ha : (bt_self_component_port_input_message_iterator_next u).1 = .AGAIN)
    (hcap : 1 ≤ capacity) :
    ∃ it1, muxer_msg_iter_do_next comp it capacity = some (.AGAIN, [], it1) ∧
      iter_view it1 = iter_view it := by
  have hk : validate_turns before.length 0 it = some (before.length, it) := by
    have := validate_turns_ready before.length 0 it (by
      intro j _ hj
      have hj' : j < before.length := by omega
      refine ⟨before[j], ?_, hbefore _ (List.getElem_mem hj')⟩
      rw [hact, List.getElem?_append_left hj', List.getElem?_eq_getElem hj'])
    simpa using this
  have hc : it.active_muxer_upstream_msg_iters[before.length]? = some c := by
    rw [hact, List.getElem?_append_right (le_refl _)]; simp
  have hone := do_next_one_again_of_turns comp hk hc hq hu ha
  refine ⟨_, do_next_of_do_next_one_not_ok hone (by simp) hcap, ?_⟩
  have hview : cursor_view (cursor_after_pull c u) = cursor_view c := by
    simp [cursor_view, cursor_after_pull, hu, upstream_next_id]
  simp only [iter_view, Prod.mk.injEq, and_true]
  rw [hact]
  simp [hview]

/-- Witness of C10, amended: in the scenario "Again propagation" A
answers `AGAIN` to the first pull of the call. -/
theorem C10_again_first_pull_keeps_state_witness :
    ∃ it1, muxer_msg_iter_do_next sample_comp again_iter 4 = some (.AGAIN, [], it1) ∧
      iter_view it1 = iter_view again_iter :=
  C10_again_first_pull_keeps_state sample_comp again_iter 4 []
    (sample_cursor 0 [(.AGAIN, [])] []) [sample_cursor 1 [] [sample_event 1 5]]
    (sample_upstream 0 [(.AGAIN, [])]) rfl (by simp) rfl rfl rfl (by decide)

/-- C10 as stated fails: A is empty and delivers one message at 5, B is
empty and answers `AGAIN`.  The call of `next` returns `AGAIN`, yet the
queue of A now holds the pulled message: the state is not the one of
before the call. -/
theorem C10_state_changes_on_again :
    muxer_msg_iter_do_next sample_comp pulled_then_again_iter 4 =
        some (.AGAIN, [], pulled_then_again_iter_after) ∧
      iter_view pulled_then_again_iter_after ≠ iter_view pulled_then_again_iter := by
  constructor
  · decide
  · decide

theorem youngest_ok_spec {comp : muxer_comp} {it it1 : muxer_msg_iter} {ch : Option Nat}
    {ts : Int}
    (h : muxer_msg_iter_youngest_upstream_msg_iter comp it = some (.OK, it1, ch, ts)) :
    ∃ idx, ch = some idx ∧
      head_ts_in_loop comp it.active_muxer_upstream_msg_iters it idx = some ts ∧
      (∀ j t, head_ts_in_loop comp it.active_muxer_upstream_msg_iters it j = some t →
        ts ≤ t ∧ (idx < j → ts < t)) ∧
      youngest_loop comp it.active_muxer_upstream_msg_iters 0 it none INT64_MAX =
        some (.OK, it1, ch, ts) := by
  unfold muxer_msg_iter_youngest_upstream_msg_iter at h
  split at h
  · simp at h
  · simp at h
  · rename_i r hnot hl
    simp at h
    subst h
    obtain ⟨hall, _, hcase⟩ := youngest_loop_spec comp _ _ _ _ _ _ _ _ hl
    rcases hcase with ⟨h1, _, _⟩ | ⟨k, h1, h2, h3⟩
    · subst h1
      exact absurd rfl (hnot it1 ts)
    · refine ⟨k, by simpa using h1, h2, ?_, hl⟩
      intro j t hj
      exact ⟨hall j t hj, fun hlt => h3 j t hlt hj⟩

theorem head_ts_in_loop_beyond (comp : muxer_comp) :
    ∀ (l : List muxer_upstream_msg_iter) (s : muxer_msg_iter) (n : Nat),
      l.length ≤ n → head_ts_in_loop comp l s n = none := by
  intro l
  induction l with
  | nil => intro s n _; simp [head_ts_in_loop]
  | cons a t ih =>
    intro s n hn
    simp only [List.length_cons] at hn
    have hn0 : n ≠ 0 := by omega
    have hn1 : t.length ≤ n - 1 := by omega
    rw [head_ts_in_loop]
    split
    · simp [hn0, ih _ _ hn1]
    · split
      · rfl
      · split
        · rfl
        · split_ifs
          · rfl
          · exact ih _ _ hn1

/-- C3: when `muxer_msg_iter_youngest_upstream_msg_iter` returns `OK`
over active cursors that all have an iterator, it designates a cursor
`idx`, and the timestamp it returns is the one `get_msg_ts_ns` computed
for the head of that cursor and is the minimum of the timestamps
`get_msg_ts_ns` computed for the heads of the active cursors.  The
timestamps are those computed in the loop (`head_ts_in_loop`); once the
clock expectation has left `ANY` they are `get_msg_ts_ns` of the head in
the state of the call. -/
theorem C3_youngest_is_minimum (comp : muxer_comp) (it it1 : muxer_msg_iter)
    (ch : Option Nat) (ts : Int)
    (h : muxer_msg_iter_youngest_upstream_msg_iter comp it = some (.OK, it1, ch, ts))
    (hlive : ∀ c ∈ it.active_muxer_upstream_msg_iters, c.msg_iter.isSome) :
    ∃ idx, ch = some idx ∧ idx < it.active_muxer_upstream_msg_iters.length ∧
      head_ts_in_loop comp it.active_muxer_upstream_msg_iters it idx = some ts ∧
      (∀ j, j < it.active_muxer_upstream_msg_iters.length →
        ∃ t, head_ts_in_loop comp it.active_muxer_upstream_msg_iters it j = some t ∧ ts ≤ t) ∧
      (it.clock_class_expectation ≠ .ANY →
        ∀ j t, head_ts_in_loop comp it.active_muxer_upstream_msg_iters it j = some t →
          ∃ c msg, it.active_muxer_upstream_msg_iters[j]? = some c ∧
            c.msgs.head? = some msg ∧
            get_msg_ts_ns it msg it.last_returned_ts_ns = some (.ok t)) := by
  obtain ⟨idx, hch, hts, hall, hl⟩ := youngest_ok_spec h
  refine ⟨idx, hch, ?_, hts, ?_, ?_⟩
  · by_contra hge
    rw [head_ts_in_loop_beyond comp _ _ _ (not_lt.mp hge)] at hts
    simp at hts
  · intro j hj
    obtain ⟨t, ht⟩ := youngest_loop_head_ts_defined comp _ _ _ _ _ _ _ _ hl j
      it.active_muxer_upstream_msg_iters[j] (List.getElem?_eq_getElem hj)
      (hlive _ (List.getElem_mem hj))
    exact ⟨t, ht, (hall j t ht).1⟩
  · intro hne j t hj
    exact head_ts_in_loop_locked comp _ _ _ _ hne hj

/-- Witness of C3: heads at 30 and 20; the second cursor is designated,
with timestamp 20. -/
theorem C3_youngest_is_minimum_witness :
    muxer_msg_iter_youngest_upstream_msg_iter sample_comp two_heads_iter =
        some (.OK, two_heads_iter, some 1, 20) ∧
      ∃ idx, some 1 = some idx ∧ idx < two_heads_iter.active_muxer_upstream_msg_iters.length ∧
        head_ts_in_loop sample_comp two_heads_iter.active_muxer_upstream_msg_iters
          two_heads_iter idx = some 20 ∧
        (∀ j, j < two_heads_iter.active_muxer_upstream_msg_iters.length →
          ∃ t, head_ts_in_loop sample_comp two_heads_iter.active_muxer_upstream_msg_iters
            two_heads_iter j = some t ∧ 20 ≤ t) ∧
        (two_heads_iter.clock_class_expectation ≠ .ANY →
          ∀ j t, head_ts_in_loop sample_comp two_heads_iter.active_muxer_upstream_msg_iters
              two_heads_iter j = some t →
            ∃ c msg, two_heads_iter.active_muxer_upstream_msg_iters[j]? = some c ∧
              c.msgs.head? = some msg ∧
              get_msg_ts_ns two_heads_iter msg two_heads_iter.last_returned_ts_ns =
                some (.ok t)) :=
  ⟨by decide,
    C3_youngest_is_minimum sample_comp two_heads_iter two_heads_iter (some 1) 20 (by decide)
      (by decide)⟩

/-- C4, amended: when `next_one` emits a message, it is the head of a
cursor `idx` of the validated active array whose timestamp is minimal,
and every cursor after `idx` in the array has a strictly larger
timestamp: among the cursors whose heads share the minimal timestamp, the
one that comes last in the iteration order of the active array wins. -/
theorem C4_tie_last_cursor_wins (comp : muxer_comp) (it it' : muxer_msg_iter)
    (msg : bt_message)
    (h : muxer_msg_iter_do_next_one comp it = some (.OK, some msg, it')) :
    ∃ it1 idx c rest, validate_muxer_upstream_msg_iters it = some (.OK, it1) ∧
      it1.active_muxer_upstream_msg_iters[idx]? = some c ∧ c.msgs = msg :: rest ∧
      it'.active_muxer_upstream_msg_iters =
        it1.active_muxer_upstream_msg_iters.set idx { c with msgs := rest } ∧
      head_ts_in_loop comp it1.active_muxer_upstream_msg_iters it1 idx =
        some it'.last_returned_ts_ns ∧
      (∀ j t, head_ts_in_loop comp it1.active_muxer_upstream_msg_iters it1 j = some t →
        it'.last_returned_ts_ns ≤ t ∧ (idx < j → it'.last_returned_ts_ns < t)) := by
  obtain ⟨sv, it1, hv, hc⟩ := do_next_one_cases h
  rcases hc with ⟨hsv, hh, _⟩ | ⟨rfl, sy, it2, ch, ts, hy, hc⟩
  · exact absurd hh.symm hsv
  · rcases hc with ⟨hsy, hh, _⟩ | ⟨_, _, hh, _⟩ | ⟨rfl, _, _, idx, c, m, rest, rfl, hc, hm, hom, rfl⟩
    · exact absurd hh.symm hsy
    · simp at hh
    · obtain ⟨idx', hch, hts, hall, _⟩ := youngest_ok_spec hy
      simp at hch; subst hch
      simp at hom; subst hom
      have hsame := (youngest_same_cursors hy).1.1
      rw [hsame] at hc
      exact ⟨it1, idx, c, rest, hv, hc, hm, by simp [hsame], hts, hall⟩

/-- Witness of C4, amended: in the scenario "Tie on timestamp" the first
`next_one` emits the event at 10 of B (object 3), the cursor added last. -/
theorem C4_tie_last_cursor_wins_witness :
    muxer_msg_iter_do_next_one sample_comp tie_iter =
        some (.OK, some (sample_event 3 10), tie_iter_after) ∧
      ∃ it1 idx c rest, validate_muxer_upstream_msg_iters tie_iter = some (.OK, it1) ∧
        it1.active_muxer_upstream_msg_iters[idx]? = some c ∧
        c.msgs = sample_event 3 10 :: rest ∧
        tie_iter_after.active_muxer_upstream_msg_iters =
          it1.active_muxer_upstream_msg_iters.set idx { c with msgs := rest } ∧
        head_ts_in_loop sample_comp it1.active_muxer_upstream_msg_iters it1 idx =
          some tie_iter_after.last_returned_ts_ns ∧
        (∀ j t, head_ts_in_loop sample_comp it1.active_muxer_upstream_msg_iters it1 j =
            some t →
          tie_iter_after.last_returned_ts_ns ≤ t ∧
            (idx < j → tie_iter_after.last_returned_ts_ns < t)) :=
  ⟨by decide,
    C4_tie_last_cursor_wins sample_comp tie_iter tie_iter_after (sample_event 3 10)
      (by decide)⟩

/-- C4 as stated fails: in the scenario "Tie on timestamp" (A = [10, 30]
added before B = [10, 20]) the muxer emits the event at 10 of B first,
then the one of A: the objects come out in the order 3, 1, 4, 2 and not
in the order 1, 3, 4, 2 of a first-added-wins rule. -/
theorem C4_first_added_does_not_win :
    (drain sample_comp 4 8 tie_iter).map (fun r => (r.1, r.2.1.map (·.addr))) =
        some (.END, [3, 1, 4, 2]) ∧
      (drain sample_comp 4 8 tie_iter).map (fun r => r.2.1.map (·.addr)) ≠
        some [1, 3, 4, 2] := by
  constructor <;> decide

theorem validate_muxer_upstream_msg_iter_stream {c c1 : muxer_upstream_msg_iter} {e e1 : Bool}
    {st : bt_message_iterator_status}
    (h : validate_muxer_upstream_msg_iter c e = some (st, c1, e1)) :
    cursor_id c1 = cursor_id c ∧ cursor_stream c1 = cursor_stream c := by
  have hg := (validate_muxer_upstream_msg_iter_grown h).1.1
  refine ⟨hg, ?_⟩
  unfold validate_muxer_upstream_msg_iter at h
  split_ifs at h with hv
  · simp at h; obtain ⟨_, rfl, _⟩ := h; rfl
  · obtain ⟨u, hu, hu1, hc⟩ := muxer_upstream_msg_iter_next_cases h
    unfold cursor_stream
    rw [hu, hu1]
    simp only
    have hnext : ∀ s b rest, u.pending = (s, b) :: rest →
        bt_self_component_port_input_message_iterator_next u = (s, b, { u with pending := rest }) := by
      intro s b rest hp
      unfold bt_self_component_port_input_message_iterator_next
      rw [hp]
    have hnil : u.pending = [] →
        bt_self_component_port_input_message_iterator_next u = (.END, [], u) := by
      intro hp
      unfold bt_self_component_port_input_message_iterator_next
      rw [hp]
    cases hp : u.pending with
    | nil =>
      rw [hnil hp] at hc ⊢
      simp at hc
      rw [hc.2.2]
    | cons a rest =>
      obtain ⟨s, b⟩ := a
      rw [hnext s b rest hp] at hc ⊢
      simp only at hc ⊢
      rcases hc with ⟨rfl, _, _, _, hq⟩ | ⟨rfl, _, _, hq⟩ | ⟨rfl, _, _, hq⟩ | ⟨hs, _, _, hq⟩
      · rw [hq]; simp [upstream_messages, hp]
      · rw [hq]; simp [upstream_messages, hp]
      · rw [hq]; simp [upstream_messages, hp]
      · rw [hq]
        rcases hs with rfl | rfl <;> simp [upstream_messages, hp]

/-- The validation loop keeps every cursor, with its identity and its sequence. -/
theorem validate_keys_perm {it it1 : muxer_msg_iter} {st : bt_message_iterator_status}
    (h : validate_muxer_upstream_msg_iters it = some (st, it1)) :
    ((all_cursors it1).map (fun c => (cursor_id c, cursor_stream c))).Perm
      ((all_cursors it).map (fun c => (cursor_id c, cursor_stream c))) := by
  refine validate_loop_induct
    (fun a b => ((all_cursors b).map (fun c => (cursor_id c, cursor_stream c))).Perm
      ((all_cursors a).map (fun c => (cursor_id c, cursor_stream c))))
    (fun _ => List.Perm.refl _) (fun _ _ _ h1 h2 => h2.trans h1) ?_ _ _ _ _ _ h
  intro i it r ht
  obtain ⟨c, st, c1, e, others, hv, hp, hp1⟩ := validate_turn_perm ht
  have hk := validate_muxer_upstream_msg_iter_stream hv
  have h1 := hp1.map (fun c => (cursor_id c, cursor_stream c))
  have h2 := hp.map (fun c => (cursor_id c, cursor_stream c))
  simp only [List.map_cons] at h1 h2
  rw [hk.1, hk.2] at h1
  exact h1.trans h2.symm

theorem emitted_from_nil (i : Option Nat) : emitted_from [] [] i = [] := rfl

theorem emitted_from_append (l1 l2 : List (Option Nat)) (o1 o2 : List bt_message)
    (h : l1.length = o1.length) (i : Option Nat) :
    emitted_from (l1 ++ l2) (o1 ++ o2) i = emitted_from l1 o1 i ++ emitted_from l2 o2 i := by
  unfold emitted_from
  rw [List.zip_append h, List.filter_append, List.map_append]

theorem fifo_run_ids {it it1 : muxer_msg_iter} {out : List bt_message}
    (h : fifo_run it out it1) : (cursor_ids it1).Perm (cursor_ids it) := by
  obtain ⟨labels, _, _, hp⟩ := h
  have := hp.map Prod.fst
  simpa [cursor_ids, List.map_map, Function.comp_def] using this

theorem fifo_run_of_perm {it it1 : muxer_msg_iter}
    (h : ((all_cursors it1).map (fun c => (cursor_id c, cursor_stream c))).Perm
      ((all_cursors it).map (fun c => (cursor_id c, cursor_stream c)))) :
    fifo_run it [] it1 :=
  ⟨[], rfl, by simp, by simpa [emitted_from_nil] using h⟩

theorem fifo_run_trans {a b c : muxer_msg_iter} {o1 o2 : List bt_message}
    (h1 : fifo_run a o1 b) (h2 : fifo_run b o2 c) : fifo_run a (o1 ++ o2) c := by
  have hids := fifo_run_ids h1
  obtain ⟨l1, hl1, hm1, hp1⟩ := h1
  obtain ⟨l2, hl2, hm2, hp2⟩ := h2
  refine ⟨l1 ++ l2, by simp [hl1, hl2], ?_, ?_⟩
  · intro l hl
    rcases List.mem_append.mp hl with h | h
    · exact hm1 l h
    · exact hids.mem_iff.mp (hm2 l h)
  · have hg := hp2.map (fun p : Option Nat × List bt_message =>
      (p.1, emitted_from l1 o1 p.1 ++ p.2))
    simp only [List.map_map, Function.comp_def] at hg
    have hfun : (fun c => (cursor_id c,
        emitted_from (l1 ++ l2) (o1 ++ o2) (cursor_id c) ++ cursor_stream c)) =
        (fun c => (cursor_id c,
          emitted_from l1 o1 (cursor_id c) ++ (emitted_from l2 o2 (cursor_id c) ++
            cursor_stream c))) := by
      funext x
      rw [emitted_from_append l1 l2 o1 o2 hl1, List.append_assoc]
    rw [hfun]
    exact hg.trans hp1

/-- Popping the head of one cursor, the identities being distinct. -/
theorem fifo_run_pop {it : muxer_msg_iter} {idx : Nat} {c : muxer_upstream_msg_iter}
    {msg : bt_message} {rest : List bt_message} (ts : Int)
    (hid : (cursor_ids it).Nodup)
    (hc : it.active_muxer_upstream_msg_iters[idx]? = some c) (hm : c.msgs = msg :: rest) :
    fifo_run it [msg]
      { it with
        active_muxer_upstream_msg_iters :=
          it.active_muxer_upstream_msg_iters.set idx { c with msgs := rest }
        last_returned_ts_ns := ts } := by
  have hi : idx < it.active_muxer_upstream_msg_iters.length := by
    by_contra hh
    rw [List.getElem?_eq_none (not_lt.mp hh)] at hc
    simp at hc
  let others := it.active_muxer_upstream_msg_iters.eraseIdx idx ++
    it.ended_muxer_upstream_msg_iters
  have hp : (all_cursors it).Perm (c :: others) :=
    (perm_cons_eraseIdx_of_getElem? _ idx c hc).append_right _
  have hp1 : (all_cursors
      { it with
        active_muxer_upstream_msg_iters :=
          it.active_muxer_upstream_msg_iters.set idx { c with msgs := rest }
        last_returned_ts_ns := ts }).Perm ({ c with msgs := rest } :: others) :=
    (set_perm_cons_eraseIdx _ _ idx hi).append_right _
  have hnd : (cursor_id c :: others.map cursor_id).Nodup := by
    have := (hp.map cursor_id).nodup_iff.mp hid
    simpa using this
  have hnot : ∀ x ∈ others, cursor_id x ≠ cursor_id c := by
    intro x hx heq
    have := (List.nodup_cons.mp hnd).1
    exact this (heq ▸ List.mem_map_of_mem cursor_id hx)
  refine ⟨[cursor_id c], by simp, ?_, ?_⟩
  · intro l hl
    simp at hl
    subst hl
    exact (hp.map cursor_id).mem_iff.mpr (by simp)
  · have h1 := hp1.map (fun x => (cursor_id x,
      emitted_from [cursor_id c] [msg] (cursor_id x) ++ cursor_stream x))
    have h2 := hp.map (fun x => (cursor_id x, cursor_stream x))
    refine h1.trans (List.Perm.trans ?_ h2.symm)
    simp only [List.map_cons]
    have hhead : (cursor_id { c with msgs := rest },
        emitted_from [cursor_id c] [msg] (cursor_id { c with msgs := rest }) ++
          cursor_stream { c with msgs := rest }) = (cursor_id c, cursor_stream c) := by
      simp [cursor_id, emitted_from, cursor_stream, hm]
    rw [hhead]
    have htail : others.map (fun x => (cursor_id x,
        emitted_from [cursor_id c] [msg] (cursor_id x) ++ cursor_stream x)) =
        others.map (fun x => (cursor_id x, cursor_stream x)) := by
      apply List.map_congr_left
      intro x hx
      have hne : ¬ (cursor_id c = cursor_id x) := fun h => hnot x hx h.symm
      simp [emitted_from, hne]
    rw [htail]

theorem all_cursors_of_same_cursors {it it1 : muxer_msg_iter} (h : same_cursors it it1) :
    all_cursors it1 = all_cursors it := by
  unfold all_cursors
  rw [h.1, h.2.1]

/-- One call of `next_one`, the identities of the cursors being distinct. -/
theorem do_next_one_fifo {comp : muxer_comp} {it it' : muxer_msg_iter}
    {st : bt_message_iterator_status} {om : Option bt_message}
    (hid : (cursor_ids it).Nodup)
    (h : muxer_msg_iter_do_next_one comp it = some (st, om, it')) :
    fifo_run it om.toList it' := by
  obtain ⟨sv, it1, hv, hc⟩ := do_next_one_cases h
  have hk := validate_keys_perm hv
  rcases hc with ⟨_, _, rfl, rfl⟩ | ⟨_, sy, it2, ch, ts, hy, hc⟩
  · exact fifo_run_of_perm hk
  · have hsame := (youngest_same_cursors hy).1
    have hall := all_cursors_of_same_cursors hsame
    have hk2 : ((all_cursors it2).map (fun c => (cursor_id c, cursor_stream c))).Perm
        ((all_cursors it).map (fun c => (cursor_id c, cursor_stream c))) := by
      rw [hall]; exact hk
    rcases hc with ⟨_, _, rfl, rfl⟩ | ⟨_, _, _, rfl, rfl⟩ |
        ⟨_, _, _, idx, c, msg, rest, _, hc, hm, rfl, rfl⟩
    · exact fifo_run_of_perm hk2
    · exact fifo_run_of_perm hk2
    · have h1 : fifo_run it [] it2 := fifo_run_of_perm hk2
      have hid2 : (cursor_ids it2).Nodup := (fifo_run_ids h1).nodup_iff.mpr hid
      have h2 := fifo_run_pop ts hid2 hc hm
      simpa using fifo_run_trans h1 h2

theorem do_next_loop_fifo (comp : muxer_comp) :
    ∀ (k : Nat) (it : muxer_msg_iter) (acc : List bt_message)
      (st : bt_message_iterator_status) (msgs : List bt_message) (it1 : muxer_msg_iter),
      (cursor_ids it).Nodup →
      muxer_msg_iter_do_next_loop comp k it acc = some (st, msgs, it1) →
      ∃ more, msgs = acc ++ more ∧ fifo_run it more it1 := by
  intro k
  induction k with
  | zero =>
    intro it acc st msgs it1 _ h
    simp [muxer_msg_iter_do_next_loop] at h
    obtain ⟨_, rfl, rfl⟩ := h
    exact ⟨[], by simp, fifo_run_of_perm (List.Perm.refl _)⟩
  | succ k ih =>
    intro it acc st msgs it1 hid h
    rw [muxer_msg_iter_do_next_loop] at h
    split at h
    · simp at h
    · rename_i msg it2 hn
      have h1 := do_next_one_fifo hid hn
      have hid2 : (cursor_ids it2).Nodup := (fifo_run_ids h1).nodup_iff.mpr hid
      obtain ⟨more, hm, h2⟩ := ih _ _ _ _ _ hid2 h
      refine ⟨msg :: more, by simp [hm], ?_⟩
      simpa using fifo_run_trans h1 h2
    · simp at h
    · rename_i st0 om it0 hne1 hne2 hn
      simp at h
      obtain ⟨rfl, rfl, rfl⟩ := h
      have h1 := do_next_one_fifo hid hn
      obtain ⟨sv, itv, _, hc⟩ := do_next_one_cases hn
      have hom : om = none := by
        rcases hc with ⟨_, _, h1, _⟩ | ⟨_, _, _, _, _, _, hc⟩
        · exact h1
        · rcases hc with ⟨_, _, h1, _⟩ | ⟨_, _, _, h1, _⟩ | ⟨_, _, hst, _, _, _, _, _, _, _, hom, _⟩
          · exact h1
          · exact h1
          · subst hst; subst hom
            exact (hne1 _ rfl rfl).elim
      subst hom
      exact ⟨[], by simp, by simpa using h1⟩

theorem do_next_fifo {comp : muxer_comp} {it it1 : muxer_msg_iter} {capacity : Nat}
    {st : bt_message_iterator_status} {msgs : List bt_message}
    (hid : (cursor_ids it).Nodup)
    (h : muxer_msg_iter_do_next comp it capacity = some (st, msgs, it1)) :
    fifo_run it msgs it1 := by
  unfold muxer_msg_iter_do_next at h
  split at h
  · simp at h
  · rename_i st0 msgs0 it0 hl
    obtain ⟨more, hm, hf⟩ := do_next_loop_fifo comp _ _ _ _ _ _ hid hl
    simp at hm
    subst hm
    split_ifs at h <;> (simp at h; obtain ⟨_, rfl, rfl⟩ := h; exact hf)

theorem next_calls_fifo (comp : muxer_comp) :
    ∀ (capacities : List Nat) (it : muxer_msg_iter), (cursor_ids it).Nodup →
      fifo_run it (next_calls comp capacities it).1 (next_calls comp capacities it).2 := by
  intro capacities
  induction capacities with
  | nil => intro it _; exact fifo_run_of_perm (List.Perm.refl _)
  | cons cap caps ih =>
    intro it hid
    rw [next_calls]
    split
    · exact fifo_run_of_perm (List.Perm.refl _)
    · rename_i st msgs it1 hn
      have h1 := do_next_fifo hid hn
      have hid1 : (cursor_ids it1).Nodup := (fifo_run_ids h1).nodup_iff.mpr hid
      exact fifo_run_trans h1 (ih it1 hid1)

/-- C5: over any sequence of calls of `next` (no seek), the cursors
having distinct upstream iterators, the output can be attributed message
by message to the cursors (`labels`) so that, for every cursor `c`, the
sequence of `c` at the start (its queue, then what its upstream delivers)
is exactly the messages emitted from `c`, in their order of output,
followed by the sequence of the same cursor at the end: the messages that
came from `c` are an initial segment of the sequence of `c`, in order. -/
theorem C5_cursor_order_kept (comp : muxer_comp) (capacities : List Nat) (it : muxer_msg_iter)
    (hid : (cursor_ids it).Nodup) :
    ∃ labels : List (Option Nat),
      labels.length = (next_calls comp capacities it).1.length ∧
      (∀ l ∈ labels, l ∈ cursor_ids it) ∧
      ∀ c ∈ all_cursors it, ∃ c1 ∈ all_cursors (next_calls comp capacities it).2,
        cursor_id c1 = cursor_id c ∧
        cursor_stream c =
          emitted_from labels (next_calls comp capacities it).1 (cursor_id c) ++
            cursor_stream c1 := by
  obtain ⟨labels, hl, hm, hp⟩ := next_calls_fifo comp capacities it hid
  refine ⟨labels, hl, hm, ?_⟩
  intro c hc
  have hmem : (cursor_id c, cursor_stream c) ∈
      (all_cursors it).map (fun c => (cursor_id c, cursor_stream c)) :=
    List.mem_map_of_mem _ hc
  obtain ⟨c1, hc1, heq⟩ := List.mem_map.mp (hp.mem_iff.mpr hmem)
  simp only [Prod.mk.injEq] at heq
  exact ⟨c1, hc1, heq.1, by rw [← heq.2, heq.1]⟩

/-- Witness of C5: the scenario "Tie on timestamp", two calls of `next`
with capacities 3 and 3. -/
theorem C5_cursor_order_kept_witness :
    (cursor_ids tie_iter).Nodup ∧
      ∃ labels : List (Option Nat),
        labels.length = (next_calls sample_comp [3, 3] tie_iter).1.length ∧
        (∀ l ∈ labels, l ∈ cursor_ids tie_iter) ∧
        ∀ c ∈ all_cursors tie_iter, ∃ c1 ∈ all_cursors (next_calls sample_comp [3, 3] tie_iter).2,
          cursor_id c1 = cursor_id c ∧
          cursor_stream c =
            emitted_from labels (next_calls sample_comp [3, 3] tie_iter).1 (cursor_id c) ++
              cursor_stream c1 :=
  ⟨by decide, C5_cursor_order_kept sample_comp [3, 3] tie_iter (by decide)⟩

/-- C6 fails on the code: a single input that delivers one stream
without clock class comes out unchanged, then `END`; a single input that
delivers two such streams does not: the first stream beginning locks the
expectation `NONE`, and `validate_new_stream_clock_class` then rejects the
second one, so the drain stops with `ERROR` after one message. -/
theorem C6_second_stream_without_clock_is_rejected :
    (drain sample_comp 4 8 one_stream_no_clock_iter).map (fun r => (r.1, r.2.1)) =
        some (.END, [sample_stream_beginning 1 none, sample_stream_end 2 none]) ∧
      (drain sample_comp 4 8 two_streams_no_clock_iter).map (fun r => (r.1, r.2.1)) =
        some (.ERROR, [sample_stream_beginning 1 none]) := by
  constructor <;> decide

theorem upstream_messages_batches (u : upstream_iterator) (bs : List (List bt_message))
    (h : u.pending = bs.map (fun b => (.OK, b))) : upstream_messages u = bs.flatten := by
  unfold upstream_messages
  rw [h]
  clear h
  induction bs with
  | nil => rfl
  | cons b t ih => simp [List.flatMap_cons, ih]

theorem good_cursor_mono {lo lo' : Int} {c : muxer_upstream_msg_iter}
    (h : good_cursor lo c) (hne : c.msgs ≠ [])
    (hle : ∀ m rest, c.msgs = m :: rest → lo' ≤ msg_ts m) : good_cursor lo' c := by
  obtain ⟨u, bs, hu, hp, hb, hg, hch⟩ := h
  refine ⟨u, bs, hu, hp, hb, hg, ?_⟩
  cases hm : c.msgs with
  | nil => exact absurd hm hne
  | cons m rest =>
    unfold cursor_stream at hch ⊢
    rw [hm] at hch ⊢
    simp only [List.cons_append, List.map_cons] at hch ⊢
    exact List.Chain.cons (hle m rest hm) (List.chain_cons.mp hch).2

/-- Validation of a good cursor: it is kept with a non-empty queue, or
it is found ended with nothing left; its sequence is kept. -/
theorem validate_good_cursor {lo : Int} {c : muxer_upstream_msg_iter}
    (h : good_cursor lo c) :
    ∃ c1 e, validate_muxer_upstream_msg_iter c false = some (.OK, c1, e) ∧
      good_cursor lo c1 ∧ cursor_stream c1 = cursor_stream c ∧
      (e = false → c1.msgs ≠ []) ∧ (e = true → cursor_stream c = []) ∧
      (c.msgs ≠ [] → c1 = c ∧ e = false) := by
  obtain ⟨u, bs, hu, hp, hb, hg, hch⟩ := h
  by_cases hq : c.msgs = []
  · -- the cursor pulls
    cases bs with
    | nil =>
      have hpn : u.pending = [] := by simpa using hp
      have hnext : bt_self_component_port_input_message_iterator_next u = (.END, [], u) := by
        unfold bt_self_component_port_input_message_iterator_next; rw [hpn]
      have hc1 : ({ c with msg_iter := some u } : muxer_upstream_msg_iter) = c := by
        cases c; simp at hu; simp [hu]
      refine ⟨c, true, ?_, ⟨u, [], hu, hp, hb, hg, hch⟩, rfl, by simp, ?_, fun hh => absurd hq hh⟩
      · unfold validate_muxer_upstream_msg_iter muxer_upstream_msg_iter_next
        simp [hq, hu, hnext]
        rw [← hq]; exact hc1
      · intro _
        unfold cursor_stream
        rw [hq, hu]
        simp [upstream_messages, hpn]
    | cons b rest =>
      have hpn : u.pending = (.OK, b) :: rest.map (fun b => (.OK, b)) := by simpa using hp
      have hnext : bt_self_component_port_input_message_iterator_next u =
          (.OK, b, { u with pending := rest.map (fun b => (.OK, b)) }) := by
        unfold bt_self_component_port_input_message_iterator_next; rw [hpn]
      have hbne : b ≠ [] := hb b (List.mem_cons_self _ _)
      have hblen : 0 < b.length := List.length_pos.mpr hbne
      have hstream : cursor_stream
          { msg_iter := some { u with pending := rest.map (fun b => (.OK, b)) },
            msgs := c.msgs ++ b } = cursor_stream c := by
        unfold cursor_stream
        rw [hu, hq]
        simp only
        rw [upstream_messages_batches _ rest rfl, upstream_messages_batches u (b :: rest) hp]
        simp
      refine ⟨_, false, ?_, ?_, hstream, ?_, by simp, fun hh => absurd hq hh⟩
      · unfold validate_muxer_upstream_msg_iter muxer_upstream_msg_iter_next
        simp [hq, hu, hnext, hblen]
      · refine ⟨_, rest, rfl, rfl, fun x hx => hb x (List.mem_cons_of_mem _ hx), ?_, ?_⟩
        · rw [hstream]; exact hg
        · rw [hstream]; exact hch
      · intro _
        simp [hq, hbne]
  · refine ⟨c, false, validate_muxer_upstream_msg_iter_ready false (Or.inl hq),
      ⟨u, bs, hu, hp, hb, hg, hch⟩, rfl, fun _ => hq, by simp, fun _ => ⟨rfl, rfl⟩⟩

theorem getElem?_lt_length {α : Type} {l : List α} {i : Nat} {c : α} (h : l[i]? = some c) :
    i < l.length := by
  by_contra hh
  rw [List.getElem?_eq_none (not_lt.mp hh)] at h
  simp at h

theorem flatMap_perm_of_getElem? {α β : Type} (f : α → List β) (l : List α) (i : Nat) (c : α)
    (h : l[i]? = some c) : (l.flatMap f).Perm (f c ++ (l.eraseIdx i).flatMap f) := by
  have := (perm_cons_eraseIdx_of_getElem? l i c h).flatMap_right f
  simpa using this

theorem flatMap_set_perm {α β : Type} (f : α → List β) (l : List α) (i : Nat) (c1 : α)
    (h : i < l.length) : ((l.set i c1).flatMap f).Perm (f c1 ++ (l.eraseIdx i).flatMap f) := by
  have := (set_perm_cons_eraseIdx c1 l i h).flatMap_right f
  simpa using this

/-- The validation loop over good cursors returns `OK`, leaves only
good cursors with a non-empty queue in the active array, and loses no
message. -/
theorem validate_loop_good (lo : Int) :
    ∀ (fuel i : Nat) (it : muxer_msg_iter),
      fuel = it.active_muxer_upstream_msg_iters.length - i →
      i ≤ it.active_muxer_upstream_msg_iters.length →
      (∀ c ∈ it.active_muxer_upstream_msg_iters, good_cursor lo c) →
      (∀ c ∈ it.active_muxer_upstream_msg_iters.take i, c.msgs ≠ []) →
      ∃ it1, validate_muxer_upstream_msg_iters_loop fuel i it = some (.OK, it1) ∧
        (∀ c ∈ it1.active_muxer_upstream_msg_iters, good_cursor lo c ∧ c.msgs ≠ []) ∧
        same_clock it it1 ∧ (remaining it1).Perm (remaining it) := by
  intro fuel
  induction fuel with
  | zero =>
    intro i it hf hi hg ht
    have hlen : i = it.active_muxer_upstream_msg_iters.length := by omega
    refine ⟨it, ?_, ?_, ⟨rfl, rfl, rfl⟩, List.Perm.refl _⟩
    · simp [validate_muxer_upstream_msg_iters_loop, hlen]
    · intro c hc
      refine ⟨hg c hc, ht c ?_⟩
      rw [hlen, List.take_length]; exact hc
  | succ n ih =>
    intro i it hf hi hg ht
    have hlt : i < it.active_muxer_upstream_msg_iters.length := by omega
    have hc : it.active_muxer_upstream_msg_iters[i]? =
        some it.active_muxer_upstream_msg_iters[i] := List.getElem?_eq_getElem hlt
    generalize it.active_muxer_upstream_msg_iters[i] = c at hc
    have hcmem : c ∈ it.active_muxer_upstream_msg_iters := List.mem_iff_getElem?.mpr ⟨i, hc⟩
    obtain ⟨c1, e, hv, hg1, hs1, he0, he1, _⟩ := validate_good_cursor (hg c hcmem)
    have hset_good : ∀ x ∈ it.active_muxer_upstream_msg_iters.set i c1, good_cursor lo x := by
      intro x hx
      rcases List.mem_or_eq_of_mem_set hx with h | h
      · exact hg x h
      · rw [h]; exact hg1
    rw [validate_muxer_upstream_msg_iters_loop]
    simp only [hlt, if_true]
    cases e with
    | false =>
      have hturn : validate_muxer_upstream_msg_iters_turn i it = some (Sum.inl (i + 1,
          { it with
            active_muxer_upstream_msg_iters :=
              it.active_muxer_upstream_msg_iters.set i c1 })) := by
        unfold validate_muxer_upstream_msg_iters_turn
        simp [hc, hv]
      rw [hturn]
      simp only
      obtain ⟨it1, hl, hall, hclk, hperm⟩ := ih (i + 1)
        { it with
          active_muxer_upstream_msg_iters := it.active_muxer_upstream_msg_iters.set i c1 }
        (by simp; omega) (by simp; omega) hset_good (by
          intro x hx
          simp only at hx
          rw [List.take_succ, take_set_self] at hx
          rcases List.mem_append.mp hx with h | h
          · exact ht x h
          · rw [List.getElem?_set_self hlt] at h
            simp at h
            rw [h]; exact he0 rfl)
      refine ⟨it1, hl, hall, ⟨hclk.1, hclk.2.1, hclk.2.2⟩, hperm.trans ?_⟩
      unfold remaining
      simp only
      refine (flatMap_set_perm cursor_stream _ i c1 hlt).trans ?_
      rw [hs1]
      exact (flatMap_perm_of_getElem? cursor_stream _ i c hc).symm
    | true =>
      have hturn : validate_muxer_upstream_msg_iters_turn i it = some (Sum.inl (i,
          { it with
            ended_muxer_upstream_msg_iters := it.ended_muxer_upstream_msg_iters ++ [c1]
            active_muxer_upstream_msg_iters :=
              g_ptr_array_remove_index_fast
                (it.active_muxer_upstream_msg_iters.set i c1) i })) := by
        unfold validate_muxer_upstream_msg_iters_turn
        simp [hc, hv]
      rw [hturn]
      simp only
      have hlt' : i < (it.active_muxer_upstream_msg_iters.set i c1).length := by simpa using hlt
      have hrl := remove_index_fast_length _ i hlt'
      have hrp := remove_index_fast_perm _ i hlt'
      rw [eraseIdx_set_self] at hrp
      obtain ⟨it1, hl, hall, hclk, hperm⟩ := ih i
        { it with
          ended_muxer_upstream_msg_iters := it.ended_muxer_upstream_msg_iters ++ [c1]
          active_muxer_upstream_msg_iters :=
            g_ptr_array_remove_index_fast (it.active_muxer_upstream_msg_iters.set i c1) i }
        (by simp at hrl ⊢; omega) (by simp at hrl ⊢; omega)
        (by
          intro x hx
          simp only at hx
          have hx1 := hrp.mem_iff.mp hx
          exact hg x (List.mem_of_mem_eraseIdx hx1))
        (by
          intro x hx
          simp only at hx
          rw [remove_index_fast_take _ i hlt', take_set_self] at hx
          exact ht x hx)
      refine ⟨it1, hl, hall, ⟨hclk.1, hclk.2.1, hclk.2.2⟩, hperm.trans ?_⟩
      unfold remaining
      simp only
      refine (hrp.flatMap_right cursor_stream).trans ?_
      have := (flatMap_perm_of_getElem? cursor_stream _ i c hc).symm
      rw [he1 rfl] at this
      simpa using this

theorem good_event_ts {m : bt_message} (it : muxer_msg_iter) (comp : muxer_comp) (last : Int)
    (h : good_event m) (hne : it.clock_class_expectation ≠ .NONE) :
    validate_head_clock_class it comp m = some (0, it) ∧
      get_msg_ts_ns it m last = some (.ok (msg_ts m)) ∧
      INT64_MIN ≤ msg_ts m ∧ msg_ts m ≤ INT64_MAX := by
  obtain ⟨hty, hcc, cs, ts, hcs, hns, hlo, hhi⟩ := h
  have hts : msg_ts m = ts := by simp [msg_ts, hcs, hns]
  refine ⟨?_, ?_, by rw [hts]; exact hlo, by rw [hts]; exact hhi⟩
  · exact validate_head_clock_class_other (by rw [hty]; simp) (by rw [hty]; simp)
  · unfold get_msg_ts_ns
    simp [hne, hty, hcc, hcs, get_ns_from_origin, hns, hts]

theorem good_cursor_head {lo : Int} {c : muxer_upstream_msg_iter} (h : good_cursor lo c)
    (hne : c.msgs ≠ []) :
    ∃ u m rest, c.msg_iter = some u ∧ c.msgs = m :: rest ∧ good_event m ∧ lo ≤ msg_ts m := by
  obtain ⟨u, bs, hu, _, _, hg, hch⟩ := h
  cases hm : c.msgs with
  | nil => exact absurd hm hne
  | cons m rest =>
    refine ⟨u, m, rest, hu, rfl, hg m ?_, ?_⟩
    · unfold cursor_stream; rw [hm]; simp
    · unfold cursor_stream at hch
      rw [hm] at hch
      simp only [List.cons_append, List.map_cons] at hch
      exact (List.chain_cons.mp hch).1

theorem youngest_loop_good (comp : muxer_comp) (lo : Int) :
    ∀ (cursors : List muxer_upstream_msg_iter) (i : Nat) (it : muxer_msg_iter)
      (chosen : Option Nat) (y : Int),
      it.clock_class_expectation ≠ .NONE →
      (∀ c ∈ cursors, good_cursor lo c ∧ c.msgs ≠ []) →
      ∃ ch1 y1, youngest_loop comp cursors i it chosen y = some (.OK, it, ch1, y1) ∧
        (chosen.isSome = true → ch1.isSome = true) ∧
        (y = INT64_MAX → cursors ≠ [] → ch1.isSome = true) := by
  intro cursors
  induction cursors with
  | nil =>
    intro i it chosen y _ _
    exact ⟨chosen, y, by simp [youngest_loop], fun h => h, fun _ h => absurd rfl h⟩
  | cons cur rest ih =>
    intro i it chosen y hne hall
    obtain ⟨u, m, tl, hu, hm, hgm, _⟩ :=
      good_cursor_head (hall cur (List.mem_cons_self _ _)).1 (hall cur (List.mem_cons_self _ _)).2
    obtain ⟨hv, hg, _, hmax⟩ := good_event_ts it comp it.last_returned_ts_ns hgm hne
    have hrest : ∀ c ∈ rest, good_cursor lo c ∧ c.msgs ≠ [] :=
      fun c hc => hall c (List.mem_cons_of_mem _ hc)
    rw [youngest_loop]
    simp only [hu, hm, hv, hg]
    by_cases hle : msg_ts m ≤ y
    · simp only [hle, if_true, ne_eq, not_true_eq_false, if_false]
      obtain ⟨ch1, y1, hl, h1, _⟩ := ih (i + 1) it (some i) (msg_ts m) hne hrest
      exact ⟨ch1, y1, hl, fun _ => h1 rfl, fun _ _ => h1 rfl⟩
    · simp only [hle, if_false, ne_eq, not_true_eq_false]
      obtain ⟨ch1, y1, hl, h1, _⟩ := ih (i + 1) it chosen y hne hrest
      refine ⟨ch1, y1, hl, h1, ?_⟩
      intro hy _
      rw [hy] at hle
      exact absurd hmax hle

theorem head_ts_in_loop_good (comp : muxer_comp) (lo : Int) :
    ∀ (cursors : List muxer_upstream_msg_iter) (it : muxer_msg_iter) (j : Nat)
      (c : muxer_upstream_msg_iter),
      it.clock_class_expectation ≠ .NONE →
      (∀ c ∈ cursors, good_cursor lo c ∧ c.msgs ≠ []) →
      cursors[j]? = some c →
      ∃ m rest, c.msgs = m :: rest ∧ head_ts_in_loop comp cursors it j = some (msg_ts m) := by
  intro cursors
  induction cursors with
  | nil => intro it j c _ _ h; simp at h
  | cons cur rest ih =>
    intro it j c hne hall hj
    obtain ⟨u, m, tl, hu, hm, hgm, _⟩ :=
      good_cursor_head (hall cur (List.mem_cons_self _ _)).1 (hall cur (List.mem_cons_self _ _)).2
    obtain ⟨hv, hg, _, _⟩ := good_event_ts it comp it.last_returned_ts_ns hgm hne
    rw [head_ts_in_loop]
    simp only [hu, hm, hv, hg, ne_eq, not_true_eq_false, if_false]
    cases j with
    | zero =>
      simp at hj
      subst hj
      exact ⟨m, tl, hm, by simp⟩
    | succ j =>
      simp at hj
      obtain ⟨m1, r1, h1, h2⟩ := ih it j c hne
        (fun c hc => hall c (List.mem_cons_of_mem _ hc)) hj
      exact ⟨m1, r1, h1, by simpa using h2⟩

theorem chain_le_all {lo : Int} {l : List Int} (h : List.Chain (· ≤ ·) lo l) :
    ∀ t ∈ l, lo ≤ t := by
  have hp := List.chain_iff_pairwise.mp h
  exact (List.pairwise_cons.mp hp).1

theorem good_cursor_lower_bound {lo : Int} {c : muxer_upstream_msg_iter}
    (h : good_cursor lo c) : ∀ x ∈ cursor_stream c, lo ≤ msg_ts x := by
  obtain ⟨_, _, _, _, _, _, hch⟩ := h
  intro x hx
  exact chain_le_all hch _ (List.mem_map_of_mem msg_ts hx)

theorem good_cursor_pop {lo : Int} {c : muxer_upstream_msg_iter} {m : bt_message}
    {rest : List bt_message} (h : good_cursor lo c) (hm : c.msgs = m :: rest) :
    good_cursor (msg_ts m) { c with msgs := rest } ∧
      cursor_stream c = m :: cursor_stream { c with msgs := rest } := by
  obtain ⟨u, bs, hu, hp, hb, hg, hch⟩ := h
  have hs : cursor_stream c = m :: cursor_stream { c with msgs := rest } := by
    unfold cursor_stream
    simp [hm]
  refine ⟨⟨u, bs, hu, hp, hb, ?_, ?_⟩, hs⟩
  · intro x hx
    exact hg x (by rw [hs]; exact List.mem_cons_of_mem _ hx)
  · rw [hs] at hch
    simp only [List.map_cons] at hch
    exact (List.chain_cons.mp hch).2

/-- One call of `next_one` during a merge: either nothing remains and
it returns `END`, or it emits a message whose timestamp is the smallest
of those that remain. -/
theorem do_next_one_merge (comp : muxer_comp) (it : muxer_msg_iter) (h : merge_inv it) :
    (∃ it1, muxer_msg_iter_do_next_one comp it = some (.END, none, it1) ∧ merge_inv it1 ∧
        remaining it = [] ∧ remaining it1 = []) ∨
      (∃ m it1, muxer_msg_iter_do_next_one comp it = some (.OK, some m, it1) ∧
        merge_inv it1 ∧ (remaining it).Perm (m :: remaining it1) ∧
        ∀ x ∈ remaining it1, msg_ts m ≤ msg_ts x) := by
  obtain ⟨hcce, hgood⟩ := h
  obtain ⟨it1, hl, hall, hclk, hperm⟩ :=
    validate_loop_good it.last_returned_ts_ns it.active_muxer_upstream_msg_iters.length 0 it
      (by simp) (Nat.zero_le _) hgood (by simp)
  have hv : validate_muxer_upstream_msg_iters it = some (.OK, it1) := hl
  have hcce1 : it1.clock_class_expectation ≠ .NONE := by rw [hclk.2.1]; exact hcce
  by_cases hempty : it1.active_muxer_upstream_msg_iters = []
  · left
    have hr1 : remaining it1 = [] := by simp [remaining, hempty]
    refine ⟨it1, ?_, ⟨hcce1, by simp [hempty]⟩, ?_, hr1⟩
    · unfold muxer_msg_iter_do_next_one
      simp [hv, muxer_msg_iter_youngest_upstream_msg_iter, hempty, youngest_loop]
    · rw [hr1] at hperm
      exact List.Perm.eq_nil hperm.symm
  · right
    obtain ⟨ch1, y1, hyl, _, hsome⟩ := youngest_loop_good comp it.last_returned_ts_ns
      it1.active_muxer_upstream_msg_iters 0 it1 none INT64_MAX hcce1 hall
    obtain ⟨idx, hidx⟩ := Option.isSome_iff_exists.mp (hsome rfl hempty)
    subst hidx
    have hy : muxer_msg_iter_youngest_upstream_msg_iter comp it1 =
        some (.OK, it1, some idx, y1) := by
      unfold muxer_msg_iter_youngest_upstream_msg_iter
      rw [hyl]
    obtain ⟨idx', hch, hts, hmin, _⟩ := youngest_ok_spec hy
    simp at hch
    subst hch
    have hlt : idx < it1.active_muxer_upstream_msg_iters.length := by
      by_contra hge
      rw [head_ts_in_loop_beyond comp _ _ _ (not_lt.mp hge)] at hts
      simp at hts
    have hc : it1.active_muxer_upstream_msg_iters[idx]? =
        some it1.active_muxer_upstream_msg_iters[idx] := List.getElem?_eq_getElem hlt
    generalize it1.active_muxer_upstream_msg_iters[idx] = c at hc
    have hcmem : c ∈ it1.active_muxer_upstream_msg_iters := List.getElem?_mem hc
    obtain ⟨m, rest, hm, hts2⟩ := head_ts_in_loop_good comp _ _ it1 idx c hcce1 hall hc
    rw [hts] at hts2
    simp at hts2
    subst hts2
    obtain ⟨_, m', rest', _, hm', _, hlo⟩ := good_cursor_head (hall c hcmem).1 (hall c hcmem).2
    rw [hm] at hm'
    simp at hm'
    obtain ⟨rfl, rfl⟩ := hm'
    have hpop := good_cursor_pop (hall c hcmem).1 hm
    refine ⟨m, { it1 with
        active_muxer_upstream_msg_iters :=
          it1.active_muxer_upstream_msg_iters.set idx { c with msgs := rest }
        last_returned_ts_ns := msg_ts m }, ?_, ?_, ?_, ?_⟩
    · unfold muxer_msg_iter_do_next_one
      have hnl : ¬ msg_ts m < it1.last_returned_ts_ns := by
        rw [hclk.1]; exact not_lt.mpr hlo
      simp [hv, hy, bt_message_iterator_status.is_negative, hnl, hc, hm]
    · have hinv : ∀ x ∈ it1.active_muxer_upstream_msg_iters.set idx { c with msgs := rest },
          good_cursor (msg_ts m) x := by
        intro x hx
        rcases List.mem_or_eq_of_mem_set hx with hx1 | hx1
        · obtain ⟨j, hj⟩ := List.mem_iff_getElem?.mp hx1
          obtain ⟨mx, rx, hmx, htx⟩ := head_ts_in_loop_good comp _ _ it1 j x hcce1 hall hj
          refine good_cursor_mono (hall x hx1).1 (hall x hx1).2 ?_
          intro m2 r2 h2
          rw [hmx] at h2
          simp at h2
          rw [← h2.1]
          exact (hmin j _ htx).1
        · rw [hx1]; exact hpop.1
      exact ⟨hcce1, hinv⟩
    · refine hperm.symm.trans ?_
      unfold remaining
      simp only
      refine (flatMap_perm_of_getElem? cursor_stream _ idx c hc).trans ?_
      rw [hpop.2]
      simp only [List.cons_append]
      exact (flatMap_set_perm cursor_stream _ idx _ hlt).symm.cons m
    · intro x hx
      unfold remaining at hx
      simp only [List.mem_flatMap] at hx
      obtain ⟨c', hc', hxc⟩ := hx
      have hgc : good_cursor (msg_ts m) c' := by
        rcases List.mem_or_eq_of_mem_set hc' with hx1 | hx1
        · obtain ⟨j, hj⟩ := List.mem_iff_getElem?.mp hx1
          obtain ⟨mx, rx, hmx, htx⟩ := head_ts_in_loop_good comp _ _ it1 j c' hcce1 hall hj
          refine good_cursor_mono (hall c' hx1).1 (hall c' hx1).2 ?_
          intro m2 r2 h2
          rw [hmx] at h2
          simp at h2
          rw [← h2.1]
          exact (hmin j _ htx).1
        · rw [hx1]; exact hpop.1
      exact good_cursor_lower_bound hgc x hxc

theorem merge_run_cons {it it1 it2 : muxer_msg_iter} {m : bt_message}
    {out : List bt_message} (hp : (remaining it).Perm (m :: remaining it1))
    (hmin : ∀ x ∈ remaining it1, msg_ts m ≤ msg_ts x) (h : merge_run it1 out it2) :
    merge_run it (m :: out) it2 := by
  obtain ⟨hinv, hperm, hsorted, hle⟩ := h
  refine ⟨hinv, ?_, ?_, ?_⟩
  · exact hp.trans (by simpa using hperm.cons m)
  · simp only [List.map_cons, List.pairwise_cons]
    refine ⟨?_, hsorted⟩
    intro b hb
    obtain ⟨a, ha, rfl⟩ := List.mem_map.mp hb
    exact hmin a (hperm.mem_iff.mpr (List.mem_append_left _ ha))
  · intro a ha x hx
    rcases List.mem_cons.mp ha with rfl | ha
    · exact hmin x (hperm.mem_iff.mpr (List.mem_append_right _ hx))
    · exact hle a ha x hx

theorem do_next_loop_merge (comp : muxer_comp) :
    ∀ (k : Nat) (it : muxer_msg_iter) (acc : List bt_message), merge_inv it →
      ∃ st more it1,
        muxer_msg_iter_do_next_loop comp k it acc = some (st, acc ++ more, it1) ∧
        merge_run it more it1 ∧
        ((st = .OK ∧ more.length = k) ∨ (st = .END ∧ remaining it1 = [])) := by
  intro k
  induction k with
  | zero =>
    intro it acc hinv
    exact ⟨.OK, [], it, by simp [muxer_msg_iter_do_next_loop],
      ⟨hinv, by simp, by simp, by simp⟩, Or.inl ⟨rfl, rfl⟩⟩
  | succ k ih =>
    intro it acc hinv
    rcases do_next_one_merge comp it hinv with ⟨it1, hn, hinv1, hr, hr1⟩ |
        ⟨m, it1, hn, hinv1, hp, hmin⟩
    · refine ⟨.END, [], it1, ?_, ⟨hinv1, by simp [hr, hr1], by simp, by simp⟩,
        Or.inr ⟨rfl, hr1⟩⟩
      rw [muxer_msg_iter_do_next_loop, hn]
      simp
    · obtain ⟨st, more, it2, hl, hrun, hst⟩ := ih it1 (acc ++ [m]) hinv1
      refine ⟨st, m :: more, it2, ?_, merge_run_cons hp hmin hrun, ?_⟩
      · rw [muxer_msg_iter_do_next_loop, hn]
        simp only
        rw [hl]
        simp
      · rcases hst with ⟨h1, h2⟩ | h
        · exact Or.inl ⟨h1, by simp [h2]⟩
        · exact Or.inr h

theorem do_next_merge (comp : muxer_comp) (it : muxer_msg_iter) (capacity : Nat)
    (hcap : 1 ≤ capacity) (hinv : merge_inv it) :
    ∃ st out it1, muxer_msg_iter_do_next comp it capacity = some (st, out, it1) ∧
      merge_run it out it1 ∧
      ((st = .OK ∧ out ≠ []) ∨ (st = .END ∧ out = [] ∧ remaining it = [])) := by
  obtain ⟨st, more, it1, hl, hrun, hst⟩ := do_next_loop_merge comp capacity it [] hinv
  simp only [List.nil_append] at hl
  unfold muxer_msg_iter_do_next
  rw [hl]
  simp only
  by_cases hlen : more.length > 0
  · refine ⟨.OK, more, it1, by simp [hlen], hrun, Or.inl ⟨rfl, ?_⟩⟩
    exact List.length_pos.mp hlen
  · have hnil : more = [] := by
      cases more with
      | nil => rfl
      | cons a t => simp at hlen
    subst hnil
    rcases hst with ⟨_, h2⟩ | ⟨h1, h2⟩
    · simp at h2; omega
    · subst h1
      refine ⟨.END, [], it1, by simp, hrun, Or.inr ⟨rfl, rfl, ?_⟩⟩
      have := hrun.2.1
      rw [h2] at this
      exact List.Perm.eq_nil this

/-- Draining a merge: with enough calls the drain ends on `END`, having
emitted what remained, in non-decreasing order of timestamp. -/
theorem drain_merge (comp : muxer_comp) (capacity : Nat) (hcap : 1 ≤ capacity) :
    ∀ (n fuel : Nat) (it : muxer_msg_iter), merge_inv it → (remaining it).length ≤ n →
      n + 1 ≤ fuel →
      ∃ out it1, drain comp capacity fuel it = some (.END, out, it1) ∧
        out.Perm (remaining it) ∧ (out.map msg_ts).Pairwise (· ≤ ·) := by
  intro n
  induction n with
  | zero =>
    intro fuel it hinv hlen hfuel
    obtain ⟨f, rfl⟩ : ∃ f, fuel = f + 1 := ⟨fuel - 1, by omega⟩
    have hrem : remaining it = [] := List.length_eq_zero.mp (by omega)
    obtain ⟨st, out, it1, hd, hrun, hst⟩ := do_next_merge comp it capacity hcap hinv
    rcases hst with ⟨_, hne⟩ | ⟨rfl, rfl, _⟩
    · have := hrun.2.1
      rw [hrem] at this
      have h0 := this.length_eq
      have h1 : 0 < out.length := List.length_pos.mpr hne
      simp at h0
      omega
    · refine ⟨[], it1, ?_, by rw [hrem], by simp⟩
      rw [drain, hd]
  | succ n ih =>
    intro fuel it hinv hlen hfuel
    obtain ⟨f, rfl⟩ : ∃ f, fuel = f + 1 := ⟨fuel - 1, by omega⟩
    obtain ⟨st, out, it1, hd, hrun, hst⟩ := do_next_merge comp it capacity hcap hinv
    rcases hst with ⟨rfl, hne⟩ | ⟨rfl, rfl, hrem⟩
    · obtain ⟨hinv1, hperm, hsorted, hle⟩ := hrun
      have hlen1 : (remaining it1).length ≤ n := by
        have h0 := hperm.length_eq
        have h1 : 0 < out.length := List.length_pos.mpr hne
        simp at h0
        omega
      obtain ⟨out2, it2, hd2, hp2, hs2⟩ := ih f it1 hinv1 hlen1 (by omega)
      refine ⟨out ++ out2, it2, ?_, ?_, ?_⟩
      · rw [drain, hd]
        simp only
        rw [hd2]
      · exact (hp2.append_left out).trans hperm.symm
      · rw [List.map_append, List.pairwise_append]
        refine ⟨hsorted, hs2, ?_⟩
        intro a ha b hb
        obtain ⟨x, hx, rfl⟩ := List.mem_map.mp ha
        obtain ⟨z, hz, rfl⟩ := List.mem_map.mp hb
        exact hle x hx z (hp2.mem_iff.mp hz)
    · refine ⟨[], it1, ?_, by rw [hrem], by simp⟩
      rw [drain, hd]

theorem merge_ts_eq_merge : ∀ xs ys : List Int,
    merge_ts xs ys = List.merge xs ys (fun a b => decide (a ≤ b)) := by
  intro xs
  induction xs with
  | nil => intro ys; simp [merge_ts]
  | cons x xs ih =>
    intro ys
    induction ys with
    | nil => simp [merge_ts, merge_ts_step]
    | cons y ys ihy =>
      rw [List.cons_merge_cons]
      simp only [merge_ts, merge_ts_step] at ihy ⊢
      by_cases h : x ≤ y
      · simp only [h, if_true, decide_True]
        rw [ih]
      · simp only [h, if_false, decide_False]
        rw [ihy]
        simp

theorem sorted_merge_perm : ∀ ls : List (List Int), (sorted_merge ls).Perm ls.flatten := by
  intro ls
  induction ls with
  | nil => exact List.Perm.refl _
  | cons l t ih =>
    rw [sorted_merge, List.flatten_cons, merge_ts_eq_merge]
    exact (List.merge_perm_append _).trans (ih.append_left l)

theorem sorted_merge_sorted : ∀ ls : List (List Int),
    (∀ l ∈ ls, l.Pairwise (· ≤ ·)) → (sorted_merge ls).Pairwise (· ≤ ·) := by
  intro ls
  induction ls with
  | nil => intro _; simp [sorted_merge]
  | cons l t ih =>
    intro h
    rw [sorted_merge, merge_ts_eq_merge]
    have h1 := h l (List.mem_cons_self _ _)
    have h2 := ih (fun x hx => h x (List.mem_cons_of_mem _ hx))
    have := @List.sorted_merge Int (fun a b : Int => decide (a ≤ b))
      (fun a b c hab hbc => by simp at hab hbc ⊢; omega)
      (fun a b => by simp; omega) l (sorted_merge t) (by simpa using h1) (by simpa using h2)
    simpa using this

theorem cursor_stream_batch_upstream (i : Nat) (bs : List (List bt_message)) :
    cursor_stream { msg_iter := some (batch_upstream i bs), msgs := [] } = bs.flatten := by
  unfold cursor_stream
  simp only [List.nil_append]
  exact upstream_messages_batches _ bs rfl

theorem remaining_merge_input_aux :
    ∀ l : List (Nat × List (List bt_message)),
      (l.map (fun p => ({ msg_iter := some (batch_upstream p.1 p.2), msgs := [] } :
        muxer_upstream_msg_iter))).flatMap cursor_stream = (l.map Prod.snd).flatMap List.flatten := by
  intro l
  induction l with
  | nil => rfl
  | cons p t ih =>
    simp only [List.map_cons, List.flatMap_cons, ih, cursor_stream_batch_upstream]

theorem remaining_merge_input (upstreams : List (List (List bt_message))) :
    remaining (merge_input upstreams) = upstreams.flatMap List.flatten := by
  unfold remaining merge_input initial_iter
  simp only
  rw [remaining_merge_input_aux, List.enum_map_snd]

theorem merge_inv_merge_input (upstreams : List (List (List bt_message)))
    (hbatch : ∀ bs ∈ upstreams, ∀ b ∈ bs, b ≠ [])
    (hev : ∀ bs ∈ upstreams, ∀ m ∈ bs.flatten, good_event m)
    (hsorted : ∀ bs ∈ upstreams, (bs.flatten.map msg_ts).Pairwise (· ≤ ·)) :
    merge_inv (merge_input upstreams) := by
  refine ⟨by simp [merge_input, initial_iter], ?_⟩
  intro c hc
  simp only [merge_input, initial_iter] at hc
  obtain ⟨p, hp, rfl⟩ := List.mem_map.mp hc
  have hbs : p.2 ∈ upstreams := List.snd_mem_of_mem_enum hp
  refine ⟨batch_upstream p.1 p.2, p.2, rfl, rfl, hbatch _ hbs, ?_, ?_⟩
  · rw [cursor_stream_batch_upstream]; exact hev _ hbs
  · rw [cursor_stream_batch_upstream]
    refine List.chain_iff_pairwise.mpr (List.pairwise_cons.mpr ⟨?_, hsorted _ hbs⟩)
    intro t ht
    obtain ⟨m, hm, rfl⟩ := List.mem_map.mp ht
    obtain ⟨_, _, cs, ts, hcs, hns, hlo, _⟩ := hev _ hbs m hm
    have hts : msg_ts m = ts := by simp [msg_ts, hcs, hns]
    rw [hts]
    exact hlo

theorem flatten_map_map_flatten (upstreams : List (List (List bt_message))) :
    (upstreams.map (fun bs => bs.flatten.map msg_ts)).flatten =
      (upstreams.flatMap List.flatten).map msg_ts := by
  induction upstreams with
  | nil => rfl
  | cons a t ih =>
    simp only [List.map_cons, List.flatten_cons, List.flatMap_cons, List.map_append, ih]

/-- C2: upstreams that each deliver, in non-empty batches and without
`AGAIN` or error, a finite sequence of event messages with
non-decreasing `int64_t` timestamps and then report `END`, merged by a
fresh muxer iterator: calling `next` (capacity one or more) until it
returns a status other than `OK` ends on `END` as soon as the number of
calls allowed exceeds the number of messages, every upstream message is
emitted exactly once, and the timestamps of the emitted messages are the
sorted merge of the timestamp sequences of the upstreams. -/
theorem C2_drain_is_sorted_merge (comp : muxer_comp) (capacity : Nat)
    (upstreams : List (List (List bt_message))) (hcap : 1 ≤ capacity)
    (hbatch : ∀ bs ∈ upstreams, ∀ b ∈ bs, b ≠ [])
    (hev : ∀ bs ∈ upstreams, ∀ m ∈ bs.flatten, good_event m)
    (hsorted : ∀ bs ∈ upstreams, (bs.flatten.map msg_ts).Pairwise (· ≤ ·)) :
    ∀ fuel, (upstreams.flatMap List.flatten).length + 1 ≤ fuel →
      ∃ out it1, drain comp capacity fuel (merge_input upstreams) = some (.END, out, it1) ∧
        out.map msg_ts = sorted_merge (upstreams.map (fun bs => bs.flatten.map msg_ts)) ∧
        out.Perm (upstreams.flatMap List.flatten) := by
  intro fuel hfuel
  have hinv := merge_inv_merge_input upstreams hbatch hev hsorted
  obtain ⟨out, it1, hd, hperm, hs⟩ := drain_merge comp capacity hcap
    (upstreams.flatMap List.flatten).length fuel (merge_input upstreams) hinv
    (by rw [remaining_merge_input]) hfuel
  rw [remaining_merge_input] at hperm
  refine ⟨out, it1, hd, ?_, hperm⟩
  have hsm := sorted_merge_sorted (upstreams.map (fun bs => bs.flatten.map msg_ts)) (by
    intro l hl
    obtain ⟨bs, hbs, rfl⟩ := List.mem_map.mp hl
    exact hsorted bs hbs)
  have hpm := sorted_merge_perm (upstreams.map (fun bs => bs.flatten.map msg_ts))
  rw [flatten_map_map_flatten] at hpm
  exact List.eq_of_perm_of_sorted ((hperm.map msg_ts).trans hpm.symm) hs hsm

theorem good_event_sample_event (addr : Nat) (ts : Int) (h1 : INT64_MIN ≤ ts)
    (h2 : ts ≤ INT64_MAX) : good_event (sample_event addr ts) :=
  ⟨rfl, rfl, _, ts, rfl, rfl, h1, h2⟩

/-- Witness of C2, the scenario "Two streams, interleaved events":
A = [10, 30, 50] and B = [20, 40, 60] give 10, 20, 30, 40, 50, 60, then `END`. -/
theorem C2_drain_is_sorted_merge_witness :
    (drain sample_comp 4 7 (merge_input interleaved_upstreams)).map
        (fun r => (r.1, r.2.1.map msg_ts)) = some (.END, [10, 20, 30, 40, 50, 60]) ∧
      sorted_merge (interleaved_upstreams.map (fun bs => bs.flatten.map msg_ts)) =
        [10, 20, 30, 40, 50, 60] ∧
      ∀ fuel, (interleaved_upstreams.flatMap List.flatten).length + 1 ≤ fuel →
        ∃ out it1, drain sample_comp 4 fuel (merge_input interleaved_upstreams) =
            some (.END, out, it1) ∧
          out.map msg_ts =
            sorted_merge (interleaved_upstreams.map (fun bs => bs.flatten.map msg_ts)) ∧
          out.Perm (interleaved_upstreams.flatMap List.flatten) :=
  ⟨by decide, by decide,
    C2_drain_is_sorted_merge sample_comp 4 interleaved_upstreams (by decide)
      (by decide)
      (by
        intro bs hbs m hm
        simp only [interleaved_upstreams, List.mem_cons, List.mem_singleton,
          List.not_mem_nil, or_false] at hbs
        rcases hbs with rfl | rfl <;>
          (simp only [List.flatten_cons, List.flatten_nil, List.cons_append, List.nil_append,
            List.append_nil, List.mem_cons, List.mem_singleton, List.not_mem_nil,
            or_false] at hm
           rcases hm with rfl | rfl | rfl <;>
             exact good_event_sample_event _ _ (by decide) (by decide)))
      (by decide)⟩

/-- C11: for a capacity of one or more, when `next` returns `OK` the
number of messages written (the reported count) is at least one and at
most the capacity, and when it returns another status no message was
written. -/
theorem C11_next_count_bounds (comp : muxer_comp) (it it1 : muxer_msg_iter) (capacity : Nat)
    (st : bt_message_iterator_status) (msgs : List bt_message)
    (hcap : 1 ≤ capacity)
    (h : muxer_msg_iter_do_next comp it capacity = some (st, msgs, it1)) :
    (st = .OK → 1 ≤ msgs.length ∧ msgs.length ≤ capacity) ∧ (st ≠ .OK → msgs = []) := by
  refine ⟨?_, fun hst => (do_next_not_ok h hst).1⟩
  intro hst
  subst hst
  unfold muxer_msg_iter_do_next at h
  split at h
  · simp at h
  · rename_i st0 msgs0 it0 hl
    obtain ⟨more, hm, hle, hok⟩ := do_next_loop_acc comp _ _ _ _ _ _ hl
    simp only [List.nil_append] at hm
    subst hm
    split_ifs at h with hlen
    · simp at h
      obtain ⟨rfl, rfl⟩ := h
      exact ⟨hlen, hle⟩
    · simp at h
      obtain ⟨rfl, rfl, rfl⟩ := h
      have := hok rfl
      omega

/-- Witness of C11: two queued heads at 30 and 20, capacity 1: `next`
returns `OK` with one message, the event at 20. -/
theorem C11_next_count_bounds_witness :
    muxer_msg_iter_do_next sample_comp two_heads_iter 1 =
        some (.OK, [sample_event 2 20], two_heads_iter_after) ∧
      (1 ≤ [sample_event 2 20].length ∧ [sample_event 2 20].length ≤ 1) :=
  ⟨by decide,
    (C11_next_count_bounds sample_comp two_heads_iter two_heads_iter_after 1 .OK
      [sample_event 2 20] (by decide) (by decide)).1 rfl⟩

theorem head_ts_in_loop_cursor (comp : muxer_comp) :
    ∀ (cursors : List muxer_upstream_msg_iter) (it : muxer_msg_iter) (j : Nat) (t : Int),
      head_ts_in_loop comp cursors it j = some t →
      ∃ c m rest, cursors[j]? = some c ∧ c.msgs = m :: rest := by
  intro cursors
  induction cursors with
  | nil => intro it j t h; simp [head_ts_in_loop] at h
  | cons cur rest ih =>
    intro it j t h
    rw [head_ts_in_loop] at h
    split at h
    · split_ifs at h with hj
      obtain ⟨c, m, r, h1, h2⟩ := ih it (j - 1) t h
      obtain ⟨k, rfl⟩ : ∃ k, j = k + 1 := ⟨j - 1, by omega⟩
      exact ⟨c, m, r, by simpa using h1, h2⟩
    · split at h
      · simp at h
      · rename_i msg tl hmsgs
        split at h
        · simp at h
        · split_ifs at h with hret hj
          · subst hj
            exact ⟨cur, msg, tl, by simp, hmsgs⟩
          · obtain ⟨c, m, r, h1, h2⟩ := ih _ (j - 1) t h
            obtain ⟨k, rfl⟩ : ∃ k, j = k + 1 := ⟨j - 1, by omega⟩
            exact ⟨c, m, r, by simpa using h1, h2⟩

/-- C13: when the validation and the selection of `next_one` succeed
and the winning timestamp is strictly below the last returned one,
`next_one` returns `ERROR` without a message, no queue loses a message
and the last returned timestamp stays; when the winning timestamp is not
below the last returned one, `next_one` does not return this error: it
emits a message. -/
theorem C13_non_monotonic_is_error (comp : muxer_comp) (it it1 it2 : muxer_msg_iter)
    (ch : Option Nat) (ts : Int)
    (hv : validate_muxer_upstream_msg_iters it = some (.OK, it1))
    (hy : muxer_msg_iter_youngest_upstream_msg_iter comp it1 = some (.OK, it2, ch, ts)) :
    (ts < it.last_returned_ts_ns →
        muxer_msg_iter_do_next_one comp it = some (.ERROR, none, it2) ∧
          same_cursors it1 it2 ∧ queues_kept it it2 ∧
          it2.last_returned_ts_ns = it.last_returned_ts_ns) ∧
      (it.last_returned_ts_ns ≤ ts →
        ∃ msg it', muxer_msg_iter_do_next_one comp it = some (.OK, some msg, it')) := by
  have hsame := (youngest_same_cursors hy).1
  have hlast : it2.last_returned_ts_ns = it.last_returned_ts_ns :=
    hsame.2.2.trans (validate_same_clock hv).1
  constructor
  · intro hlt
    refine ⟨?_, hsame, ?_, hlast⟩
    · unfold muxer_msg_iter_do_next_one
      simp [hv, hy, bt_message_iterator_status.is_negative, hlast, hlt]
    · intro c hc
      obtain ⟨c1, hc1, hg⟩ := validate_queues_kept hv c hc
      exact ⟨c1, by rw [all_cursors_of_same_cursors hsame]; exact hc1, hg⟩
  · intro hle
    obtain ⟨idx, hch, hts, _, _⟩ := youngest_ok_spec hy
    obtain ⟨c, m, rest, hc, hm⟩ := head_ts_in_loop_cursor comp _ _ _ _ hts
    rw [← hsame.1] at hc
    refine ⟨m, { it2 with
        active_muxer_upstream_msg_iters :=
          it2.active_muxer_upstream_msg_iters.set idx { c with msgs := rest }
        last_returned_ts_ns := ts }, ?_⟩
    unfold muxer_msg_iter_do_next_one
    simp [hv, hy, bt_message_iterator_status.is_negative, hlast, not_lt.mpr hle, hch, hc, hm]

/-- Witness of C13: last returned timestamp 50, head at 30: `ERROR`. -/
theorem C13_non_monotonic_is_error_witness :
    validate_muxer_upstream_msg_iters late_event_iter = some (.OK, late_event_iter) ∧
      muxer_msg_iter_youngest_upstream_msg_iter sample_comp late_event_iter =
        some (.OK, late_event_iter, some 0, 30) ∧
      muxer_msg_iter_do_next_one sample_comp late_event_iter =
        some (.ERROR, none, late_event_iter) ∧
      same_cursors late_event_iter late_event_iter ∧
      queues_kept late_event_iter late_event_iter ∧
      late_event_iter.last_returned_ts_ns = late_event_iter.last_returned_ts_ns :=
  ⟨by decide, by decide,
    (C13_non_monotonic_is_error sample_comp late_event_iter late_event_iter late_event_iter
      (some 0) 30 (by decide) (by decide)).1 (by decide)⟩

/-- C14: with the expectation `ANY`, `validate_clock_class` succeeds and
moves the expectation as the first-observation table says: to
`ABSOLUTE` for a Unix epoch origin; otherwise, for a class with a UUID, to
`NOT_ABS_SPEC_UUID` with the sixteen bytes of that UUID stored as the
expected UUID; otherwise to `NOT_ABS_NO_UUID`.  Nothing else changes. -/
theorem C14_first_observation_table (it : muxer_msg_iter) (comp : muxer_comp)
    (cc : bt_clock_class) (h : it.clock_class_expectation = .ANY) :
    ∃ it1, validate_clock_class it comp cc = some (0, it1) ∧ same_cursors it it1 ∧
      (cc.origin_is_unix_epoch = true →
        it1.clock_class_expectation = .ABSOLUTE ∧
          it1.expected_clock_class_uuid = it.expected_clock_class_uuid) ∧
      (cc.origin_is_unix_epoch = false → ∀ u, cc.uuid = some u →
        it1.clock_class_expectation = .NOT_ABS_SPEC_UUID ∧
          it1.expected_clock_class_uuid = u.take BABELTRACE_UUID_LEN ∧
          (u.length = BABELTRACE_UUID_LEN → it1.expected_clock_class_uuid = u)) ∧
      (cc.origin_is_unix_epoch = false → cc.uuid = none →
        it1.clock_class_expectation = .NOT_ABS_NO_UUID ∧
          it1.expected_clock_class_uuid = it.expected_clock_class_uuid) := by
  unfold validate_clock_class
  simp only [h, if_true]
  cases horigin : cc.origin_is_unix_epoch with
  | true =>
    refine ⟨{ it with clock_class_expectation := .ABSOLUTE }, ?_, ⟨rfl, rfl, rfl⟩, ?_, ?_, ?_⟩
    · cases comp.assume_absolute_clock_classes <;> simp
    · intro _; exact ⟨rfl, rfl⟩
    · intro hh; simp at hh
    · intro hh; simp at hh
  | false =>
    cases huuid : cc.uuid with
    | none =>
      refine ⟨{ it with clock_class_expectation := .NOT_ABS_NO_UUID }, ?_, ⟨rfl, rfl, rfl⟩,
        ?_, ?_, ?_⟩
      · cases comp.assume_absolute_clock_classes <;> simp
      · intro hh; simp at hh
      · intro _ u hu; simp at hu
      · intro _ _; exact ⟨rfl, rfl⟩
    | some u =>
      refine ⟨{ it with
          clock_class_expectation := .NOT_ABS_SPEC_UUID
          expected_clock_class_uuid := memcpy u BABELTRACE_UUID_LEN }, ?_,
        ⟨rfl, rfl, rfl⟩, ?_, ?_, ?_⟩
      · cases comp.assume_absolute_clock_classes <;> simp [memcmp, memcpy]
      · intro hh; simp at hh
      · intro _ u1 hu1
        simp at hu1
        subst hu1
        refine ⟨rfl, rfl, ?_⟩
        intro hlen
        simp [memcpy, ← hlen]
      · intro _ hh; simp at hh

/-- Witness of C14: a non-absolute clock class with a UUID seen first. -/
theorem C14_first_observation_table_witness :
    (initial_iter []).clock_class_expectation = .ANY ∧
      validate_clock_class (initial_iter []) sample_comp
          (sample_relative_clock_class (some sample_uuid)) =
        some (0, expecting_iter .NOT_ABS_SPEC_UUID sample_uuid) ∧
      ∃ it1, validate_clock_class (initial_iter []) sample_comp
          (sample_relative_clock_class (some sample_uuid)) = some (0, it1) ∧
        same_cursors (initial_iter []) it1 ∧
        (sample_relative_clock_class (some sample_uuid)).origin_is_unix_epoch = false ∧
        it1.clock_class_expectation = .NOT_ABS_SPEC_UUID ∧
        it1.expected_clock_class_uuid = sample_uuid := by
  refine ⟨rfl, by decide, ?_⟩
  obtain ⟨it1, h1, h2, _, h4, _⟩ := C14_first_observation_table (initial_iter []) sample_comp
    (sample_relative_clock_class (some sample_uuid)) rfl
  exact ⟨it1, h1, h2, rfl, (h4 rfl sample_uuid rfl).1, (h4 rfl sample_uuid rfl).2.2 rfl⟩

/-- C15 fails on the code: for a stream whose class has no default clock
class, `validate_new_stream_clock_class` succeeds only when the
expectation is `ANY` (which becomes `NONE`); with any other expectation,
`NONE` included, it fails and changes nothing.  In particular the second
stream without clock class is rejected in the state `NONE`. -/
theorem C15_no_clock_class_fails_in_state_none :
    (∀ (it : muxer_msg_iter) (comp : muxer_comp),
        validate_new_stream_clock_class it comp none =
          if it.clock_class_expectation = .ANY then
            some (0, { it with clock_class_expectation := .NONE })
          else some (-1, it)) ∧
      validate_new_stream_clock_class (expecting_iter .NONE []) sample_comp none =
        some (-1, expecting_iter .NONE []) :=
  ⟨fun _ _ => rfl, by decide⟩

/-- C16: without `assume-absolute-clock-classes` and with a locked
expectation, `validate_clock_class` changes nothing and succeeds if and
only if the clock class matches the expectation; otherwise it fails. -/
theorem C16_locked_validation_iff_match (it : muxer_msg_iter) (comp : muxer_comp)
    (cc : bt_clock_class) (hflag : comp.assume_absolute_clock_classes = false)
    (hlocked : it.clock_class_expectation ≠ .ANY) :
    (validate_clock_class it comp cc = some (0, it) ↔ clock_class_matches it cc) ∧
      (validate_clock_class it comp cc = some (0, it) ∨
        validate_clock_class it comp cc = some (-1, it)) := by
  unfold validate_clock_class clock_class_matches
  simp only [hlocked, if_false, hflag, Bool.not_false, if_true]
  cases he : it.clock_class_expectation with
  | ANY => exact absurd he hlocked
  | NONE => simp
  | ABSOLUTE => cases cc.origin_is_unix_epoch <;> simp
  | NOT_ABS_NO_UUID =>
    cases cc.origin_is_unix_epoch <;> cases cc.uuid <;> simp
  | NOT_ABS_SPEC_UUID =>
    cases cc.origin_is_unix_epoch
    · cases hu : cc.uuid with
      | none => simp
      | some u =>
        simp only [memcmp]
        by_cases hm : it.expected_clock_class_uuid.take BABELTRACE_UUID_LEN =
            u.take BABELTRACE_UUID_LEN
        · simp [hm]
        · have hm' : ¬ u.take BABELTRACE_UUID_LEN =
              it.expected_clock_class_uuid.take BABELTRACE_UUID_LEN := fun h => hm h.symm
          simp [hm, hm']
    · simp

/-- Witness of C16: a UUID is expected and a class with another UUID
comes: the validation fails. -/
theorem C16_locked_validation_iff_match_witness :
    sample_comp.assume_absolute_clock_classes = false ∧
      (expecting_iter .NOT_ABS_SPEC_UUID sample_uuid).clock_class_expectation ≠ .ANY ∧
      validate_clock_class (expecting_iter .NOT_ABS_SPEC_UUID sample_uuid) sample_comp
          (sample_relative_clock_class (some (List.replicate 16 7))) =
        some (-1, expecting_iter .NOT_ABS_SPEC_UUID sample_uuid) ∧
      (validate_clock_class (expecting_iter .NOT_ABS_SPEC_UUID sample_uuid) sample_comp
          (sample_relative_clock_class (some sample_uuid)) =
        some (0, expecting_iter .NOT_ABS_SPEC_UUID sample_uuid) ↔
        clock_class_matches (expecting_iter .NOT_ABS_SPEC_UUID sample_uuid)
          (sample_relative_clock_class (some sample_uuid))) :=
  ⟨rfl, by decide, by decide,
    (C16_locked_validation_iff_match (expecting_iter .NOT_ABS_SPEC_UUID sample_uuid)
      sample_comp (sample_relative_clock_class (some sample_uuid)) rfl (by decide)).1⟩

/-- C17, amended: with `assume-absolute-clock-classes` set and the
expectation locked, the validation of a clock class never fails and
changes nothing, whatever the properties of the class: this holds for
`validate_clock_class`, for a stream beginning whose class has a default
clock class and for a message iterator inactivity.  A stream beginning
whose class has no default clock class is still rejected when clock
classes are expected (`ABSOLUTE`, `NOT_ABS_SPEC_UUID`, `NOT_ABS_NO_UUID`). -/
theorem C17_assume_absolute_skips_clock_checks (it : muxer_msg_iter) (comp : muxer_comp)
    (hflag : comp.assume_absolute_clock_classes = true)
    (hlocked : it.clock_class_expectation ≠ .ANY) :
    (∀ cc, validate_clock_class it comp cc = some (0, it)) ∧
      (∀ msg cc, msg.type = .STREAM_BEGINNING →
        msg.stream_class_default_clock_class = some cc →
        validate_head_clock_class it comp msg = some (0, it)) ∧
      (∀ msg cs, msg.type = .MESSAGE_ITERATOR_INACTIVITY →
        msg.default_clock_snapshot = some cs →
        validate_head_clock_class it comp msg = some (0, it)) ∧
      (it.clock_class_expectation ≠ .NONE →
        ∀ msg, msg.type = .STREAM_BEGINNING → msg.stream_class_default_clock_class = none →
          validate_head_clock_class it comp msg = some (-1, it)) := by
  have hcc : ∀ cc, validate_clock_class it comp cc = some (0, it) := by
    intro cc
    unfold validate_clock_class
    simp [hlocked, hflag]
  refine ⟨hcc, ?_, ?_, ?_⟩
  · intro msg cc hty hcls
    simp [validate_head_clock_class, hty, validate_new_stream_clock_class, hcls, hcc]
  · intro msg cs hty hcs
    simp [validate_head_clock_class, hty, hcs, hcc]
  · intro _ msg hty hcls
    simp [validate_head_clock_class, hty, validate_new_stream_clock_class, hcls, hlocked]

/-- Witness of C17, amended: absolute clock classes are expected, the
flag is set, an inactivity message comes with a non-absolute clock class. -/
theorem C17_assume_absolute_skips_clock_checks_witness :
    assuming_comp.assume_absolute_clock_classes = true ∧
      (expecting_iter .ABSOLUTE []).clock_class_expectation ≠ .ANY ∧
      validate_head_clock_class (expecting_iter .ABSOLUTE []) assuming_comp
          (sample_inactivity 1
            (some { clock_class := sample_relative_clock_class none, ns_from_origin := some 5 })) =
        some (0, expecting_iter .ABSOLUTE []) :=
  ⟨rfl, by decide,
    (C17_assume_absolute_skips_clock_checks (expecting_iter .ABSOLUTE []) assuming_comp rfl
      (by decide)).2.2.1 _ _ rfl rfl⟩

/-- C17 as stated fails: with the flag set and absolute clock classes
expected, the beginning of a stream whose class has no default clock
class does not validate. -/
theorem C17_stream_without_clock_class_still_fails :
    assuming_comp.assume_absolute_clock_classes = true ∧
      (expecting_iter .ABSOLUTE []).clock_class_expectation ≠ .ANY ∧
      validate_head_clock_class (expecting_iter .ABSOLUTE []) assuming_comp
          (sample_stream_beginning 1 none) =
        some (-1, expecting_iter .ABSOLUTE []) := by
  refine ⟨rfl, by decide, by decide⟩

/-- C19: with the expectation `NONE`, `get_msg_ts_ns` succeeds with the
last returned timestamp for every message, whatever its type and whether
or not it has a clock snapshot. -/
theorem C19_no_clock_uses_last_ts (it : muxer_msg_iter) (msg : bt_message) (last : Int)
    (h : it.clock_class_expectation = .NONE) :
    get_msg_ts_ns it msg last = some (.ok last) := by
  unfold get_msg_ts_ns
  simp [h]

/-- Witness of C19: an event at 5 is given the last returned timestamp 7. -/
theorem C19_no_clock_uses_last_ts_witness :
    (expecting_iter .NONE []).clock_class_expectation = .NONE ∧
      get_msg_ts_ns (expecting_iter .NONE []) (sample_event 1 5) 7 = some (.ok 7) :=
  ⟨rfl, C19_no_clock_uses_last_ts (expecting_iter .NONE []) (sample_event 1 5) 7 rfl⟩

theorem get_ns_from_origin_converted {cs : Option bt_clock_snapshot}
    (h : cs.isSome = true) :
    get_ns_from_origin cs =
      some (match cs.bind (·.ns_from_origin) with
        | some ts => .ok ts
        | none => .error) := by
  obtain ⟨c, rfl⟩ := Option.isSome_iff_exists.mp h
  unfold get_ns_from_origin
  simp only [Option.bind_some]
  cases hc : c.ns_from_origin <;> simp [hc]

/-- C20: when the expectation is not `NONE`, `get_msg_ts_ns` on a
message that satisfies the assertions is the by-type reference of the
specification; it fails exactly when the reference does, that is when
the conversion of the snapshot fails. -/
theorem C20_timestamp_by_type (it : muxer_msg_iter) (msg : bt_message) (last : Int)
    (h : it.clock_class_expectation ≠ .NONE) (hok : msg_accessors_ok msg) :
    get_msg_ts_ns it msg last = some (get_msg_ts_ns_reference msg last) ∧
      (get_msg_ts_ns it msg last = some .error ↔
        get_msg_ts_ns_reference msg last = .error) := by
  have hmain : get_msg_ts_ns it msg last = some (get_msg_ts_ns_reference msg last) := by
    unfold get_msg_ts_ns get_msg_ts_ns_reference
    unfold msg_accessors_ok at hok
    simp only [h, if_false]
    cases hty : msg.type with
    | EVENT =>
      simp only [hty] at hok
      simp only [hok.1, if_true, get_ns_from_origin_converted hok.2]
    | PACKET_BEGINNING =>
      simp only [hty] at hok
      simp only [hok.1, if_true, get_ns_from_origin_converted hok.2]
    | PACKET_END =>
      simp only [hty] at hok
      simp only [hok.1, if_true, get_ns_from_origin_converted hok.2]
    | DISCARDED_EVENTS =>
      simp only [hty] at hok
      simp only [hok.1, if_true, get_ns_from_origin_converted hok.2]
    | DISCARDED_PACKETS =>
      simp only [hty] at hok
      simp only [hok.1, if_true, get_ns_from_origin_converted hok.2]
    | MESSAGE_ITERATOR_INACTIVITY =>
      simp only [hty] at hok
      simp only [get_ns_from_origin_converted hok]
    | STREAM_ACTIVITY_BEGINNING =>
      simp only [hty] at hok
      by_cases hk : msg.sa_cs_state = .KNOWN
      · simp only [hok.1, if_true, hk, ne_eq, not_true_eq_false, if_false,
          get_ns_from_origin_converted (hok.2 hk)]
      · simp [hok.1, hk]
    | STREAM_ACTIVITY_END =>
      simp only [hty] at hok
      by_cases hk : msg.sa_cs_state = .KNOWN
      · simp only [hok.1, if_true, hk, ne_eq, not_true_eq_false, if_false,
          get_ns_from_origin_converted (hok.2 hk)]
      · simp [hok.1, hk]
    | STREAM_BEGINNING => rfl
    | STREAM_END => rfl
    | OTHER => rfl
  refine ⟨hmain, ?_⟩
  rw [hmain]
  simp

/-- Witness of C20: an event at 5, absolute clock classes expected. -/
theorem C20_timestamp_by_type_witness :
    (expecting_iter .ABSOLUTE []).clock_class_expectation ≠ .NONE ∧
      msg_accessors_ok (sample_event 1 5) ∧
      get_msg_ts_ns (expecting_iter .ABSOLUTE []) (sample_event 1 5) 7 = some (.ok 5) ∧
      get_msg_ts_ns (expecting_iter .ABSOLUTE []) (sample_event 1 5) 7 =
        some (get_msg_ts_ns_reference (sample_event 1 5) 7) :=
  ⟨by decide, ⟨rfl, rfl⟩, by decide,
    (C20_timestamp_by_type (expecting_iter .ABSOLUTE []) (sample_event 1 5) 7 (by decide)
      ⟨rfl, rfl⟩).1⟩

theorem youngest_loop_locked (comp : muxer_comp) :
    ∀ (cursors : List muxer_upstream_msg_iter) (i : Nat) (it : muxer_msg_iter)
      (chosen : Option Nat) (y : Int) (st : bt_message_iterator_status)
      (it1 : muxer_msg_iter) (ch1 : Option Nat) (y1 : Int),
      it.clock_class_expectation ≠ .ANY →
      youngest_loop comp cursors i it chosen y = some (st, it1, ch1, y1) → it1 = it := by
  intro cursors
  induction cursors with
  | nil =>
    intro i it chosen y st it1 ch1 y1 _ h
    simp [youngest_loop] at h
    exact h.2.1.symm
  | cons cur rest ih =>
    intro i it chosen y st it1 ch1 y1 hne h
    unfold youngest_loop at h
    split at h
    · exact ih _ _ _ _ _ _ _ _ hne h
    · split at h
      · simp at h
      · split at h
        · simp at h
        · rename_i ret it2 hv
          have hit := validate_head_clock_class_locked hv hne
          subst hit
          split_ifs at h
          · simp at h; exact h.2.1.symm
          · split at h
            · simp at h
            · simp at h; exact h.2.1.symm
            · split_ifs at h
              · exact ih _ _ _ _ _ _ _ _ hne h
              · exact ih _ _ _ _ _ _ _ _ hne h

theorem youngest_locked {comp : muxer_comp} {it it1 : muxer_msg_iter}
    {st : bt_message_iterator_status} {ch : Option Nat} {ts : Int}
    (hne : it.clock_class_expectation ≠ .ANY)
    (h : muxer_msg_iter_youngest_upstream_msg_iter comp it = some (st, it1, ch, ts)) :
    it1 = it := by
  unfold muxer_msg_iter_youngest_upstream_msg_iter at h
  split at h
  · simp at h
  · rename_i it2 y hl
    simp at h
    rw [← h.2.1]
    exact youngest_loop_locked comp _ _ _ _ _ _ _ _ _ hne hl
  · rename_i r _ hl
    simp at h
    subst h
    exact youngest_loop_locked comp _ _ _ _ _ _ _ _ _ hne hl

theorem do_next_one_locked {comp : muxer_comp} {it it' : muxer_msg_iter}
    {st : bt_message_iterator_status} {om : Option bt_message}
    (hne : it.clock_class_expectation ≠ .ANY)
    (h : muxer_msg_iter_do_next_one comp it = some (st, om, it')) :
    same_expectation it it' := by
  obtain ⟨sv, it1, hv, hc⟩ := do_next_one_cases h
  have h1 := validate_same_clock hv
  have hne1 : it1.clock_class_expectation ≠ .ANY := by rw [h1.2.1]; exact hne
  rcases hc with ⟨_, _, _, rfl⟩ | ⟨_, sy, it2, ch, ts, hy, hc⟩
  · exact ⟨h1.2.1, h1.2.2⟩
  · have h2 := youngest_locked hne1 hy
    subst h2
    rcases hc with ⟨_, _, _, rfl⟩ | ⟨_, _, _, _, rfl⟩ | ⟨_, _, _, _, _, _, _, _, _, _, _, rfl⟩
    · exact ⟨h1.2.1, h1.2.2⟩
    · exact ⟨h1.2.1, h1.2.2⟩
    · exact ⟨h1.2.1, h1.2.2⟩

theorem do_next_loop_locked (comp : muxer_comp) :
    ∀ (k : Nat) (it : muxer_msg_iter) (acc : List bt_message)
      (st : bt_message_iterator_status) (msgs : List bt_message) (it1 : muxer_msg_iter),
      it.clock_class_expectation ≠ .ANY →
      muxer_msg_iter_do_next_loop comp k it acc = some (st, msgs, it1) →
      same_expectation it it1 := by
  intro k
  induction k with
  | zero =>
    intro it acc st msgs it1 _ h
    simp [muxer_msg_iter_do_next_loop] at h
    rw [← h.2.2]
    exact ⟨rfl, rfl⟩
  | succ k ih =>
    intro it acc st msgs it1 hne h
    rw [muxer_msg_iter_do_next_loop] at h
    split at h
    · simp at h
    · rename_i msg it2 hn
      have h1 := do_next_one_locked hne hn
      have h2 := ih _ _ _ _ _ (by rw [h1.1]; exact hne) h
      exact ⟨h2.1.trans h1.1, h2.2.trans h1.2⟩
    · simp at h
    · rename_i st0 om it0 _ _ hn
      simp at h
      rw [← h.2.2]
      exact do_next_one_locked hne hn

theorem do_next_locked {comp : muxer_comp} {it it1 : muxer_msg_iter} {capacity : Nat}
    {st : bt_message_iterator_status} {msgs : List bt_message}
    (hne : it.clock_class_expectation ≠ .ANY)
    (h : muxer_msg_iter_do_next comp it capacity = some (st, msgs, it1)) :
    same_expectation it it1 := by
  unfold muxer_msg_iter_do_next at h
  split at h
  · simp at h
  · rename_i st0 msgs0 it0 hl
    have := do_next_loop_locked comp _ _ _ _ _ _ hne hl
    split_ifs at h <;> (simp at h; rw [← h.2.2]; exact this)

/-- C18: once the clock expectation has left `ANY`, it is locked: no
validation of a head, successful or not, changes the iterator; after every
call of a sequence of `next_one` calls, and after any sequence of `next`
calls, the expectation and the expected UUID are those of the start, so
the expectation never comes back to `ANY`. -/
theorem C18_expectation_locked (comp : muxer_comp) (it : muxer_msg_iter)
    (hne : it.clock_class_expectation ≠ .ANY) :
    (∀ msg r it1, validate_head_clock_class it comp msg = some (r, it1) → it1 = it) ∧
      (∀ n, ∀ r ∈ next_one_calls comp n it, same_expectation it r.2.2) ∧
      (∀ capacities, same_expectation it (next_calls comp capacities it).2) := by
  refine ⟨fun msg r it1 h => validate_head_clock_class_locked h hne, ?_, ?_⟩
  · intro n
    induction n generalizing it with
    | zero => intro r hr; simp [next_one_calls] at hr
    | succ n ih =>
      intro r hr
      rw [next_one_calls] at hr
      split at hr
      · simp at hr
      · rename_i r0 hn
        obtain ⟨st, om, it'⟩ := r0
        have h1 := do_next_one_locked hne hn
        rcases List.mem_cons.mp hr with rfl | hr
        · exact h1
        · have h2 := ih it' (by rw [h1.1]; exact hne) r hr
          exact ⟨h2.1.trans h1.1, h2.2.trans h1.2⟩
  · intro capacities
    induction capacities generalizing it with
    | nil => exact ⟨rfl, rfl⟩
    | cons cap caps ih =>
      rw [next_calls]
      split
      · exact ⟨rfl, rfl⟩
      · rename_i st msgs it1 hn
        have h1 := do_next_locked hne hn
        have h2 := ih it1 (by rw [h1.1]; exact hne)
        exact ⟨h2.1.trans h1.1, h2.2.trans h1.2⟩

/-- Witness of C18: absolute clock classes are expected; a stream with a
non-absolute clock class begins: the call fails and the expectation stays. -/
theorem C18_expectation_locked_witness :
    locked_iter.clock_class_expectation ≠ .ANY ∧
      muxer_msg_iter_do_next_one sample_comp locked_iter = some (.ERROR, none, locked_iter) ∧
      same_expectation locked_iter (next_calls sample_comp [2, 2] locked_iter).2 :=
  ⟨by decide, by decide,
    (C18_expectation_locked sample_comp locked_iter (by decide)).2.2 [2, 2]⟩

theorem validate_muxer_upstream_msg_iter_ready_or_not {c c1 : muxer_upstream_msg_iter}
    {e : Bool} {st : bt_message_iterator_status}
    (h : validate_muxer_upstream_msg_iter c false = some (st, c1, e)) :
    (st ≠ .OK → ¬ cursor_ready c1) ∧ (st = .OK → e = false → cursor_ready c1) := by
  by_cases hr : cursor_ready c
  · rw [validate_muxer_upstream_msg_iter_ready false hr] at h
    simp at h
    obtain ⟨rfl, rfl, rfl⟩ := h
    exact ⟨fun hh => absurd rfl hh, fun _ _ => hr⟩
  · have hq : c.msgs = [] := by
      by_contra hh; exact hr (Or.inl hh)
    unfold validate_muxer_upstream_msg_iter at h
    have hcond : ¬ (c.msgs.length > 0 ∨ c.msg_iter.isNone = true) := by
      intro hh
      rcases hh with hh | hh
      · rw [hq] at hh; simp at hh
      · exact hr (Or.inr (by simpa using hh))
    simp only [hcond, if_false] at h
    obtain ⟨u, hu, hu1, hc⟩ := muxer_upstream_msg_iter_next_cases h
    constructor
    · intro hst
      rcases hc with ⟨_, h1, _⟩ | ⟨_, _, _, h2⟩ | ⟨_, h1, _⟩ | ⟨_, _, _, h2⟩
      · exact absurd h1 hst
      · intro hrd
        rcases hrd with hrd | hrd
        · exact hrd (by rw [h2, hq])
        · rw [hu1] at hrd; simp at hrd
      · exact absurd h1 hst
      · intro hrd
        rcases hrd with hrd | hrd
        · exact hrd (by rw [h2, hq])
        · rw [hu1] at hrd; simp at hrd
    · intro hst he
      rcases hc with ⟨_, _, _, hne, h2⟩ | ⟨_, h1, _⟩ | ⟨_, _, h1, _⟩ | ⟨_, h1, _⟩
      · left
        rw [h2, hq]
        simpa using hne
      · rw [hst] at h1; simp at h1
      · rw [he] at h1; simp at h1
      · rw [hst] at h1; simp at h1

/-- After the validation loop: with `OK` every active cursor is ready;
with another status some active cursor is not (the one whose pull gave
that status). -/
theorem validate_loop_ready :
    ∀ (fuel i : Nat) (it : muxer_msg_iter) (st : bt_message_iterator_status)
      (it1 : muxer_msg_iter),
      validate_muxer_upstream_msg_iters_loop fuel i it = some (st, it1) →
      (∀ x ∈ it.active_muxer_upstream_msg_iters.take i, cursor_ready x) →
      (st = .OK → ∀ x ∈ it1.active_muxer_upstream_msg_iters, cursor_ready x) ∧
        (st ≠ .OK → ∃ x ∈ it1.active_muxer_upstream_msg_iters, ¬ cursor_ready x) := by
  intro fuel
  induction fuel with
  | zero =>
    intro i it st it1 h ht
    simp [validate_muxer_upstream_msg_iters_loop] at h
    obtain ⟨hi, rfl, rfl⟩ := h
    refine ⟨fun _ x hx => ht x ?_, fun hh => absurd rfl hh⟩
    rw [List.take_of_length_le hi]; exact hx
  | succ n ih =>
    intro i it st it1 h ht
    rw [validate_muxer_upstream_msg_iters_loop] at h
    split_ifs at h with hi
    · split at h
      · simp at h
      · rename_i i1 it2 hturn
        obtain ⟨c, st0, c1, e, hc, hv, hr | hr | hr⟩ := validate_turn_cases hturn
        · simp at hr
        · simp at hr
          obtain ⟨_, _, h1, h2⟩ := hr
          subst h1; subst h2
          refine ih _ _ _ _ h ?_
          intro x hx
          simp only at hx
          have hlt' : i1 < (it.active_muxer_upstream_msg_iters.set i1 c1).length := by
            simpa using hi
          rw [remove_index_fast_take _ i1 hlt', take_set_self] at hx
          exact ht x hx
        · simp at hr
          obtain ⟨hst0, he, h1, h2⟩ := hr
          subst h1; subst h2
          refine ih _ _ _ _ h ?_
          intro x hx
          simp only at hx
          rw [List.take_succ, take_set_self] at hx
          rcases List.mem_append.mp hx with hx | hx
          · exact ht x hx
          · rw [List.getElem?_set_self hi] at hx
            simp at hx
            rw [hx]
            exact (validate_muxer_upstream_msg_iter_ready_or_not hv).2 hst0 he
      · rename_i r hturn
        simp at h
        subst h
        obtain ⟨c, st0, c1, e, hc, hv, hr | hr | hr⟩ := validate_turn_cases hturn
        · simp at hr
          obtain ⟨hst0, rfl, rfl⟩ := hr
          refine ⟨fun hh => absurd hh hst0, fun _ => ⟨c1, ?_, ?_⟩⟩
          · simp only
            exact List.mem_iff_getElem?.mpr ⟨i, List.getElem?_set_self hi⟩
          · exact (validate_muxer_upstream_msg_iter_ready_or_not hv).1 hst0
        · simp at hr
        · simp at hr
    · simp at h
      obtain ⟨rfl, rfl⟩ := h
      refine ⟨fun _ x hx => ht x ?_, fun hh => absurd rfl hh⟩
      rw [List.take_of_length_le (not_lt.mp hi)]; exact hx

theorem validate_ready {it it1 : muxer_msg_iter} {st : bt_message_iterator_status}
    (h : validate_muxer_upstream_msg_iters it = some (st, it1)) :
    (st = .OK → ∀ x ∈ it1.active_muxer_upstream_msg_iters, cursor_ready x) ∧
      (st ≠ .OK → ∃ x ∈ it1.active_muxer_upstream_msg_iters, ¬ cursor_ready x) :=
  validate_loop_ready _ 0 it st it1 h (by simp)

/-- The timestamp of a message depends on the iterator only through
whether its expectation is "no clock class". -/
theorem get_msg_ts_ns_congr {it it1 : muxer_msg_iter} (msg : bt_message) (l : Int)
    (h : it.clock_class_expectation = .NONE ↔ it1.clock_class_expectation = .NONE) :
    get_msg_ts_ns it msg l = get_msg_ts_ns it1 msg l := by
  unfold get_msg_ts_ns
  by_cases hn : it.clock_class_expectation = .NONE
  · simp [hn, h.mp hn]
  · have hn1 : ¬ it1.clock_class_expectation = .NONE := fun hh => hn (h.mpr hh)
    simp [hn, hn1]

/-- A cursor chosen before the end of the selection loop stays chosen,
or is replaced, when the loop ends with `OK`. -/
theorem youngest_loop_chosen_mono (comp : muxer_comp) :
    ∀ (cursors : List muxer_upstream_msg_iter) (i : Nat) (it : muxer_msg_iter)
      (chosen : Option Nat) (y : Int) (c : muxer_msg_iter) (ch1 : Option Nat) (y1 : Int),
      youngest_loop comp cursors i it chosen y = some (.OK, c, ch1, y1) →
      chosen.isSome → ch1.isSome := by
  intro cursors
  induction cursors with
  | nil =>
    intro i it chosen y c ch1 y1 h hc
    simp [youngest_loop] at h
    obtain ⟨_, rfl, _⟩ := h
    exact hc
  | cons cur rest ih =>
    intro i it chosen y c ch1 y1 h hc
    rw [youngest_loop] at h
    cases hmi : cur.msg_iter with
    | none =>
      simp only [hmi] at h
      exact ih _ _ _ _ _ _ _ h hc
    | some u =>
      simp only [hmi] at h
      cases hq : cur.msgs with
      | nil => simp [hq] at h
      | cons msg tl =>
        simp only [hq] at h
        cases hv : validate_head_clock_class it comp msg with
        | none => simp [hv] at h
        | some p =>
          obtain ⟨ret, it1⟩ := p
          simp only [hv] at h
          by_cases hret : ret ≠ 0
          · rw [if_pos hret] at h
            simp at h
          · rw [if_neg hret] at h
            cases hts : get_msg_ts_ns it1 msg it1.last_returned_ts_ns with
            | none => simp [hts] at h
            | some tr =>
              cases tr with
              | error => simp [hts] at h
              | ok t =>
                simp only [hts] at h
                by_cases hle : t ≤ y
                · rw [if_pos hle] at h
                  exact ih _ _ _ _ _ _ _ h rfl
                · rw [if_neg hle] at h
                  exact ih _ _ _ _ _ _ _ h hc

/-- What `next_one` returns once the validation returned `OK`, when the
selection does not return `OK` or selects a message older than the last
returned one. -/
theorem do_next_one_of_youngest {comp : muxer_comp} {it it1 it2 : muxer_msg_iter}
    {sy : bt_message_iterator_status} {ch : Option Nat} {ts : Int}
    (hv : validate_muxer_upstream_msg_iters it = some (.OK, it1))
    (hy : muxer_msg_iter_youngest_upstream_msg_iter comp it1 = some (sy, it2, ch, ts)) :
    (sy = .END ∨ sy = .ERROR → muxer_msg_iter_do_next_one comp it = some (sy, none, it2)) ∧
      (sy = .OK → ts < it2.last_returned_ts_ns →
        muxer_msg_iter_do_next_one comp it = some (.ERROR, none, it2)) := by
  unfold muxer_msg_iter_do_next_one
  simp only [hv, hy]
  constructor
  · intro h
    rcases h with rfl | rfl <;> simp [bt_message_iterator_status.is_negative]
  · intro h hlt
    subst h
    simp [bt_message_iterator_status.is_negative, hlt]

theorem empty_message_queue_loop_nil : ∀ q : List bt_message, empty_message_queue_loop q = []
  | [] => rfl
  | _ :: rest => empty_message_queue_loop_nil rest

/-- C21: when the expectation is not "no clock class", the timestamp of
a stream activity beginning or end message (of a stream whose class has a
default clock class) is what the conversion of its clock snapshot gives
when the snapshot state is known, and the last returned timestamp for
any other state.  In the scenario, from the last returned timestamp
`INT64_MIN`, the activity message with unknown state is emitted first,
with timestamp `INT64_MIN`, then the event at 100, then `END`. -/
theorem C21_stream_activity_timestamp (it : muxer_msg_iter) (msg : bt_message) (last : Int)
    (hn : it.clock_class_expectation ≠ .NONE)
    (hty : msg.type = .STREAM_ACTIVITY_BEGINNING ∨ msg.type = .STREAM_ACTIVITY_END)
    (hcc : msg.stream_class_default_clock_class.isSome = true) :
    (msg.sa_cs_state = .KNOWN → ∀ cs, msg.default_clock_snapshot = some cs →
        get_msg_ts_ns it msg last =
          some (match cs.ns_from_origin with
            | some ts => .ok ts
            | none => .error)) ∧
      (msg.sa_cs_state ≠ .KNOWN → get_msg_ts_ns it msg last = some (.ok last)) ∧
      (next_one_calls sample_comp 3 activity_unknown_iter).map
          (fun r => (r.1, r.2.1, r.2.2.last_returned_ts_ns)) =
        [(.OK, some (sample_stream_activity_beginning 1 .UNKNOWN none), INT64_MIN),
          (.OK, some (sample_event 2 100), 100), (.END, none, 100)] := by
  refine ⟨?_, ?_, by decide⟩
  · intro hk cs hcs
    unfold get_msg_ts_ns get_ns_from_origin
    rcases hty with h | h <;> simp [hn, h, hcc, hk, hcs] <;> cases cs.ns_from_origin <;> rfl
  · intro hk
    unfold get_msg_ts_ns
    rcases hty with h | h <;> simp [hn, h, hcc, hk]

/-- Witness of C21: a stream activity beginning with unknown state, seen
by a fresh iterator with the last returned timestamp 7. -/
theorem C21_stream_activity_timestamp_witness :
    get_msg_ts_ns (initial_iter []) (sample_stream_activity_beginning 1 .UNKNOWN none) 7 =
      some (.ok 7) :=
  (C21_stream_activity_timestamp (initial_iter [])
    (sample_stream_activity_beginning 1 .UNKNOWN none) 7 (by decide) (Or.inl rfl) rfl).2.1
    (by decide)

theorem empty_message_queue_after_seek (c : muxer_upstream_msg_iter) (u : upstream_iterator)
    (h : c.msg_iter = some u) :
    empty_message_queue
        { c with
          msg_iter := some (bt_self_component_port_input_message_iterator_seek_beginning u).2 } =
      cursor_after_seek c := by
  simp [empty_message_queue, cursor_after_seek, empty_message_queue_loop_nil, h]

/-- The seeking loop over cursors whose upstreams all accept the seek
returns `OK` and leaves every cursor sought, with an empty queue. -/
theorem seek_beginning_loop_ok :
    ∀ l : List muxer_upstream_msg_iter, (∀ x ∈ l, seek_succeeds x) →
      seek_beginning_loop l = some (.OK, l.map cursor_after_seek)
  | [], _ => rfl
  | c :: rest, h => by
    obtain ⟨u, hu, hs⟩ := h c (List.mem_cons_self _ _)
    have ih := seek_beginning_loop_ok rest (fun x hx => h x (List.mem_cons_of_mem _ hx))
    rw [seek_beginning_loop]
    simp only [hu]
    generalize hr : bt_self_component_port_input_message_iterator_seek_beginning u = r at hs
    obtain ⟨st, u1⟩ := r
    simp only at hs
    subst hs
    simp only [ih, List.map_cons]
    have := empty_message_queue_after_seek c u hu
    rw [hr] at this
    rw [this]

/-- The seeking loop stops at the first cursor whose upstream refuses
the seek: the cursors before it are sought and emptied, the others keep
their queues, and those after it are not touched. -/
theorem seek_beginning_loop_fail :
    ∀ (pre : List muxer_upstream_msg_iter) (c : muxer_upstream_msg_iter)
      (post : List muxer_upstream_msg_iter) (u : upstream_iterator),
      (∀ x ∈ pre, seek_succeeds x) → c.msg_iter = some u →
      (bt_self_component_port_input_message_iterator_seek_beginning u).1 ≠ .OK →
      seek_beginning_loop (pre ++ c :: post) =
        some ((bt_self_component_port_input_message_iterator_seek_beginning u).1,
          pre.map cursor_after_seek ++ cursor_after_failed_seek c u :: post)
  | [], c, post, u, _, hu, hs => by
    rw [List.nil_append, seek_beginning_loop]
    simp only [hu, cursor_after_failed_seek]
    generalize bt_self_component_port_input_message_iterator_seek_beginning u = r at hs ⊢
    obtain ⟨st, u1⟩ := r
    cases st <;> simp at hs ⊢
  | p :: pre, c, post, u, h, hu, hs => by
    obtain ⟨up, hup, hsp⟩ := h p (List.mem_cons_self _ _)
    have ih := seek_beginning_loop_fail pre c post u
      (fun x hx => h x (List.mem_cons_of_mem _ hx)) hu hs
    rw [List.cons_append, seek_beginning_loop]
    simp only [hup]
    generalize hr : bt_self_component_port_input_message_iterator_seek_beginning up = r at hsp
    obtain ⟨st, u1⟩ := r
    simp only at hsp
    subst hsp
    simp only [ih, List.map_cons, List.cons_append]
    have := empty_message_queue_after_seek p up hup
    rw [hr] at this
    rw [this]

/-- What the seeking loop did when it returned: either every upstream
accepted the seek, or the loop stopped at the first refusal. -/
theorem seek_beginning_loop_cases :
    ∀ (l l1 : List muxer_upstream_msg_iter) (st : bt_message_iterator_status),
      seek_beginning_loop l = some (st, l1) →
      (st = .OK ∧ (∀ x ∈ l, seek_succeeds x) ∧ l1 = l.map cursor_after_seek) ∨
        (st ≠ .OK ∧ ∃ pre c post u, l = pre ++ c :: post ∧ (∀ x ∈ pre, seek_succeeds x) ∧
          c.msg_iter = some u ∧
          (bt_self_component_port_input_message_iterator_seek_beginning u).1 = st ∧
          l1 = pre.map cursor_after_seek ++ cursor_after_failed_seek c u :: post)
  | [], l1, st, h => by
    simp [seek_beginning_loop] at h
    obtain ⟨rfl, rfl⟩ := h
    exact Or.inl ⟨rfl, by simp, rfl⟩
  | c :: rest, l1, st, h => by
    have h0 := h
    rw [seek_beginning_loop] at h
    cases hu : c.msg_iter with
    | none => simp [hu] at h
    | some u =>
      simp only [hu] at h
      by_cases hs : (bt_self_component_port_input_message_iterator_seek_beginning u).1 = .OK
      · have hsucc : seek_succeeds c := ⟨u, hu, hs⟩
        generalize hr : bt_self_component_port_input_message_iterator_seek_beginning u = r
          at hs h
        obtain ⟨st0, u1⟩ := r
        simp only at hs
        subst hs
        simp only at h
        cases hrest : seek_beginning_loop rest with
        | none => simp [hrest] at h
        | some p =>
          obtain ⟨st1, rest1⟩ := p
          simp only [hrest] at h
          simp at h
          obtain ⟨rfl, rfl⟩ := h
          have hq := empty_message_queue_after_seek c u hu
          rw [hr] at hq
          rw [hq]
          rcases seek_beginning_loop_cases rest rest1 st1 hrest with
            ⟨h1, h2, h3⟩ | ⟨h1, pre, c2, post, u2, h2, h3, h4, h5, h6⟩
          · left
            refine ⟨h1, ?_, by rw [h3]; rfl⟩
            intro x hx
            rcases List.mem_cons.mp hx with rfl | hx
            · exact hsucc
            · exact h2 x hx
          · right
            refine ⟨h1, c :: pre, c2, post, u2, by rw [h2]; rfl, ?_, h4, h5, by rw [h6]; rfl⟩
            intro x hx
            rcases List.mem_cons.mp hx with rfl | hx
            · exact hsucc
            · exact h3 x hx
      · right
        have := seek_beginning_loop_fail [] c rest u (by simp) hu hs
        rw [List.nil_append] at this
        rw [this] at h0
        simp at h0
        obtain ⟨rfl, rfl⟩ := h0
        exact ⟨hs, [], c, rest, u, rfl, by simp, hu, rfl, rfl⟩

/-- A seek to the beginning returns `OK` exactly when every upstream,
of the ended and of the active cursors, accepts the seek. -/
theorem seek_beginning_ok {it it1 : muxer_msg_iter}
    (h : muxer_msg_iter_seek_beginning it = some (.OK, it1)) :
    (∀ x ∈ all_cursors it, seek_succeeds x) ∧ it1 = iter_after_seek it := by
  unfold muxer_msg_iter_seek_beginning at h
  cases he : seek_beginning_loop it.ended_muxer_upstream_msg_iters with
  | none => simp [he] at h
  | some p =>
    obtain ⟨ste, ended⟩ := p
    simp only [he] at h
    by_cases hste : ste ≠ .OK
    · rw [if_pos hste] at h
      simp at h
      exact absurd h.1 hste
    · rw [if_neg hste] at h
      have hste0 : ste = .OK := by simpa using hste
      subst hste0
      cases ha : seek_beginning_loop it.active_muxer_upstream_msg_iters with
      | none => simp [ha] at h
      | some q =>
        obtain ⟨sta, active⟩ := q
        simp only [ha] at h
        by_cases hsta : sta ≠ .OK
        · rw [if_pos hsta] at h
          simp at h
          exact absurd h.1 hsta
        · rw [if_neg hsta] at h
          have hsta0 : sta = .OK := by simpa using hsta
          subst hsta0
          simp at h
          rcases seek_beginning_loop_cases _ _ _ he with ⟨_, e2, e3⟩ | ⟨e1, _⟩
          · rcases seek_beginning_loop_cases _ _ _ ha with ⟨_, a2, a3⟩ | ⟨a1, _⟩
            · refine ⟨?_, ?_⟩
              · intro x hx
                rcases List.mem_append.mp hx with hx | hx
                · exact a2 x hx
                · exact e2 x hx
              · rw [← h, a3, e3]
                rfl
            · exact absurd rfl a1
          · exact absurd rfl e1

theorem seek_beginning_of_succeeds {it : muxer_msg_iter}
    (h : ∀ x ∈ all_cursors it, seek_succeeds x) :
    muxer_msg_iter_seek_beginning it = some (.OK, iter_after_seek it) := by
  unfold muxer_msg_iter_seek_beginning
  rw [seek_beginning_loop_ok _ (fun x hx => h x (List.mem_append_right _ hx)),
    seek_beginning_loop_ok _ (fun x hx => h x (List.mem_append_left _ hx))]
  simp [iter_after_seek]

/-- C22: whatever the state of the iterator, after a seek to the
beginning that returned `OK` the last returned timestamp is `INT64_MIN`,
the expectation is "any", the ended array is empty and the queue of
every cursor is empty. -/
theorem C22_seek_beginning_resets (it it1 : muxer_msg_iter)
    (h : muxer_msg_iter_seek_beginning it = some (.OK, it1)) :
    it1.last_returned_ts_ns = INT64_MIN ∧ it1.clock_class_expectation = .ANY ∧
      it1.ended_muxer_upstream_msg_iters = [] ∧ ∀ c ∈ all_cursors it1, c.msgs = [] := by
  obtain ⟨_, rfl⟩ := seek_beginning_ok h
  refine ⟨rfl, rfl, rfl, ?_⟩
  intro c hc
  simp only [all_cursors, iter_after_seek, List.append_nil, List.mem_append, List.mem_map] at hc
  rcases hc with ⟨x, _, rfl⟩ | ⟨x, _, rfl⟩ <;> rfl

/-- Witness of C22: a seek on an iterator with one ended cursor and one
active cursor that holds a message. -/
theorem C22_seek_beginning_resets_witness :
    muxer_msg_iter_seek_beginning seek_sample_iter = some (.OK, seek_sample_iter_after) ∧
      seek_sample_iter_after.last_returned_ts_ns = INT64_MIN ∧
      seek_sample_iter_after.clock_class_expectation = .ANY ∧
      seek_sample_iter_after.ended_muxer_upstream_msg_iters = [] ∧
      ∀ c ∈ all_cursors seek_sample_iter_after, c.msgs = [] :=
  ⟨by decide, C22_seek_beginning_resets seek_sample_iter seek_sample_iter_after (by decide)⟩

theorem cursor_view_after_seek (c : muxer_upstream_msg_iter) :
    cursor_view (cursor_after_seek c) = (cursor_id c, []) := by
  unfold cursor_view cursor_after_seek cursor_id
  cases c.msg_iter with
  | none => rfl
  | some u =>
    simp only [Option.map_some']
    unfold bt_self_component_port_input_message_iterator_seek_beginning
    split <;> rfl

theorem cursor_id_after_seek (c : muxer_upstream_msg_iter) :
    cursor_id (cursor_after_seek c) = cursor_id c := by
  have := cursor_view_after_seek c
  unfold cursor_view at this
  exact congrArg Prod.fst this

theorem upstream_replay_after_seek (u : upstream_iterator) :
    (bt_self_component_port_input_message_iterator_seek_beginning u).2.replay = u.replay := by
  unfold bt_self_component_port_input_message_iterator_seek_beginning
  split <;> rfl

theorem upstream_pending_after_seek (u : upstream_iterator)
    (h : (bt_self_component_port_input_message_iterator_seek_beginning u).1 = .OK) :
    (bt_self_component_port_input_message_iterator_seek_beginning u).2.pending = u.replay := by
  unfold bt_self_component_port_input_message_iterator_seek_beginning at h ⊢
  split
  · rfl
  · rfl
  · rename_i st rest hne heq
    simp [heq] at h
    cases st <;> simp_all

/-- The sequence of messages of a cursor after a seek that its upstream
accepted: what the upstream replays. -/
theorem cursor_stream_after_seek (c : muxer_upstream_msg_iter) (h : seek_succeeds c) :
    ∃ u, c.msg_iter = some u ∧
      cursor_stream (cursor_after_seek c) =
        u.replay.flatMap (fun a => if a.1 = .OK then a.2 else []) := by
  obtain ⟨u, hu, hs⟩ := h
  refine ⟨u, hu, ?_⟩
  simp [cursor_stream, cursor_after_seek, hu, upstream_messages, upstream_pending_after_seek u hs]

theorem seek_succeeds_after_seek_stream (c : muxer_upstream_msg_iter) (h : seek_succeeds c)
    (h2 : seek_succeeds (cursor_after_seek c)) :
    cursor_stream (cursor_after_seek (cursor_after_seek c)) =
      cursor_stream (cursor_after_seek c) := by
  obtain ⟨u, hu, e1⟩ := cursor_stream_after_seek c h
  obtain ⟨u2, hu2, e2⟩ := cursor_stream_after_seek _ h2
  rw [e1, e2]
  simp [cursor_after_seek, hu] at hu2
  rw [← hu2, upstream_replay_after_seek]

/-- C23: after a seek to the beginning that returned `OK`, a second
seek whose upstream seeks all succeed returns `OK` and leaves the
iterator as the first one left it: the same active cursors in the same
order with empty queues, an empty ended array, the same last returned
timestamp and expectation, and every cursor about to deliver the same
messages. -/
theorem C23_seek_beginning_twice (it it1 : muxer_msg_iter)
    (hfirst : muxer_msg_iter_seek_beginning it = some (.OK, it1))
    (hsecond : ∀ c ∈ all_cursors it1, seek_succeeds c) :
    ∃ it2, muxer_msg_iter_seek_beginning it1 = some (.OK, it2) ∧
      iter_view it2 = iter_view it1 ∧
      it2.active_muxer_upstream_msg_iters.map cursor_stream =
        it1.active_muxer_upstream_msg_iters.map cursor_stream := by
  obtain ⟨hall, rfl⟩ := seek_beginning_ok hfirst
  refine ⟨_, seek_beginning_of_succeeds hsecond, ?_, ?_⟩
  · simp only [iter_view, iter_after_seek, List.map_nil, List.append_nil, List.map_append,
      List.map_map, Prod.mk.injEq, and_true]
    refine congrArg₂ (· ++ ·) ?_ ?_ <;> apply List.map_congr_left <;> intro c _ <;>
      simp only [Function.comp, cursor_view_after_seek, cursor_id_after_seek]
  · simp only [iter_after_seek, List.map_nil, List.append_nil, List.map_append, List.map_map]
    have key : ∀ l : List muxer_upstream_msg_iter,
        (∀ c ∈ l, seek_succeeds c) → (∀ c ∈ l, seek_succeeds (cursor_after_seek c)) →
        l.map (cursor_stream ∘ cursor_after_seek ∘ cursor_after_seek) =
          l.map (cursor_stream ∘ cursor_after_seek) := by
      intro l h1 h2
      apply List.map_congr_left
      intro c hc
      exact seek_succeeds_after_seek_stream c (h1 c hc) (h2 c hc)
    have hsec : ∀ c ∈ all_cursors it, seek_succeeds (cursor_after_seek c) := by
      intro c hc
      apply hsecond
      simp only [all_cursors, iter_after_seek, List.append_nil, List.mem_append, List.mem_map]
      rcases List.mem_append.mp hc with hc | hc
      · exact Or.inl ⟨c, hc, rfl⟩
      · exact Or.inr ⟨c, hc, rfl⟩
    rw [key _ (fun c hc => hall c (List.mem_append_left _ hc))
        (fun c hc => hsec c (List.mem_append_left _ hc)),
      key _ (fun c hc => hall c (List.mem_append_right _ hc))
        (fun c hc => hsec c (List.mem_append_right _ hc))]

/-- Witness of C23: two seeks in a row on an iterator with one ended and
one active cursor. -/
theorem C23_seek_beginning_twice_witness :
    muxer_msg_iter_seek_beginning seek_sample_iter = some (.OK, seek_sample_iter_after) ∧
      ∃ it2, muxer_msg_iter_seek_beginning seek_sample_iter_after = some (.OK, it2) ∧
        iter_view it2 = iter_view seek_sample_iter_after ∧
        it2.active_muxer_upstream_msg_iters.map cursor_stream =
          seek_sample_iter_after.active_muxer_upstream_msg_iters.map cursor_stream :=
  ⟨by decide,
    C23_seek_beginning_twice seek_sample_iter seek_sample_iter_after (by decide)
      (by
        intro c hc
        simp [all_cursors, seek_sample_iter_after, initial_iter] at hc
        rcases hc with rfl | rfl <;> exact ⟨_, rfl, by decide⟩)⟩

theorem can_all_seek_beginning_spec :
    ∀ l : List muxer_upstream_msg_iter, (∀ c ∈ l, c.msg_iter ≠ none) →
      ∃ b, muxer_upstream_msg_iters_can_all_seek_beginning l = some b ∧
        (b = true ↔ ∀ c ∈ l, ∃ u, c.msg_iter = some u ∧
          bt_self_component_port_input_message_iterator_can_seek_beginning u = true)
  | [], _ => ⟨true, rfl, by simp⟩
  | c :: rest, h => by
    obtain ⟨b, hb, hiff⟩ := can_all_seek_beginning_spec rest
      (fun x hx => h x (List.mem_cons_of_mem _ hx))
    cases hu : c.msg_iter with
    | none => exact absurd hu (h c (List.mem_cons_self _ _))
    | some u =>
      rw [muxer_upstream_msg_iters_can_all_seek_beginning]
      simp only [hu]
      by_cases hcs : bt_self_component_port_input_message_iterator_can_seek_beginning u = true
      · refine ⟨b, by simp [hcs, hb], ?_⟩
        rw [hiff]
        constructor
        · intro hh x hx
          rcases List.mem_cons.mp hx with rfl | hx
          · exact ⟨u, hu, hcs⟩
          · exact hh x hx
        · intro hh x hx
          exact hh x (List.mem_cons_of_mem _ hx)
      · refine ⟨false, by simp [hcs], ?_⟩
        simp only [Bool.false_eq_true, false_iff]
        intro hh
        obtain ⟨u2, hu2, hcs2⟩ := hh c (List.mem_cons_self _ _)
        rw [hu] at hu2
        simp at hu2
        subst hu2
        exact hcs hcs2

/-- C25: on an iterator whose cursors all have an upstream iterator,
`can_seek_beginning` returns a Boolean, which is true if and only if the
upstream of every cursor of the active array and of the ended array says
it can seek to the beginning; with no cursor at all it is true. -/
theorem C25_can_seek_beginning_is_conjunction (it : muxer_msg_iter)
    (hlive : ∀ c ∈ all_cursors it, c.msg_iter ≠ none) :
    ∃ b, muxer_msg_iter_can_seek_beginning it = some b ∧
      (b = true ↔ ∀ c ∈ all_cursors it, ∃ u, c.msg_iter = some u ∧
        bt_self_component_port_input_message_iterator_can_seek_beginning u = true) ∧
      (all_cursors it = [] → b = true) := by
  obtain ⟨ba, ha, hia⟩ := can_all_seek_beginning_spec it.active_muxer_upstream_msg_iters
    (fun c hc => hlive c (List.mem_append_left _ hc))
  obtain ⟨be, he, hie⟩ := can_all_seek_beginning_spec it.ended_muxer_upstream_msg_iters
    (fun c hc => hlive c (List.mem_append_right _ hc))
  have hiff : (ba && be) = true ↔ ∀ c ∈ all_cursors it, ∃ u, c.msg_iter = some u ∧
      bt_self_component_port_input_message_iterator_can_seek_beginning u = true := by
    rw [Bool.and_eq_true, hia, hie]
    unfold all_cursors
    constructor
    · intro hh c hc
      rcases List.mem_append.mp hc with hc | hc
      · exact hh.1 c hc
      · exact hh.2 c hc
    · intro hh
      exact ⟨fun c hc => hh c (List.mem_append_left _ hc),
        fun c hc => hh c (List.mem_append_right _ hc)⟩
  refine ⟨ba && be, ?_, hiff, ?_⟩
  · unfold muxer_msg_iter_can_seek_beginning
    rw [ha, he]
    cases ba <;> cases be <;> rfl
  · intro hnil
    rw [hiff, hnil]
    simp

/-- Witness of C25: one active cursor whose upstream can seek, one ended
cursor whose upstream cannot. -/
theorem C25_can_seek_beginning_is_conjunction_witness :
    muxer_msg_iter_can_seek_beginning
        { initial_iter [sample_cursor 0 [] []] with
          ended_muxer_upstream_msg_iters :=
            [{ msg_iter := some { sample_upstream 1 [] with can_seek := false }, msgs := [] }] } =
      some false := by
  obtain ⟨b, hb, hiff, _⟩ := C25_can_seek_beginning_is_conjunction
    { initial_iter [sample_cursor 0 [] []] with
      ended_muxer_upstream_msg_iters :=
        [{ msg_iter := some { sample_upstream 1 [] with can_seek := false }, msgs := [] }] }
    (by decide)
  rw [hb]
  cases b with
  | false => rfl
  | true =>
    have := hiff.mp rfl
    exact absurd this (by decide)

/-- C30: a seek to the beginning seeks the upstreams of the ended
cursors first, in index order, then those of the active cursors.  When
the cursors before `c` in that order accept the seek and the upstream of
`c` answers a status `s` other than `OK`, the seek returns `s`; the
cursors before `c` are sought and have empty queues, `c` keeps its queue,
the cursors after `c` are not touched (no later upstream is sought), every
cursor stays in its array, and the last returned timestamp and the clock
expectation are unchanged. -/
theorem C30_seek_beginning_stops_at_first_failure (it : muxer_msg_iter)
    (pre : List muxer_upstream_msg_iter) (c : muxer_upstream_msg_iter)
    (post : List muxer_upstream_msg_iter) (u : upstream_iterator)
    (s : bt_message_iterator_status)
    (hsplit : it.ended_muxer_upstream_msg_iters ++ it.active_muxer_upstream_msg_iters =
      pre ++ c :: post)
    (hpre : ∀ x ∈ pre, seek_succeeds x) (hc : c.msg_iter = some u)
    (hs : (bt_self_component_port_input_message_iterator_seek_beginning u).1 = s)
    (hne : s ≠ .OK) :
    ∃ it1, muxer_msg_iter_seek_beginning it = some (s, it1) ∧
      it1.ended_muxer_upstream_msg_iters ++ it1.active_muxer_upstream_msg_iters =
        pre.map cursor_after_seek ++ cursor_after_failed_seek c u :: post ∧
      (cursor_after_failed_seek c u).msgs = c.msgs ∧
      (∀ x ∈ pre.map cursor_after_seek, x.msgs = []) ∧
      it1.ended_muxer_upstream_msg_iters.length = it.ended_muxer_upstream_msg_iters.length ∧
      it1.active_muxer_upstream_msg_iters.length = it.active_muxer_upstream_msg_iters.length ∧
      it1.last_returned_ts_ns = it.last_returned_ts_ns ∧
      it1.clock_class_expectation = it.clock_class_expectation ∧
      it1.expected_clock_class_uuid = it.expected_clock_class_uuid := by
  subst hs
  have hempty : ∀ x ∈ pre.map cursor_after_seek, x.msgs = [] := by
    intro x hx
    obtain ⟨y, _, rfl⟩ := List.mem_map.mp hx
    rfl
  rcases List.append_eq_append_iff.mp hsplit with ⟨a, h1, h2⟩ | ⟨e, h1, h2⟩
  · -- the failing cursor is in the active array
    have hended : ∀ x ∈ it.ended_muxer_upstream_msg_iters, seek_succeeds x :=
      fun x hx => hpre x (by rw [h1]; exact List.mem_append_left _ hx)
    have ha : ∀ x ∈ a, seek_succeeds x :=
      fun x hx => hpre x (by rw [h1]; exact List.mem_append_right _ hx)
    refine ⟨{ it with
        ended_muxer_upstream_msg_iters :=
          it.ended_muxer_upstream_msg_iters.map cursor_after_seek
        active_muxer_upstream_msg_iters :=
          a.map cursor_after_seek ++ cursor_after_failed_seek c u :: post },
      ?_, ?_, rfl, hempty, ?_, ?_, rfl, rfl, rfl⟩
    · unfold muxer_msg_iter_seek_beginning
      rw [seek_beginning_loop_ok _ hended, h2, seek_beginning_loop_fail a c post u ha hc hne]
      simp [hne]
    · simp [h1]
    · simp
    · simp [h2]
  · -- the failing cursor is in the ended array
    cases e with
    | nil =>
      -- it is the first active cursor
      simp only [List.append_nil, List.nil_append] at h1 h2
      have hended : ∀ x ∈ it.ended_muxer_upstream_msg_iters, seek_succeeds x :=
        fun x hx => hpre x (by rw [← h1]; exact hx)
      refine ⟨{ it with
          ended_muxer_upstream_msg_iters :=
            it.ended_muxer_upstream_msg_iters.map cursor_after_seek
          active_muxer_upstream_msg_iters := cursor_after_failed_seek c u :: post },
        ?_, ?_, rfl, hempty, ?_, ?_, rfl, rfl, rfl⟩
      · unfold muxer_msg_iter_seek_beginning
        have hf := seek_beginning_loop_fail [] c post u (by simp) hc hne
        simp only [List.nil_append, List.map_nil] at hf
        rw [seek_beginning_loop_ok _ hended, ← h2, hf]
        simp [hne]
      · simp [h1]
      · simp
      · simp [← h2]
    | cons e0 e1 =>
      simp only [List.cons_append, List.cons.injEq] at h2
      obtain ⟨rfl, rfl⟩ := h2
      refine ⟨{ it with
          ended_muxer_upstream_msg_iters :=
            pre.map cursor_after_seek ++ cursor_after_failed_seek c u :: e1 },
        ?_, ?_, rfl, hempty, ?_, ?_, rfl, rfl, rfl⟩
      · unfold muxer_msg_iter_seek_beginning
        rw [h1, seek_beginning_loop_fail pre c e1 u hpre hc hne]
        simp [hne]
      · simp
      · simp [h1]
      · simp

/-- Witness of C30: the ended cursor accepts the seek, the first active
cursor answers `AGAIN`: the seek returns `AGAIN`, the first active
cursor keeps its message and the second one is not sought. -/
theorem C30_seek_beginning_stops_at_first_failure_witness :
    ∃ it1, muxer_msg_iter_seek_beginning seek_refused_iter = some (.AGAIN, it1) ∧
      it1.ended_muxer_upstream_msg_iters ++ it1.active_muxer_upstream_msg_iters =
        [sample_cursor 0 [] [],
          { msg_iter := some (sample_upstream 1 []), msgs := [sample_event 2 30] },
          sample_cursor 2 [] [sample_event 3 40]] := by
  obtain ⟨it1, h1, h2, _⟩ := C30_seek_beginning_stops_at_first_failure seek_refused_iter
    [sample_cursor 0 [] []]
    { msg_iter := some { sample_upstream 1 [] with seek_answers := [.AGAIN] },
      msgs := [sample_event 2 30] }
    [sample_cursor 2 [] [sample_event 3 40]]
    { sample_upstream 1 [] with seek_answers := [.AGAIN] } .AGAIN rfl
    (by
      intro x hx
      simp at hx
      subst hx
      exact ⟨_, rfl, by decide⟩)
    rfl (by decide) (by decide)
  exact ⟨it1, h1, h2⟩

/-- The three outcomes of `configure_muxer_comp`, by what the parameters
bind the recognized key to. -/
theorem configure_muxer_comp_cases (comp : muxer_comp) (p : bt_value_map) :
    configure_muxer_comp comp p =
      match p ASSUME_ABSOLUTE_CLOCK_CLASSES_PARAM_NAME with
      | some (.bool b) => some (0, { comp with assume_absolute_clock_classes := b })
      | some _ => some (-1, comp)
      | none => some (0, { comp with assume_absolute_clock_classes := false }) := by
  unfold configure_muxer_comp get_default_params bt_value_map_extend
    bt_value_map_borrow_entry_value bt_value_map_insert_entry bt_value_map_create
  cases hp : p ASSUME_ABSOLUTE_CLOCK_CLASSES_PARAM_NAME with
  | none => simp [hp, bt_value_is_bool, bt_value_bool_get]
  | some v => cases v <;> simp [hp, bt_value_is_bool, bt_value_bool_get]

theorem configure_muxer_comp_keeps {comp comp1 : muxer_comp} {p : bt_value_map} {ret : Int}
    (h : configure_muxer_comp comp p = some (ret, comp1)) :
    comp1.next_port_num = comp.next_port_num ∧
      comp1.available_input_ports = comp.available_input_ports ∧
      comp1.initializing_muxer_msg_iter = comp.initializing_muxer_msg_iter := by
  rw [configure_muxer_comp_cases] at h
  split at h <;> simp at h <;> obtain ⟨_, rfl⟩ := h <;> exact ⟨rfl, rfl, rfl⟩

/-- C26: `configure_muxer_comp` fails (returns -1, the component data
unchanged) when the parameters bind `assume-absolute-clock-classes` to a
value that is not a Boolean value, and only then; when they bind it to a
Boolean value it succeeds and stores that value; when the key is absent
it succeeds and stores `false`; and two parameter maps that agree on this
key give the same result, whatever else they hold. -/
theorem C26_configure_muxer_comp (comp : muxer_comp) (params : bt_value_map) :
    (∃ ret comp1, configure_muxer_comp comp params = some (ret, comp1) ∧
      (ret ≠ 0 ↔ ∃ v, params ASSUME_ABSOLUTE_CLOCK_CLASSES_PARAM_NAME = some v ∧
        bt_value_is_bool v = false)) ∧
      (∀ v, params ASSUME_ABSOLUTE_CLOCK_CLASSES_PARAM_NAME = some v →
        bt_value_is_bool v = false → configure_muxer_comp comp params = some (-1, comp)) ∧
      (∀ b, params ASSUME_ABSOLUTE_CLOCK_CLASSES_PARAM_NAME = some (.bool b) →
        configure_muxer_comp comp params =
          some (0, { comp with assume_absolute_clock_classes := b })) ∧
      (params ASSUME_ABSOLUTE_CLOCK_CLASSES_PARAM_NAME = none →
        configure_muxer_comp comp params =
          some (0, { comp with assume_absolute_clock_classes := false })) ∧
      (∀ params1 : bt_value_map,
        params1 ASSUME_ABSOLUTE_CLOCK_CLASSES_PARAM_NAME =
          params ASSUME_ABSOLUTE_CLOCK_CLASSES_PARAM_NAME →
        configure_muxer_comp comp params1 = configure_muxer_comp comp params) := by
  have key := configure_muxer_comp_cases comp
  refine ⟨?_, ?_, ?_, ?_, ?_⟩
  · rw [key]
    cases hp : params ASSUME_ABSOLUTE_CLOCK_CLASSES_PARAM_NAME with
    | none => exact ⟨0, _, rfl, by simp⟩
    | some v =>
      cases v with
      | bool b => exact ⟨0, _, rfl, by simp [bt_value_is_bool]⟩
      | _ => exact ⟨-1, _, rfl, by simp [bt_value_is_bool]⟩
  · intro v hv hb
    rw [key, hv]
    cases v <;> simp [bt_value_is_bool] at hb ⊢
  · intro b hb
    rw [key, hb]
  · intro hn
    rw [key, hn]
  · intro params1 h
    rw [key, key, h]

/-- Witness of C26: the key bound to a string is refused, the key bound
to `true` is stored, in both cases with another key in the map. -/
theorem C26_configure_muxer_comp_witness :
    configure_muxer_comp sample_comp (sample_params (.string "yes")) = some (-1, sample_comp) ∧
      configure_muxer_comp sample_comp (sample_params (.bool true)) =
        some (0, { sample_comp with assume_absolute_clock_classes := true }) :=
  ⟨(C26_configure_muxer_comp sample_comp (sample_params (.string "yes"))).2.1
      (.string "yes") (by decide) rfl,
    (C26_configure_muxer_comp sample_comp (sample_params (.bool true))).2.2.1 true (by decide)⟩

theorem digitChar_value (k : Nat) (h : k < 10) : (Nat.digitChar k).toNat - 48 = k := by
  interval_cases k <;> rfl

theorem decimal_value_append (p : List Char) (c : Char) :
    decimal_value (p ++ [c]) = decimal_value p * 10 + (c.toNat - 48) := by
  simp [decimal_value, List.foldl_append]

/-- The digits that `Nat.toDigitsCore` puts in front of `ds` denote `n`. -/
theorem toDigitsCore_decimal :
    ∀ (fuel n : Nat) (ds : List Char), n < fuel →
      ∃ p, Nat.toDigitsCore 10 fuel n ds = p ++ ds ∧ decimal_value p = n := by
  intro fuel
  induction fuel with
  | zero => intro n ds h; omega
  | succ f ih =>
    intro n ds h
    rw [Nat.toDigitsCore]
    have hd := digitChar_value (n % 10) (Nat.mod_lt _ (by norm_num))
    by_cases h0 : n / 10 = 0
    · rw [if_pos h0]
      refine ⟨[Nat.digitChar (n % 10)], rfl, ?_⟩
      have : decimal_value [Nat.digitChar (n % 10)] = (Nat.digitChar (n % 10)).toNat - 48 := by
        simp [decimal_value]
      rw [this, hd]
      omega
    · rw [if_neg h0]
      obtain ⟨p, hp, hv⟩ := ih (n / 10) (Nat.digitChar (n % 10) :: ds) (by omega)
      refine ⟨p ++ [Nat.digitChar (n % 10)], by rw [hp]; simp, ?_⟩
      rw [decimal_value_append, hv, hd]
      omega

theorem toDigits_decimal (n : Nat) : decimal_value (Nat.toDigits 10 n) = n := by
  obtain ⟨p, hp, hv⟩ := toDigitsCore_decimal (n + 1) n [] (by omega)
  rw [Nat.toDigits, hp, List.append_nil, hv]

/-- Two numbers printed after the same text give different texts. -/
theorem g_string_append_printf_u_injective (s : String) :
    Function.Injective (g_string_append_printf_u s) := by
  intro a b h
  unfold g_string_append_printf_u at h
  have h1 := congrArg String.data h
  simp only [String.data_append] at h1
  have h2 := List.append_cancel_left h1
  have h3 := congrArg decimal_value h2
  rwa [toDigits_decimal, toDigits_decimal] at h3

theorem add_available_input_port_ok {sc sc1 : bt_self_component_filter}
    {answer : bt_self_component_status}
    (h : add_available_input_port sc answer = some (.OK, sc1)) :
    ∃ comp, sc.data = some comp ∧
      sc1.input_ports = sc.input_ports ++
        [{ name := g_string_append_printf_u "in" comp.next_port_num, is_connected := false,
           upstream := none }] ∧
      sc1.output_ports = sc.output_ports ∧
      sc1.data = some
        { comp with
          available_input_ports := (comp.available_input_ports + 1) % (SIZE_MAX + 1)
          next_port_num := (comp.next_port_num + 1) % (UINT_MAX + 1) } := by
  unfold add_available_input_port at h
  cases hd : sc.data with
  | none => simp [hd] at h
  | some comp =>
    simp only [hd] at h
    unfold bt_self_component_filter_add_input_port at h
    by_cases ha : answer = .OK
    · simp only [ha, if_true] at h
      simp at h
      subst h
      exact ⟨comp, rfl, rfl, rfl, rfl⟩
    · simp only [ha, if_false] at h
      cases answer <;> simp at ha h

theorem muxer_init_ports {sc0 sc1 : bt_self_component_filter} {params : bt_value_map}
    {a b : bt_self_component_status}
    (hin : sc0.input_ports = []) (hout : sc0.output_ports = [])
    (h : muxer_init sc0 params a b = some (.OK, sc1)) : ports_after sc1 0 := by
  unfold muxer_init at h
  simp only at h
  cases hc : configure_muxer_comp
      { next_port_num := 0, available_input_ports := 0, initializing_muxer_msg_iter := false,
        assume_absolute_clock_classes := false } params with
  | none => simp [hc] at h
  | some r =>
    obtain ⟨ret, comp1⟩ := r
    obtain ⟨k1, _, _⟩ := configure_muxer_comp_keeps hc
    simp only [hc] at h
    by_cases hret : ret ≠ 0
    · rw [if_pos hret] at h; simp at h
    · rw [if_neg hret] at h
      cases hadd : add_available_input_port { sc0 with data := some comp1 } a with
      | none => simp [hadd] at h
      | some q =>
        obtain ⟨st, sc2⟩ := q
        simp only [hadd] at h
        by_cases hst : st ≠ .OK
        · rw [if_pos hst] at h; simp at h; exact absurd h.1 hst
        · rw [if_neg hst] at h
          have hst0 : st = .OK := by simpa using hst
          subst hst0
          obtain ⟨comp, hd, hi, ho, hdata⟩ := add_available_input_port_ok hadd
          simp at hd
          subst hd
          unfold create_output_port bt_self_component_filter_add_output_port at h
          by_cases hb : b = .OK
          · simp only [hb, if_true] at h
            simp at h
            subst h
            refine ⟨?_, ?_, ?_, _, hdata, ?_⟩
            · simp [ho, hout]
            · simp [input_port_names, hi, hin, k1, List.range_succ]
            · simp [spare_input_ports, hi, hin]
            · simp [k1, UINT_MAX]
          · simp only [hb, if_false] at h
            cases b <;> simp at hb h

theorem spare_after_connection :
    ∀ (l : List bt_port) (i : Nat) (p : bt_port) (u : upstream_iterator),
      l[i]? = some p → p.is_connected = false →
      ((l.set i { p with is_connected := true, upstream := some u }).filter
          (fun p => !p.is_connected)).length + 1 =
        (l.filter (fun p => !p.is_connected)).length := by
  intro l
  induction l with
  | nil => intro i p u h; simp at h
  | cons a t ih =>
    intro i p u h hp
    cases i with
    | zero =>
      simp at h
      subst h
      simp [hp]
    | succ j =>
      simp at h
      have := ih j p u h hp
      simp only [List.set_cons_succ, List.filter_cons]
      cases a.is_connected <;> simp <;> omega

theorem names_after_connection (l : List bt_port) (i : Nat) (p : bt_port)
    (u : upstream_iterator) (h : l[i]? = some p) :
    (l.set i { p with is_connected := true, upstream := some u }).map (·.name) =
      l.map (·.name) := by
  rw [List.map_set]
  apply set_of_getElem?
  simp [h]

/-- A connection that is notified with success adds one input port,
named after the port counter. -/
theorem connect_input_port_ports {sc sc1 : bt_self_component_filter} {i k : Nat}
    {u : upstream_iterator} {answer : bt_self_component_status}
    (hinv : ports_after sc k) (hk : k + 2 ≤ UINT_MAX)
    (h : connect_input_port sc i u answer = some (.OK, sc1)) : ports_after sc1 (k + 1) := by
  obtain ⟨ho, hn, hs, comp, hd, hnum⟩ := hinv
  unfold connect_input_port at h
  cases hp : sc.input_ports[i]? with
  | none => simp [hp] at h
  | some p =>
    simp only [hp] at h
    by_cases hc : p.is_connected = true
    · simp [hc] at h
    · have hc0 : p.is_connected = false := by simpa using hc
      simp only [hc0, Bool.false_eq_true, if_false] at h
      unfold muxer_input_port_connected at h
      obtain ⟨comp1, hd1, hi, ho1, hdata⟩ := add_available_input_port_ok h
      simp only at hd1 hi ho1
      rw [hd] at hd1
      simp at hd1
      subst hd1
      refine ⟨by rw [ho1, ho], ?_, ?_, _, hdata, ?_⟩
      · unfold input_port_names at hn ⊢
        rw [hi, List.map_append, names_after_connection _ _ _ _ hp, hn,
          List.range_succ (k + 1), List.map_append, hnum]
        rfl
      · unfold spare_input_ports at hs ⊢
        have := spare_after_connection _ _ _ u hp hc0
        rw [hi, List.filter_append, List.length_append]
        have h1 : (List.filter (fun p => !p.is_connected)
            [({ name := g_string_append_printf_u "in" comp.next_port_num, is_connected := false,
                upstream := none } : bt_port)]).length = 1 := rfl
        rw [h1]
        omega
      · simp only [hnum]
        have : k + 1 + 1 < UINT_MAX + 1 := by omega
        rw [Nat.mod_eq_of_lt this]

theorem connect_input_ports_ports :
    ∀ (steps : List (Nat × upstream_iterator × bt_self_component_status))
      (sc sc2 : bt_self_component_filter) (k : Nat),
      ports_after sc k → k + steps.length + 1 ≤ UINT_MAX →
      connect_input_ports sc steps = some sc2 → ports_after sc2 (k + steps.length) := by
  intro steps
  induction steps with
  | nil =>
    intro sc sc2 k hinv _ h
    simp [connect_input_ports] at h
    subst h
    exact hinv
  | cons s rest ih =>
    intro sc sc2 k hinv hk h
    obtain ⟨i, u, answer⟩ := s
    simp only [List.length_cons] at hk ⊢
    rw [connect_input_ports] at h
    split at h
    · rename_i sc1 hstep
      have := ih sc1 sc2 (k + 1) (connect_input_port_ports hinv (by omega) hstep) (by omega) h
      rw [show k + (rest.length + 1) = k + 1 + rest.length by omega]
      exact this
    · simp at h

/-- C27: after a `muxer_init` that returns `OK` on a component without
port, followed by `n` connections of input ports that were not connected,
each notified with success (`n + 1` no larger than `UINT_MAX`, the range
of the port counter), the component has the one output port `out`, the
`n + 1` input ports `in0`, ..., `in<n>` in creation order, all of
different names, the port counter is `n + 1` and exactly one input port is
not connected. -/
theorem C27_ports_after_connections (sc0 sc1 sc2 : bt_self_component_filter)
    (params : bt_value_map) (a b : bt_self_component_status)
    (steps : List (Nat × upstream_iterator × bt_self_component_status))
    (hin : sc0.input_ports = []) (hout : sc0.output_ports = [])
    (hinit : muxer_init sc0 params a b = some (.OK, sc1))
    (hrun : connect_input_ports sc1 steps = some sc2)
    (hn : steps.length + 1 ≤ UINT_MAX) :
    sc2.output_ports.map (·.name) = ["out"] ∧
      input_port_names sc2 =
        (List.range (steps.length + 1)).map (g_string_append_printf_u "in") ∧
      (input_port_names sc2).Nodup ∧
      (∃ comp, sc2.data = some comp ∧ comp.next_port_num = steps.length + 1) ∧
      (spare_input_ports sc2).length = 1 := by
  have h0 := muxer_init_ports hin hout hinit
  have h := connect_input_ports_ports steps sc1 sc2 0 h0 (by omega) hrun
  rw [Nat.zero_add] at h
  obtain ⟨ho, hnm, hs, hd⟩ := h
  refine ⟨ho, hnm, ?_, hd, hs⟩
  rw [hnm]
  exact (List.nodup_range _).map (g_string_append_printf_u_injective "in")

/-- Witness of C27: two connections after `muxer_init`; the ports are
`in0`, `in1`, `in2` and `out`, and `in2` is the spare one. -/
theorem C27_ports_after_connections_witness :
    muxer_init new_component (sample_params (.bool true)) .OK .OK =
        some (.OK,
          { input_ports := [{ name := "in0", is_connected := false, upstream := none }]
            output_ports := [{ name := "out", is_connected := false, upstream := none }]
            data := some
              { next_port_num := 1
                available_input_ports := 1
                initializing_muxer_msg_iter := false
                assume_absolute_clock_classes := true } }) ∧
      input_port_names two_connections_component = ["in0", "in1", "in2"] ∧
      (spare_input_ports two_connections_component).length = 1 := by
  have hinit : muxer_init new_component (sample_params (.bool true)) .OK .OK =
      some (.OK,
        { input_ports := [{ name := "in0", is_connected := false, upstream := none }]
          output_ports := [{ name := "out", is_connected := false, upstream := none }]
          data := some
            { next_port_num := 1
              available_input_ports := 1
              initializing_muxer_msg_iter := false
              assume_absolute_clock_classes := true } }) := by decide
  have h := C27_ports_after_connections new_component _ two_connections_component
    (sample_params (.bool true)) .OK .OK
    [(0, sample_upstream 0 [], .OK), (1, sample_upstream 1 [], .OK)] rfl rfl hinit
    (by decide) (by decide)
  exact ⟨hinit, h.2.1, h.2.2.2.2⟩

/-- C28: when `muxer_msg_iter_init` is entered while the component is
already initializing a muxer message iterator, it returns `ERROR` and the
data of the message iterator is NULL: no muxer iterator is created. -/
theorem C28_recursive_init_is_error (self_comp : bt_self_component_filter) (comp : muxer_comp)
    (hdata : self_comp.data = some comp) (hflag : comp.initializing_muxer_msg_iter = true) :
    ∃ self_comp1, muxer_msg_iter_init self_comp = some (.ERROR, none, self_comp1) := by
  unfold muxer_msg_iter_init
  simp [hdata, hflag]

/-- Witness of C28: a component with two connected input ports, in the
course of an initialization. -/
theorem C28_recursive_init_is_error_witness :
    ∃ self_comp1,
      muxer_msg_iter_init
          { two_connections_component with
            data := some { assuming_comp with initializing_muxer_msg_iter := true } } =
        some (.ERROR, none, self_comp1) :=
  C28_recursive_init_is_error
    { two_connections_component with
      data := some { assuming_comp with initializing_muxer_msg_iter := true } }
    { assuming_comp with initializing_muxer_msg_iter := true } rfl rfl

theorem get_msg_ts_ns_stream_beginning (it : muxer_msg_iter) (m : bt_message) (l : Int)
    (h : m.type = .STREAM_BEGINNING) : get_msg_ts_ns it m l = some (.ok l) := by
  unfold get_msg_ts_ns
  simp [h]

theorem upstream_next_replay (u : upstream_iterator) :
    { (bt_self_component_port_input_message_iterator_next u).2.2 with
      pending := (bt_self_component_port_input_message_iterator_next u).2.2.replay } =
      { u with pending := u.replay } := by
  unfold bt_self_component_port_input_message_iterator_next
  split <;> rfl

theorem upstream_next_pending (u : upstream_iterator) :
    ∀ a ∈ (bt_self_component_port_input_message_iterator_next u).2.2.pending, a ∈ u.pending := by
  unfold bt_self_component_port_input_message_iterator_next
  split
  · intro a ha; exact ha
  · rename_i st msgs rest heq
    intro a ha
    rw [heq]
    exact List.mem_cons_of_mem _ ha

/-- A validation keeps the origin of the cursor. -/
theorem validate_muxer_upstream_msg_iter_origin {c c1 : muxer_upstream_msg_iter} {e e1 : Bool}
    {st : bt_message_iterator_status}
    (h : validate_muxer_upstream_msg_iter c e = some (st, c1, e1)) :
    cursor_origin c1 = cursor_origin c := by
  unfold validate_muxer_upstream_msg_iter at h
  split_ifs at h with hr
  · simp at h; rw [h.2.1]
  · obtain ⟨u, hu, hu1, _⟩ := muxer_upstream_msg_iter_next_cases h
    simp only [cursor_origin, hu, hu1, Option.map_some', upstream_next_replay]

/-- A validation keeps "only `OK` answers left"; a cursor that it finds
ended has nothing left to give. -/
theorem validate_muxer_upstream_msg_iter_only_ok {c c1 : muxer_upstream_msg_iter} {e1 : Bool}
    {st : bt_message_iterator_status}
    (h : validate_muxer_upstream_msg_iter c false = some (st, c1, e1))
    (hok : only_ok_left c) :
    only_ok_left c1 ∧ (e1 = true → cursor_stream c1 = []) := by
  unfold validate_muxer_upstream_msg_iter at h
  split_ifs at h with hr
  · simp at h
    obtain ⟨_, rfl, rfl⟩ := h
    exact ⟨hok, by simp⟩
  · have hq : c.msgs = [] := by
      by_contra hh
      exact hr (Or.inl (List.length_pos.mpr hh))
    obtain ⟨u, hu, hu1, hc⟩ := muxer_upstream_msg_iter_next_cases h
    constructor
    · intro u2 hu2 a ha
      rw [hu1] at hu2
      simp at hu2
      subst hu2
      exact hok u hu a (upstream_next_pending u a ha)
    · intro he
      rcases hc with ⟨_, _, h3, _⟩ | ⟨_, _, h3, _⟩ | ⟨h1, _, _, h4⟩ | ⟨_, _, h3, _⟩
      · rw [he] at h3; simp at h3
      · rw [he] at h3; simp at h3
      · -- the upstream answered END: it has no answer left
        have hp : u.pending = [] := by
          cases hpd : u.pending with
          | nil => rfl
          | cons a rest =>
            have ha := hok u hu a (by rw [hpd]; exact List.mem_cons_self _ _)
            unfold bt_self_component_port_input_message_iterator_next at h1
            rw [hpd] at h1
            simp at h1
            rw [ha] at h1
            simp at h1
        have hnext : (bt_self_component_port_input_message_iterator_next u).2.2 = u := by
          unfold bt_self_component_port_input_message_iterator_next
          rw [hp]
        simp [cursor_stream, hu1, hnext, h4, hq, upstream_messages, hp]
      · rw [he] at h3; simp at h3

theorem validate_origin_perm {it it1 : muxer_msg_iter} {st : bt_message_iterator_status}
    (h : validate_muxer_upstream_msg_iters it = some (st, it1)) :
    ((all_cursors it1).map cursor_origin).Perm ((all_cursors it).map cursor_origin) := by
  refine validate_loop_induct
    (fun a b => ((all_cursors b).map cursor_origin).Perm ((all_cursors a).map cursor_origin))
    (fun _ => List.Perm.refl _) (fun _ _ _ h1 h2 => h2.trans h1) ?_ _ _ _ _ _ h
  intro i it r ht
  obtain ⟨c, st, c1, e, others, hv, hp, hp1⟩ := validate_turn_perm ht
  have hk := validate_muxer_upstream_msg_iter_origin hv
  have h1 := hp1.map cursor_origin
  have h2 := hp.map cursor_origin
  simp only [List.map_cons] at h1 h2
  rw [hk] at h1
  exact h1.trans h2.symm

theorem mem_remove_index_fast {α : Type} (l : List α) (i : Nat) (h : i < l.length) (x : α)
    (hx : x ∈ g_ptr_array_remove_index_fast l i) : x ∈ l :=
  List.mem_of_mem_eraseIdx ((remove_index_fast_perm l i h).mem_iff.mp hx)

theorem validate_turn_ended_are_done {i : Nat} {it : muxer_msg_iter}
    {r : (Nat × muxer_msg_iter) ⊕ (bt_message_iterator_status × muxer_msg_iter)}
    (h : validate_muxer_upstream_msg_iters_turn i it = some r) (hinv : ended_are_done it) :
    ended_are_done (turn_iter r) := by
  obtain ⟨c, st, c1, e, hc, hv, hr⟩ := validate_turn_cases h
  have hcmem : c ∈ all_cursors it :=
    List.mem_append_left _ (List.mem_iff_getElem?.mpr ⟨i, hc⟩)
  obtain ⟨hok1, hend1⟩ := validate_muxer_upstream_msg_iter_only_ok hv (hinv.1 c hcmem)
  have hlt : i < it.active_muxer_upstream_msg_iters.length := getElem?_lt_length hc
  have hset : ∀ x ∈ it.active_muxer_upstream_msg_iters.set i c1, only_ok_left x := by
    intro x hx
    rcases List.mem_or_eq_of_mem_set hx with hx | hx
    · exact hinv.1 x (List.mem_append_left _ hx)
    · rw [hx]; exact hok1
  rcases hr with ⟨_, rfl⟩ | ⟨_, he, rfl⟩ | ⟨_, _, rfl⟩
  · refine ⟨?_, hinv.2⟩
    intro x hx
    rcases List.mem_append.mp hx with hx | hx
    · exact hset x hx
    · exact hinv.1 x (List.mem_append_right _ hx)
  · refine ⟨?_, ?_⟩
    · intro x hx
      simp only [turn_iter, all_cursors] at hx
      rcases List.mem_append.mp hx with hx | hx
      · exact hset x (mem_remove_index_fast _ i (by simpa using hlt) x hx)
      · rcases List.mem_append.mp hx with hx | hx
        · exact hinv.1 x (List.mem_append_right _ hx)
        · simp at hx; rw [hx]; exact hok1
    · intro x hx
      simp only [turn_iter] at hx
      rcases List.mem_append.mp hx with hx | hx
      · exact hinv.2 x hx
      · simp at hx; rw [hx]; exact hend1 he
  · refine ⟨?_, hinv.2⟩
    intro x hx
    rcases List.mem_append.mp hx with hx | hx
    · exact hset x hx
    · exact hinv.1 x (List.mem_append_right _ hx)

theorem validate_ended_are_done {it it1 : muxer_msg_iter} {st : bt_message_iterator_status}
    (h : validate_muxer_upstream_msg_iters it = some (st, it1)) (hinv : ended_are_done it) :
    ended_are_done it1 :=
  validate_loop_induct (fun a b => ended_are_done a → ended_are_done b)
    (fun _ h => h) (fun _ _ _ h1 h2 h => h2 (h1 h))
    (fun _ _ _ ht => validate_turn_ended_are_done ht) _ _ _ _ _ h hinv

/-- What a call of `next_one` does to the cursors: up to the order, they
are validated, and one active cursor may lose the head of its queue. -/
theorem do_next_one_cursors {comp : muxer_comp} {it it' : muxer_msg_iter}
    {st : bt_message_iterator_status} {om : Option bt_message}
    (h : muxer_msg_iter_do_next_one comp it = some (st, om, it')) :
    ∃ sv it1, validate_muxer_upstream_msg_iters it = some (sv, it1) ∧
      ((it'.active_muxer_upstream_msg_iters = it1.active_muxer_upstream_msg_iters ∧
          it'.ended_muxer_upstream_msg_iters = it1.ended_muxer_upstream_msg_iters) ∨
        (∃ idx c msg rest, it1.active_muxer_upstream_msg_iters[idx]? = some c ∧
          c.msgs = msg :: rest ∧
          it'.active_muxer_upstream_msg_iters =
            it1.active_muxer_upstream_msg_iters.set idx { c with msgs := rest } ∧
          it'.ended_muxer_upstream_msg_iters = it1.ended_muxer_upstream_msg_iters)) := by
  obtain ⟨sv, it1, hv, hc⟩ := do_next_one_cases h
  refine ⟨sv, it1, hv, ?_⟩
  rcases hc with ⟨_, _, _, rfl⟩ | ⟨_, sy, it2, ch, ts, hy, hc⟩
  · exact Or.inl ⟨rfl, rfl⟩
  · obtain ⟨ha, he, _⟩ := (youngest_same_cursors hy).1
    rcases hc with ⟨_, _, _, rfl⟩ | ⟨_, _, _, _, rfl⟩ |
        ⟨_, _, _, idx, c, msg, rest, _, hc, hm, _, rfl⟩
    · exact Or.inl ⟨ha, he⟩
    · exact Or.inl ⟨ha, he⟩
    · right
      rw [ha] at hc
      exact ⟨idx, c, msg, rest, hc, hm, by simp [ha], by simp [he]⟩

theorem do_next_one_origin_perm {comp : muxer_comp} {it it' : muxer_msg_iter}
    {st : bt_message_iterator_status} {om : Option bt_message}
    (h : muxer_msg_iter_do_next_one comp it = some (st, om, it')) :
    ((all_cursors it').map cursor_origin).Perm ((all_cursors it).map cursor_origin) := by
  obtain ⟨sv, it1, hv, hc⟩ := do_next_one_cursors h
  refine List.Perm.trans ?_ (validate_origin_perm hv)
  rcases hc with ⟨ha, he⟩ | ⟨idx, c, msg, rest, hc, hm, ha, he⟩
  · unfold all_cursors; rw [ha, he]
  · unfold all_cursors
    rw [ha, he, List.map_append, List.map_append, List.map_set]
    have : (List.map cursor_origin it1.active_muxer_upstream_msg_iters).set idx
        (cursor_origin { c with msgs := rest }) =
        List.map cursor_origin it1.active_muxer_upstream_msg_iters := by
      apply set_of_getElem?
      simp [hc, cursor_origin]
    rw [this]

theorem do_next_one_ended_are_done {comp : muxer_comp} {it it' : muxer_msg_iter}
    {st : bt_message_iterator_status} {om : Option bt_message}
    (h : muxer_msg_iter_do_next_one comp it = some (st, om, it')) (hinv : ended_are_done it) :
    ended_are_done it' := by
  obtain ⟨sv, it1, hv, hc⟩ := do_next_one_cursors h
  have h1 := validate_ended_are_done hv hinv
  rcases hc with ⟨ha, he⟩ | ⟨idx, c, msg, rest, hc, hm, ha, he⟩
  · unfold ended_are_done all_cursors at h1 ⊢
    rw [ha, he]; exact h1
  · unfold ended_are_done all_cursors at h1 ⊢
    rw [ha, he]
    refine ⟨?_, h1.2⟩
    intro x hx
    rcases List.mem_append.mp hx with hx | hx
    · rcases List.mem_or_eq_of_mem_set hx with hx | hx
      · exact h1.1 x (List.mem_append_left _ hx)
      · rw [hx]
        have := h1.1 c (List.mem_append_left _ (List.mem_iff_getElem?.mpr ⟨idx, hc⟩))
        exact this
    · exact h1.1 x (List.mem_append_right _ hx)

/-- A property of the iterator that every call of `next_one` keeps is
kept by the loop of `next`. -/
theorem do_next_loop_preserves (comp : muxer_comp) (P : muxer_msg_iter → Prop)
    (hone : ∀ it st om it1, muxer_msg_iter_do_next_one comp it = some (st, om, it1) →
      P it → P it1) :
    ∀ (k : Nat) (it : muxer_msg_iter) (acc : List bt_message)
      (st : bt_message_iterator_status) (msgs : List bt_message) (it1 : muxer_msg_iter),
      muxer_msg_iter_do_next_loop comp k it acc = some (st, msgs, it1) → P it → P it1 := by
  intro k
  induction k with
  | zero =>
    intro it acc st msgs it1 h hp
    simp [muxer_msg_iter_do_next_loop] at h
    rw [← h.2.2]; exact hp
  | succ k ih =>
    intro it acc st msgs it1 h hp
    rw [muxer_msg_iter_do_next_loop] at h
    split at h
    · simp at h
    · rename_i msg it2 hn
      exact ih _ _ _ _ _ h (hone _ _ _ _ hn hp)
    · simp at h
    · rename_i st0 om it0 _ _ hn
      simp at h
      rw [← h.2.2]
      exact hone _ _ _ _ hn hp

theorem do_next_preserves (comp : muxer_comp) (P : muxer_msg_iter → Prop)
    (hone : ∀ it st om it1, muxer_msg_iter_do_next_one comp it = some (st, om, it1) →
      P it → P it1)
    {it it1 : muxer_msg_iter} {capacity : Nat} {st : bt_message_iterator_status}
    {msgs : List bt_message}
    (h : muxer_msg_iter_do_next comp it capacity = some (st, msgs, it1)) (hp : P it) :
    P it1 := by
  unfold muxer_msg_iter_do_next at h
  split at h
  · simp at h
  · rename_i st0 msgs0 it0 hl
    have := do_next_loop_preserves comp P hone _ _ _ _ _ _ hl hp
    split_ifs at h <;> simp at h <;> rw [← h.2.2] <;> exact this

/-- A drain that ends on `END`: its last call of `next` returned `END`
without a message, on an iterator that has every property that the calls
of `next_one` keep and that the iterator had at the start. -/
theorem drain_last (comp : muxer_comp) (capacity : Nat) (P : muxer_msg_iter → Prop)
    (hone : ∀ it st om it1, muxer_msg_iter_do_next_one comp it = some (st, om, it1) →
      P it → P it1) :
    ∀ (fuel : Nat) (it : muxer_msg_iter) (out : List bt_message) (itf : muxer_msg_iter),
      drain comp capacity fuel it = some (.END, out, itf) → P it →
      ∃ a, P a ∧ muxer_msg_iter_do_next comp a capacity = some (.END, [], itf) ∧ P itf := by
  intro fuel
  induction fuel with
  | zero =>
    intro it out itf h _
    simp [drain] at h
  | succ f ih =>
    intro it out itf h hp
    rw [drain] at h
    split at h
    · simp at h
    · rename_i msgs it1 hd
      have hp1 := do_next_preserves comp P hone hd hp
      cases hrec : drain comp capacity f it1 with
      | none => simp [hrec] at h
      | some r =>
        obtain ⟨st2, more, it2⟩ := r
        simp only [hrec] at h
        simp at h
        obtain ⟨rfl, _, rfl⟩ := h
        exact ih it1 more it2 hrec hp1
    · rename_i st0 msgs it1 hne hd
      simp at h
      obtain ⟨rfl, rfl, rfl⟩ := h
      have hp1 := do_next_preserves comp P hone hd hp
      obtain ⟨hnil, _⟩ := do_next_not_ok hd (by simp)
      subst hnil
      exact ⟨it, hp, hd, hp1⟩

/-- The messages of a drain are popped in queue order. -/
theorem drain_fifo (comp : muxer_comp) (capacity : Nat) :
    ∀ (fuel : Nat) (it : muxer_msg_iter) (st : bt_message_iterator_status)
      (out : List bt_message) (itf : muxer_msg_iter),
      (cursor_ids it).Nodup → drain comp capacity fuel it = some (st, out, itf) →
      fifo_run it out itf := by
  intro fuel
  induction fuel with
  | zero =>
    intro it st out itf _ h
    simp [drain] at h
    obtain ⟨_, rfl, rfl⟩ := h
    exact fifo_run_of_perm (List.Perm.refl _)
  | succ f ih =>
    intro it st out itf hid h
    rw [drain] at h
    split at h
    · simp at h
    · rename_i msgs it1 hd
      have h1 := do_next_fifo hid hd
      have hid1 : (cursor_ids it1).Nodup := (fifo_run_ids h1).nodup_iff.mpr hid
      cases hrec : drain comp capacity f it1 with
      | none => simp [hrec] at h
      | some r =>
        obtain ⟨st2, more, it2⟩ := r
        simp only [hrec] at h
        simp at h
        obtain ⟨rfl, rfl, rfl⟩ := h
        exact fifo_run_trans h1 (ih it1 _ _ _ hid1 hrec)
    · rename_i st0 msgs it1 hne hd
      simp at h
      obtain ⟨rfl, rfl, rfl⟩ := h
      exact do_next_fifo hid hd

/-- Two sequences with the same elements, both sorted by a key, in which
the elements of each key come in the same order, are equal. -/
theorem eq_of_sorted_of_filter_eq {α : Type} (key : α → Int) :
    ∀ l1 l2 : List α, l1.Perm l2 →
      (l1.map key).Pairwise (· ≤ ·) → (l2.map key).Pairwise (· ≤ ·) →
      (∀ t, l1.filter (fun x => decide (key x = t)) = l2.filter (fun x => decide (key x = t))) →
      l1 = l2 := by
  intro l1
  induction l1 with
  | nil =>
    intro l2 hp _ _ _
    exact (List.Perm.nil_eq hp)
  | cons a t1 ih =>
    intro l2 hp hs1 hs2 hf
    cases l2 with
    | nil => exact absurd hp.symm (List.Perm.nil_eq · |> fun h => by simp at h)
    | cons b t2 =>
      have hab : key a ≤ key b := by
        have hb : b ∈ a :: t1 := hp.mem_iff.mpr (List.mem_cons_self _ _)
        rcases List.mem_cons.mp hb with rfl | hb
        · exact le_refl _
        · simp only [List.map_cons, List.pairwise_cons] at hs1
          exact hs1.1 _ (List.mem_map_of_mem key hb)
      have hba : key b ≤ key a := by
        have ha : a ∈ b :: t2 := hp.mem_iff.mp (List.mem_cons_self _ _)
        rcases List.mem_cons.mp ha with rfl | ha
        · exact le_refl _
        · simp only [List.map_cons, List.pairwise_cons] at hs2
          exact hs2.1 _ (List.mem_map_of_mem key ha)
      have hk : key a = key b := le_antisymm hab hba
      have h0 := hf (key a)
      simp only [List.filter_cons, decide_True, if_true, hk] at h0
      simp only [List.cons.injEq] at h0
      -- the heads are equal
      have hh : a = b := by
        have := hf (key a)
        rw [List.filter_cons, List.filter_cons] at this
        simp only [decide_True, if_true, hk] at this
        exact (List.cons.inj this).1
      subst hh
      congr 1
      apply ih t2 hp.cons_inv
      · simp only [List.map_cons, List.pairwise_cons] at hs1; exact hs1.2
      · simp only [List.map_cons, List.pairwise_cons] at hs2; exact hs2.2
      · intro t
        have := hf t
        rw [List.filter_cons, List.filter_cons] at this
        by_cases ht : key a = t
        · simp only [ht, decide_True, if_true] at this
          exact (List.cons.inj this).2
        · simp only [ht, decide_False] at this
          simpa using this

/-- The messages of a timestamp in an output labelled by cursor, when
the messages of that timestamp all carry the label `i`: those attributed
to `i`, in order. -/
theorem filter_ts_of_labels (labels : List (Option Nat)) (out : List bt_message)
    (i : Option Nat) (t : Int) (hlen : labels.length = out.length)
    (honly : ∀ p ∈ labels.zip out, msg_ts p.2 = t → p.1 = i) :
    out.filter (fun m => decide (msg_ts m = t)) =
      (emitted_from labels out i).filter (fun m => decide (msg_ts m = t)) := by
  have hout : out = (labels.zip out).map (·.2) := by
    rw [List.map_snd_zip]
    omega
  unfold emitted_from
  conv_lhs => rw [hout]
  rw [List.filter_map, List.filter_map, List.filter_filter]
  congr 1
  apply List.filter_congr
  intro p hp
  simp only [Function.comp]
  by_cases hts : msg_ts p.2 = t
  · simp [hts, honly p hp hts]
  · simp [hts]

theorem do_next_one_merge_inv {comp : muxer_comp} {it it' : muxer_msg_iter}
    {st : bt_message_iterator_status} {om : Option bt_message}
    (h : muxer_msg_iter_do_next_one comp it = some (st, om, it')) (hinv : merge_inv it) :
    merge_inv it' := by
  rcases do_next_one_merge comp it hinv with ⟨it1, h1, hi, _⟩ | ⟨m, it1, h1, hi, _⟩
  · rw [h1] at h
    simp at h
    rw [← h.2.2]; exact hi
  · rw [h1] at h
    simp at h
    rw [← h.2.2]; exact hi

/-- A drain from the start of a merge, with enough calls allowed: it
ends on `END`, its output is what the cursors had to give, sorted by
timestamp, and the messages attributed to each cursor by a labelling of
the output are the whole sequence of that cursor, in order.  The cursors
at the end have the origins of those at the start. -/
theorem drain_from_start (comp : muxer_comp) (capacity : Nat) (hcap : 1 ≤ capacity)
    (it : muxer_msg_iter) (hstart : merge_start it) (fuel : Nat)
    (hfuel : (remaining it).length + 1 ≤ fuel) :
    ∃ out itf, drain comp capacity fuel it = some (.END, out, itf) ∧
      out.Perm (remaining it) ∧ (out.map msg_ts).Pairwise (· ≤ ·) ∧
      (∃ labels : List (Option Nat), labels.length = out.length ∧
        (∀ l ∈ labels, l ∈ cursor_ids it) ∧
        ∀ c ∈ all_cursors it, emitted_from labels out (cursor_id c) = cursor_stream c) ∧
      ((all_cursors itf).map cursor_origin).Perm ((all_cursors it).map cursor_origin) := by
  obtain ⟨hinv, hdone, hended, hid⟩ := hstart
  obtain ⟨out, itf, hd, hperm, hsorted⟩ :=
    drain_merge comp capacity hcap _ fuel it hinv (le_refl _) hfuel
  refine ⟨out, itf, hd, hperm, hsorted, ?_, ?_⟩
  · -- the state at the end: every cursor has given everything
    obtain ⟨a, ⟨ha1, _⟩, hlast, ⟨hf1, hf2⟩⟩ := drain_last comp capacity
      (fun x => merge_inv x ∧ ended_are_done x)
      (fun x st om x1 h hp => ⟨do_next_one_merge_inv h hp.1, do_next_one_ended_are_done h hp.2⟩)
      fuel it out itf hd ⟨hinv, hdone⟩
    have hrem : remaining itf = [] := by
      obtain ⟨st, o, it1, hdn, hrun, hst⟩ := do_next_merge comp a capacity hcap ha1
      rw [hlast] at hdn
      simp at hdn
      obtain ⟨rfl, rfl, rfl⟩ := hdn
      rcases hst with ⟨h1, _⟩ | ⟨_, _, h3⟩
      · simp at h1
      · have := hrun.2.1
        rw [h3] at this
        simpa using this.symm.eq_nil
    have hempty : ∀ c ∈ all_cursors itf, cursor_stream c = [] := by
      intro c hc
      rcases List.mem_append.mp hc with hc | hc
      · unfold remaining at hrem
        exact List.flatMap_eq_nil_iff.mp hrem c hc
      · exact hf2.2 c hc
    obtain ⟨labels, hl, hmem, hp⟩ := drain_fifo comp capacity fuel it _ out itf hid hd
    refine ⟨labels, hl, hmem, ?_⟩
    intro c hc
    have hin : (cursor_id c, cursor_stream c) ∈
        (all_cursors it).map (fun c => (cursor_id c, cursor_stream c)) :=
      List.mem_map_of_mem _ hc
    obtain ⟨c1, hc1, heq⟩ := List.mem_map.mp (hp.mem_iff.mpr hin)
    simp only [Prod.mk.injEq] at heq
    rw [hempty c1 hc1, List.append_nil, heq.1] at heq
    exact heq.2
  · exact (drain_last comp capacity
      (fun x => ((all_cursors x).map cursor_origin).Perm ((all_cursors it).map cursor_origin))
      (fun x st om x1 h hp => (do_next_one_origin_perm h).trans hp)
      fuel it out itf hd (List.Perm.refl _)).choose_spec.2.2

/-- In the output of a drain from the start of a merge in which messages
of different cursors never have the same timestamp, the messages of the
timestamp of a message `x` of the cursor `c` are those of `c`, in the
order of `c`. -/
theorem filter_ts_of_drain {it : muxer_msg_iter} {out : List bt_message}
    {labels : List (Option Nat)} (hlen : labels.length = out.length)
    (hmem : ∀ l ∈ labels, l ∈ cursor_ids it)
    (hfifo : ∀ c ∈ all_cursors it, emitted_from labels out (cursor_id c) = cursor_stream c)
    (hties : ∀ c ∈ all_cursors it, ∀ d ∈ all_cursors it, ∀ x ∈ cursor_stream c,
      ∀ y ∈ cursor_stream d, msg_ts x = msg_ts y → cursor_id c = cursor_id d)
    (c : muxer_upstream_msg_iter) (hc : c ∈ all_cursors it) (x : bt_message)
    (hx : x ∈ cursor_stream c) :
    out.filter (fun m => decide (msg_ts m = msg_ts x)) =
      (cursor_stream c).filter (fun m => decide (msg_ts m = msg_ts x)) := by
  rw [← hfifo c hc]
  apply filter_ts_of_labels labels out (cursor_id c) (msg_ts x) hlen
  intro p hp hts
  have hp1 : p.1 ∈ labels := (List.of_mem_zip hp).1
  obtain ⟨d, hd, hdid⟩ := List.mem_map.mp (hmem p.1 hp1)
  have hp2 : p.2 ∈ cursor_stream d := by
    rw [← hfifo d hd, hdid]
    unfold emitted_from
    exact List.mem_map.mpr ⟨p, List.mem_filter.mpr ⟨hp, by simp⟩, rfl⟩
  rw [← hdid]
  exact (hties c hc d hd x hx p.2 hp2 hts.symm).symm

/-- Two drains from starts of a merge with the same active cursors, in
whatever order: the outputs have the same messages and the same sequence
of timestamps, and they are equal when messages of different cursors
never have the same timestamp. -/
theorem drains_agree {ita itb : muxer_msg_iter} {outa outb : List bt_message}
    {la lb : List (Option Nat)}
    (hea : ita.ended_muxer_upstream_msg_iters = [])
    (heb : itb.ended_muxer_upstream_msg_iters = [])
    (hperm : itb.active_muxer_upstream_msg_iters.Perm ita.active_muxer_upstream_msg_iters)
    (hpa : outa.Perm (remaining ita)) (hsa : (outa.map msg_ts).Pairwise (· ≤ ·))
    (hpb : outb.Perm (remaining itb)) (hsb : (outb.map msg_ts).Pairwise (· ≤ ·))
    (hla : la.length = outa.length) (hma : ∀ l ∈ la, l ∈ cursor_ids ita)
    (hfa : ∀ c ∈ all_cursors ita, emitted_from la outa (cursor_id c) = cursor_stream c)
    (hlb : lb.length = outb.length) (hmb : ∀ l ∈ lb, l ∈ cursor_ids itb)
    (hfb : ∀ c ∈ all_cursors itb, emitted_from lb outb (cursor_id c) = cursor_stream c) :
    outb.Perm outa ∧ outb.map msg_ts = outa.map msg_ts ∧
      ((∀ c ∈ all_cursors ita, ∀ d ∈ all_cursors ita, ∀ x ∈ cursor_stream c,
        ∀ y ∈ cursor_stream d, msg_ts x = msg_ts y → cursor_id c = cursor_id d) →
        outb = outa) := by
  have hrem : (remaining itb).Perm (remaining ita) := hperm.flatMap_right _
  have hba : outb.Perm outa := hpb.trans (hrem.trans hpa.symm)
  have hall : ∀ c, c ∈ all_cursors itb ↔ c ∈ all_cursors ita := by
    intro c
    unfold all_cursors
    rw [hea, heb, List.append_nil, List.append_nil]
    exact hperm.mem_iff
  refine ⟨hba, ?_, ?_⟩
  · exact List.eq_of_perm_of_sorted (hba.map msg_ts) hsb hsa
  · intro hties
    apply eq_of_sorted_of_filter_eq msg_ts outb outa hba hsb hsa
    intro t
    by_cases hex : ∃ c ∈ all_cursors ita, ∃ x ∈ cursor_stream c, msg_ts x = t
    · obtain ⟨c, hc, x, hx, rfl⟩ := hex
      rw [filter_ts_of_drain hla hma hfa hties c hc x hx,
        filter_ts_of_drain hlb hmb hfb
          (fun c1 h1 d1 h2 => hties c1 ((hall c1).mp h1) d1 ((hall d1).mp h2))
          c ((hall c).mpr hc) x hx]
    · have key : ∀ (it : muxer_msg_iter) (out : List bt_message),
          it.ended_muxer_upstream_msg_iters = [] → out.Perm (remaining it) →
          (∀ c, c ∈ all_cursors it → c ∈ all_cursors ita) →
          out.filter (fun m => decide (msg_ts m = t)) = [] := by
        intro it out he hp hsub
        rw [List.filter_eq_nil_iff]
        intro m hm
        have hm1 := hp.mem_iff.mp hm
        unfold remaining at hm1
        obtain ⟨c, hc, hmc⟩ := List.mem_flatMap.mp hm1
        have hc1 : c ∈ all_cursors ita := hsub c (List.mem_append_left _ hc)
        intro hts
        exact hex ⟨c, hc1, m, hmc, by simpa using hts⟩
      rw [key itb outb heb hpb (fun c h => (hall c).mp h), key ita outa hea hpa (fun _ h => h)]

theorem upstream_origin_eq {u u0 : upstream_iterator}
    (h : ({ u with pending := u.replay } : upstream_iterator) = u0) :
    u.seek_answers = u0.seek_answers ∧ u.replay = u0.replay := by
  subst h
  exact ⟨rfl, rfl⟩

/-- A seek to the beginning after a run that started on cursors with
empty queues, on upstreams at their beginning that accept every seek:
it returns `OK`, and the active cursors are those of the start, in some
order. -/
theorem seek_back_to_start {it0 itf : muxer_msg_iter}
    (hk : ((all_cursors itf).map cursor_origin).Perm ((all_cursors it0).map cursor_origin))
    (hfresh : ∀ c ∈ all_cursors it0, ∃ u, c = { msg_iter := some u, msgs := [] } ∧
      u.pending = u.replay ∧ u.seek_answers = [])
    (hended : it0.ended_muxer_upstream_msg_iters = []) :
    muxer_msg_iter_seek_beginning itf = some (.OK, iter_after_seek itf) ∧
      (iter_after_seek itf).active_muxer_upstream_msg_iters.Perm
        it0.active_muxer_upstream_msg_iters := by
  have horigin0 : ∀ c ∈ all_cursors it0,
      ({ msg_iter := cursor_origin c, msgs := [] } : muxer_upstream_msg_iter) = c := by
    intro c hc
    obtain ⟨u, rfl, hp, _⟩ := hfresh c hc
    simp only [cursor_origin, Option.map_some']
    congr 2
    cases u
    simp only at hp
    subst hp
    rfl
  have hf : ∀ c ∈ all_cursors itf, seek_succeeds c ∧
      cursor_after_seek c = { msg_iter := cursor_origin c, msgs := [] } := by
    intro c hc
    have ho : cursor_origin c ∈ (all_cursors it0).map cursor_origin :=
      hk.mem_iff.mp (List.mem_map_of_mem _ hc)
    obtain ⟨c0, hc0, heq⟩ := List.mem_map.mp ho
    obtain ⟨u0, rfl, hp0, hs0⟩ := hfresh c0 hc0
    cases hu : c.msg_iter with
    | none => simp [cursor_origin, hu] at heq
    | some u =>
      simp only [cursor_origin, hu, Option.map_some', Option.some.injEq] at heq
      have hsa : u.seek_answers = [] := by
        have := congrArg upstream_iterator.seek_answers heq
        simp only at this
        rw [← this]; exact hs0
      have hseek : bt_self_component_port_input_message_iterator_seek_beginning u =
          (.OK, { u with pending := u.replay }) := by
        unfold bt_self_component_port_input_message_iterator_seek_beginning
        rw [hsa]
      refine ⟨⟨u, hu, by rw [hseek]⟩, ?_⟩
      simp [cursor_after_seek, cursor_origin, hu, hseek]
  refine ⟨seek_beginning_of_succeeds (fun c hc => (hf c hc).1), ?_⟩
  have h1 : (iter_after_seek itf).active_muxer_upstream_msg_iters =
      ((all_cursors itf).map cursor_origin).map
        (fun o => ({ msg_iter := o, msgs := [] } : muxer_upstream_msg_iter)) := by
    simp only [iter_after_seek, all_cursors, ← List.map_append, List.map_map]
    apply List.map_congr_left
    intro c hc
    exact (hf c hc).2
  have h2 : it0.active_muxer_upstream_msg_iters =
      ((all_cursors it0).map cursor_origin).map
        (fun o => ({ msg_iter := o, msgs := [] } : muxer_upstream_msg_iter)) := by
    rw [List.map_map]
    have : all_cursors it0 = it0.active_muxer_upstream_msg_iters := by
      simp [all_cursors, hended]
    conv_lhs => rw [← this, ← List.map_id (all_cursors it0)]
    apply List.map_congr_left
    intro c hc
    exact (horigin0 c hc).symm
  rw [h1, h2]
  exact hk.map _

theorem merge_start_merge_input (upstreams : List (List (List bt_message)))
    (hbatch : ∀ bs ∈ upstreams, ∀ b ∈ bs, b ≠ [])
    (hev : ∀ bs ∈ upstreams, ∀ m ∈ bs.flatten, good_event m)
    (hsorted : ∀ bs ∈ upstreams, (bs.flatten.map msg_ts).Pairwise (· ≤ ·)) :
    merge_start (merge_input upstreams) := by
  refine ⟨merge_inv_merge_input upstreams hbatch hev hsorted, ⟨?_, ?_⟩, rfl, ?_⟩
  · intro c hc
    simp only [all_cursors, merge_input, initial_iter, List.append_nil] at hc
    obtain ⟨p, _, rfl⟩ := List.mem_map.mp hc
    intro u hu a ha
    simp only [Option.some.injEq] at hu
    subst hu
    simp only [batch_upstream] at ha
    obtain ⟨b, _, rfl⟩ := List.mem_map.mp ha
    rfl
  · intro c hc
    simp [merge_input, initial_iter] at hc
  · simp only [cursor_ids, all_cursors, merge_input, initial_iter, List.append_nil,
      List.map_map]
    have : (upstreams.enum.map (cursor_id ∘ fun p =>
        ({ msg_iter := some (batch_upstream p.1 p.2), msgs := [] } : muxer_upstream_msg_iter))) =
        (upstreams.enum.map Prod.fst).map some := by
      rw [List.map_map]
      rfl
    rw [this, List.enum_map_fst]
    exact (List.nodup_range _).map (Option.some_injective _)

theorem merge_input_fresh (upstreams : List (List (List bt_message))) :
    ∀ c ∈ all_cursors (merge_input upstreams),
      ∃ u, c = { msg_iter := some u, msgs := [] } ∧ u.pending = u.replay ∧
        u.seek_answers = [] := by
  intro c hc
  simp only [all_cursors, merge_input, initial_iter, List.append_nil] at hc
  obtain ⟨p, _, rfl⟩ := List.mem_map.mp hc
  exact ⟨_, rfl, rfl, rfl⟩

theorem merge_start_of_perm {it0 it2 : muxer_msg_iter} (h0 : merge_start it0)
    (hperm : it2.active_muxer_upstream_msg_iters.Perm it0.active_muxer_upstream_msg_iters)
    (he : it2.ended_muxer_upstream_msg_iters = [])
    (hl : it2.last_returned_ts_ns = it0.last_returned_ts_ns)
    (hc : it2.clock_class_expectation ≠ .NONE) : merge_start it2 := by
  obtain ⟨hinv, hdone, hended, hid⟩ := h0
  have hall : all_cursors it2 = it2.active_muxer_upstream_msg_iters := by
    simp [all_cursors, he]
  have hall0 : all_cursors it0 = it0.active_muxer_upstream_msg_iters := by
    simp [all_cursors, hended]
  refine ⟨⟨hc, ?_⟩, ⟨?_, ?_⟩, he, ?_⟩
  · intro c hcm
    rw [hl]
    exact hinv.2 c (hperm.mem_iff.mp hcm)
  · intro c hcm
    rw [hall] at hcm
    exact hdone.1 c (by rw [hall0]; exact hperm.mem_iff.mp hcm)
  · intro c hcm
    rw [he] at hcm
    simp at hcm
  · unfold cursor_ids at hid ⊢
    rw [hall]
    rw [hall0] at hid
    exact (hperm.map cursor_id).nodup_iff.mpr hid

/-- C24, as stated, fails: two upstreams each deliver one event at 10.
The first drain gives the event of the second upstream first (on a tie
the last cursor of the active array wins); the cursors come back from
the ended array in the order in which they ended, so after the seek the
second drain gives the event of the first upstream first. -/
theorem C24_replay_differs_on_tie :
    drain_seek_drain sample_comp 4 3 (merge_input tied_upstreams) =
        some ([sample_event 2 10, sample_event 1 10], [sample_event 1 10, sample_event 2 10]) ∧
      [sample_event 2 10, sample_event 1 10] ≠ [sample_event 1 10, sample_event 2 10] := by
  decide

/-- A call of `next` on two cursors of a fresh iterator, the first of
which has to pull an upstream that answers `AGAIN`. -/
theorem do_next_first_again (comp : muxer_comp) (u1 : upstream_iterator)
    (x : List bt_message) (q : List (bt_message_iterator_status × List bt_message))
    (c2 : muxer_upstream_msg_iter) (capacity : Nat) (hcap : 1 ≤ capacity) :
    muxer_msg_iter_do_next comp (initial_iter [waiting_cursor u1 ((.AGAIN, x) :: q), c2])
        capacity =
      some (.AGAIN, [], initial_iter [waiting_cursor u1 q, c2]) := by
  refine @do_next_of_do_next_one_not_ok comp _ _ capacity _ none ?_ (by simp) hcap
  simp [muxer_msg_iter_do_next_one, validate_muxer_upstream_msg_iters,
    validate_muxer_upstream_msg_iters_loop, validate_muxer_upstream_msg_iters_turn,
    validate_muxer_upstream_msg_iter, muxer_upstream_msg_iter_next,
    bt_self_component_port_input_message_iterator_next, initial_iter, waiting_cursor]

/-- A call of `next` on two cursors of a fresh iterator, the first of
which is validated into `c1v`, the second of which has to pull an
upstream that answers `AGAIN`. -/
theorem do_next_second_again (comp : muxer_comp) (c1 c1v : muxer_upstream_msg_iter)
    (u2 : upstream_iterator) (x : List bt_message)
    (q : List (bt_message_iterator_status × List bt_message)) (capacity : Nat)
    (hc1 : validate_muxer_upstream_msg_iter c1 false = some (.OK, c1v, false))
    (hcap : 1 ≤ capacity) :
    muxer_msg_iter_do_next comp (initial_iter [c1, waiting_cursor u2 ((.AGAIN, x) :: q)])
        capacity =
      some (.AGAIN, [], initial_iter [c1v, waiting_cursor u2 q]) := by
  refine @do_next_of_do_next_one_not_ok comp _ _ capacity _ none ?_ (by simp) hcap
  have hc2 : validate_muxer_upstream_msg_iter (waiting_cursor u2 ((.AGAIN, x) :: q)) false =
      some (.AGAIN, waiting_cursor u2 q, false) := by
    simp [validate_muxer_upstream_msg_iter, muxer_upstream_msg_iter_next,
      bt_self_component_port_input_message_iterator_next, waiting_cursor]
  simp [muxer_msg_iter_do_next_one, validate_muxer_upstream_msg_iters,
    validate_muxer_upstream_msg_iters_loop, validate_muxer_upstream_msg_iters_turn,
    initial_iter, hc1, hc2]

/-- A call of `next` on two cursors of a fresh iterator whose heads,
once the cursors are validated, are `m1` and `m2`, when the clock class
of the second head is refused once the expectation is locked on the
first. -/
theorem do_next_clock_error (comp : muxer_comp) (c1 c2 c1v c2v : muxer_upstream_msg_iter)
    (u1 u2 : upstream_iterator) (m1 m2 : bt_message) (rest1 rest2 : List bt_message)
    (capacity : Nat) (it1 : muxer_msg_iter)
    (hc1 : validate_muxer_upstream_msg_iter c1 false = some (.OK, c1v, false))
    (hc2 : validate_muxer_upstream_msg_iter c2 false = some (.OK, c2v, false))
    (h1 : c1v = { msg_iter := some u1, msgs := m1 :: rest1 })
    (h2 : c2v = { msg_iter := some u2, msgs := m2 :: rest2 })
    (hv1 : validate_head_clock_class (initial_iter [c1v, c2v]) comp m1 = some (0, it1))
    (hts : get_msg_ts_ns it1 m1 it1.last_returned_ts_ns = some (.ok it1.last_returned_ts_ns))
    (hv2 : validate_head_clock_class it1 comp m2 = some (-1, it1))
    (hcap : 1 ≤ capacity) :
    muxer_msg_iter_do_next comp (initial_iter [c1, c2]) capacity = some (.ERROR, [], it1) := by
  have hval : validate_muxer_upstream_msg_iters (initial_iter [c1, c2]) =
      some (.OK, initial_iter [c1v, c2v]) := by
    simp [validate_muxer_upstream_msg_iters, validate_muxer_upstream_msg_iters_loop,
      validate_muxer_upstream_msg_iters_turn, initial_iter, hc1, hc2]
  have hy : muxer_msg_iter_youngest_upstream_msg_iter comp (initial_iter [c1v, c2v]) =
      some (.ERROR, it1, (if it1.last_returned_ts_ns ≤ INT64_MAX then some 0 else none),
        (if it1.last_returned_ts_ns ≤ INT64_MAX then it1.last_returned_ts_ns else INT64_MAX)) := by
    unfold muxer_msg_iter_youngest_upstream_msg_iter
    have hact : (initial_iter [c1v, c2v]).active_muxer_upstream_msg_iters = [c1v, c2v] := rfl
    rw [hact, youngest_loop]
    simp only [h1, hv1, hts]
    rw [← h1]
    simp only [hv1, hts]
    by_cases hle : it1.last_returned_ts_ns ≤ INT64_MAX
    · simp [hle, youngest_loop, h2, hv2]
    · simp [hle, youngest_loop, h2, hv2]
  exact do_next_of_do_next_one_not_ok ((do_next_one_of_youngest hval hy).1 (Or.inr rfl))
    (by simp) hcap

theorem validate_waiting_cursor_ok (u : upstream_iterator) (m : bt_message)
    (rest : List bt_message) (p : List (bt_message_iterator_status × List bt_message)) :
    validate_muxer_upstream_msg_iter (waiting_cursor u ((.OK, m :: rest) :: p)) false =
      some (.OK, { msg_iter := some { u with pending := p }, msgs := m :: rest }, false) := by
  simp [validate_muxer_upstream_msg_iter, muxer_upstream_msg_iter_next,
    bt_self_component_port_input_message_iterator_next, waiting_cursor]

/-- Calls of `next` repeated while they return `AGAIN`, on two cursors
of a fresh iterator whose upstreams answer `AGAIN` some times and then
deliver batches that begin with `m1` and `m2`, when the clock class of
the second head is refused once the expectation is locked on the first:
the calls return `AGAIN` without a message, then `ERROR`. -/
theorem next_while_again_clock_error (comp : muxer_comp) (u1 u2 : upstream_iterator)
    (m1 m2 : bt_message) (rest1 rest2 : List bt_message)
    (p1 p2 : List (bt_message_iterator_status × List bt_message)) (capacity : Nat)
    (it1 : muxer_msg_iter)
    (hv1 : validate_head_clock_class
      (initial_iter
        [{ msg_iter := some { u1 with pending := p1 }, msgs := m1 :: rest1 },
          { msg_iter := some { u2 with pending := p2 }, msgs := m2 :: rest2 }]) comp m1 =
      some (0, it1))
    (hts : get_msg_ts_ns it1 m1 it1.last_returned_ts_ns = some (.ok it1.last_returned_ts_ns))
    (hv2 : validate_head_clock_class it1 comp m2 = some (-1, it1))
    (hcap : 1 ≤ capacity) :
    ∀ (agains1 agains2 : List (bt_message_iterator_status × List bt_message)),
      (∀ e ∈ agains1, e.1 = .AGAIN) → (∀ e ∈ agains2, e.1 = .AGAIN) →
      next_while_again comp capacity (agains1.length + agains2.length + 1)
          (initial_iter
            [waiting_cursor u1 (agains1 ++ (.OK, m1 :: rest1) :: p1),
              waiting_cursor u2 (agains2 ++ (.OK, m2 :: rest2) :: p2)]) [] =
        some (.ERROR, [], it1) := by
  -- once the first cursor holds its batch
  have phase2 : ∀ (agains2 : List (bt_message_iterator_status × List bt_message)),
      (∀ e ∈ agains2, e.1 = .AGAIN) → ∀ c1 : muxer_upstream_msg_iter,
      validate_muxer_upstream_msg_iter c1 false =
        some (.OK, { msg_iter := some { u1 with pending := p1 }, msgs := m1 :: rest1 }, false) →
      next_while_again comp capacity (agains2.length + 1)
          (initial_iter [c1, waiting_cursor u2 (agains2 ++ (.OK, m2 :: rest2) :: p2)]) [] =
        some (.ERROR, [], it1) := by
    intro agains2
    induction agains2 with
    | nil =>
      intro _ c1 hc1
      simp only [List.length_nil, Nat.zero_add, List.nil_append]
      rw [next_while_again,
        do_next_clock_error comp c1 _ _ _ _ _ m1 m2 rest1 rest2 capacity it1 hc1
          (validate_waiting_cursor_ok u2 m2 rest2 p2) rfl rfl hv1 hts hv2 hcap]
      rfl
    | cons e t ih =>
      intro he c1 hc1
      obtain ⟨st, x⟩ := e
      have hst : st = .AGAIN := he (st, x) (List.mem_cons_self _ _)
      subst hst
      simp only [List.length_cons, List.cons_append]
      rw [next_while_again, do_next_second_again comp c1 _ u2 x _ capacity hc1 hcap]
      simp only [List.append_nil]
      exact ih (fun e h => he e (List.mem_cons_of_mem _ h)) _
        (validate_muxer_upstream_msg_iter_ready false (Or.inl (by simp)))
  intro agains1
  induction agains1 with
  | nil =>
    intro agains2 _ h2
    simp only [List.length_nil, Nat.zero_add, List.nil_append]
    exact phase2 agains2 h2 _ (validate_waiting_cursor_ok u1 m1 rest1 p1)
  | cons e t ih =>
    intro agains2 h1 h2
    obtain ⟨st, x⟩ := e
    have hst : st = .AGAIN := h1 (st, x) (List.mem_cons_self _ _)
    subst hst
    simp only [List.length_cons, List.cons_append]
    rw [show t.length + 1 + agains2.length + 1 = (t.length + agains2.length + 1) + 1 by omega,
      next_while_again, do_next_first_again comp u1 x _ _ capacity hcap]
    simp only [List.append_nil]
    exact ih agains2 (fun e h => h1 e (List.mem_cons_of_mem _ h)) h2

/-- C31: what `muxer_upstream_msg_iter_next` makes of the answer of the
upstream of the cursor.  On `OK` with a batch of one message or more, the
queue becomes the old queue followed by the batch, in order, and the
result is `OK`; on `AGAIN` the result is `AGAIN`; on `END` the result is
`OK` with the ended flag set; on any other status the result is `ERROR`.
In the last three cases the queue is unchanged, and the ended flag is only
ever changed by `END`. -/
theorem C31_pull_maps_upstream_answer (c : muxer_upstream_msg_iter) (u : upstream_iterator)
    (is_ended : Bool) (hu : c.msg_iter = some u) :
    ((bt_self_component_port_input_message_iterator_next u).1 = .OK →
        (bt_self_component_port_input_message_iterator_next u).2.1 ≠ [] →
        muxer_upstream_msg_iter_next c is_ended =
          some (.OK,
            { msg_iter := some (bt_self_component_port_input_message_iterator_next u).2.2
              msgs := c.msgs ++ (bt_self_component_port_input_message_iterator_next u).2.1 },
            is_ended)) ∧
      ((bt_self_component_port_input_message_iterator_next u).1 = .AGAIN →
        muxer_upstream_msg_iter_next c is_ended =
          some (.AGAIN,
            { msg_iter := some (bt_self_component_port_input_message_iterator_next u).2.2
              msgs := c.msgs },
            is_ended)) ∧
      ((bt_self_component_port_input_message_iterator_next u).1 = .END →
        muxer_upstream_msg_iter_next c is_ended =
          some (.OK,
            { msg_iter := some (bt_self_component_port_input_message_iterator_next u).2.2
              msgs := c.msgs },
            true)) ∧
      ((bt_self_component_port_input_message_iterator_next u).1 ≠ .OK →
        (bt_self_component_port_input_message_iterator_next u).1 ≠ .AGAIN →
        (bt_self_component_port_input_message_iterator_next u).1 ≠ .END →
        muxer_upstream_msg_iter_next c is_ended =
          some (.ERROR,
            { msg_iter := some (bt_self_component_port_input_message_iterator_next u).2.2
              msgs := c.msgs },
            is_ended)) := by
  unfold muxer_upstream_msg_iter_next
  simp only [hu]
  generalize bt_self_component_port_input_message_iterator_next u = r
  obtain ⟨s, msgs, u1⟩ := r
  cases s <;> simp

/-- Witness of C31: an upstream that answers `NOMEM`; the result is
`ERROR`, the queue keeps its message and the ended flag is not set. -/
theorem C31_pull_maps_upstream_answer_witness :
    (bt_self_component_port_input_message_iterator_next
        (sample_upstream 0 [(.NOMEM, [])])).1 = .NOMEM ∧
      (muxer_upstream_msg_iter_next nomem_cursor false).map
          (fun r => (r.1, r.2.1.msgs, r.2.2)) =
        some (.ERROR, [sample_event 1 5], false) :=
  ⟨by decide, by
    rw [(C31_pull_maps_upstream_answer nomem_cursor (sample_upstream 0 [(.NOMEM, [])]) false
      rfl).2.2.2 (by decide) (by decide) (by decide)]
    rfl⟩

/-- C35: whatever status `muxer_msg_iter_youngest_upstream_msg_iter`
returns, the active array, the ended array (hence every cursor, its queue
and its upstream iterator, which is not pulled) and the last returned
timestamp are the same after the call as before; only the clock
expectation and the expected UUID may have changed. -/
theorem C35_selection_updates_no_cursor (comp : muxer_comp) (it it1 : muxer_msg_iter)
    (st : bt_message_iterator_status) (chosen : Option Nat) (ts_ns : Int)
    (h : muxer_msg_iter_youngest_upstream_msg_iter comp it = some (st, it1, chosen, ts_ns)) :
    it1.active_muxer_upstream_msg_iters = it.active_muxer_upstream_msg_iters ∧
      it1.ended_muxer_upstream_msg_iters = it.ended_muxer_upstream_msg_iters ∧
      it1.last_returned_ts_ns = it.last_returned_ts_ns :=
  (youngest_same_cursors h).1

/-- Witness of C35: the only cursor holds the beginning of a stream with
a clock class of Unix epoch origin; the selection sets the expectation
and leaves the arrays and the last returned timestamp as they were. -/
theorem C35_selection_updates_no_cursor_witness :
    muxer_msg_iter_youngest_upstream_msg_iter sample_comp stream_beginning_head_iter =
        some (.OK, { stream_beginning_head_iter with clock_class_expectation := .ABSOLUTE },
          some 0, INT64_MIN) ∧
      ({ stream_beginning_head_iter with
          clock_class_expectation := .ABSOLUTE }).active_muxer_upstream_msg_iters =
        stream_beginning_head_iter.active_muxer_upstream_msg_iters :=
  ⟨by decide,
    (C35_selection_updates_no_cursor sample_comp stream_beginning_head_iter
      { stream_beginning_head_iter with clock_class_expectation := .ABSOLUTE } .OK (some 0)
      INT64_MIN (by decide)).1⟩

/-- C38: with the expectation "any", `validate_clock_class` succeeds for
every clock class and both values of `assume_absolute_clock_classes`, and
leaves an expectation other than "any"; and
`validate_new_stream_clock_class` succeeds for every stream, with or
without a default clock class, and leaves an expectation other than
"any" too. -/
theorem C38_first_observation_never_fails (it : muxer_msg_iter) (comp : muxer_comp)
    (ha : it.clock_class_expectation = .ANY) :
    (∀ cc : bt_clock_class, ∃ it1, validate_clock_class it comp cc = some (0, it1) ∧
      it1.clock_class_expectation ≠ .ANY) ∧
      (∀ cc : Option bt_clock_class,
        ∃ it1, validate_new_stream_clock_class it comp cc = some (0, it1) ∧
          it1.clock_class_expectation ≠ .ANY) := by
  have key : ∀ cc : bt_clock_class, ∃ it1, validate_clock_class it comp cc = some (0, it1) ∧
      it1.clock_class_expectation ≠ .ANY := by
    intro cc
    obtain ⟨uuid, name, origin⟩ := cc
    unfold validate_clock_class
    cases hab : comp.assume_absolute_clock_classes <;> cases origin <;> cases uuid <;>
      simp [ha, hab, memcmp, memcpy]
  refine ⟨key, ?_⟩
  intro cc
  cases cc with
  | none =>
    unfold validate_new_stream_clock_class
    simp [ha]
  | some c =>
    unfold validate_new_stream_clock_class
    exact key c

/-- Witness of C38: the first clock class seen by a fresh iterator is a
class without Unix epoch origin, with a UUID. -/
theorem C38_first_observation_never_fails_witness :
    ∃ it1, validate_clock_class (initial_iter []) sample_comp
        (sample_relative_clock_class (some sample_uuid)) = some (0, it1) ∧
      it1.clock_class_expectation ≠ .ANY :=
  (C38_first_observation_never_fails (initial_iter []) sample_comp rfl).1
    (sample_relative_clock_class (some sample_uuid))

theorem validate_muxer_upstream_msg_iter_contract {c : muxer_upstream_msg_iter} (e : Bool)
    (hc : honours_contract c) :
    ∃ st c1 e1, validate_muxer_upstream_msg_iter c e = some (st, c1, e1) ∧
      honours_contract c1 := by
  unfold validate_muxer_upstream_msg_iter
  split_ifs with h
  · exact ⟨_, _, _, rfl, hc⟩
  · have hsome : c.msg_iter ≠ none := by
      intro hn
      exact h (Or.inr (by simp [hn]))
    obtain ⟨u, hu⟩ := Option.ne_none_iff_exists'.mp hsome
    have hpend := upstream_next_pending u
    have hcu := hc u hu
    have hnext : ∀ u1, u1 = (bt_self_component_port_input_message_iterator_next u).2.2 →
        ∀ q, honours_contract { msg_iter := some u1, msgs := q } := by
      intro u1 hu1 q v hv a ha
      simp at hv
      subst hv
      rw [hu1] at ha
      exact hcu a (hpend a ha)
    have hbatch : (bt_self_component_port_input_message_iterator_next u).1 = .OK →
        (bt_self_component_port_input_message_iterator_next u).2.1 ≠ [] := by
      unfold bt_self_component_port_input_message_iterator_next
      cases hp : u.pending with
      | nil => simp
      | cons a rest =>
        intro h1
        exact hcu a (by rw [hp]; exact List.mem_cons_self _ _) h1
    unfold muxer_upstream_msg_iter_next
    simp only [hu]
    generalize bt_self_component_port_input_message_iterator_next u = r at hnext hbatch
    obtain ⟨s, msgs, u1⟩ := r
    cases s
    all_goals first
      | exact ⟨_, _, _, rfl, hnext u1 rfl _⟩
      | (have hb : msgs.length > 0 := List.length_pos.mpr (hbatch rfl)
         simp only [hb, if_true]
         exact ⟨_, _, _, rfl, hnext u1 rfl _⟩)

theorem validate_turn_contract {i : Nat} {it : muxer_msg_iter}
    (hi : i < it.active_muxer_upstream_msg_iters.length)
    (hc : ∀ c ∈ it.active_muxer_upstream_msg_iters, honours_contract c) :
    ∃ r, validate_muxer_upstream_msg_iters_turn i it = some r ∧
      ∀ c ∈ (turn_iter r).active_muxer_upstream_msg_iters, honours_contract c := by
  obtain ⟨c, hget⟩ : ∃ c, it.active_muxer_upstream_msg_iters[i]? = some c :=
    ⟨_, List.getElem?_eq_getElem hi⟩
  have hcm : c ∈ it.active_muxer_upstream_msg_iters := List.mem_iff_getElem?.mpr ⟨i, hget⟩
  obtain ⟨st, c1, e1, hv, hc1⟩ := validate_muxer_upstream_msg_iter_contract false (hc c hcm)
  have hset : ∀ x ∈ it.active_muxer_upstream_msg_iters.set i c1, honours_contract x := by
    intro x hx
    rcases List.mem_or_eq_of_mem_set hx with hx | hx
    · exact hc x hx
    · rw [hx]; exact hc1
  unfold validate_muxer_upstream_msg_iters_turn
  simp only [hget, hv]
  split_ifs with h1 h2
  · exact ⟨_, rfl, hset⟩
  · refine ⟨_, rfl, ?_⟩
    intro x hx
    simp only [turn_iter] at hx
    exact hset x (mem_remove_index_fast _ i (by simpa using hi) x hx)
  · exact ⟨_, rfl, hset⟩

theorem validate_loop_contract :
    ∀ (fuel i : Nat) (it : muxer_msg_iter),
      it.active_muxer_upstream_msg_iters.length - i ≤ fuel →
      (∀ c ∈ it.active_muxer_upstream_msg_iters, honours_contract c) →
      ∃ r, validate_muxer_upstream_msg_iters_loop fuel i it = some r := by
  intro fuel
  induction fuel with
  | zero =>
    intro i it hf _
    unfold validate_muxer_upstream_msg_iters_loop
    rw [if_neg (by omega)]
    exact ⟨_, rfl⟩
  | succ n ih =>
    intro i it hf hc
    unfold validate_muxer_upstream_msg_iters_loop
    split_ifs with hi
    · obtain ⟨r, hr, hc1⟩ := validate_turn_contract hi hc
      rw [hr]
      cases r with
      | inl p =>
        obtain ⟨i1, it1⟩ := p
        have hm := validate_turn_measure hr
        exact ih i1 it1 (by omega) hc1
      | inr p => exact ⟨_, rfl⟩
    · exact ⟨_, rfl⟩

/-- C36: when the upstream of every active cursor honours its contract
(an `OK` answer carries at least one message),
`validate_muxer_upstream_msg_iters` returns, and when it returns `OK`
every cursor left in the active array that has an upstream iterator has a
message at the head of its queue, whichever slot it now occupies: in the
selection loop the assertion on the queue length holds and the head peek
finds a message. -/
theorem C36_validated_cursors_have_heads (it : muxer_msg_iter)
    (hc : ∀ c ∈ it.active_muxer_upstream_msg_iters, honours_contract c) :
    (∃ st it1, validate_muxer_upstream_msg_iters it = some (st, it1)) ∧
      ∀ it1, validate_muxer_upstream_msg_iters it = some (.OK, it1) →
        ∀ c ∈ it1.active_muxer_upstream_msg_iters, c.msg_iter ≠ none →
          c.msgs.length > 0 ∧ ∃ msg rest, c.msgs = msg :: rest := by
  refine ⟨?_, ?_⟩
  · obtain ⟨r, hr⟩ := validate_loop_contract it.active_muxer_upstream_msg_iters.length 0 it
      (by omega) hc
    exact ⟨r.1, r.2, hr⟩
  · intro it1 h c hcm hne
    have hr := (validate_ready h).1 rfl c hcm
    rcases hr with hr | hr
    · refine ⟨List.length_pos.mpr hr, ?_⟩
      cases hq : c.msgs with
      | nil => exact absurd hq hr
      | cons m rest => exact ⟨m, rest, rfl⟩
    · exact absurd hr hne

/-- Witness of C36: the first of three cursors ends, the last one is
moved into its slot with an empty queue and is pulled there. -/
theorem C36_validated_cursors_have_heads_witness :
    validate_muxer_upstream_msg_iters swap_iter = some (.OK, swap_iter_after) ∧
      ∀ c ∈ swap_iter_after.active_muxer_upstream_msg_iters, c.msg_iter ≠ none →
        c.msgs.length > 0 ∧ ∃ msg rest, c.msgs = msg :: rest :=
  ⟨by decide,
    (C36_validated_cursors_have_heads swap_iter (by decide)).2 swap_iter_after (by decide)⟩

theorem init_loop_ok :
    ∀ (ports : List bt_port) (it it1 : muxer_msg_iter),
      muxer_msg_iter_init_upstream_iterators_loop ports it = some (0, it1) →
      ∃ cursors, it1 = { it with
          active_muxer_upstream_msg_iters := it.active_muxer_upstream_msg_iters ++ cursors } ∧
        cursors.map (fun c => c.msg_iter) =
          (ports.filter (fun p => p.is_connected)).map (fun p => p.upstream) ∧
        ∀ c ∈ cursors, c.msgs = [] ∧ c.msg_iter ≠ none := by
  intro ports
  induction ports with
  | nil =>
    intro it it1 h
    simp [muxer_msg_iter_init_upstream_iterators_loop] at h
    subst h
    exact ⟨[], by simp, by simp, by simp⟩
  | cons p rest ih =>
    intro it it1 h
    rw [muxer_msg_iter_init_upstream_iterators_loop] at h
    cases hp : p.is_connected with
    | false =>
      simp only [hp, Bool.not_false, if_true] at h
      obtain ⟨cursors, h1, h2, h3⟩ := ih it it1 h
      exact ⟨cursors, h1, by simp [hp, h2], h3⟩
    | true =>
      simp only [hp, Bool.not_true, create_msg_iter_on_input_port, if_true] at h
      cases hu : p.upstream with
      | none => simp [hu] at h
      | some u =>
        simp only [hu, muxer_msg_iter_add_upstream_msg_iter] at h
        simp only [ne_eq, not_true_eq_false, if_false] at h
        obtain ⟨cursors, h1, h2, h3⟩ := ih _ it1 h
        refine ⟨{ msg_iter := some u, msgs := [] } :: cursors, ?_, ?_, ?_⟩
        · rw [h1]; simp
        · simp [hp, hu, h2]
        · intro c hc
          rcases List.mem_cons.mp hc with hc | hc
          · subst hc; simp
          · exact h3 c hc

theorem init_loop_total :
    ∀ (ports : List bt_port) (it : muxer_msg_iter),
      (∀ p ∈ ports, p.is_connected = true → p.upstream ≠ none) →
      ∃ it1, muxer_msg_iter_init_upstream_iterators_loop ports it = some (0, it1) := by
  intro ports
  induction ports with
  | nil =>
    intro it _
    exact ⟨it, rfl⟩
  | cons p rest ih =>
    intro it h
    rw [muxer_msg_iter_init_upstream_iterators_loop]
    cases hp : p.is_connected with
    | false =>
      simp only [Bool.not_false, if_true]
      exact ih it (fun q hq => h q (List.mem_cons_of_mem _ hq))
    | true =>
      simp only [hp, Bool.not_true, create_msg_iter_on_input_port, if_true]
      obtain ⟨u, hu⟩ := Option.ne_none_iff_exists'.mp (h p (List.mem_cons_self _ _) hp)
      simp only [hu, muxer_msg_iter_add_upstream_msg_iter]
      simp only [ne_eq, not_true_eq_false, if_false]
      exact ih _ (fun q hq => h q (List.mem_cons_of_mem _ hq))

theorem muxer_msg_iter_init_ok {self_comp self_comp1 : bt_self_component_filter}
    {it : muxer_msg_iter}
    (h : muxer_msg_iter_init self_comp = some (.OK, some it, self_comp1)) :
    it.active_muxer_upstream_msg_iters.map (fun c => c.msg_iter) =
        (self_comp.input_ports.filter (fun p => p.is_connected)).map (fun p => p.upstream) ∧
      (∀ c ∈ it.active_muxer_upstream_msg_iters, c.msgs = [] ∧ c.msg_iter ≠ none) ∧
      it.ended_muxer_upstream_msg_iters = [] ∧
      it.last_returned_ts_ns = INT64_MIN ∧
      it.clock_class_expectation = .ANY ∧
      ∃ comp, self_comp.data = some comp ∧
        self_comp1 =
          { self_comp with data := some { comp with initializing_muxer_msg_iter := false } } := by
  unfold muxer_msg_iter_init at h
  cases hd : self_comp.data with
  | none => simp [hd] at h
  | some comp =>
    simp only [hd] at h
    split_ifs at h with hflag
    · simp at h
    · split at h
      · simp at h
      · rename_i ret it1 hloop
        unfold muxer_msg_iter_init_upstream_iterators at hloop
        split_ifs at h with hret
        · simp at h
        · have hret0 : ret = 0 := by
            first
              | exact hret
              | exact not_not.mp hret
          subst hret0
          simp only [Option.some.injEq, Prod.mk.injEq, true_and] at h
          obtain ⟨hit, hsc⟩ := h
          subst hit
          obtain ⟨cursors, h1, h2, h3⟩ := init_loop_ok _ _ _ hloop
          subst h1
          refine ⟨?_, ?_, rfl, rfl, rfl, comp, rfl, hsc.symm⟩
          · simpa using h2
          · simpa using h3

theorem validate_turn_ended_empty {i : Nat} {it : muxer_msg_iter}
    {r : (Nat × muxer_msg_iter) ⊕ (bt_message_iterator_status × muxer_msg_iter)}
    (h : validate_muxer_upstream_msg_iters_turn i it = some r) :
    (turn_iter r).ended_muxer_upstream_msg_iters = it.ended_muxer_upstream_msg_iters ∨
      ∃ c c1 u, it.active_muxer_upstream_msg_iters[i]? = some c ∧ c.msgs = [] ∧
        c.msg_iter = some u ∧
        (bt_self_component_port_input_message_iterator_next u).1 = .END ∧
        c1 = { c with
          msg_iter := some (bt_self_component_port_input_message_iterator_next u).2.2 } ∧
        (turn_iter r).ended_muxer_upstream_msg_iters =
          it.ended_muxer_upstream_msg_iters ++ [c1] ∧
        (turn_iter r).active_muxer_upstream_msg_iters =
          g_ptr_array_remove_index_fast (it.active_muxer_upstream_msg_iters.set i c1) i ∧
        it.active_muxer_upstream_msg_iters.Perm
          (c :: (turn_iter r).active_muxer_upstream_msg_iters) := by
  obtain ⟨c, st, c1, e, hc, hv, hr⟩ := validate_turn_cases h
  have hlt : i < it.active_muxer_upstream_msg_iters.length := getElem?_lt_length hc
  rcases hr with ⟨_, rfl⟩ | ⟨_, he, rfl⟩ | ⟨_, _, rfl⟩
  · exact Or.inl rfl
  · right
    have hg := (validate_muxer_upstream_msg_iter_grown hv).2.2.2 he rfl
    have hv0 := hv
    unfold validate_muxer_upstream_msg_iter at hv
    rw [if_neg] at hv
    · obtain ⟨u, hu, hu1, hcases⟩ := muxer_upstream_msg_iter_next_cases hv
      have hend : (bt_self_component_port_input_message_iterator_next u).1 = .END := by
        rcases hcases with h1 | h1 | h1 | h1
        · exact absurd he (by rw [h1.2.2.1]; simp)
        · exact absurd h1.2.1 (by rw [hg.1]; simp)
        · exact h1.1
        · exact absurd h1.2.1 (by rw [hg.1]; simp)
      have hc1 : c1 = { c with
          msg_iter := some (bt_self_component_port_input_message_iterator_next u).2.2 } := by
        cases c1
        simp only at hu1 hg
        simp [hu1, hg.2.1, hg.2.2]
      refine ⟨c, c1, u, hc, hg.2.1, hu, hend, hc1, rfl, rfl, ?_⟩
      simp only [turn_iter]
      have hlen : i < (it.active_muxer_upstream_msg_iters.set i c1).length := by simpa using hlt
      have h1 := remove_index_fast_perm (it.active_muxer_upstream_msg_iters.set i c1) i hlen
      rw [eraseIdx_set_self] at h1
      exact (perm_cons_eraseIdx_of_getElem? _ i c hc).trans (List.Perm.cons _ h1.symm)
    · intro hor
      rcases hor with hor | hor
      · rw [hg.2.1] at hor; simp at hor
      · unfold validate_muxer_upstream_msg_iter at hv0
        rw [if_pos (Or.inr hor)] at hv0
        simp at hv0
        exact absurd hv0.2.2 (by rw [he]; simp)
  · exact Or.inl rfl

theorem validate_ended_empty {it it1 : muxer_msg_iter} {st : bt_message_iterator_status}
    (h : validate_muxer_upstream_msg_iters it = some (st, it1))
    (hinv : ∀ c ∈ it.ended_muxer_upstream_msg_iters, c.msgs = []) :
    ∀ c ∈ it1.ended_muxer_upstream_msg_iters, c.msgs = [] :=
  validate_loop_induct
    (fun a b => (∀ c ∈ a.ended_muxer_upstream_msg_iters, c.msgs = []) →
      ∀ c ∈ b.ended_muxer_upstream_msg_iters, c.msgs = [])
    (fun _ h => h) (fun _ _ _ h1 h2 h => h2 (h1 h))
    (fun i a r ht ha => by
      rcases validate_turn_ended_empty ht with h1 | ⟨c, c1, u, _, hq, _, _, hc1, hended, _, _⟩
      · rw [h1]; exact ha
      · rw [hended]
        intro x hx
        rcases List.mem_append.mp hx with hx | hx
        · exact ha x hx
        · simp at hx
          rw [hx, hc1]
          exact hq) _ _ _ _ _ h hinv

theorem do_next_one_ended_empty {comp : muxer_comp} {it it1 : muxer_msg_iter}
    {st : bt_message_iterator_status} {om : Option bt_message}
    (h : muxer_msg_iter_do_next_one comp it = some (st, om, it1))
    (hinv : ∀ c ∈ it.ended_muxer_upstream_msg_iters, c.msgs = []) :
    ∀ c ∈ it1.ended_muxer_upstream_msg_iters, c.msgs = [] := by
  obtain ⟨sv, itv, hv, hcur⟩ := do_next_one_cursors h
  have hended : it1.ended_muxer_upstream_msg_iters = itv.ended_muxer_upstream_msg_iters := by
    rcases hcur with h1 | ⟨_, _, _, _, _, _, _, h1⟩
    · exact h1.2
    · exact h1
  rw [hended]
  exact validate_ended_empty hv hinv

theorem seek_beginning_ended_empty {it it1 : muxer_msg_iter} {st : bt_message_iterator_status}
    (h : muxer_msg_iter_seek_beginning it = some (st, it1))
    (hinv : ∀ c ∈ it.ended_muxer_upstream_msg_iters, c.msgs = []) :
    ∀ c ∈ it1.ended_muxer_upstream_msg_iters, c.msgs = [] := by
  unfold muxer_msg_iter_seek_beginning at h
  split at h
  · simp at h
  · rename_i s1 ended hl1
    have hended : ∀ c ∈ ended, c.msgs = [] := by
      rcases seek_beginning_loop_cases _ _ _ hl1 with ⟨_, _, rfl⟩ | ⟨_, pre, c, post, u, hl, _, _, _, rfl⟩
      · intro c hc
        obtain ⟨x, _, rfl⟩ := List.mem_map.mp hc
        rfl
      · intro x hx
        rcases List.mem_append.mp hx with hx | hx
        · obtain ⟨y, _, rfl⟩ := List.mem_map.mp hx
          rfl
        · rcases List.mem_cons.mp hx with hx | hx
          · rw [hx]
            exact hinv c (by rw [hl]; simp)
          · exact hinv x (by rw [hl]; simp [hx])
    split_ifs at h with hs1
    · simp at h
      rw [← h.2]
      exact hended
    · split at h
      · simp at h
      · rename_i s2 active hl2
        split_ifs at h with hs2
        · simp at h
          rw [← h.2]
          exact hended
        · simp at h
          rw [← h.2]
          simp

theorem reachable_ended_empty {it : muxer_msg_iter} (h : reachable it) :
    ∀ c ∈ it.ended_muxer_upstream_msg_iters, c.msgs = [] := by
  induction h with
  | fresh sc sc1 it hinit =>
    rw [(muxer_msg_iter_init_ok hinit).2.2.1]
    simp
  | after_next_one comp it it1 st om _ hstep ih => exact do_next_one_ended_empty hstep ih
  | after_next comp it it1 capacity st msgs _ hstep ih =>
    exact do_next_preserves comp (fun a => ∀ c ∈ a.ended_muxer_upstream_msg_iters, c.msgs = [])
      (fun _ _ _ _ h1 h2 => do_next_one_ended_empty h1 h2) hstep ih
  | after_seek it it1 st _ hstep ih => exact seek_beginning_ended_empty hstep ih

theorem upstream_id_after_seek (u : upstream_iterator) :
    (bt_self_component_port_input_message_iterator_seek_beginning u).2.id = u.id := by
  unfold bt_self_component_port_input_message_iterator_seek_beginning
  split <;> rfl

theorem seek_beginning_loop_ids :
    ∀ (l l1 : List muxer_upstream_msg_iter) (st : bt_message_iterator_status),
      seek_beginning_loop l = some (st, l1) → l1.map cursor_id = l.map cursor_id := by
  intro l l1 st h
  have hfail : ∀ (c : muxer_upstream_msg_iter) (u : upstream_iterator), c.msg_iter = some u →
      cursor_id (cursor_after_failed_seek c u) = cursor_id c := by
    intro c u hu
    simp [cursor_id, cursor_after_failed_seek, hu, upstream_id_after_seek]
  rcases seek_beginning_loop_cases l l1 st h with
    ⟨_, _, rfl⟩ | ⟨_, pre, c, post, u, rfl, _, hu, _, rfl⟩
  · rw [List.map_map]
    exact List.map_congr_left (fun x _ => cursor_id_after_seek x)
  · simp only [List.map_append, List.map_cons, List.map_map, hfail c u hu]
    congr 1
    exact List.map_congr_left (fun x _ => cursor_id_after_seek x)

theorem validate_ids_perm {it it1 : muxer_msg_iter} {st : bt_message_iterator_status}
    (h : validate_muxer_upstream_msg_iters it = some (st, it1)) :
    (cursor_ids it1).Perm (cursor_ids it) := by
  have := (validate_keys_perm h).map Prod.fst
  simpa [cursor_ids, List.map_map, Function.comp_def] using this

theorem do_next_one_ids_perm {comp : muxer_comp} {it it1 : muxer_msg_iter}
    {st : bt_message_iterator_status} {om : Option bt_message}
    (h : muxer_msg_iter_do_next_one comp it = some (st, om, it1)) :
    (cursor_ids it1).Perm (cursor_ids it) := by
  obtain ⟨sv, itv, hv, hc⟩ := do_next_one_cursors h
  refine List.Perm.trans ?_ (validate_ids_perm hv)
  rcases hc with ⟨ha, he⟩ | ⟨idx, c, msg, rest, hc, hm, ha, he⟩
  · unfold cursor_ids all_cursors; rw [ha, he]
  · unfold cursor_ids all_cursors
    rw [ha, he, List.map_append, List.map_append, List.map_set]
    have : (List.map cursor_id itv.active_muxer_upstream_msg_iters).set idx
        (cursor_id { c with msgs := rest }) =
        List.map cursor_id itv.active_muxer_upstream_msg_iters := by
      apply set_of_getElem?
      simp [hc, cursor_id]
    rw [this]

theorem seek_beginning_ids {it it1 : muxer_msg_iter} {st : bt_message_iterator_status}
    (h : muxer_msg_iter_seek_beginning it = some (st, it1)) :
    (st ≠ .OK → it1.active_muxer_upstream_msg_iters.map cursor_id =
        it.active_muxer_upstream_msg_iters.map cursor_id ∧
      it1.ended_muxer_upstream_msg_iters.map cursor_id =
        it.ended_muxer_upstream_msg_iters.map cursor_id) ∧
      (st = .OK → it1.active_muxer_upstream_msg_iters.map cursor_id =
          it.active_muxer_upstream_msg_iters.map cursor_id ++
            it.ended_muxer_upstream_msg_iters.map cursor_id ∧
        it1.ended_muxer_upstream_msg_iters = []) := by
  unfold muxer_msg_iter_seek_beginning at h
  split at h
  · simp at h
  · rename_i s1 ended hl1
    have hended := seek_beginning_loop_ids _ _ _ hl1
    split_ifs at h with hs1
    · simp only [Option.some.injEq, Prod.mk.injEq] at h
      obtain ⟨rfl, rfl⟩ := h
      exact ⟨fun _ => ⟨rfl, hended⟩, fun hok => absurd hok hs1⟩
    · split at h
      · simp at h
      · rename_i s2 active hl2
        have hactive := seek_beginning_loop_ids _ _ _ hl2
        split_ifs at h with hs2
        · simp only [Option.some.injEq, Prod.mk.injEq] at h
          obtain ⟨rfl, rfl⟩ := h
          exact ⟨fun _ => ⟨hactive, hended⟩, fun hok => absurd hok hs2⟩
        · simp only [Option.some.injEq, Prod.mk.injEq] at h
          obtain ⟨rfl, rfl⟩ := h
          refine ⟨fun hne => absurd rfl hne, fun _ => ⟨?_, rfl⟩⟩
          simp only [List.map_append, hactive, hended]

theorem seek_beginning_ids_perm {it it1 : muxer_msg_iter} {st : bt_message_iterator_status}
    (h : muxer_msg_iter_seek_beginning it = some (st, it1)) :
    (cursor_ids it1).Perm (cursor_ids it) := by
  have hids := seek_beginning_ids h
  unfold cursor_ids all_cursors
  by_cases hst : st = .OK
  · obtain ⟨h1, h2⟩ := hids.2 hst
    rw [List.map_append, List.map_append, h1, h2]
    simp
  · obtain ⟨h1, h2⟩ := hids.1 hst
    rw [List.map_append, List.map_append, h1, h2]

/-- C32: when every connected input port yields an upstream iterator,
`muxer_msg_iter_init` on a component that is not already initialising an
iterator returns `OK`; and whenever it returns `OK`, the active array
holds one cursor per connected input port, in the order of the input
ports, on the iterator created on that port, the ports that are not
connected being skipped; every cursor has an empty queue; the ended array
is empty; the last returned timestamp is `INT64_MIN` and the expectation
is "any"; and the component is left with `initializing_muxer_msg_iter`
false and is otherwise unchanged. -/
theorem C32_init_builds_one_cursor_per_connected_port (self_comp : bt_self_component_filter) :
    (∀ comp, self_comp.data = some comp → comp.initializing_muxer_msg_iter = false →
        (∀ p ∈ self_comp.input_ports, p.is_connected = true → p.upstream ≠ none) →
        ∃ it self_comp1, muxer_msg_iter_init self_comp = some (.OK, some it, self_comp1)) ∧
      ∀ it self_comp1, muxer_msg_iter_init self_comp = some (.OK, some it, self_comp1) →
        it.active_muxer_upstream_msg_iters.map (fun c => c.msg_iter) =
            (self_comp.input_ports.filter (fun p => p.is_connected)).map
              (fun p => p.upstream) ∧
          (∀ c ∈ it.active_muxer_upstream_msg_iters, c.msgs = [] ∧ c.msg_iter ≠ none) ∧
          it.ended_muxer_upstream_msg_iters = [] ∧
          it.last_returned_ts_ns = INT64_MIN ∧
          it.clock_class_expectation = .ANY ∧
          ∃ comp, self_comp.data = some comp ∧
            self_comp1 =
              { self_comp with
                data := some { comp with initializing_muxer_msg_iter := false } } := by
  refine ⟨?_, fun it self_comp1 h => muxer_msg_iter_init_ok h⟩
  intro comp hd hflag hports
  obtain ⟨it1, hloop⟩ := init_loop_total self_comp.input_ports
    { active_muxer_upstream_msg_iters := []
      ended_muxer_upstream_msg_iters := []
      last_returned_ts_ns := INT64_MIN
      clock_class_expectation := .ANY
      expected_clock_class_uuid := List.replicate BABELTRACE_UUID_LEN 0 } hports
  refine ⟨it1,
    { self_comp with data := some { comp with initializing_muxer_msg_iter := false } }, ?_⟩
  unfold muxer_msg_iter_init
  simp only [hd, hflag, muxer_msg_iter_init_upstream_iterators, hloop]
  simp

/-- Witness of C32: a component with three input ports of which the
first two are connected; the iterator has the two cursors, in that
order. -/
theorem C32_init_builds_one_cursor_per_connected_port_witness :
    muxer_msg_iter_init two_connections_component =
        some (.OK, some two_connections_iter, two_connections_component) ∧
      two_connections_iter.active_muxer_upstream_msg_iters.map (fun c => c.msg_iter) =
        [some (sample_upstream 0 []), some (sample_upstream 1 [])] ∧
      two_connections_iter.ended_muxer_upstream_msg_iters = [] :=
  ⟨by decide,
    ((C32_init_builds_one_cursor_per_connected_port two_connections_component).2
      two_connections_iter two_connections_component (by decide)).1,
    ((C32_init_builds_one_cursor_per_connected_port two_connections_component).2
      two_connections_iter two_connections_component (by decide)).2.2.1⟩

/-- C34: in every state reachable from a freshly initialised iterator by
calls of `next`, `next_one` and `seek_beginning`, every cursor of the
ended array has an empty queue.  A turn of the validation loop, the only
place where the ended array grows, either leaves the ended array as it
is or appends the cursor of the current slot, whose queue was empty and
whose upstream has just answered `END` to a pull; that cursor is then
removed from the active array, which holds the other cursors. -/
theorem C34_ended_cursors_have_empty_queues :
    (∀ it, reachable it → ∀ c ∈ it.ended_muxer_upstream_msg_iters, c.msgs = []) ∧
      ∀ i it r, validate_muxer_upstream_msg_iters_turn i it = some r →
        (turn_iter r).ended_muxer_upstream_msg_iters = it.ended_muxer_upstream_msg_iters ∨
          ∃ c c1 u, it.active_muxer_upstream_msg_iters[i]? = some c ∧ c.msgs = [] ∧
            c.msg_iter = some u ∧
            (bt_self_component_port_input_message_iterator_next u).1 = .END ∧
            c1 = { c with
              msg_iter := some (bt_self_component_port_input_message_iterator_next u).2.2 } ∧
            (turn_iter r).ended_muxer_upstream_msg_iters =
              it.ended_muxer_upstream_msg_iters ++ [c1] ∧
            (turn_iter r).active_muxer_upstream_msg_iters =
              g_ptr_array_remove_index_fast (it.active_muxer_upstream_msg_iters.set i c1) i ∧
            it.active_muxer_upstream_msg_iters.Perm
              (c :: (turn_iter r).active_muxer_upstream_msg_iters) :=
  ⟨fun _ h => reachable_ended_empty h, fun _ _ _ h => validate_turn_ended_empty h⟩

/-- Witness of C34: the iterator initialised on two connected ports
whose upstreams end at once, after one call of `next_one`: both cursors
are in the ended array, with empty queues. -/
theorem C34_ended_cursors_have_empty_queues_witness :
    two_connections_iter_ended.ended_muxer_upstream_msg_iters.length = 2 ∧
      ∀ c ∈ two_connections_iter_ended.ended_muxer_upstream_msg_iters, c.msgs = [] :=
  ⟨by decide,
    C34_ended_cursors_have_empty_queues.1 two_connections_iter_ended
      (reachable.after_next_one sample_comp two_connections_iter two_connections_iter_ended
        .END none
        (reachable.fresh two_connections_component two_connections_component
          two_connections_iter (by decide))
        (by decide))⟩

/-- C37: a call of `next_one` and a call of `seek_beginning`, whatever
they return, leave the same upstream iterators under the cursors of the
active and ended arrays taken together, up to the order; so when no
iterator is under two cursors before the call, none is after it.  A
freshly initialised iterator has the iterators of the connected input
ports under its cursors.  After a successful `seek_beginning` the active
array is the old active array followed by the old ended array, each
cursor rewound, and the ended array is empty. -/
theorem C37_cursors_are_conserved (it it1 : muxer_msg_iter) :
    (∀ comp st om, muxer_msg_iter_do_next_one comp it = some (st, om, it1) →
        (cursor_ids it1).Perm (cursor_ids it) ∧
          ((cursor_ids it).Nodup → (cursor_ids it1).Nodup)) ∧
      (∀ st, muxer_msg_iter_seek_beginning it = some (st, it1) →
        (cursor_ids it1).Perm (cursor_ids it) ∧
          ((cursor_ids it).Nodup → (cursor_ids it1).Nodup)) ∧
      (muxer_msg_iter_seek_beginning it = some (.OK, it1) →
        it1.active_muxer_upstream_msg_iters =
            (it.active_muxer_upstream_msg_iters ++ it.ended_muxer_upstream_msg_iters).map
              cursor_after_seek ∧
          it1.active_muxer_upstream_msg_iters.map cursor_id =
            (it.active_muxer_upstream_msg_iters ++ it.ended_muxer_upstream_msg_iters).map
              cursor_id ∧
          it1.ended_muxer_upstream_msg_iters = []) ∧
      (∀ self_comp self_comp1,
        muxer_msg_iter_init self_comp = some (.OK, some it, self_comp1) →
        cursor_ids it =
          (self_comp.input_ports.filter (fun p => p.is_connected)).map
            (fun p => p.upstream.map (fun u => u.id))) := by
  refine ⟨?_, ?_, ?_, ?_⟩
  · intro comp st om h
    have hp := do_next_one_ids_perm h
    exact ⟨hp, fun hn => hp.nodup_iff.mpr hn⟩
  · intro st h
    have hp := seek_beginning_ids_perm h
    exact ⟨hp, fun hn => hp.nodup_iff.mpr hn⟩
  · intro h
    have h1 := (seek_beginning_ok h).2
    subst h1
    refine ⟨by simp [iter_after_seek], ?_, rfl⟩
    simp only [iter_after_seek, List.map_append, List.map_map]
    congr 1 <;> exact List.map_congr_left (fun x _ => cursor_id_after_seek x)
  · intro sc sc1 h
    obtain ⟨h1, _, h3, _⟩ := muxer_msg_iter_init_ok h
    unfold cursor_ids all_cursors
    rw [h3, List.append_nil]
    have := congrArg (List.map (fun o : Option upstream_iterator => o.map (fun u => u.id))) h1
    simpa [List.map_map, Function.comp_def, cursor_id] using this

/-- Witness of C37: a seek to the beginning on an iterator with one
active and one ended cursor; the two cursors are active afterwards, the
formerly active one first. -/
theorem C37_cursors_are_conserved_witness :
    muxer_msg_iter_seek_beginning seek_sample_iter = some (.OK, seek_sample_iter_after) ∧
      (cursor_ids seek_sample_iter).Nodup ∧
      (cursor_ids seek_sample_iter_after).Perm (cursor_ids seek_sample_iter) ∧
      (cursor_ids seek_sample_iter_after).Nodup ∧
      seek_sample_iter_after.active_muxer_upstream_msg_iters.map cursor_id = [some 0, some 1] :=
  ⟨by decide, by decide,
    ((C37_cursors_are_conserved seek_sample_iter seek_sample_iter_after).2.1 .OK
      (by decide)).1,
    ((C37_cursors_are_conserved seek_sample_iter seek_sample_iter_after).2.1 .OK
      (by decide)).2 (by decide),
    by decide⟩

theorem get_msg_ts_ns_le {it : muxer_msg_iter} {msg : bt_message} {last t : Int}
    (h : get_msg_ts_ns it msg last = some (.ok t)) (hlast : last ≤ INT64_MAX)
    (hmsg : ts_le_int64_max msg) : t ≤ INT64_MAX := by
  have hsnap : get_ns_from_origin msg.default_clock_snapshot = some (.ok t) → t ≤ INT64_MAX := by
    intro hs
    unfold get_ns_from_origin at hs
    cases hcs : msg.default_clock_snapshot with
    | none => simp [hcs] at hs
    | some cs =>
      simp only [hcs] at hs
      cases hns : cs.ns_from_origin with
      | none => simp [hns] at hs
      | some ns =>
        simp only [hns, Option.some.injEq, ts_result.ok.injEq] at hs
        subst hs
        exact hmsg cs hcs ns hns
  have hl : some (ts_result.ok last) = some (.ok t) → t ≤ INT64_MAX := by
    intro hs
    simp only [Option.some.injEq, ts_result.ok.injEq] at hs
    subst hs
    exact hlast
  unfold get_msg_ts_ns at h
  split_ifs at h
  all_goals first
    | exact hl h
    | exact hsnap h
    | (split at h <;> first | exact hl h | exact hsnap h | simp at h)

theorem youngest_loop_head_chosen (comp : muxer_comp) (c : muxer_upstream_msg_iter)
    (rest : List muxer_upstream_msg_iter) (i : Nat) (it : muxer_msg_iter)
    (chosen : Option Nat) (y : Int) (it2 : muxer_msg_iter) (ch1 : Option Nat) (y1 : Int)
    (h : youngest_loop comp (c :: rest) i it chosen y = some (.OK, it2, ch1, y1))
    (hup : c.msg_iter ≠ none) (hhead : ∀ m ∈ c.msgs.head?, ts_le_int64_max m)
    (hlast : it.last_returned_ts_ns ≤ INT64_MAX) (hy : INT64_MAX ≤ y) : ch1.isSome := by
  rw [youngest_loop] at h
  obtain ⟨u, hu⟩ := Option.ne_none_iff_exists'.mp hup
  simp only [hu] at h
  cases hq : c.msgs with
  | nil => simp [hq] at h
  | cons msg q =>
    simp only [hq] at h
    cases hv : validate_head_clock_class it comp msg with
    | none => simp [hv] at h
    | some r =>
      obtain ⟨ret, it1⟩ := r
      simp only [hv] at h
      have hsame := validate_head_clock_class_same_cursors hv
      split_ifs at h with hret
      · simp at h
      · cases hts : get_msg_ts_ns it1 msg it1.last_returned_ts_ns with
        | none => simp [hts] at h
        | some res =>
          cases res with
          | error => simp [hts] at h
          | ok t =>
            simp only [hts] at h
            have ht : t ≤ INT64_MAX :=
              get_msg_ts_ns_le hts (by rw [hsame.2.2]; exact hlast)
                (hhead msg (by simp [hq]))
            rw [if_pos (le_trans ht hy)] at h
            exact youngest_loop_chosen_mono comp _ _ _ _ _ _ _ _ h rfl

theorem validate_cursor_of_origin {it it1 : muxer_msg_iter} {st : bt_message_iterator_status}
    (h : validate_muxer_upstream_msg_iters it = some (st, it1)) :
    ∀ c1 ∈ all_cursors it1, ∃ c ∈ all_cursors it,
      cursor_id c = cursor_id c1 ∧ cursor_stream c = cursor_stream c1 := by
  intro c1 hc1
  have hmem : (cursor_id c1, cursor_stream c1) ∈
      (all_cursors it1).map (fun c => (cursor_id c, cursor_stream c)) :=
    List.mem_map.mpr ⟨c1, hc1, rfl⟩
  have hmem2 := (validate_keys_perm h).mem_iff.mp hmem
  obtain ⟨c, hc, heq⟩ := List.mem_map.mp hmem2
  simp only [Prod.mk.injEq] at heq
  exact ⟨c, hc, heq.1, heq.2⟩

theorem youngest_loop_other (comp : muxer_comp) :
    ∀ (cursors : List muxer_upstream_msg_iter) (i : Nat) (it : muxer_msg_iter)
      (chosen : Option Nat) (y : Int) (st : bt_message_iterator_status)
      (it1 : muxer_msg_iter) (ch1 : Option Nat) (y1 : Int),
      (∀ c ∈ cursors, ∀ m ∈ c.msgs.head?,
        m.type ≠ .STREAM_BEGINNING ∧ m.type ≠ .MESSAGE_ITERATOR_INACTIVITY) →
      youngest_loop comp cursors i it chosen y = some (st, it1, ch1, y1) →
      it1 = it ∧
        (st = .ERROR → ∃ c ∈ cursors, ∃ m ∈ c.msgs.head?,
          get_msg_ts_ns it m it.last_returned_ts_ns = some .error) := by
  intro cursors
  induction cursors with
  | nil =>
    intro i it chosen y st it1 ch1 y1 _ h
    simp [youngest_loop] at h
    exact ⟨h.2.1.symm, fun hst => absurd hst (by rw [← h.1]; simp)⟩
  | cons c rest ih =>
    intro i it chosen y st it1 ch1 y1 hheads h
    have hrest : ∀ c ∈ rest, ∀ m ∈ c.msgs.head?,
        m.type ≠ .STREAM_BEGINNING ∧ m.type ≠ .MESSAGE_ITERATOR_INACTIVITY :=
      fun x hx => hheads x (List.mem_cons_of_mem _ hx)
    have hlift : ∀ {st : bt_message_iterator_status} {it1 : muxer_msg_iter},
        (it1 = it ∧ (st = .ERROR → ∃ x ∈ rest, ∃ m ∈ x.msgs.head?,
          get_msg_ts_ns it m it.last_returned_ts_ns = some .error)) →
        it1 = it ∧ (st = .ERROR → ∃ x ∈ c :: rest, ∃ m ∈ x.msgs.head?,
          get_msg_ts_ns it m it.last_returned_ts_ns = some .error) := by
      intro st it1 hr
      refine ⟨hr.1, fun hst => ?_⟩
      obtain ⟨x, hx, m, hm, hts⟩ := hr.2 hst
      exact ⟨x, List.mem_cons_of_mem _ hx, m, hm, hts⟩
    rw [youngest_loop] at h
    cases hu : c.msg_iter with
    | none =>
      simp only [hu] at h
      exact hlift (ih _ _ _ _ _ _ _ _ hrest h)
    | some u =>
      simp only [hu] at h
      cases hq : c.msgs with
      | nil => simp [hq] at h
      | cons msg q =>
        simp only [hq] at h
        have hty := hheads c (List.mem_cons_self _ _) msg (by simp [hq])
        rw [validate_head_clock_class_other hty.1 hty.2] at h
        simp only [ne_eq, not_true_eq_false, if_false] at h
        cases hts : get_msg_ts_ns it msg it.last_returned_ts_ns with
        | none => simp [hts] at h
        | some res =>
          cases res with
          | error =>
            simp only [hts, Option.some.injEq, Prod.mk.injEq] at h
            exact ⟨h.2.1.symm, fun _ => ⟨c, List.mem_cons_self _ _, msg, by simp [hq], hts⟩⟩
          | ok t =>
            simp only [hts] at h
            split_ifs at h
            · exact hlift (ih _ _ _ _ _ _ _ _ hrest h)
            · exact hlift (ih _ _ _ _ _ _ _ _ hrest h)

/-- C33: for an iterator whose cursors all have an upstream iterator and
whose timestamps are in the range of an `int64_t` (the last returned
timestamp and what the clock snapshots of the queued and coming messages
give are at most `INT64_MAX`), `next_one` returns `END` if and only if
the validation of the cursors returned `OK` and left the active array
empty; no message is written then and the iterator is the validated one.
A head at `INT64_MAX` is selected and emitted. -/
theorem C33_end_iff_no_active_cursor_left :
    (∀ (comp : muxer_comp) (it : muxer_msg_iter),
        (∀ c ∈ all_cursors it, c.msg_iter ≠ none) →
        (∀ c ∈ all_cursors it, ∀ m ∈ cursor_stream c, ts_le_int64_max m) →
        it.last_returned_ts_ns ≤ INT64_MAX →
        ∀ (om : Option bt_message) (it1 : muxer_msg_iter),
          muxer_msg_iter_do_next_one comp it = some (.END, om, it1) ↔
            (validate_muxer_upstream_msg_iters it = some (.OK, it1) ∧
              it1.active_muxer_upstream_msg_iters = [] ∧ om = none)) ∧
      muxer_msg_iter_do_next_one sample_comp int64_max_iter =
        some (.OK, some (sample_event 1 INT64_MAX), int64_max_iter_after) := by
  refine ⟨?_, by decide⟩
  intro comp it hup hts hlast om it'
  constructor
  · intro h
    obtain ⟨sv, it1, hv, hcases⟩ := do_next_one_cases h
    rcases hcases with ⟨hne, hst, _, _⟩ | ⟨hsv, sy, it2, ch, ts, hy, hcases⟩
    · subst hst
      rcases validate_loop_status _ _ _ _ _ hv with h1 | h1 | h1 <;> simp at h1
    · subst hsv
      rcases hcases with ⟨_, hst, hom, hit⟩ | ⟨_, _, hst, _⟩ | ⟨_, _, hst, _⟩
      · subst hst hit
        have hclock := validate_same_clock hv
        unfold muxer_msg_iter_youngest_upstream_msg_iter at hy
        cases hact : it1.active_muxer_upstream_msg_iters with
        | nil =>
          rw [hact] at hy
          simp [youngest_loop] at hy
          rw [← hy.1]
          exact ⟨hv, hact, hom⟩
        | cons c rest =>
          exfalso
          rw [hact] at hy
          have hc1 : c ∈ all_cursors it1 :=
            List.mem_append_left _ (by rw [hact]; exact List.mem_cons_self _ _)
          obtain ⟨c0, hc0, hid, hstream⟩ := validate_cursor_of_origin hv c hc1
          have hupc : c.msg_iter ≠ none := by
            intro hn
            have h0 := hup c0 hc0
            have : cursor_id c0 = none := by rw [hid]; simp [cursor_id, hn]
            simp only [cursor_id, Option.map_eq_none'] at this
            exact h0 this
          have hhead : ∀ m ∈ c.msgs.head?, ts_le_int64_max m := by
            intro m hm
            apply hts c0 hc0 m
            rw [hstream]
            unfold cursor_stream
            exact List.mem_append_left _ (List.mem_of_mem_head? hm)
          cases hl : youngest_loop comp (c :: rest) 0 it1 none INT64_MAX with
          | none => simp [hl] at hy
          | some r =>
            obtain ⟨s, itb, chb, yb⟩ := r
            rcases (youngest_loop_same_cursors comp _ _ _ _ _ _ _ _ _ hl).2 with hs | hs
            · subst hs
              have hsome := youngest_loop_head_chosen comp c rest 0 it1 none INT64_MAX
                itb chb yb hl hupc hhead (by rw [hclock.1]; exact hlast) (le_refl _)
              obtain ⟨k, hk⟩ := Option.isSome_iff_exists.mp hsome
              subst hk
              simp [hl] at hy
            · subst hs
              simp [hl] at hy
      · simp at hst
      · simp at hst
  · rintro ⟨hv, hact, rfl⟩
    have hy : muxer_msg_iter_youngest_upstream_msg_iter comp it' =
        some (.END, it', none, INT64_MIN) := by
      simp [muxer_msg_iter_youngest_upstream_msg_iter, hact, youngest_loop]
    exact (do_next_one_of_youngest hv hy).1 (Or.inl rfl)

/-- Witness of C33: two cursors whose upstreams end at once; `next_one`
returns `END` and both cursors are ended. -/
theorem C33_end_iff_no_active_cursor_left_witness :
    muxer_msg_iter_do_next_one sample_comp two_connections_iter =
        some (.END, none, two_connections_iter_ended) ∧
      validate_muxer_upstream_msg_iters two_connections_iter =
        some (.OK, two_connections_iter_ended) ∧
      two_connections_iter_ended.active_muxer_upstream_msg_iters = [] :=
  ⟨by decide,
    ((C33_end_iff_no_active_cursor_left.1 sample_comp two_connections_iter (by decide)
      (by decide) (by decide) none two_connections_iter_ended).mp (by decide)).1,
    ((C33_end_iff_no_active_cursor_left.1 sample_comp two_connections_iter (by decide)
      (by decide) (by decide) none two_connections_iter_ended).mp (by decide)).2.1⟩

/-- C39: validation of a head is not idempotent when the head is the
beginning of a stream whose class has no default clock class.  From the
expectation "any" the validation succeeds and leaves the expectation "no
clock class"; the validation of the same head from that state fails and
leaves the state as it is.  In a run: the first cursor holds such a
stream beginning, the second one a stream end, which wins the tie; the
first call of `next_one` emits the stream end and validates the stream
beginning on the way, the second call validates the stream beginning
again and returns `ERROR`. -/
theorem C39_head_without_clock_class_fails_on_revalidation :
    validate_head_clock_class (initial_iter []) sample_comp (sample_stream_beginning 1 none) =
        some (0, expecting_iter .NONE []) ∧
      validate_head_clock_class (expecting_iter .NONE []) sample_comp
          (sample_stream_beginning 1 none) =
        some (-1, expecting_iter .NONE []) ∧
      muxer_msg_iter_do_next_one sample_comp revalidated_head_iter =
        some (.OK, some (sample_stream_end 2 none), revalidated_head_iter_after) ∧
      (muxer_msg_iter_do_next_one sample_comp revalidated_head_iter_after).map
          (fun r => (r.1, r.2.1)) =
        some (.ERROR, none) := by
  refine ⟨by decide, by decide, by decide, by decide⟩

/-- C40: when, after the validation of the cursors, no active cursor has
a stream beginning or a message iterator inactivity message at the head
of its queue, `next_one` leaves the clock class expectation and the
expected UUID as they were; the clock class check of every head succeeds
from any state and leaves that state as it is, whatever clock classes the
heads carry; and `next_one` returns `ERROR` only when the validation of
the cursors did (an upstream failed), when the timestamp of a head cannot
be computed, or when the timestamp selected is less than the last
returned one. -/
theorem C40_only_two_head_types_invoke_clock_policy (comp : muxer_comp)
    (it it1 : muxer_msg_iter) (st : bt_message_iterator_status) (om : Option bt_message)
    (hheads : ∀ sv itv, validate_muxer_upstream_msg_iters it = some (sv, itv) →
      ∀ c ∈ itv.active_muxer_upstream_msg_iters, ∀ m ∈ c.msgs.head?,
        m.type ≠ .STREAM_BEGINNING ∧ m.type ≠ .MESSAGE_ITERATOR_INACTIVITY)
    (h : muxer_msg_iter_do_next_one comp it = some (st, om, it1)) :
    same_expectation it it1 ∧
      ∃ sv itv, validate_muxer_upstream_msg_iters it = some (sv, itv) ∧
        (∀ c ∈ itv.active_muxer_upstream_msg_iters, ∀ m ∈ c.msgs.head?,
          ∀ s : muxer_msg_iter, validate_head_clock_class s comp m = some (0, s)) ∧
        (st = .ERROR →
          sv = .ERROR ∨
          (∃ c ∈ itv.active_muxer_upstream_msg_iters, ∃ m ∈ c.msgs.head?,
            get_msg_ts_ns itv m itv.last_returned_ts_ns = some .error) ∨
          ∃ ch ts, muxer_msg_iter_youngest_upstream_msg_iter comp itv =
            some (.OK, itv, ch, ts) ∧ ts < itv.last_returned_ts_ns) := by
  obtain ⟨sv, itv, hv, hcases⟩ := do_next_one_cases h
  have hh := hheads sv itv hv
  have hclock := validate_same_clock hv
  have hpolicy : ∀ c ∈ itv.active_muxer_upstream_msg_iters, ∀ m ∈ c.msgs.head?,
      ∀ s : muxer_msg_iter, validate_head_clock_class s comp m = some (0, s) :=
    fun c hc m hm s => validate_head_clock_class_other (hh c hc m hm).1 (hh c hc m hm).2
  have hyoung : ∀ sy it2 ch ts,
      muxer_msg_iter_youngest_upstream_msg_iter comp itv = some (sy, it2, ch, ts) →
      it2 = itv ∧ (sy = .ERROR → ∃ c ∈ itv.active_muxer_upstream_msg_iters,
        ∃ m ∈ c.msgs.head?, get_msg_ts_ns itv m itv.last_returned_ts_ns = some .error) := by
    intro sy it2 ch ts hy
    unfold muxer_msg_iter_youngest_upstream_msg_iter at hy
    cases hl : youngest_loop comp itv.active_muxer_upstream_msg_iters 0 itv none INT64_MAX with
    | none => simp [hl] at hy
    | some r =>
      obtain ⟨s, itb, chb, yb⟩ := r
      have hother := youngest_loop_other comp _ _ _ _ _ _ _ _ _ hh hl
      rw [hl] at hy
      split at hy
      · simp at hy
      · rename_i heq
        simp only [Option.some.injEq, Prod.mk.injEq] at heq hy
        obtain ⟨rfl, rfl, _, _⟩ := heq
        refine ⟨by rw [← hy.2.1]; exact hother.1, fun hs => ?_⟩
        rw [← hy.1] at hs
        simp at hs
      · rename_i heq
        simp only [Option.some.injEq] at heq hy
        subst heq
        simp only [Prod.mk.injEq] at hy
        obtain ⟨rfl, rfl, _, _⟩ := hy
        exact hother
  rcases hcases with ⟨hne, hst, _, hit⟩ | ⟨hsv, sy, it2, ch, ts, hy, hcases⟩
  · subst hit hst
    refine ⟨⟨hclock.2.1, hclock.2.2⟩, st, it1, hv, hpolicy, fun hs => Or.inl hs⟩
  · obtain ⟨hit2, herr⟩ := hyoung sy it2 ch ts hy
    subst hit2
    rcases hcases with ⟨_, hst, _, hit⟩ | ⟨hsy, hlt, _, _, hit⟩ |
      ⟨_, _, hst, idx, c, msg, rest, _, _, _, _, hit⟩
    · subst hit hst
      refine ⟨⟨hclock.2.1, hclock.2.2⟩, sv, it1, hv, hpolicy, fun hs => Or.inr (Or.inl ?_)⟩
      exact herr hs
    · subst hit hsy
      refine ⟨⟨hclock.2.1, hclock.2.2⟩, sv, it1, hv, hpolicy, fun _ => Or.inr (Or.inr ?_)⟩
      exact ⟨ch, ts, hy, hlt⟩
    · subst hit hst
      refine ⟨⟨hclock.2.1, hclock.2.2⟩, sv, it2, hv, hpolicy, fun hs => ?_⟩
      simp at hs

/-- Witness of C40: two cursors hold events whose clock classes are not
compatible with each other; in the state "any", without
`assume-absolute-clock-classes`, `next_one` emits the event at 10 and the
expectation is still "any". -/
theorem C40_only_two_head_types_invoke_clock_policy_witness :
    muxer_msg_iter_do_next_one sample_comp mixed_events_iter =
        some (.OK, some (sample_event_of 1 sample_clock_class 10), mixed_events_iter_after) ∧
      same_expectation mixed_events_iter mixed_events_iter_after ∧
      mixed_events_iter_after.clock_class_expectation = .ANY :=
  ⟨by decide,
    (C40_only_two_head_types_invoke_clock_policy sample_comp mixed_events_iter
      mixed_events_iter_after .OK (some (sample_event_of 1 sample_clock_class 10))
      (by
        intro sv itv hv
        have h0 : validate_muxer_upstream_msg_iters mixed_events_iter =
            some (.OK, mixed_events_iter) := by decide
        rw [h0] at hv
        simp only [Option.some.injEq, Prod.mk.injEq] at hv
        rw [← hv.2]
        decide)
      (by decide)).1,
    by decide⟩

theorem own_ts_range {m : bt_message} (h : timed_msg m) :
    ∀ ts ∈ own_ts m, INT64_MIN ≤ ts ∧ ts ≤ INT64_MAX := by
  intro ts hts
  have key : ∀ t, m.default_clock_snapshot.bind (·.ns_from_origin) = some t →
      INT64_MIN ≤ t ∧ t ≤ INT64_MAX := by
    intro t ht
    cases hcs : m.default_clock_snapshot with
    | none => simp [hcs] at ht
    | some cs =>
      simp only [hcs, Option.some_bind] at ht
      exact (h.2 cs hcs).2 t ht
  unfold own_ts at hts
  simp only [Option.mem_def] at hts
  split at hts
  all_goals first
    | exact key ts hts
    | (split_ifs at hts; exact key ts hts)
    | cases hts

/-- The timestamp of a message as the muxer expects it, in a state other
than "no clock class": its own timestamp, else the last returned one. -/
theorem get_msg_ts_ns_timed {m : bt_message} (it : muxer_msg_iter) (last : Int)
    (h : timed_msg m) (hne : it.clock_class_expectation ≠ .NONE) :
    get_msg_ts_ns it m last = some (.ok ((own_ts m).getD last)) := by
  obtain ⟨hok, hcs⟩ := h
  have key : m.default_clock_snapshot.isSome = true →
      get_ns_from_origin m.default_clock_snapshot =
        some (.ok ((m.default_clock_snapshot.bind (·.ns_from_origin)).getD last)) := by
    intro hs
    obtain ⟨cs, hc⟩ := Option.isSome_iff_exists.mp hs
    obtain ⟨ts, h1⟩ := Option.isSome_iff_exists.mp (hcs cs hc).1
    simp [get_ns_from_origin, hc, h1]
  unfold get_msg_ts_ns own_ts
  unfold msg_accessors_ok at hok
  simp only [hne, if_false]
  cases hty : m.type with
  | EVENT =>
    simp only [hty] at hok
    simp only [hok.1, if_true, key hok.2]
  | PACKET_BEGINNING =>
    simp only [hty] at hok
    simp only [hok.1, if_true, key hok.2]
  | PACKET_END =>
    simp only [hty] at hok
    simp only [hok.1, if_true, key hok.2]
  | DISCARDED_EVENTS =>
    simp only [hty] at hok
    simp only [hok.1, if_true, key hok.2]
  | DISCARDED_PACKETS =>
    simp only [hty] at hok
    simp only [hok.1, if_true, key hok.2]
  | MESSAGE_ITERATOR_INACTIVITY =>
    simp only [hty] at hok
    simp only [key hok]
  | STREAM_ACTIVITY_BEGINNING =>
    simp only [hty] at hok
    by_cases hk : m.sa_cs_state = .KNOWN
    · simp only [hok.1, if_true, hk, ne_eq, not_true_eq_false, if_false, key (hok.2 hk)]
    · simp [hok.1, hk]
  | STREAM_ACTIVITY_END =>
    simp only [hty] at hok
    by_cases hk : m.sa_cs_state = .KNOWN
    · simp only [hok.1, if_true, hk, ne_eq, not_true_eq_false, if_false, key (hok.2 hk)]
    · simp [hok.1, hk]
  | STREAM_BEGINNING => rfl
  | STREAM_END => rfl
  | OTHER => rfl

theorem good_event_timed {m : bt_message} (h : good_event m) :
    timed_msg m ∧ own_ts m = some (msg_ts m) := by
  obtain ⟨hty, hcc, cs, ts, hcs, hns, hlo, hhi⟩ := h
  refine ⟨⟨?_, ?_⟩, ?_⟩
  · unfold msg_accessors_ok
    simp [hty, hcc, hcs]
  · intro cs1 h1
    simp only [hcs, Option.mem_def, Option.some.injEq] at h1
    subst h1
    refine ⟨by simp [hns], ?_⟩
    intro t ht
    simp only [hns, Option.mem_def, Option.some.injEq] at ht
    subst ht
    exact ⟨hlo, hhi⟩
  · simp [own_ts, hty, msg_ts, hcs, hns]

theorem clock_class_matches_of_same_kind {it : muxer_msg_iter} {a b : bt_clock_class}
    (h1 : it.clock_class_expectation ≠ .ANY) (hm : clock_class_matches it a)
    (hk : same_clock_kind a b) : clock_class_matches it b := by
  unfold clock_class_matches at hm ⊢
  obtain ⟨ho, hu⟩ := hk
  cases he : it.clock_class_expectation with
  | ANY => exact absurd he h1
  | NONE => simp [he] at hm
  | ABSOLUTE =>
    simp only [he] at hm ⊢
    rw [← ho]; exact hm
  | NOT_ABS_NO_UUID =>
    simp only [he] at hm ⊢
    have := hu hm.1
    rw [hm.2] at this
    refine ⟨by rw [← ho]; exact hm.1, ?_⟩
    cases hb : b.uuid with
    | none => rfl
    | some v => simp [hb] at this
  | NOT_ABS_SPEC_UUID =>
    simp only [he] at hm ⊢
    obtain ⟨hao, u, hau, htake⟩ := hm
    have := hu hao
    rw [hau] at this
    refine ⟨by rw [← ho]; exact hao, ?_⟩
    cases hb : b.uuid with
    | none => simp [hb] at this
    | some v =>
      simp only [hb, Option.map_some', Option.some.injEq] at this
      exact ⟨v, rfl, by rw [← this]; exact htake⟩

/-- A clock class validated when the expectation is not "no clock
class": from "any" the validation sets the expectation, which the class
matches; when the expectation is set, the class is accepted without
change as soon as it matches the expectation or
`assume-absolute-clock-classes` is set. -/
theorem validate_clock_class_inv {it : muxer_msg_iter} {comp : muxer_comp}
    {b : bt_clock_class} (hne : it.clock_class_expectation ≠ .NONE)
    (hm : comp.assume_absolute_clock_classes = false → it.clock_class_expectation ≠ .ANY →
      clock_class_matches it b) :
    ∃ it1, validate_clock_class it comp b = some (0, it1) ∧ same_cursors it it1 ∧
      it1.clock_class_expectation ≠ .NONE ∧
      (it.clock_class_expectation ≠ .ANY → it1 = it) ∧
      (it.clock_class_expectation = .ANY →
        it1.clock_class_expectation ≠ .ANY ∧ clock_class_matches it1 b) := by
  by_cases ha : it.clock_class_expectation = .ANY
  · obtain ⟨uuid, name, origin⟩ := b
    unfold validate_clock_class clock_class_matches same_cursors
    cases hf : comp.assume_absolute_clock_classes <;> cases origin <;> cases uuid <;>
      simp [ha, hf, memcmp, memcpy]
  · have hlocked : ∀ r it1, validate_clock_class it comp b = some (r, it1) → it1 = it :=
      fun r it1 h => validate_clock_class_locked h ha
    cases hf : comp.assume_absolute_clock_classes with
    | true =>
      refine ⟨it, ?_, ⟨rfl, rfl, rfl⟩, hne, fun _ => rfl, fun h => absurd h ha⟩
      unfold validate_clock_class
      simp [ha, hf]
    | false =>
      have hmatch := hm hf ha
      refine ⟨it, ?_, ⟨rfl, rfl, rfl⟩, hne, fun _ => rfl, fun h => absurd h ha⟩
      unfold validate_clock_class
      unfold clock_class_matches at hmatch
      simp only [ha, if_false, hf, Bool.not_false, if_true]
      cases he : it.clock_class_expectation with
      | ANY => exact absurd he ha
      | NONE => exact absurd he hne
      | ABSOLUTE =>
        simp only [he] at hmatch
        simp [hmatch]
      | NOT_ABS_NO_UUID =>
        simp only [he] at hmatch
        simp [hmatch.1, hmatch.2]
      | NOT_ABS_SPEC_UUID =>
        simp only [he] at hmatch
        obtain ⟨ho, u, hu, htake⟩ := hmatch
        simp [ho, hu, memcmp, htake]

/-- The clock check of a head under the invariant of the expectation:
it succeeds and keeps the invariant, the cursors and the last returned
timestamp. -/
theorem validate_head_clock_class_inv {comp : muxer_comp} {ms : List bt_message}
    {it : muxer_msg_iter} {m : bt_message} (hcompat : clock_compatible comp ms)
    (hinv : clock_inv comp ms it) (hm : m ∈ ms) (ht : timed_msg m) :
    ∃ it1, validate_head_clock_class it comp m = some (0, it1) ∧ same_cursors it it1 ∧
      clock_inv comp ms it1 := by
  have hcheck : ∀ b, checked_clock_class m = some b →
      ∃ it1, validate_clock_class it comp b = some (0, it1) ∧ same_cursors it it1 ∧
        clock_inv comp ms it1 := by
    intro b hb
    obtain ⟨it1, hv, hs, hn1, hl, ha⟩ := @validate_clock_class_inv it comp b hinv.1 (by
      intro hf hany
      obtain ⟨m1, hm1, a, ha, hma⟩ := hinv.2 hf hany
      exact clock_class_matches_of_same_kind hany hma (hcompat.2 hf m1 hm1 m hm a ha b hb))
    refine ⟨it1, hv, hs, hn1, ?_⟩
    intro hf hany1
    by_cases hany : it.clock_class_expectation = .ANY
    · exact ⟨m, hm, b, hb, (ha hany).2⟩
    · rw [hl hany] at hany1 ⊢
      exact hinv.2 hf hany1
  unfold validate_head_clock_class
  by_cases h1 : m.type = .STREAM_BEGINNING
  · simp only [h1, if_true]
    obtain ⟨b, hb⟩ := Option.isSome_iff_exists.mp (hcompat.1 m hm h1)
    unfold validate_new_stream_clock_class
    rw [hb]
    exact hcheck b (by simp [checked_clock_class, h1, hb])
  · simp only [h1, if_false]
    by_cases h2 : m.type = .MESSAGE_ITERATOR_INACTIVITY
    · simp only [h2, if_true]
      have hok := ht.1
      unfold msg_accessors_ok at hok
      simp only [h2] at hok
      obtain ⟨cs, hcs⟩ := Option.isSome_iff_exists.mp hok
      rw [hcs]
      exact hcheck cs.clock_class (by simp [checked_clock_class, h1, h2, hcs])
    · simp only [h2, if_false]
      exact ⟨it, rfl, ⟨rfl, rfl, rfl⟩, hinv⟩

theorem eff_ts_length : ∀ (ms : List bt_message) (lo : Int), (eff_ts lo ms).length = ms.length
  | [], _ => rfl
  | m :: ms, lo => by simp [eff_ts, eff_ts_length ms]

theorem annot_nil (lo : Int) : annot lo [] = [] := rfl

theorem annot_cons (lo : Int) (m : bt_message) (ms : List bt_message) :
    annot lo (m :: ms) = ((own_ts m).getD lo, m) :: annot ((own_ts m).getD lo) ms := rfl

theorem annot_snd (lo : Int) (ms : List bt_message) : (annot lo ms).map (·.2) = ms := by
  unfold annot
  rw [List.map_snd_zip]
  rw [eff_ts_length]

theorem annot_fst (lo : Int) (ms : List bt_message) : (annot lo ms).map (·.1) = eff_ts lo ms := by
  unfold annot
  rw [List.map_fst_zip]
  rw [eff_ts_length]

/-- A message emitted with its own timestamp when it has one. -/
theorem annot_own : ∀ (ms : List bt_message) (lo : Int), ∀ p ∈ annot lo ms,
    ∀ t ∈ own_ts p.2, p.1 = t
  | [], _, p, hp, _, _ => by simp [annot_nil] at hp
  | m :: ms, lo, p, hp, t, ht => by
    rw [annot_cons] at hp
    rcases List.mem_cons.mp hp with h | h
    · subst h
      simp only [Option.mem_def] at ht
      simp [ht]
    · exact annot_own ms _ p h t ht

/-- Moving the last returned timestamp from `lo` up to `ts`, below the
timestamp of the head of the sequence: the timestamps with which the
messages are emitted do not change, and they do not decrease from `ts`
on. -/
theorem eff_ts_rebase {lo ts : Int} {ms : List bt_message}
    (hch : List.Chain (· ≤ ·) lo (eff_ts lo ms)) (hlo : lo ≤ ts)
    (hhead : ∀ m ∈ ms.head?, ts ≤ (own_ts m).getD lo) :
    eff_ts ts ms = eff_ts lo ms ∧ List.Chain (· ≤ ·) ts (eff_ts ts ms) := by
  cases ms with
  | nil => exact ⟨rfl, List.Chain.nil⟩
  | cons m rest =>
    have hh := hhead m (by simp)
    simp only [eff_ts] at hch ⊢
    have hc := List.chain_cons.mp hch
    cases ho : own_ts m with
    | none =>
      rw [ho] at hh hc
      simp only [Option.getD_none] at hh hc ⊢
      have : ts = lo := le_antisymm hh hlo
      subst this
      exact ⟨rfl, List.Chain.cons (le_refl _) hc.2⟩
    | some t =>
      rw [ho] at hh hc
      simp only [Option.getD_some] at hh hc ⊢
      exact ⟨trivial, List.Chain.cons hh hc.2⟩

/-- Timestamps of a sequence that do not decrease from `lo` on, given
the own timestamps. -/
theorem chain_eff_ts : ∀ (ms : List bt_message) (lo : Int),
    List.Chain (· ≤ ·) lo (ms.filterMap own_ts) → List.Chain (· ≤ ·) lo (eff_ts lo ms)
  | [], _, _ => List.Chain.nil
  | m :: ms, lo, h => by
    simp only [eff_ts]
    cases ho : own_ts m with
    | none =>
      simp only [List.filterMap_cons, ho] at h
      simp only [Option.getD_none]
      exact List.Chain.cons (le_refl _) (chain_eff_ts ms lo h)
    | some t =>
      simp only [List.filterMap_cons, ho] at h
      simp only [Option.getD_some]
      have hc := List.chain_cons.mp h
      exact List.Chain.cons hc.1 (chain_eff_ts ms t hc.2)

theorem upstream_next_status_of_only_ok {u : upstream_iterator}
    (h : ∀ a ∈ u.pending, a.1 = .OK) :
    (bt_self_component_port_input_message_iterator_next u).1 = .OK ∨
      (bt_self_component_port_input_message_iterator_next u).1 = .END := by
  unfold bt_self_component_port_input_message_iterator_next
  cases hp : u.pending with
  | nil => exact Or.inr rfl
  | cons a rest =>
    left
    exact h a (by rw [hp]; exact List.mem_cons_self _ _)

theorem validate_muxer_upstream_msg_iter_batches {c : muxer_upstream_msg_iter}
    (hc : honours_contract c) (hok : only_ok_left c) :
    ∃ c1 e1, validate_muxer_upstream_msg_iter c false = some (.OK, c1, e1) ∧
      honours_contract c1 ∧ only_ok_left c1 := by
  obtain ⟨st, c1, e1, hv, hc1⟩ := validate_muxer_upstream_msg_iter_contract false hc
  have hok1 := (validate_muxer_upstream_msg_iter_only_ok hv hok).1
  have hst : st = .OK := by
    have hv0 := hv
    unfold validate_muxer_upstream_msg_iter at hv
    split_ifs at hv with hr
    · simp at hv
      exact hv.1.symm
    · obtain ⟨u, hu, _, hcases⟩ := muxer_upstream_msg_iter_next_cases hv
      have hs := upstream_next_status_of_only_ok (hok u hu)
      rcases hcases with h1 | h1 | h1 | h1
      · exact h1.2.1
      · rcases hs with hs | hs <;> rw [hs] at h1 <;> simp at h1
      · exact h1.2.1
      · rcases hs with hs | hs <;> rw [hs] at h1 <;> simp at h1
  subst hst
  exact ⟨c1, e1, hv, hc1, hok1⟩

theorem validate_turn_batches {i : Nat} {it : muxer_msg_iter}
    (hi : i < it.active_muxer_upstream_msg_iters.length)
    (hc : ∀ c ∈ it.active_muxer_upstream_msg_iters, honours_contract c ∧ only_ok_left c) :
    ∃ i1 it1, validate_muxer_upstream_msg_iters_turn i it = some (Sum.inl (i1, it1)) ∧
      ∀ c ∈ it1.active_muxer_upstream_msg_iters, honours_contract c ∧ only_ok_left c := by
  obtain ⟨c, hget⟩ : ∃ c, it.active_muxer_upstream_msg_iters[i]? = some c :=
    ⟨_, List.getElem?_eq_getElem hi⟩
  have hcm : c ∈ it.active_muxer_upstream_msg_iters := List.mem_iff_getElem?.mpr ⟨i, hget⟩
  obtain ⟨c1, e1, hv, hc1⟩ :=
    validate_muxer_upstream_msg_iter_batches (hc c hcm).1 (hc c hcm).2
  have hset : ∀ x ∈ it.active_muxer_upstream_msg_iters.set i c1,
      honours_contract x ∧ only_ok_left x := by
    intro x hx
    rcases List.mem_or_eq_of_mem_set hx with hx | hx
    · exact hc x hx
    · rw [hx]; exact hc1
  unfold validate_muxer_upstream_msg_iters_turn
  simp only [hget, hv]
  cases e1 with
  | true =>
    refine ⟨i, { it with
      ended_muxer_upstream_msg_iters := it.ended_muxer_upstream_msg_iters ++ [c1]
      active_muxer_upstream_msg_iters :=
        g_ptr_array_remove_index_fast (it.active_muxer_upstream_msg_iters.set i c1) i },
      by simp, ?_⟩
    intro x hx
    exact hset x (mem_remove_index_fast _ i (by simpa using hi) x hx)
  | false =>
    exact ⟨i + 1, { it with
      active_muxer_upstream_msg_iters := it.active_muxer_upstream_msg_iters.set i c1 },
      by simp, hset⟩

theorem validate_loop_batches :
    ∀ (fuel i : Nat) (it : muxer_msg_iter),
      it.active_muxer_upstream_msg_iters.length - i ≤ fuel →
      (∀ c ∈ it.active_muxer_upstream_msg_iters, honours_contract c ∧ only_ok_left c) →
      ∃ it1, validate_muxer_upstream_msg_iters_loop fuel i it = some (.OK, it1) := by
  intro fuel
  induction fuel with
  | zero =>
    intro i it hf _
    unfold validate_muxer_upstream_msg_iters_loop
    rw [if_neg (by omega)]
    exact ⟨_, rfl⟩
  | succ n ih =>
    intro i it hf hc
    unfold validate_muxer_upstream_msg_iters_loop
    split_ifs with hi
    · obtain ⟨i1, it1, hr, hc1⟩ := validate_turn_batches hi hc
      rw [hr]
      have hm := validate_turn_measure hr
      exact ih i1 it1 (by omega) hc1
    · exact ⟨_, rfl⟩

/-- A property of the cursors that the validation of a cursor keeps is
kept by the validation loop, on all the cursors. -/
theorem validate_all_cursors (Q : muxer_upstream_msg_iter → Prop)
    (hQ : ∀ c st c1 e, validate_muxer_upstream_msg_iter c false = some (st, c1, e) →
      Q c → Q c1)
    {it it1 : muxer_msg_iter} {st : bt_message_iterator_status}
    (h : validate_muxer_upstream_msg_iters it = some (st, it1))
    (hall : ∀ c ∈ all_cursors it, Q c) : ∀ c ∈ all_cursors it1, Q c :=
  validate_loop_induct
    (fun a b => (∀ c ∈ all_cursors a, Q c) → ∀ c ∈ all_cursors b, Q c)
    (fun _ h => h) (fun _ _ _ h1 h2 h => h2 (h1 h))
    (fun i a r ht ha => by
      obtain ⟨c, st, c1, e, others, hv, hp, hp1⟩ := validate_turn_perm ht
      intro x hx
      rcases List.mem_cons.mp (hp1.mem_iff.mp hx) with hx | hx
      · rw [hx]
        exact hQ c st c1 e hv (ha c (hp.mem_iff.mpr (List.mem_cons_self _ _)))
      · exact ha x (hp.mem_iff.mpr (List.mem_cons_of_mem _ hx))) _ _ _ _ _ h hall

theorem clock_inv_congr {comp : muxer_comp} {ms : List bt_message} {it it1 : muxer_msg_iter}
    (h1 : it1.clock_class_expectation = it.clock_class_expectation)
    (h2 : it1.expected_clock_class_uuid = it.expected_clock_class_uuid)
    (h : clock_inv comp ms it) : clock_inv comp ms it1 := by
  unfold clock_inv clock_class_matches at h ⊢
  rw [h1, h2]
  exact h

/-- The validation of the cursors during a merge: it returns `OK`,
keeps the invariant, and leaves every active cursor with a message. -/
theorem validate_gen {comp : muxer_comp} {ms : List bt_message} {it : muxer_msg_iter}
    (h : gen_inv comp ms it) :
    ∃ it1, validate_muxer_upstream_msg_iters it = some (.OK, it1) ∧ gen_inv comp ms it1 ∧
      (∀ c ∈ it1.active_muxer_upstream_msg_iters, c.msgs ≠ []) ∧
      ((all_cursors it1).map (fun c => (cursor_id c, cursor_stream c))).Perm
        ((all_cursors it).map (fun c => (cursor_id c, cursor_stream c))) ∧
      it1.last_returned_ts_ns = it.last_returned_ts_ns := by
  obtain ⟨hclock, hdone, hup, hms, hch, hlast, hid⟩ := h
  obtain ⟨it1, hv⟩ := validate_loop_batches it.active_muxer_upstream_msg_iters.length 0 it
    (by omega)
    (fun c hc => ⟨(hup c (List.mem_append_left _ hc)).1,
      hdone.1 c (List.mem_append_left _ hc)⟩)
  have hv : validate_muxer_upstream_msg_iters it = some (.OK, it1) := hv
  have hsame := validate_same_clock hv
  have hkeys := validate_keys_perm hv
  have hup1 : ∀ c ∈ all_cursors it1, honours_contract c ∧ c.msg_iter ≠ none :=
    validate_all_cursors (fun c => honours_contract c ∧ c.msg_iter ≠ none)
      (fun c st c1 e hvc hq => by
        obtain ⟨st2, c2, e2, hv2, hc2⟩ := validate_muxer_upstream_msg_iter_contract false hq.1
        rw [hvc] at hv2
        simp only [Option.some.injEq, Prod.mk.injEq] at hv2
        refine ⟨by rw [hv2.2.1]; exact hc2, ?_⟩
        have hg := (validate_muxer_upstream_msg_iter_grown hvc).1.1
        intro hn
        rw [hn] at hg
        simp only [Option.map_none'] at hg
        exact hq.2 (Option.map_eq_none'.mp hg.symm)) hv hup
  have horigin := validate_cursor_of_origin hv
  refine ⟨it1, hv, ⟨clock_inv_congr hsame.2.1 hsame.2.2 hclock, validate_ended_are_done hv hdone,
    hup1, ?_, ?_, by rw [hsame.1]; exact hlast,
    (validate_ids_perm hv).nodup_iff.mpr hid⟩, ?_, hkeys, hsame.1⟩
  · intro c hc m hm
    obtain ⟨c0, hc0, _, hs⟩ := horigin c hc
    exact hms c0 hc0 m (by rw [hs]; exact hm)
  · intro c hc
    obtain ⟨c0, hc0, _, hs⟩ := horigin c hc
    rw [hsame.1, ← hs]
    exact hch c0 hc0
  · intro c hc
    rcases (validate_ready hv).1 rfl c hc with hr | hr
    · exact hr
    · exact absurd hr (hup1 c (List.mem_append_left _ hc)).2

theorem emitted_with_ts_append (l1 l2 : List (Option Nat)) (o1 o2 : List (Int × bt_message))
    (h : l1.length = o1.length) (i : Option Nat) :
    emitted_with_ts (l1 ++ l2) (o1 ++ o2) i =
      emitted_with_ts l1 o1 i ++ emitted_with_ts l2 o2 i := by
  unfold emitted_with_ts
  rw [List.zip_append h, List.filter_append, List.map_append]

theorem timed_fifo_run_ids {it it1 : muxer_msg_iter} {out : List (Int × bt_message)}
    (h : timed_fifo_run it out it1) : (cursor_ids it1).Perm (cursor_ids it) := by
  obtain ⟨labels, _, _, hp⟩ := h
  have := hp.map Prod.fst
  simpa [cursor_ids, List.map_map, Function.comp_def] using this

theorem timed_fifo_run_of_perm {it it1 : muxer_msg_iter}
    (h : ((all_cursors it1).map (fun c => (cursor_id c, cursor_annot it1 c))).Perm
      ((all_cursors it).map (fun c => (cursor_id c, cursor_annot it c)))) :
    timed_fifo_run it [] it1 :=
  ⟨[], rfl, by simp, by simpa [emitted_with_ts] using h⟩

theorem timed_fifo_run_trans {a b c : muxer_msg_iter} {o1 o2 : List (Int × bt_message)}
    (h1 : timed_fifo_run a o1 b) (h2 : timed_fifo_run b o2 c) :
    timed_fifo_run a (o1 ++ o2) c := by
  have hids := timed_fifo_run_ids h1
  obtain ⟨l1, hl1, hm1, hp1⟩ := h1
  obtain ⟨l2, hl2, hm2, hp2⟩ := h2
  refine ⟨l1 ++ l2, by simp [hl1, hl2], ?_, ?_⟩
  · intro l hl
    rcases List.mem_append.mp hl with h | h
    · exact hm1 l h
    · exact hids.mem_iff.mp (hm2 l h)
  · have hg := hp2.map (fun p : Option Nat × List (Int × bt_message) =>
      (p.1, emitted_with_ts l1 o1 p.1 ++ p.2))
    simp only [List.map_map, Function.comp_def] at hg
    have hfun : (fun x => (cursor_id x,
        emitted_with_ts (l1 ++ l2) (o1 ++ o2) (cursor_id x) ++ cursor_annot c x)) =
        (fun x => (cursor_id x,
          emitted_with_ts l1 o1 (cursor_id x) ++ (emitted_with_ts l2 o2 (cursor_id x) ++
            cursor_annot c x))) := by
      funext x
      rw [emitted_with_ts_append l1 l2 o1 o2 hl1, List.append_assoc]
    rw [hfun]
    exact hg.trans hp1

theorem annot_rebase {lo ts : Int} {ms : List bt_message}
    (hch : List.Chain (· ≤ ·) lo (eff_ts lo ms)) (hlo : lo ≤ ts)
    (hhead : ∀ m ∈ ms.head?, ts ≤ (own_ts m).getD lo) : annot ts ms = annot lo ms := by
  unfold annot
  rw [(eff_ts_rebase hch hlo hhead).1]

/-- Popping the head of one cursor, the identities being distinct: the
head is emitted with the timestamp `ts`, which becomes the last returned
timestamp; for the other cursors the timestamps of the messages to come
are the same from `ts` as before. -/
theorem timed_fifo_run_pop {it : muxer_msg_iter} {idx : Nat} {c : muxer_upstream_msg_iter}
    {msg : bt_message} {rest : List bt_message} {ts : Int}
    (hid : (cursor_ids it).Nodup)
    (hc : it.active_muxer_upstream_msg_iters[idx]? = some c) (hm : c.msgs = msg :: rest)
    (hts : ts = (own_ts msg).getD it.last_returned_ts_ns)
    (hothers : ∀ x ∈ all_cursors it, cursor_id x ≠ cursor_id c →
      annot ts (cursor_stream x) = annot it.last_returned_ts_ns (cursor_stream x)) :
    timed_fifo_run it [(ts, msg)]
      { it with
        active_muxer_upstream_msg_iters :=
          it.active_muxer_upstream_msg_iters.set idx { c with msgs := rest }
        last_returned_ts_ns := ts } := by
  have hi : idx < it.active_muxer_upstream_msg_iters.length := getElem?_lt_length hc
  let others := it.active_muxer_upstream_msg_iters.eraseIdx idx ++
    it.ended_muxer_upstream_msg_iters
  have hp : (all_cursors it).Perm (c :: others) :=
    (perm_cons_eraseIdx_of_getElem? _ idx c hc).append_right _
  have hp1 : (all_cursors
      { it with
        active_muxer_upstream_msg_iters :=
          it.active_muxer_upstream_msg_iters.set idx { c with msgs := rest }
        last_returned_ts_ns := ts }).Perm ({ c with msgs := rest } :: others) :=
    (set_perm_cons_eraseIdx _ _ idx hi).append_right _
  have hnd : (cursor_id c :: others.map cursor_id).Nodup := by
    have := (hp.map cursor_id).nodup_iff.mp hid
    simpa using this
  have hnot : ∀ x ∈ others, cursor_id x ≠ cursor_id c := by
    intro x hx heq
    have := (List.nodup_cons.mp hnd).1
    exact this (heq ▸ List.mem_map_of_mem cursor_id hx)
  refine ⟨[cursor_id c], by simp, ?_, ?_⟩
  · intro l hl
    simp at hl
    subst hl
    exact (hp.map cursor_id).mem_iff.mpr (by simp)
  · have h1 := hp1.map (fun x => (cursor_id x,
      emitted_with_ts [cursor_id c] [(ts, msg)] (cursor_id x) ++
        cursor_annot { it with
          active_muxer_upstream_msg_iters :=
            it.active_muxer_upstream_msg_iters.set idx { c with msgs := rest }
          last_returned_ts_ns := ts } x))
    have h2 := hp.map (fun x => (cursor_id x, cursor_annot it x))
    refine h1.trans (List.Perm.trans ?_ h2.symm)
    simp only [List.map_cons]
    have hhead : (cursor_id { c with msgs := rest },
        emitted_with_ts [cursor_id c] [(ts, msg)] (cursor_id { c with msgs := rest }) ++
          cursor_annot { it with
            active_muxer_upstream_msg_iters :=
              it.active_muxer_upstream_msg_iters.set idx { c with msgs := rest }
            last_returned_ts_ns := ts } { c with msgs := rest }) =
        (cursor_id c, cursor_annot it c) := by
      have hs : cursor_stream c = msg :: cursor_stream { c with msgs := rest } := by
        unfold cursor_stream
        simp [hm]
      simp only [cursor_annot, hs, annot_cons, ← hts]
      simp [cursor_id, emitted_with_ts]
    rw [hhead]
    have htail : others.map (fun x => (cursor_id x,
        emitted_with_ts [cursor_id c] [(ts, msg)] (cursor_id x) ++
          cursor_annot { it with
            active_muxer_upstream_msg_iters :=
              it.active_muxer_upstream_msg_iters.set idx { c with msgs := rest }
            last_returned_ts_ns := ts } x)) =
        others.map (fun x => (cursor_id x, cursor_annot it x)) := by
      apply List.map_congr_left
      intro x hx
      have hne : ¬ (cursor_id c = cursor_id x) := fun h => hnot x hx h.symm
      have hxall : x ∈ all_cursors it := hp.mem_iff.mpr (List.mem_cons_of_mem _ hx)
      simp only [cursor_annot, hothers x hxall (hnot x hx)]
      simp [emitted_with_ts, hne]
    rw [htail]

/-- The selection loop over cursors that all hold a message of `ms`
that the muxer expects: it returns `OK`, keeps the cursors and the
invariant of the expectation, and chooses a cursor when there is one. -/
theorem youngest_loop_gen (comp : muxer_comp) (ms : List bt_message)
    (hcompat : clock_compatible comp ms) :
    ∀ (cursors : List muxer_upstream_msg_iter) (i : Nat) (it : muxer_msg_iter)
      (chosen : Option Nat) (y : Int),
      clock_inv comp ms it → it.last_returned_ts_ns ≤ INT64_MAX →
      (∀ c ∈ cursors, c.msg_iter ≠ none ∧
        ∃ m rest, c.msgs = m :: rest ∧ timed_msg m ∧ m ∈ ms) →
      ∃ it1 ch1 y1, youngest_loop comp cursors i it chosen y = some (.OK, it1, ch1, y1) ∧
        same_cursors it it1 ∧ clock_inv comp ms it1 ∧
        (chosen.isSome = true → ch1.isSome = true) ∧
        (y = INT64_MAX → cursors ≠ [] → ch1.isSome = true) := by
  intro cursors
  induction cursors with
  | nil =>
    intro i it chosen y hinv _ _
    exact ⟨it, chosen, y, by simp [youngest_loop], ⟨rfl, rfl, rfl⟩, hinv, fun h => h,
      fun _ h => absurd rfl h⟩
  | cons cur rest ih =>
    intro i it chosen y hinv hlast hall
    obtain ⟨hu, m, tl, hm, htm, hmem⟩ := hall cur (List.mem_cons_self _ _)
    obtain ⟨u, hu⟩ := Option.ne_none_iff_exists'.mp hu
    obtain ⟨it1, hv, hsame, hinv1⟩ := validate_head_clock_class_inv hcompat hinv hmem htm
    have hts := get_msg_ts_ns_timed it1 it1.last_returned_ts_ns htm hinv1.1
    have hrest : ∀ c ∈ rest, c.msg_iter ≠ none ∧
        ∃ m rest, c.msgs = m :: rest ∧ timed_msg m ∧ m ∈ ms :=
      fun c hc => hall c (List.mem_cons_of_mem _ hc)
    have hlast1 : it1.last_returned_ts_ns ≤ INT64_MAX := by rw [hsame.2.2]; exact hlast
    have hmax : (own_ts m).getD it1.last_returned_ts_ns ≤ INT64_MAX := by
      cases ho : own_ts m with
      | none => simpa using hlast1
      | some t => simpa using (own_ts_range htm t ho).2
    rw [youngest_loop]
    simp only [hu, hm, hv, hts, ne_eq, not_true_eq_false, if_false]
    by_cases hle : (own_ts m).getD it1.last_returned_ts_ns ≤ y
    · simp only [hle, if_true]
      obtain ⟨it2, ch1, y1, hl, hs2, hinv2, h1, _⟩ :=
        ih (i + 1) it1 (some i) _ hinv1 hlast1 hrest
      exact ⟨it2, ch1, y1, hl, same_cursors_trans hsame hs2, hinv2, fun _ => h1 rfl,
        fun _ _ => h1 rfl⟩
    · simp only [hle, if_false]
      obtain ⟨it2, ch1, y1, hl, hs2, hinv2, h1, _⟩ :=
        ih (i + 1) it1 chosen y hinv1 hlast1 hrest
      refine ⟨it2, ch1, y1, hl, same_cursors_trans hsame hs2, hinv2, h1, ?_⟩
      intro hy _
      rw [hy] at hle
      exact absurd hmax hle

/-- The timestamp that the selection loop computes for the cursor at
index `j`: the own timestamp of its head, else the last returned
timestamp. -/
theorem head_ts_in_loop_gen (comp : muxer_comp) (ms : List bt_message)
    (hcompat : clock_compatible comp ms) :
    ∀ (cursors : List muxer_upstream_msg_iter) (it : muxer_msg_iter) (j : Nat)
      (c : muxer_upstream_msg_iter),
      clock_inv comp ms it →
      (∀ c ∈ cursors, c.msg_iter ≠ none ∧
        ∃ m rest, c.msgs = m :: rest ∧ timed_msg m ∧ m ∈ ms) →
      cursors[j]? = some c →
      ∃ m rest, c.msgs = m :: rest ∧
        head_ts_in_loop comp cursors it j = some ((own_ts m).getD it.last_returned_ts_ns) := by
  intro cursors
  induction cursors with
  | nil => intro it j c _ _ h; simp at h
  | cons cur rest ih =>
    intro it j c hinv hall hj
    obtain ⟨hu, m, tl, hm, htm, hmem⟩ := hall cur (List.mem_cons_self _ _)
    obtain ⟨u, hu⟩ := Option.ne_none_iff_exists'.mp hu
    obtain ⟨it1, hv, hsame, hinv1⟩ := validate_head_clock_class_inv hcompat hinv hmem htm
    have hts := get_msg_ts_ns_timed it1 it1.last_returned_ts_ns htm hinv1.1
    rw [head_ts_in_loop]
    simp only [hu, hm, hv, hts, ne_eq, not_true_eq_false, if_false]
    cases j with
    | zero =>
      simp at hj
      subst hj
      exact ⟨m, tl, hm, by simp [hsame.2.2]⟩
    | succ j =>
      simp at hj
      obtain ⟨m1, r1, h1, h2⟩ := ih it1 j c hinv1
        (fun c hc => hall c (List.mem_cons_of_mem _ hc)) hj
      exact ⟨m1, r1, h1, by simpa [hsame.2.2] using h2⟩

theorem pending_count_of_perm {it it1 : muxer_msg_iter}
    (h : ((all_cursors it1).map (fun c => (cursor_id c, cursor_stream c))).Perm
      ((all_cursors it).map (fun c => (cursor_id c, cursor_stream c)))) :
    pending_count it1 = pending_count it := by
  have := (h.map Prod.snd).flatMap_right id
  simp only [List.map_map, Function.comp_def] at this
  unfold pending_count
  have h1 : ∀ l : List muxer_upstream_msg_iter,
      (l.map (fun c => cursor_stream c)).flatMap id = l.flatMap cursor_stream := by
    intro l
    simp [List.flatMap_def, List.map_map, Function.comp_def]
  rw [h1, h1] at this
  exact this.length_eq

/-- One call of `next_one` during a merge of messages of any type:
either nothing remains and it returns `END`, or it emits the head of a
cursor, with the smallest of the timestamps of the heads, which becomes
the last returned timestamp. -/
theorem gen_step (comp : muxer_comp) (ms : List bt_message)
    (hcompat : clock_compatible comp ms) (it : muxer_msg_iter) (h : gen_inv comp ms it) :
    (∃ it1, muxer_msg_iter_do_next_one comp it = some (.END, none, it1) ∧
        gen_run comp ms it [] it1 ∧ pending_count it = 0) ∨
      (∃ m it1, muxer_msg_iter_do_next_one comp it = some (.OK, some m, it1) ∧
        gen_run comp ms it [(it1.last_returned_ts_ns, m)] it1) := by
  obtain ⟨it1, hv, hinv1, hready, hkeys, hlast1⟩ := validate_gen h
  have hinv1' := hinv1
  obtain ⟨hclock1, hdone1, hup1, hms1, hch1, hmax1, hid1⟩ := hinv1'
  have hcount := pending_count_of_perm hkeys
  have hakeys : ((all_cursors it1).map (fun c => (cursor_id c, cursor_annot it1 c))).Perm
      ((all_cursors it).map (fun c => (cursor_id c, cursor_annot it c))) := by
    have := hkeys.map (fun p : Option Nat × List bt_message =>
      (p.1, annot it.last_returned_ts_ns p.2))
    simp only [List.map_map, Function.comp_def] at this
    simpa only [cursor_annot, hlast1] using this
  by_cases hempty : it1.active_muxer_upstream_msg_iters = []
  · left
    refine ⟨it1, ?_, ⟨hinv1, timed_fifo_run_of_perm hakeys, by simp [hcount], ?_⟩, ?_⟩
    · unfold muxer_msg_iter_do_next_one
      simp [hv, muxer_msg_iter_youngest_upstream_msg_iter, hempty, youngest_loop]
    · simp [hlast1]
    · rw [← hcount]
      unfold pending_count all_cursors
      rw [hempty, List.nil_append, List.length_eq_zero, List.flatMap_eq_nil_iff]
      exact hdone1.2
  · right
    have hall : ∀ c ∈ it1.active_muxer_upstream_msg_iters, c.msg_iter ≠ none ∧
        ∃ m rest, c.msgs = m :: rest ∧ timed_msg m ∧ m ∈ ms := by
      intro c hc
      have hcall : c ∈ all_cursors it1 := List.mem_append_left _ hc
      refine ⟨(hup1 c hcall).2, ?_⟩
      cases hq : c.msgs with
      | nil => exact absurd hq (hready c hc)
      | cons m rest =>
        refine ⟨m, rest, rfl, hms1 c hcall m ?_⟩
        unfold cursor_stream
        rw [hq]
        simp
    obtain ⟨it2, ch1, y1, hyl, hsame2, hclock2, _, hsome⟩ :=
      youngest_loop_gen comp ms hcompat it1.active_muxer_upstream_msg_iters 0 it1 none INT64_MAX
        hclock1 hmax1 hall
    obtain ⟨idx, hidx⟩ := Option.isSome_iff_exists.mp (hsome rfl hempty)
    subst hidx
    have hy : muxer_msg_iter_youngest_upstream_msg_iter comp it1 =
        some (.OK, it2, some idx, y1) := by
      unfold muxer_msg_iter_youngest_upstream_msg_iter
      rw [hyl]
    obtain ⟨idx', hch, hts, hmin, _⟩ := youngest_ok_spec hy
    simp at hch
    subst hch
    have hlt : idx < it1.active_muxer_upstream_msg_iters.length := by
      by_contra hge
      rw [head_ts_in_loop_beyond comp _ _ _ (not_lt.mp hge)] at hts
      simp at hts
    have hc : it1.active_muxer_upstream_msg_iters[idx]? =
        some it1.active_muxer_upstream_msg_iters[idx] := List.getElem?_eq_getElem hlt
    generalize it1.active_muxer_upstream_msg_iters[idx] = c at hc
    have hcmem : c ∈ it1.active_muxer_upstream_msg_iters := List.getElem?_mem hc
    have hcall : c ∈ all_cursors it1 := List.mem_append_left _ hcmem
    obtain ⟨m, rest, hm, hts2⟩ := head_ts_in_loop_gen comp ms hcompat _ it1 idx c hclock1 hall hc
    rw [hts] at hts2
    simp only [Option.some.injEq] at hts2
    subst hts2
    have hstream : cursor_stream c = m :: cursor_stream { c with msgs := rest } := by
      unfold cursor_stream
      simp [hm]
    have hchc := hch1 c hcall
    rw [hstream] at hchc
    simp only [eff_ts] at hchc
    have hlo : it1.last_returned_ts_ns ≤ (own_ts m).getD it1.last_returned_ts_ns :=
      (List.chain_cons.mp hchc).1
    have ha2 : it2.active_muxer_upstream_msg_iters = it1.active_muxer_upstream_msg_iters :=
      hsame2.1
    have he2 : it2.ended_muxer_upstream_msg_iters = it1.ended_muxer_upstream_msg_iters :=
      hsame2.2.1
    have hl2 : it2.last_returned_ts_ns = it1.last_returned_ts_ns := hsame2.2.2
    have hall2 : all_cursors it2 = all_cursors it1 := all_cursors_of_same_cursors hsame2
    have htm : timed_msg m := (hms1 c hcall m (by rw [hstream]; exact List.mem_cons_self _ _)).1
    have hmax : (own_ts m).getD it1.last_returned_ts_ns ≤ INT64_MAX := by
      cases ho : own_ts m with
      | none => simpa using hmax1
      | some t => simpa using (own_ts_range htm t ho).2
    -- the heads of the other cursors are not below the timestamp selected
    have hheads : ∀ x ∈ all_cursors it1, ∀ mx ∈ (cursor_stream x).head?,
        (own_ts m).getD it1.last_returned_ts_ns ≤ (own_ts mx).getD it1.last_returned_ts_ns := by
      intro x hx mx hmx
      rcases List.mem_append.mp hx with hxa | hxe
      · obtain ⟨j, hj⟩ := List.mem_iff_getElem?.mp hxa
        obtain ⟨m1, r1, hm1, ht1⟩ := head_ts_in_loop_gen comp ms hcompat _ it1 j x hclock1 hall hj
        have : (cursor_stream x).head? = some m1 := by
          unfold cursor_stream
          simp [hm1]
        rw [this] at hmx
        simp only [Option.mem_def, Option.some.injEq] at hmx
        subst hmx
        exact (hmin j _ ht1).1
      · rw [hdone1.2 x hxe] at hmx
        simp at hmx
    have hrebase : ∀ x ∈ all_cursors it1,
        eff_ts ((own_ts m).getD it1.last_returned_ts_ns) (cursor_stream x) =
            eff_ts it1.last_returned_ts_ns (cursor_stream x) ∧
          List.Chain (· ≤ ·) ((own_ts m).getD it1.last_returned_ts_ns)
            (eff_ts ((own_ts m).getD it1.last_returned_ts_ns) (cursor_stream x)) :=
      fun x hx => eff_ts_rebase (hch1 x hx) hlo (hheads x hx)
    -- the cursors after the pop
    have hcur : ∀ x ∈ all_cursors
        { it2 with
          active_muxer_upstream_msg_iters :=
            it2.active_muxer_upstream_msg_iters.set idx { c with msgs := rest }
          last_returned_ts_ns := (own_ts m).getD it1.last_returned_ts_ns },
        x ∈ all_cursors it1 ∨ x = { c with msgs := rest } := by
      intro x hx
      simp only [all_cursors, ha2, he2] at hx
      rcases List.mem_append.mp hx with hx | hx
      · rcases List.mem_or_eq_of_mem_set hx with hx | hx
        · exact Or.inl (List.mem_append_left _ hx)
        · exact Or.inr hx
      · exact Or.inl (List.mem_append_right _ hx)
    have hsub : ∀ x ∈ cursor_stream { c with msgs := rest }, x ∈ cursor_stream c := by
      intro x hx
      rw [hstream]
      exact List.mem_cons_of_mem _ hx
    refine ⟨m, { it2 with
        active_muxer_upstream_msg_iters :=
          it2.active_muxer_upstream_msg_iters.set idx { c with msgs := rest }
        last_returned_ts_ns := (own_ts m).getD it1.last_returned_ts_ns }, ?_, ?_, ?_, ?_, ?_⟩
    · unfold muxer_msg_iter_do_next_one
      have hnl : ¬ (own_ts m).getD it1.last_returned_ts_ns < it2.last_returned_ts_ns := by
        rw [hl2]; exact not_lt.mpr hlo
      have hc2 : it2.active_muxer_upstream_msg_iters[idx]? = some c := by rw [ha2]; exact hc
      simp [hv, hy, bt_message_iterator_status.is_negative, hnl, hc2, hm]
    · -- the invariant
      refine ⟨clock_inv_congr rfl rfl hclock2, ⟨?_, ?_⟩, ?_, ?_, ?_, hmax, ?_⟩
      · intro x hx
        rcases hcur x hx with hx | hx
        · exact hdone1.1 x hx
        · rw [hx]
          intro u hu
          exact hdone1.1 c hcall u hu
      · intro x hx
        simp only [he2] at hx
        exact hdone1.2 x hx
      · intro x hx
        rcases hcur x hx with hx | hx
        · exact hup1 x hx
        · rw [hx]
          exact ⟨fun u hu => (hup1 c hcall).1 u hu, (hup1 c hcall).2⟩
      · intro x hx mx hmx
        rcases hcur x hx with hx | hx
        · exact hms1 x hx mx hmx
        · rw [hx] at hmx
          exact hms1 c hcall mx (hsub mx hmx)
      · intro x hx
        rcases hcur x hx with hx | hx
        · exact (hrebase x hx).2
        · rw [hx]
          exact (List.chain_cons.mp hchc).2
      · have : cursor_ids
            { it2 with
              active_muxer_upstream_msg_iters :=
                it2.active_muxer_upstream_msg_iters.set idx { c with msgs := rest }
              last_returned_ts_ns := (own_ts m).getD it1.last_returned_ts_ns } =
            cursor_ids it1 := by
          simp only [cursor_ids, all_cursors, ha2, he2, List.map_append, List.map_set]
          congr 1
          apply set_of_getElem?
          simp [hc, cursor_id]
        rw [this]
        exact hid1
    · -- queue order
      have h1 : timed_fifo_run it [] it2 := by
        apply timed_fifo_run_of_perm
        have : (all_cursors it2).map (fun c => (cursor_id c, cursor_annot it2 c)) =
            (all_cursors it1).map (fun c => (cursor_id c, cursor_annot it1 c)) := by
          rw [hall2]
          simp only [cursor_annot, hl2]
        rw [this]
        exact hakeys
      have hid2 : (cursor_ids it2).Nodup := by
        unfold cursor_ids
        rw [hall2]
        exact hid1
      have h2 := @timed_fifo_run_pop it2 idx c m rest
        ((own_ts m).getD it1.last_returned_ts_ns) hid2 (by rw [ha2]; exact hc) hm
        (by rw [hl2])
        (by
          intro x hx _
          rw [hall2] at hx
          unfold annot
          rw [hl2, (hrebase x hx).1])
      simpa using timed_fifo_run_trans h1 h2
    · -- one message less
      rw [← hcount]
      unfold pending_count
      simp only [all_cursors, ha2, he2, List.flatMap_append, List.length_append]
      have e1 := (flatMap_perm_of_getElem? cursor_stream _ idx c hc).length_eq
      have e2 := (flatMap_set_perm cursor_stream it1.active_muxer_upstream_msg_iters idx
        { c with msgs := rest } hlt).length_eq
      have e3 : (cursor_stream c).length =
          (cursor_stream { c with msgs := rest }).length + 1 := by
        rw [hstream]
        rfl
      rw [List.length_append] at e1 e2
      rw [e1, e2, e3]
      simp only [List.length_cons, List.length_nil]
      omega
    · simp only [List.map_cons, List.map_nil, List.cons_append, List.nil_append]
      refine List.Chain.cons ?_ (List.Chain.cons (le_refl _) List.Chain.nil)
      rw [← hlast1]
      exact hlo

theorem chain_le_join {a b c : Int} : ∀ {l1 l2 : List Int},
    List.Chain (· ≤ ·) a (l1 ++ [b]) → List.Chain (· ≤ ·) b (l2 ++ [c]) →
    List.Chain (· ≤ ·) a (l1 ++ l2 ++ [c]) := by
  intro l1
  induction l1 generalizing a with
  | nil =>
    intro l2 h1 h2
    simp only [List.nil_append] at h1 ⊢
    have hab : a ≤ b := (List.chain_cons.mp h1).1
    cases hl : l2 ++ [c] with
    | nil => exact List.Chain.nil
    | cons x t =>
      rw [hl] at h2
      have hc := List.chain_cons.mp h2
      exact List.Chain.cons (le_trans hab hc.1) hc.2
  | cons x t ih =>
    intro l2 h1 h2
    simp only [List.cons_append] at h1 ⊢
    have hc := List.chain_cons.mp h1
    exact List.Chain.cons hc.1 (ih hc.2 h2)

theorem gen_run_refl {comp : muxer_comp} {ms : List bt_message} {it : muxer_msg_iter}
    (h : gen_inv comp ms it) : gen_run comp ms it [] it :=
  ⟨h, timed_fifo_run_of_perm (List.Perm.refl _), by simp,
    by simp⟩

theorem gen_run_trans {comp : muxer_comp} {ms : List bt_message} {a b c : muxer_msg_iter}
    {o1 o2 : List (Int × bt_message)} (h1 : gen_run comp ms a o1 b)
    (h2 : gen_run comp ms b o2 c) : gen_run comp ms a (o1 ++ o2) c := by
  obtain ⟨_, hf1, hc1, hch1⟩ := h1
  obtain ⟨hinv, hf2, hc2, hch2⟩ := h2
  refine ⟨hinv, timed_fifo_run_trans hf1 hf2, ?_, ?_⟩
  · rw [hc1, hc2, List.length_append]
    omega
  · rw [List.map_append]
    exact chain_le_join hch1 hch2

theorem do_next_loop_gen (comp : muxer_comp) (ms : List bt_message)
    (hcompat : clock_compatible comp ms) :
    ∀ (k : Nat) (it : muxer_msg_iter) (acc : List bt_message), gen_inv comp ms it →
      ∃ st more it1,
        muxer_msg_iter_do_next_loop comp k it acc =
          some (st, acc ++ more.map (·.2), it1) ∧
        gen_run comp ms it more it1 ∧
        ((st = .OK ∧ more.length = k) ∨ (st = .END ∧ pending_count it1 = 0)) := by
  intro k
  induction k with
  | zero =>
    intro it acc hinv
    exact ⟨.OK, [], it, by simp [muxer_msg_iter_do_next_loop], gen_run_refl hinv,
      Or.inl ⟨rfl, rfl⟩⟩
  | succ k ih =>
    intro it acc hinv
    rcases gen_step comp ms hcompat it hinv with ⟨it1, hn, hrun, hzero⟩ | ⟨m, it1, hn, hrun⟩
    · refine ⟨.END, [], it1, ?_, hrun, Or.inr ⟨rfl, ?_⟩⟩
      · rw [muxer_msg_iter_do_next_loop, hn]
        simp
      · have := hrun.2.2.1
        simp at this
        omega
    · obtain ⟨st, more, it2, hl, hrun2, hst⟩ := ih it1 (acc ++ [m]) hrun.1
      refine ⟨st, (it1.last_returned_ts_ns, m) :: more, it2, ?_, ?_, ?_⟩
      · rw [muxer_msg_iter_do_next_loop, hn]
        simp only
        rw [hl]
        simp
      · simpa using gen_run_trans hrun hrun2
      · rcases hst with ⟨h1, h2⟩ | h
        · exact Or.inl ⟨h1, by simp [h2]⟩
        · exact Or.inr h

theorem do_next_gen (comp : muxer_comp) (ms : List bt_message)
    (hcompat : clock_compatible comp ms) (it : muxer_msg_iter) (capacity : Nat)
    (hcap : 1 ≤ capacity) (hinv : gen_inv comp ms it) :
    ∃ st out it1, muxer_msg_iter_do_next comp it capacity = some (st, out.map (·.2), it1) ∧
      gen_run comp ms it out it1 ∧
      ((st = .OK ∧ out ≠ []) ∨ (st = .END ∧ out = [] ∧ pending_count it = 0)) := by
  obtain ⟨st, more, it1, hl, hrun, hst⟩ := do_next_loop_gen comp ms hcompat capacity it [] hinv
  simp only [List.nil_append] at hl
  unfold muxer_msg_iter_do_next
  rw [hl]
  simp only
  by_cases hlen : more.length > 0
  · refine ⟨.OK, more, it1, by simp [hlen], hrun, Or.inl ⟨rfl, ?_⟩⟩
    exact List.length_pos.mp hlen
  · have hnil : more = [] := by
      cases more with
      | nil => rfl
      | cons a t => simp at hlen
    subst hnil
    rcases hst with ⟨_, h2⟩ | ⟨h1, h2⟩
    · simp at h2; omega
    · subst h1
      refine ⟨.END, [], it1, by simp, hrun, Or.inr ⟨rfl, rfl, ?_⟩⟩
      have := hrun.2.2.1
      simp at this
      omega

/-- Draining a merge of messages of any type: with enough calls the
drain ends on `END`, every message having been emitted. -/
theorem drain_gen (comp : muxer_comp) (ms : List bt_message)
    (hcompat : clock_compatible comp ms) (capacity : Nat) (hcap : 1 ≤ capacity) :
    ∀ (n fuel : Nat) (it : muxer_msg_iter), gen_inv comp ms it → pending_count it ≤ n →
      n + 1 ≤ fuel →
      ∃ out it1, drain comp capacity fuel it = some (.END, out.map (·.2), it1) ∧
        gen_run comp ms it out it1 ∧ pending_count it1 = 0 := by
  intro n
  induction n with
  | zero =>
    intro fuel it hinv hlen hfuel
    obtain ⟨f, rfl⟩ : ∃ f, fuel = f + 1 := ⟨fuel - 1, by omega⟩
    obtain ⟨st, out, it1, hd, hrun, hst⟩ := do_next_gen comp ms hcompat it capacity hcap hinv
    have hcount := hrun.2.2.1
    rcases hst with ⟨_, hne⟩ | ⟨rfl, rfl, _⟩
    · have h1 : 0 < out.length := List.length_pos.mpr hne
      omega
    · refine ⟨[], it1, ?_, hrun, ?_⟩
      · rw [drain, hd]
      · simp at hcount
        omega
  | succ n ih =>
    intro fuel it hinv hlen hfuel
    obtain ⟨f, rfl⟩ : ∃ f, fuel = f + 1 := ⟨fuel - 1, by omega⟩
    obtain ⟨st, out, it1, hd, hrun, hst⟩ := do_next_gen comp ms hcompat it capacity hcap hinv
    have hcount := hrun.2.2.1
    rcases hst with ⟨rfl, hne⟩ | ⟨rfl, rfl, hzero⟩
    · have hlen1 : pending_count it1 ≤ n := by
        have h1 : 0 < out.length := List.length_pos.mpr hne
        omega
      obtain ⟨out2, it2, hd2, hrun2, hz2⟩ := ih f it1 hrun.1 hlen1 (by omega)
      refine ⟨out ++ out2, it2, ?_, gen_run_trans hrun hrun2, hz2⟩
      rw [drain, hd]
      simp only
      rw [hd2]
      simp
    · refine ⟨[], it1, ?_, hrun, ?_⟩
      · rw [drain, hd]
      · simp at hcount
        omega

theorem flatMap_ite_perm {α : Type} (l : Option Nat) (p : α) (f : Option Nat → List α) :
    ∀ ids : List (Option Nat), ids.Nodup → l ∈ ids →
      (ids.flatMap (fun i => if l = i then p :: f i else f i)).Perm (p :: ids.flatMap f) := by
  intro ids
  induction ids with
  | nil => intro _ h; simp at h
  | cons i t ih =>
    intro hnd hl
    obtain ⟨hni, hndt⟩ := List.nodup_cons.mp hnd
    simp only [List.flatMap_cons]
    by_cases hli : l = i
    · subst hli
      have htail : t.flatMap (fun i => if l = i then p :: f i else f i) = t.flatMap f := by
        apply List.flatMap_congr
        intro x hx
        have : ¬ l = x := fun h => hni (h ▸ hx)
        simp [this]
      simp [htail]
    · have hlt : l ∈ t := by
        rcases List.mem_cons.mp hl with h | h
        · exact absurd h hli
        · exact h
      simp only [hli, if_false]
      exact ((ih hndt hlt).append_left (f i)).trans List.perm_middle

/-- The elements attributed to the cursors, taken cursor by cursor, are
the elements of the output. -/
theorem emitted_with_ts_partition (ids : List (Option Nat)) (hnd : ids.Nodup) :
    ∀ (out : List (Int × bt_message)) (labels : List (Option Nat)),
      labels.length = out.length → (∀ l ∈ labels, l ∈ ids) →
      (ids.flatMap (emitted_with_ts labels out)).Perm out := by
  intro out
  induction out with
  | nil =>
    intro labels hl _
    have : labels = [] := List.length_eq_zero.mp (by simpa using hl)
    subst this
    simp [emitted_with_ts]
  | cons p t ih =>
    intro labels hl hm
    cases labels with
    | nil => simp at hl
    | cons l ls =>
      have hfun : emitted_with_ts (l :: ls) (p :: t) =
          fun i => if l = i then p :: emitted_with_ts ls t i else emitted_with_ts ls t i := by
        funext i
        unfold emitted_with_ts
        by_cases h : l = i <;> simp [h, List.filter_cons]
      rw [hfun]
      refine (flatMap_ite_perm l p _ ids hnd (hm l (List.mem_cons_self _ _))).trans ?_
      exact (ih ls (by simpa using hl) (fun x hx => hm x (List.mem_cons_of_mem _ hx))).cons p

theorem filter_fst_of_labels (labels : List (Option Nat)) (out : List (Int × bt_message))
    (i : Option Nat) (t : Int) (hlen : labels.length = out.length)
    (honly : ∀ p ∈ labels.zip out, p.2.1 = t → p.1 = i) :
    out.filter (fun x => decide (x.1 = t)) =
      (emitted_with_ts labels out i).filter (fun x => decide (x.1 = t)) := by
  have hout : out = (labels.zip out).map (·.2) := by
    rw [List.map_snd_zip]
    omega
  unfold emitted_with_ts
  conv_lhs => rw [hout]
  rw [List.filter_map, List.filter_map, List.filter_filter]
  congr 1
  apply List.filter_congr
  intro p hp
  simp only [Function.comp]
  by_cases hts : p.2.1 = t
  · simp [hts, honly p hp hts]
  · simp [hts]

/-- A drain from the start of a merge of messages of any type, with
enough calls allowed: it ends on `END`; its output, each message with the
timestamp with which it was emitted, is what the cursors had to give,
the timestamps do not decrease, and the elements attributed to each
cursor by a labelling of the output are the whole sequence of that
cursor, in order.  The cursors at the end have the origins of those at
the start. -/
theorem drain_gen_from_start (comp : muxer_comp) (ms : List bt_message)
    (hcompat : clock_compatible comp ms) (capacity : Nat) (hcap : 1 ≤ capacity)
    (it : muxer_msg_iter) (hinv : gen_inv comp ms it) (fuel : Nat)
    (hfuel : pending_count it + 1 ≤ fuel) :
    ∃ out itf, drain comp capacity fuel it = some (.END, out.map (·.2), itf) ∧
      out.Perm ((all_cursors it).flatMap (cursor_annot it)) ∧
      List.Chain (· ≤ ·) it.last_returned_ts_ns (out.map (·.1)) ∧
      (∃ labels : List (Option Nat), labels.length = out.length ∧
        (∀ l ∈ labels, l ∈ cursor_ids it) ∧
        ∀ c ∈ all_cursors it, emitted_with_ts labels out (cursor_id c) = cursor_annot it c) ∧
      ((all_cursors itf).map cursor_origin).Perm ((all_cursors it).map cursor_origin) := by
  obtain ⟨out, itf, hd, hrun, hzero⟩ :=
    drain_gen comp ms hcompat capacity hcap _ fuel it hinv (le_refl _) hfuel
  obtain ⟨hinvf, ⟨labels, hl, hmem, hp⟩, _, hch⟩ := hrun
  have hempty : ∀ c ∈ all_cursors itf, cursor_stream c = [] := by
    unfold pending_count at hzero
    exact List.flatMap_eq_nil_iff.mp (List.length_eq_zero.mp hzero)
  have hfifo : ∀ c ∈ all_cursors it,
      emitted_with_ts labels out (cursor_id c) = cursor_annot it c := by
    intro c hc
    have hin : (cursor_id c, cursor_annot it c) ∈
        (all_cursors it).map (fun c => (cursor_id c, cursor_annot it c)) :=
      List.mem_map_of_mem _ hc
    obtain ⟨c1, hc1, heq⟩ := List.mem_map.mp (hp.mem_iff.mpr hin)
    simp only [Prod.mk.injEq] at heq
    have : cursor_annot itf c1 = [] := by
      unfold cursor_annot
      rw [hempty c1 hc1]
      rfl
    rw [this, List.append_nil, heq.1] at heq
    exact heq.2
  have hid := hinv.2.2.2.2.2.2
  refine ⟨out, itf, hd, ?_, ?_, ⟨labels, hl, hmem, hfifo⟩, ?_⟩
  · have hpart := emitted_with_ts_partition (cursor_ids it) hid out labels hl hmem
    refine hpart.symm.trans ?_
    unfold cursor_ids
    rw [List.flatMap_map]
    have : (all_cursors it).flatMap (fun c => emitted_with_ts labels out (cursor_id c)) =
        (all_cursors it).flatMap (cursor_annot it) :=
      List.flatMap_congr hfifo
    rw [this]
  · have h1 := List.chain_iff_pairwise.mp hch
    refine List.chain_iff_pairwise.mpr ?_
    rw [List.pairwise_cons] at h1 ⊢
    refine ⟨fun a ha => h1.1 a (List.mem_append_left _ ha), ?_⟩
    exact (List.pairwise_append.mp h1.2).1
  · exact (drain_last comp capacity
      (fun x => ((all_cursors x).map cursor_origin).Perm ((all_cursors it).map cursor_origin))
      (fun x st om x1 h hp => (do_next_one_origin_perm h).trans hp)
      fuel it (out.map (·.2)) itf hd (List.Perm.refl _)).choose_spec.2.2

theorem pairwise_own_ts_chain {ms : List bt_message} (htimed : ∀ m ∈ ms, timed_msg m)
    (hsorted : (ms.filterMap own_ts).Pairwise (· ≤ ·)) :
    List.Chain (· ≤ ·) INT64_MIN (eff_ts INT64_MIN ms) := by
  apply chain_eff_ts
  refine List.chain_iff_pairwise.mpr (List.pairwise_cons.mpr ⟨?_, hsorted⟩)
  intro t ht
  obtain ⟨m, hm, hmt⟩ := List.mem_filterMap.mp ht
  exact (own_ts_range (htimed m hm) t hmt).1

theorem merge_input_ids_nodup (upstreams : List (List (List bt_message))) :
    (cursor_ids (merge_input upstreams)).Nodup := by
  simp only [cursor_ids, all_cursors, merge_input, initial_iter, List.append_nil,
    List.map_map]
  have : (upstreams.enum.map (cursor_id ∘ fun p =>
      ({ msg_iter := some (batch_upstream p.1 p.2), msgs := [] } : muxer_upstream_msg_iter))) =
      (upstreams.enum.map Prod.fst).map some := by
    rw [List.map_map]
    rfl
  rw [this, List.enum_map_fst]
  exact (List.nodup_range _).map (Option.some_injective _)

/-- The invariant of a merge at the start: a fresh iterator over
upstreams that deliver non-empty batches of messages that the muxer
expects, compatible for the clock class checks, with timestamps that do
not decrease in any upstream. -/
theorem gen_inv_merge_input (comp : muxer_comp) (upstreams : List (List (List bt_message)))
    (hbatch : ∀ bs ∈ upstreams, ∀ b ∈ bs, b ≠ [])
    (hmsg : ∀ bs ∈ upstreams, ∀ m ∈ bs.flatten, timed_msg m)
    (hsorted : ∀ bs ∈ upstreams, (bs.flatten.filterMap own_ts).Pairwise (· ≤ ·)) :
    gen_inv comp (upstreams.flatMap List.flatten) (merge_input upstreams) := by
  have hcur : ∀ c ∈ all_cursors (merge_input upstreams), ∃ i bs, bs ∈ upstreams ∧
      c = { msg_iter := some (batch_upstream i bs), msgs := [] } := by
    intro c hc
    simp only [all_cursors, merge_input, initial_iter, List.append_nil] at hc
    obtain ⟨p, hp, rfl⟩ := List.mem_map.mp hc
    exact ⟨p.1, p.2, List.snd_mem_of_mem_enum hp, rfl⟩
  refine ⟨⟨by simp [merge_input, initial_iter], fun _ h => absurd rfl h⟩, ⟨?_, ?_⟩, ?_, ?_, ?_,
    (by decide : INT64_MIN ≤ INT64_MAX), ?_⟩
  · intro c hc
    obtain ⟨i, bs, _, rfl⟩ := hcur c hc
    intro u hu a ha
    simp only [Option.some.injEq] at hu
    subst hu
    simp only [batch_upstream] at ha
    obtain ⟨b, _, rfl⟩ := List.mem_map.mp ha
    rfl
  · intro c hc
    simp [merge_input, initial_iter] at hc
  · intro c hc
    obtain ⟨i, bs, hbs, rfl⟩ := hcur c hc
    refine ⟨?_, by simp⟩
    intro u hu a ha _
    simp only [Option.mem_def, Option.some.injEq] at hu
    subst hu
    simp only [batch_upstream] at ha
    obtain ⟨b, hb, rfl⟩ := List.mem_map.mp ha
    exact hbatch bs hbs b hb
  · intro c hc m hm
    obtain ⟨i, bs, hbs, rfl⟩ := hcur c hc
    rw [cursor_stream_batch_upstream] at hm
    exact ⟨hmsg bs hbs m hm, List.mem_flatMap.mpr ⟨bs, hbs, hm⟩⟩
  · intro c hc
    obtain ⟨i, bs, hbs, rfl⟩ := hcur c hc
    rw [cursor_stream_batch_upstream]
    exact pairwise_own_ts_chain (hmsg bs hbs) (hsorted bs hbs)
  · exact merge_input_ids_nodup upstreams

/-- The invariant of a merge on an iterator with the cursors of
another one, in whatever order, no cursor ended, the same last returned
timestamp and the expectation "any". -/
theorem gen_inv_of_perm {comp : muxer_comp} {ms : List bt_message} {it0 it2 : muxer_msg_iter}
    (h0 : gen_inv comp ms it0) (he0 : it0.ended_muxer_upstream_msg_iters = [])
    (hperm : it2.active_muxer_upstream_msg_iters.Perm it0.active_muxer_upstream_msg_iters)
    (he : it2.ended_muxer_upstream_msg_iters = [])
    (hl : it2.last_returned_ts_ns = it0.last_returned_ts_ns)
    (hc : it2.clock_class_expectation = .ANY) : gen_inv comp ms it2 := by
  obtain ⟨_, hdone, hup, hms, hch, hmax, hid⟩ := h0
  have hall : all_cursors it2 = it2.active_muxer_upstream_msg_iters := by
    simp [all_cursors, he]
  have hall0 : all_cursors it0 = it0.active_muxer_upstream_msg_iters := by
    simp [all_cursors, he0]
  have hmem : ∀ c ∈ all_cursors it2, c ∈ all_cursors it0 := by
    intro c hcm
    rw [hall] at hcm
    rw [hall0]
    exact hperm.mem_iff.mp hcm
  refine ⟨⟨by rw [hc]; simp, fun _ h => absurd hc h⟩, ⟨fun c hcm => hdone.1 c (hmem c hcm), ?_⟩,
    fun c hcm => hup c (hmem c hcm), fun c hcm => hms c (hmem c hcm), ?_, by rw [hl]; exact hmax,
    ?_⟩
  · intro c hcm
    rw [he] at hcm
    simp at hcm
  · intro c hcm
    rw [hl]
    exact hch c (hmem c hcm)
  · unfold cursor_ids at hid ⊢
    rw [hall]
    rw [hall0] at hid
    exact (hperm.map cursor_id).nodup_iff.mpr hid

/-- In the output of a drain in which messages of different cursors are
never emitted with the same timestamp, the elements of the timestamp of
an element `x` of the cursor `c` are those of `c`, in the order of `c`. -/
theorem filter_fst_of_drain {it : muxer_msg_iter} {out : List (Int × bt_message)}
    {labels : List (Option Nat)} (hlen : labels.length = out.length)
    (hmem : ∀ l ∈ labels, l ∈ cursor_ids it)
    (hfifo : ∀ c ∈ all_cursors it, emitted_with_ts labels out (cursor_id c) = cursor_annot it c)
    (hties : ∀ c ∈ all_cursors it, ∀ d ∈ all_cursors it, ∀ x ∈ cursor_annot it c,
      ∀ y ∈ cursor_annot it d, x.1 = y.1 → cursor_id c = cursor_id d)
    (c : muxer_upstream_msg_iter) (hc : c ∈ all_cursors it) (x : Int × bt_message)
    (hx : x ∈ cursor_annot it c) :
    out.filter (fun p => decide (p.1 = x.1)) =
      (cursor_annot it c).filter (fun p => decide (p.1 = x.1)) := by
  rw [← hfifo c hc]
  apply filter_fst_of_labels labels out (cursor_id c) x.1 hlen
  intro p hp hts
  have hp1 : p.1 ∈ labels := (List.of_mem_zip hp).1
  obtain ⟨d, hd, hdid⟩ := List.mem_map.mp (hmem p.1 hp1)
  have hp2 : p.2 ∈ cursor_annot it d := by
    rw [← hfifo d hd, hdid]
    unfold emitted_with_ts
    exact List.mem_map.mpr ⟨p, List.mem_filter.mpr ⟨hp, by simp⟩, rfl⟩
  rw [← hdid]
  exact (hties c hc d hd x hx p.2 hp2 hts.symm).symm

/-- Two drains from starts of a merge with the same active cursors, in
whatever order, and the same last returned timestamp: the outputs have
the same messages, emitted with the same timestamps, and the same
sequence of timestamps; they are equal when messages of different
cursors are never emitted with the same timestamp. -/
theorem gen_drains_agree {ita itb : muxer_msg_iter} {outa outb : List (Int × bt_message)}
    {la lb : List (Option Nat)}
    (hea : ita.ended_muxer_upstream_msg_iters = [])
    (heb : itb.ended_muxer_upstream_msg_iters = [])
    (hperm : itb.active_muxer_upstream_msg_iters.Perm ita.active_muxer_upstream_msg_iters)
    (hlast : itb.last_returned_ts_ns = ita.last_returned_ts_ns)
    (hpa : outa.Perm ((all_cursors ita).flatMap (cursor_annot ita)))
    (hsa : (outa.map (·.1)).Pairwise (· ≤ ·))
    (hpb : outb.Perm ((all_cursors itb).flatMap (cursor_annot itb)))
    (hsb : (outb.map (·.1)).Pairwise (· ≤ ·))
    (hla : la.length = outa.length) (hma : ∀ l ∈ la, l ∈ cursor_ids ita)
    (hfa : ∀ c ∈ all_cursors ita, emitted_with_ts la outa (cursor_id c) = cursor_annot ita c)
    (hlb : lb.length = outb.length) (hmb : ∀ l ∈ lb, l ∈ cursor_ids itb)
    (hfb : ∀ c ∈ all_cursors itb, emitted_with_ts lb outb (cursor_id c) = cursor_annot itb c) :
    outb.Perm outa ∧ outb.map (·.1) = outa.map (·.1) ∧
      ((∀ c ∈ all_cursors ita, ∀ d ∈ all_cursors ita, ∀ x ∈ cursor_annot ita c,
        ∀ y ∈ cursor_annot ita d, x.1 = y.1 → cursor_id c = cursor_id d) →
        outb = outa) := by
  have hannot : ∀ c, cursor_annot itb c = cursor_annot ita c := by
    intro c
    unfold cursor_annot
    rw [hlast]
  have hallp : (all_cursors itb).Perm (all_cursors ita) := by
    unfold all_cursors
    rw [hea, heb, List.append_nil, List.append_nil]
    exact hperm
  have hrem : ((all_cursors itb).flatMap (cursor_annot itb)).Perm
      ((all_cursors ita).flatMap (cursor_annot ita)) := by
    have : cursor_annot itb = cursor_annot ita := funext hannot
    rw [this]
    exact hallp.flatMap_right _
  have hba : outb.Perm outa := hpb.trans (hrem.trans hpa.symm)
  have hall : ∀ c, c ∈ all_cursors itb ↔ c ∈ all_cursors ita := fun c => hallp.mem_iff
  refine ⟨hba, ?_, ?_⟩
  · exact List.eq_of_perm_of_sorted (hba.map (·.1)) hsb hsa
  · intro hties
    apply eq_of_sorted_of_filter_eq (fun p : Int × bt_message => p.1) outb outa hba hsb hsa
    intro t
    by_cases hex : ∃ c ∈ all_cursors ita, ∃ x ∈ cursor_annot ita c, x.1 = t
    · obtain ⟨c, hc, x, hx, rfl⟩ := hex
      have hb := filter_fst_of_drain hlb hmb hfb
        (fun c1 h1 d1 h2 x1 hx1 y1 hy1 =>
          hties c1 ((hall c1).mp h1) d1 ((hall d1).mp h2) x1 (by rw [← hannot]; exact hx1)
            y1 (by rw [← hannot]; exact hy1))
        c ((hall c).mpr hc) x (by rw [hannot]; exact hx)
      rw [filter_fst_of_drain hla hma hfa hties c hc x hx, hb, hannot]
    · have key : ∀ (out : List (Int × bt_message)),
          out.Perm ((all_cursors ita).flatMap (cursor_annot ita)) →
          out.filter (fun p => decide (p.1 = t)) = [] := by
        intro out hp
        rw [List.filter_eq_nil_iff]
        intro p hpm
        have hm1 := hp.mem_iff.mp hpm
        obtain ⟨c, hc, hmc⟩ := List.mem_flatMap.mp hm1
        intro hts
        exact hex ⟨c, hc, p, hmc, by simpa using hts⟩
      rw [key outb (hpb.trans hrem), key outa hpa]

theorem pending_count_merge_input (upstreams : List (List (List bt_message))) :
    pending_count (merge_input upstreams) = (upstreams.flatMap List.flatten).length := by
  have := remaining_merge_input upstreams
  unfold remaining at this
  unfold pending_count all_cursors
  simp only [merge_input, initial_iter, List.append_nil] at this ⊢
  rw [this]

theorem chain_pairwise_le {lo : Int} {l : List Int} (h : List.Chain (· ≤ ·) lo l) :
    l.Pairwise (· ≤ ·) :=
  (List.pairwise_cons.mp (List.chain_iff_pairwise.mp h)).2

/-- The seek round trip on a merge of messages of any type. -/
theorem gen_seek_round_trip (comp : muxer_comp) (capacity : Nat)
    (upstreams : List (List (List bt_message))) (hcap : 1 ≤ capacity)
    (hbatch : ∀ bs ∈ upstreams, ∀ b ∈ bs, b ≠ [])
    (hmsg : ∀ bs ∈ upstreams, ∀ m ∈ bs.flatten, timed_msg m)
    (hclock : clock_compatible comp (upstreams.flatMap List.flatten))
    (hsorted : ∀ bs ∈ upstreams, (bs.flatten.filterMap own_ts).Pairwise (· ≤ ·))
    (fuel : Nat) (hfuel : (upstreams.flatMap List.flatten).length + 1 ≤ fuel) :
    ∃ out1 out2 : List (Int × bt_message),
      drain_seek_drain comp capacity fuel (merge_input upstreams) =
        some (out1.map (·.2), out2.map (·.2)) ∧
      out2.Perm out1 ∧ out2.map (·.1) = out1.map (·.1) ∧
      (out1.map (·.1)).Pairwise (· ≤ ·) ∧
      (∃ l1 l2 : List (Option Nat), l1.length = out1.length ∧ l2.length = out2.length ∧
        ∀ (i : Nat) (bs : List (List bt_message)), upstreams[i]? = some bs →
          emitted_with_ts l1 out1 (some i) = annot INT64_MIN bs.flatten ∧
          emitted_with_ts l2 out2 (some i) = annot INT64_MIN bs.flatten) ∧
      ((∀ (i j : Nat) (bs1 bs2 : List (List bt_message)),
        upstreams[i]? = some bs1 → upstreams[j]? = some bs2 →
        ∀ x ∈ eff_ts INT64_MIN bs1.flatten, ∀ y ∈ eff_ts INT64_MIN bs2.flatten,
          x = y → i = j) → out2 = out1) := by
  have hstart := gen_inv_merge_input comp upstreams hbatch hmsg hsorted
  obtain ⟨out1, it1, hd1, hp1, hs1, ⟨l1, hl1, hm1, hf1⟩, hk⟩ :=
    drain_gen_from_start comp _ hclock capacity hcap (merge_input upstreams) hstart fuel
      (by rw [pending_count_merge_input]; exact hfuel)
  obtain ⟨hseek, hperm⟩ := seek_back_to_start hk (merge_input_fresh upstreams) rfl
  have hstart2 : gen_inv comp (upstreams.flatMap List.flatten) (iter_after_seek it1) :=
    gen_inv_of_perm hstart rfl hperm rfl rfl rfl
  have hcount2 : pending_count (iter_after_seek it1) = pending_count (merge_input upstreams) := by
    unfold pending_count all_cursors
    have he1 : (iter_after_seek it1).ended_muxer_upstream_msg_iters = [] := rfl
    have he0 : (merge_input upstreams).ended_muxer_upstream_msg_iters = [] := rfl
    rw [he1, he0, List.append_nil, List.append_nil]
    exact (hperm.flatMap_right cursor_stream).length_eq
  obtain ⟨out2, it3, hd2, hp2, hs2, ⟨l2, hl2, hm2, hf2⟩, _⟩ :=
    drain_gen_from_start comp _ hclock capacity hcap (iter_after_seek it1) hstart2 fuel
      (by rw [hcount2, pending_count_merge_input]; exact hfuel)
  obtain ⟨ha, hb, hc⟩ := @gen_drains_agree (merge_input upstreams) (iter_after_seek it1)
    out1 out2 l1 l2 rfl rfl hperm rfl hp1 (chain_pairwise_le hs1) hp2 (chain_pairwise_le hs2)
    hl1 hm1 hf1 hl2 hm2 hf2
  have hcursor : ∀ (i : Nat) (bs : List (List bt_message)), upstreams[i]? = some bs →
      ({ msg_iter := some (batch_upstream i bs), msgs := [] } : muxer_upstream_msg_iter) ∈
        all_cursors (merge_input upstreams) := by
    intro i bs hi
    simp only [all_cursors, merge_input, initial_iter, List.append_nil]
    exact List.mem_map.mpr ⟨(i, bs), List.mem_enum_iff_getElem?.mpr hi, rfl⟩
  have hannot0 : ∀ (i : Nat) (bs : List (List bt_message)),
      cursor_annot (merge_input upstreams)
        { msg_iter := some (batch_upstream i bs), msgs := [] } = annot INT64_MIN bs.flatten := by
    intro i bs
    unfold cursor_annot
    rw [cursor_stream_batch_upstream]
    rfl
  refine ⟨out1, out2, ?_, ha, hb, chain_pairwise_le hs1, ⟨l1, l2, hl1, hl2, ?_⟩, ?_⟩
  · unfold drain_seek_drain
    simp only [hd1, hseek, hd2]
  · intro i bs hi
    have hc0 := hcursor i bs hi
    have h1 := hf1 _ hc0
    have hc2 : ({ msg_iter := some (batch_upstream i bs), msgs := [] } :
        muxer_upstream_msg_iter) ∈ all_cursors (iter_after_seek it1) := by
      have : all_cursors (iter_after_seek it1) =
          (iter_after_seek it1).active_muxer_upstream_msg_iters := by
        simp [all_cursors, iter_after_seek]
      rw [this]
      have h0 : all_cursors (merge_input upstreams) =
          (merge_input upstreams).active_muxer_upstream_msg_iters := by
        simp [all_cursors, merge_input, initial_iter]
      rw [h0] at hc0
      exact hperm.mem_iff.mpr hc0
    have h2 := hf2 _ hc2
    have hid : cursor_id ({ msg_iter := some (batch_upstream i bs), msgs := [] } :
        muxer_upstream_msg_iter) = some i := rfl
    rw [hid] at h1 h2
    rw [hannot0] at h1
    have hannot2 : cursor_annot (iter_after_seek it1)
        { msg_iter := some (batch_upstream i bs), msgs := [] } =
        annot INT64_MIN bs.flatten := by
      unfold cursor_annot
      rw [cursor_stream_batch_upstream]
      rfl
    rw [hannot2] at h2
    exact ⟨h1, h2⟩
  · intro hties
    apply hc
    intro c hcm d hdm x hx y hy hts
    simp only [all_cursors, merge_input, initial_iter, List.append_nil] at hcm hdm
    obtain ⟨p, hp, rfl⟩ := List.mem_map.mp hcm
    obtain ⟨q, hq, rfl⟩ := List.mem_map.mp hdm
    rw [hannot0] at hx hy
    have hx1 : x.1 ∈ eff_ts INT64_MIN p.2.flatten := by
      rw [← annot_fst]
      exact List.mem_map_of_mem _ hx
    have hy1 : y.1 ∈ eff_ts INT64_MIN q.2.flatten := by
      rw [← annot_fst]
      exact List.mem_map_of_mem _ hy
    have := hties p.1 q.1 p.2 q.2 (List.mem_enum_iff_getElem?.mp hp)
      (List.mem_enum_iff_getElem?.mp hq) x.1 hx1 y.1 hy1 hts
    simp [cursor_id, batch_upstream, this]

/-- A drain of a fresh iterator over upstreams that deliver non-empty
batches of messages of any type that the muxer expects, compatible for
the clock class checks, with timestamps that do not decrease in any
upstream: with enough calls it ends on `END`; the output, each message
with the timestamp with which it is emitted, holds the messages of the
upstreams, in non-decreasing order of timestamp, those of each upstream
in their order. -/
theorem gen_drain_merge_input (comp : muxer_comp) (capacity : Nat)
    (upstreams : List (List (List bt_message))) (hcap : 1 ≤ capacity)
    (hbatch : ∀ bs ∈ upstreams, ∀ b ∈ bs, b ≠ [])
    (hmsg : ∀ bs ∈ upstreams, ∀ m ∈ bs.flatten, timed_msg m)
    (hclock : clock_compatible comp (upstreams.flatMap List.flatten))
    (hsorted : ∀ bs ∈ upstreams, (bs.flatten.filterMap own_ts).Pairwise (· ≤ ·))
    (fuel : Nat) (hfuel : (upstreams.flatMap List.flatten).length + 1 ≤ fuel) :
    ∃ (out : List (Int × bt_message)) (itf : muxer_msg_iter),
      drain comp capacity fuel (merge_input upstreams) = some (.END, out.map (·.2), itf) ∧
      out.Perm (upstreams.flatMap (fun bs => annot INT64_MIN bs.flatten)) ∧
      (out.map (·.1)).Pairwise (· ≤ ·) ∧
      ∃ labels : List (Option Nat), labels.length = out.length ∧
        ∀ (i : Nat) (bs : List (List bt_message)), upstreams[i]? = some bs →
          emitted_with_ts labels out (some i) = annot INT64_MIN bs.flatten := by
  have hstart := gen_inv_merge_input comp upstreams hbatch hmsg hsorted
  obtain ⟨out, itf, hd, hp, hs, ⟨labels, hl, hm, hf⟩, _⟩ :=
    drain_gen_from_start comp _ hclock capacity hcap (merge_input upstreams) hstart fuel
      (by rw [pending_count_merge_input]; exact hfuel)
  have hannot0 : ∀ (i : Nat) (bs : List (List bt_message)),
      cursor_annot (merge_input upstreams)
        { msg_iter := some (batch_upstream i bs), msgs := [] } = annot INT64_MIN bs.flatten := by
    intro i bs
    unfold cursor_annot
    rw [cursor_stream_batch_upstream]
    rfl
  refine ⟨out, itf, hd, ?_, chain_pairwise_le hs, labels, hl, ?_⟩
  · refine hp.trans ?_
    have : (all_cursors (merge_input upstreams)).flatMap (cursor_annot (merge_input upstreams)) =
        upstreams.flatMap (fun bs => annot INT64_MIN bs.flatten) := by
      simp only [all_cursors, merge_input, initial_iter, List.append_nil]
      rw [List.flatMap_map]
      have h1 : (upstreams.enum.flatMap fun p =>
          cursor_annot (merge_input upstreams)
            { msg_iter := some (batch_upstream p.1 p.2), msgs := [] }) =
          upstreams.enum.flatMap (fun p => annot INT64_MIN p.2.flatten) :=
        List.flatMap_congr (fun p _ => hannot0 p.1 p.2)
      simp only [merge_input, initial_iter] at h1
      rw [h1]
      have h2 : (upstreams.enum.flatMap fun p => annot INT64_MIN p.2.flatten) =
          (upstreams.enum.map Prod.snd).flatMap (fun bs => annot INT64_MIN bs.flatten) := by
        rw [List.flatMap_map]
      rw [h2, List.enum_map_snd]
    rw [this]
  · intro i bs hi
    have hc0 : ({ msg_iter := some (batch_upstream i bs), msgs := [] } :
        muxer_upstream_msg_iter) ∈ all_cursors (merge_input upstreams) := by
      simp only [all_cursors, merge_input, initial_iter, List.append_nil]
      exact List.mem_map.mpr ⟨(i, bs), List.mem_enum_iff_getElem?.mpr hi, rfl⟩
    have h1 := hf _ hc0
    rw [hannot0] at h1
    exact h1

/-- The own timestamps of the messages of an output whose elements carry
the own timestamp of their message, when it has one, are among the
timestamps of the output, in the same order. -/
theorem own_ts_sublist : ∀ out : List (Int × bt_message),
    (∀ p ∈ out, ∀ t ∈ own_ts p.2, p.1 = t) →
    ((out.map (·.2)).filterMap own_ts).Sublist (out.map (·.1))
  | [], _ => List.Sublist.slnil
  | p :: out, h => by
    have ih := own_ts_sublist out (fun q hq => h q (List.mem_cons_of_mem _ hq))
    simp only [List.map_cons, List.filterMap_cons]
    cases ho : own_ts p.2 with
    | none => exact List.Sublist.cons _ ih
    | some t =>
      have := h p (List.mem_cons_self _ _) t ho
      simp only
      rw [← this]
      exact List.Sublist.cons₂ _ ih

/-- With `assume-absolute-clock-classes`, the clock check of a head that
is not the beginning of a stream without clock class, from a state other
than "no clock class": when it returns, it returns success, and the state
is not "no clock class". -/
theorem validate_head_clock_class_assume {comp : muxer_comp} {s s1 : muxer_msg_iter}
    {m : bt_message} {r : Int} (hf : comp.assume_absolute_clock_classes = true)
    (hne : s.clock_class_expectation ≠ .NONE)
    (hsb : m.type = .STREAM_BEGINNING → m.stream_class_default_clock_class.isSome = true)
    (h : validate_head_clock_class s comp m = some (r, s1)) :
    r = 0 ∧ s1.clock_class_expectation ≠ .NONE := by
  have key : ∀ cc, validate_clock_class s comp cc = some (r, s1) →
      r = 0 ∧ s1.clock_class_expectation ≠ .NONE := by
    intro cc hv
    obtain ⟨it1, h1, _, h3, _, _⟩ := @validate_clock_class_inv s comp cc hne
      (fun h0 => by rw [hf] at h0; simp at h0)
    rw [h1] at hv
    simp only [Option.some.injEq, Prod.mk.injEq] at hv
    exact ⟨hv.1.symm, by rw [← hv.2]; exact h3⟩
  unfold validate_head_clock_class at h
  split_ifs at h with h1 h2
  · obtain ⟨cc, hcc⟩ := Option.isSome_iff_exists.mp (hsb h1)
    unfold validate_new_stream_clock_class at h
    rw [hcc] at h
    exact key cc h
  · split at h
    · simp at h
    · exact key _ h
  · simp only [Option.some.injEq, Prod.mk.injEq] at h
    exact ⟨h.1.symm, by rw [← h.2]; exact hne⟩

theorem youngest_loop_assume (comp : muxer_comp)
    (hf : comp.assume_absolute_clock_classes = true) :
    ∀ (cursors : List muxer_upstream_msg_iter) (i : Nat) (it : muxer_msg_iter)
      (chosen : Option Nat) (y : Int) (st : bt_message_iterator_status)
      (it1 : muxer_msg_iter) (ch1 : Option Nat) (y1 : Int),
      it.clock_class_expectation ≠ .NONE →
      (∀ c ∈ cursors, ∀ m ∈ c.msgs.head?,
        m.type = .STREAM_BEGINNING → m.stream_class_default_clock_class.isSome = true) →
      youngest_loop comp cursors i it chosen y = some (st, it1, ch1, y1) →
      it1.clock_class_expectation ≠ .NONE ∧
        (st = .ERROR → ∃ c ∈ cursors, ∃ m ∈ c.msgs.head?,
          get_msg_ts_ns it m it.last_returned_ts_ns = some .error) := by
  intro cursors
  induction cursors with
  | nil =>
    intro i it chosen y st it1 ch1 y1 hne _ h
    simp [youngest_loop] at h
    exact ⟨by rw [← h.2.1]; exact hne, fun hst => absurd hst (by rw [← h.1]; simp)⟩
  | cons c rest ih =>
    intro i it chosen y st it1 ch1 y1 hne hheads h
    have hrest : ∀ c ∈ rest, ∀ m ∈ c.msgs.head?,
        m.type = .STREAM_BEGINNING → m.stream_class_default_clock_class.isSome = true :=
      fun x hx => hheads x (List.mem_cons_of_mem _ hx)
    rw [youngest_loop] at h
    cases hu : c.msg_iter with
    | none =>
      simp only [hu] at h
      obtain ⟨h1, h2⟩ := ih _ _ _ _ _ _ _ _ hne hrest h
      exact ⟨h1, fun hst => by
        obtain ⟨x, hx, m, hm, hts⟩ := h2 hst
        exact ⟨x, List.mem_cons_of_mem _ hx, m, hm, hts⟩⟩
    | some u =>
      simp only [hu] at h
      cases hq : c.msgs with
      | nil => simp [hq] at h
      | cons msg q =>
        simp only [hq] at h
        cases hv : validate_head_clock_class it comp msg with
        | none => simp [hv] at h
        | some r =>
          obtain ⟨ret, it2⟩ := r
          simp only [hv] at h
          have hsame := validate_head_clock_class_same_cursors hv
          obtain ⟨hret, hne2⟩ := validate_head_clock_class_assume hf hne
            (hheads c (List.mem_cons_self _ _) msg (by simp [hq])) hv
          subst hret
          simp only [ne_eq, not_true_eq_false, if_false] at h
          have hcongr : get_msg_ts_ns it2 msg it2.last_returned_ts_ns =
              get_msg_ts_ns it msg it.last_returned_ts_ns := by
            rw [hsame.2.2]
            exact get_msg_ts_ns_congr msg _ ⟨fun h0 => absurd h0 hne2, fun h0 => absurd h0 hne⟩
          have hlift : ∀ {st : bt_message_iterator_status} {it1 : muxer_msg_iter},
              (it1.clock_class_expectation ≠ .NONE ∧
                (st = .ERROR → ∃ x ∈ rest, ∃ m ∈ x.msgs.head?,
                  get_msg_ts_ns it2 m it2.last_returned_ts_ns = some .error)) →
              it1.clock_class_expectation ≠ .NONE ∧
                (st = .ERROR → ∃ x ∈ c :: rest, ∃ m ∈ x.msgs.head?,
                  get_msg_ts_ns it m it.last_returned_ts_ns = some .error) := by
            intro st it1 hr
            refine ⟨hr.1, fun hst => ?_⟩
            obtain ⟨x, hx, m, hm, hts⟩ := hr.2 hst
            refine ⟨x, List.mem_cons_of_mem _ hx, m, hm, ?_⟩
            rw [← hts, hsame.2.2]
            exact get_msg_ts_ns_congr m _ ⟨fun h0 => absurd h0 hne, fun h0 => absurd h0 hne2⟩
          cases hts : get_msg_ts_ns it2 msg it2.last_returned_ts_ns with
          | none => simp [hts] at h
          | some res =>
            cases res with
            | error =>
              simp only [hts, Option.some.injEq, Prod.mk.injEq] at h
              refine ⟨by rw [← h.2.1]; exact hne2, fun _ =>
                ⟨c, List.mem_cons_self _ _, msg, by simp [hq], ?_⟩⟩
              rw [← hcongr]; exact hts
            | ok t =>
              simp only [hts] at h
              split_ifs at h
              · exact hlift (ih _ _ _ _ _ _ _ _ hne2 hrest h)
              · exact hlift (ih _ _ _ _ _ _ _ _ hne2 hrest h)

/-- With `assume-absolute-clock-classes`, a call of `next_one` from a
state other than "no clock class", no head being the beginning of a
stream without clock class after the validation of the cursors: the state
afterwards is not "no clock class" either, and `ERROR` comes only from
the validation of the cursors, from a timestamp that cannot be computed
or from a timestamp below the last returned one. -/
theorem do_next_one_assume {comp : muxer_comp} {it it1 : muxer_msg_iter}
    {st : bt_message_iterator_status} {om : Option bt_message}
    (hf : comp.assume_absolute_clock_classes = true)
    (hne : it.clock_class_expectation ≠ .NONE)
    (hheads : ∀ sv itv, validate_muxer_upstream_msg_iters it = some (sv, itv) →
      ∀ c ∈ itv.active_muxer_upstream_msg_iters, ∀ m ∈ c.msgs.head?,
        m.type = .STREAM_BEGINNING → m.stream_class_default_clock_class.isSome = true)
    (h : muxer_msg_iter_do_next_one comp it = some (st, om, it1)) :
    it1.clock_class_expectation ≠ .NONE ∧
      ∃ sv itv, validate_muxer_upstream_msg_iters it = some (sv, itv) ∧
        (st = .ERROR →
          sv = .ERROR ∨
          (∃ c ∈ itv.active_muxer_upstream_msg_iters, ∃ m ∈ c.msgs.head?,
            get_msg_ts_ns itv m itv.last_returned_ts_ns = some .error) ∨
          ∃ it2 ch ts, muxer_msg_iter_youngest_upstream_msg_iter comp itv =
            some (.OK, it2, ch, ts) ∧ ts < it2.last_returned_ts_ns) := by
  obtain ⟨sv, itv, hv, hcases⟩ := do_next_one_cases h
  have hh := hheads sv itv hv
  have hclock := validate_same_clock hv
  have hnev : itv.clock_class_expectation ≠ .NONE := by rw [hclock.2.1]; exact hne
  have hyoung : ∀ sy it2 ch ts,
      muxer_msg_iter_youngest_upstream_msg_iter comp itv = some (sy, it2, ch, ts) →
      it2.clock_class_expectation ≠ .NONE ∧
        (sy = .ERROR → ∃ c ∈ itv.active_muxer_upstream_msg_iters,
          ∃ m ∈ c.msgs.head?, get_msg_ts_ns itv m itv.last_returned_ts_ns = some .error) := by
    intro sy it2 ch ts hy
    unfold muxer_msg_iter_youngest_upstream_msg_iter at hy
    cases hl : youngest_loop comp itv.active_muxer_upstream_msg_iters 0 itv none INT64_MAX with
    | none => simp [hl] at hy
    | some r =>
      obtain ⟨s, itb, chb, yb⟩ := r
      have hother := youngest_loop_assume comp hf _ _ _ _ _ _ _ _ _ hnev hh hl
      rw [hl] at hy
      split at hy
      · simp at hy
      · rename_i heq
        simp only [Option.some.injEq, Prod.mk.injEq] at heq hy
        obtain ⟨rfl, rfl, _, _⟩ := heq
        refine ⟨by rw [← hy.2.1]; exact hother.1, fun hs => ?_⟩
        rw [← hy.1] at hs
        simp at hs
      · rename_i heq
        simp only [Option.some.injEq] at heq hy
        subst heq
        simp only [Prod.mk.injEq] at hy
        obtain ⟨rfl, rfl, _, _⟩ := hy
        exact hother
  rcases hcases with ⟨hnok, hst, _, hit⟩ | ⟨hsv, sy, it2, ch, ts, hy, hcases⟩
  · subst hit hst
    exact ⟨hnev, st, it1, hv, fun hs => Or.inl hs⟩
  · obtain ⟨hne2, herr⟩ := hyoung sy it2 ch ts hy
    rcases hcases with ⟨_, hst, _, hit⟩ | ⟨hsy, hlt, _, _, hit⟩ |
      ⟨_, _, hst, idx, c, msg, rest, _, _, _, _, hit⟩
    · subst hit hst
      exact ⟨hne2, sv, itv, hv, fun hs => Or.inr (Or.inl (herr hs))⟩
    · subst hit hsy
      exact ⟨hne2, sv, itv, hv, fun _ => Or.inr (Or.inr ⟨it1, ch, ts, hy, hlt⟩)⟩
    · subst hit hst
      refine ⟨hne2, sv, itv, hv, fun hs => ?_⟩
      simp at hs

/-- A call of `next_one` adds no message to a cursor: the messages that
a cursor has to give afterwards are messages that the cursor of the same
upstream had to give before. -/
theorem do_next_one_stream_mem {comp : muxer_comp} {it it' : muxer_msg_iter}
    {st : bt_message_iterator_status} {om : Option bt_message}
    (h : muxer_msg_iter_do_next_one comp it = some (st, om, it')) :
    ∀ c1 ∈ all_cursors it', ∃ c ∈ all_cursors it, cursor_id c = cursor_id c1 ∧
      ∀ m ∈ cursor_stream c1, m ∈ cursor_stream c := by
  obtain ⟨sv, it1, hv, hc⟩ := do_next_one_cursors h
  have key : ∀ c1 ∈ all_cursors it1, ∃ c ∈ all_cursors it, cursor_id c = cursor_id c1 ∧
      ∀ m ∈ cursor_stream c1, m ∈ cursor_stream c := by
    intro c1 hc1
    obtain ⟨c0, hc0, hid, hs⟩ := validate_cursor_of_origin hv c1 hc1
    exact ⟨c0, hc0, hid, fun m hm => by rw [hs]; exact hm⟩
  intro c1 hc1
  rcases hc with ⟨ha, he⟩ | ⟨idx, c, msg, rest, hc, hm, ha, he⟩
  · apply key
    unfold all_cursors at hc1 ⊢
    rw [ha, he] at hc1
    exact hc1
  · unfold all_cursors at hc1
    rw [ha, he] at hc1
    rcases List.mem_append.mp hc1 with hx | hx
    · rcases List.mem_or_eq_of_mem_set hx with hx | hx
      · exact key c1 (List.mem_append_left _ hx)
      · subst hx
        have hcm : c ∈ all_cursors it1 :=
          List.mem_append_left _ (List.mem_iff_getElem?.mpr ⟨idx, hc⟩)
        obtain ⟨c0, hc0, hid, hs⟩ := key c hcm
        refine ⟨c0, hc0, hid, fun m hmm => hs m ?_⟩
        unfold cursor_stream at hmm ⊢
        rw [hm]
        simp only [List.cons_append, List.mem_cons]
        exact Or.inr hmm
    · exact key c1 (List.mem_append_right _ hx)

theorem do_next_one_within_int64 {comp : muxer_comp} {it it' : muxer_msg_iter}
    {st : bt_message_iterator_status} {om : Option bt_message}
    (h : muxer_msg_iter_do_next_one comp it = some (st, om, it')) (hinv : within_int64 it) :
    within_int64 it' := by
  obtain ⟨hup, hts, hlast⟩ := hinv
  refine ⟨?_, ?_, ?_⟩
  · intro c1 hc1 hn
    obtain ⟨c, hc, hid, _⟩ := do_next_one_stream_mem h c1 hc1
    apply hup c hc
    have : cursor_id c = none := by rw [hid]; simp [cursor_id, hn]
    simpa [cursor_id] using this
  · intro c1 hc1 m hm
    obtain ⟨c, hc, _, hs⟩ := do_next_one_stream_mem h c1 hc1
    exact hts c hc m (hs m hm)
  · obtain ⟨sv, it1, hv, hcases⟩ := do_next_one_cases h
    have hclock := validate_same_clock hv
    have hl1 : it1.last_returned_ts_ns ≤ INT64_MAX := by rw [hclock.1]; exact hlast
    rcases hcases with ⟨_, _, _, hit⟩ | ⟨hsv, sy, it2, ch, ts, hy, hcases⟩
    · rw [hit]; exact hl1
    · have hsame := (youngest_same_cursors hy).1
      have hl2 : it2.last_returned_ts_ns ≤ INT64_MAX := by rw [hsame.2.2]; exact hl1
      rcases hcases with ⟨_, _, _, hit⟩ | ⟨_, _, _, _, hit⟩ |
        ⟨hsy, _, _, idx, c, msg, rest, _, _, _, _, hit⟩
      · rw [hit]; exact hl2
      · rw [hit]; exact hl2
      · subst hsy
        rw [hit]
        obtain ⟨_, _, _, _, hl⟩ := youngest_ok_spec hy
        exact (youngest_loop_spec comp _ _ _ _ _ _ _ _ hl).2.1

/-- A call of `next_one` that returns `END`, the timestamps being in the
range of an `int64_t`: no active cursor is left. -/
theorem do_next_one_end_active_empty {comp : muxer_comp} {it it' : muxer_msg_iter}
    {om : Option bt_message}
    (h : muxer_msg_iter_do_next_one comp it = some (.END, om, it')) (hinv : within_int64 it) :
    it'.active_muxer_upstream_msg_iters = [] := by
  obtain ⟨hup, hts, hlast⟩ := hinv
  obtain ⟨sv, it1, hv, hcases⟩ := do_next_one_cases h
  rcases hcases with ⟨hne, hst, _, _⟩ | ⟨hsv, sy, it2, ch, ts, hy, hcases⟩
  · subst hst
    rcases validate_loop_status _ _ _ _ _ hv with h1 | h1 | h1 <;> simp at h1
  · subst hsv
    rcases hcases with ⟨_, hst, hom, hit⟩ | ⟨_, _, hst, _⟩ | ⟨_, _, hst, _⟩
    · subst hst hit
      have hclock := validate_same_clock hv
      have hsame := (youngest_same_cursors hy).1
      rw [hsame.1]
      unfold muxer_msg_iter_youngest_upstream_msg_iter at hy
      cases hact : it1.active_muxer_upstream_msg_iters with
      | nil => rfl
      | cons c rest =>
        exfalso
        rw [hact] at hy
        have hc1 : c ∈ all_cursors it1 :=
          List.mem_append_left _ (by rw [hact]; exact List.mem_cons_self _ _)
        obtain ⟨c0, hc0, hid, hstream⟩ := validate_cursor_of_origin hv c hc1
        have hupc : c.msg_iter ≠ none := by
          intro hn
          have h0 := hup c0 hc0
          have : cursor_id c0 = none := by rw [hid]; simp [cursor_id, hn]
          simp only [cursor_id, Option.map_eq_none'] at this
          exact h0 this
        have hhead : ∀ m ∈ c.msgs.head?, ts_le_int64_max m := by
          intro m hm
          apply hts c0 hc0 m
          rw [hstream]
          unfold cursor_stream
          exact List.mem_append_left _ (List.mem_of_mem_head? hm)
        cases hl : youngest_loop comp (c :: rest) 0 it1 none INT64_MAX with
        | none => simp [hl] at hy
        | some r =>
          obtain ⟨s, itb, chb, yb⟩ := r
          rcases (youngest_loop_same_cursors comp _ _ _ _ _ _ _ _ _ hl).2 with hs | hs
          · subst hs
            have hsome := youngest_loop_head_chosen comp c rest 0 it1 none INT64_MAX
              itb chb yb hl hupc hhead (by rw [hclock.1]; exact hlast) (le_refl _)
            obtain ⟨k, hk⟩ := Option.isSome_iff_exists.mp hsome
            subst hk
            simp [hl] at hy
          · subst hs
            simp [hl] at hy
    · simp at hst
    · simp at hst

/-- At the end of a drain that ends on `END`, the timestamps being in
the range of an `int64_t` and the upstreams having only `OK` answers to
give before they end, no cursor has anything left to give. -/
theorem drain_end_streams_empty {comp : muxer_comp} {capacity fuel : Nat}
    {it itf : muxer_msg_iter} {out : List bt_message}
    (hd : drain comp capacity fuel it = some (.END, out, itf))
    (hinv : within_int64 it) (hdone : ended_are_done it) :
    ∀ c ∈ all_cursors itf, cursor_stream c = [] := by
  obtain ⟨a, ⟨ha1, _⟩, hlast, ⟨_, hf2⟩⟩ := drain_last comp capacity
    (fun x => within_int64 x ∧ ended_are_done x)
    (fun x st om x1 h hp => ⟨do_next_one_within_int64 h hp.1, do_next_one_ended_are_done h hp.2⟩)
    fuel it out itf hd ⟨hinv, hdone⟩
  obtain ⟨_, hone⟩ := do_next_not_ok hlast (by simp)
  have hact := do_next_one_end_active_empty hone ha1
  intro c hc
  unfold all_cursors at hc
  rw [hact, List.nil_append] at hc
  exact hf2.2 c hc

theorem emitted_from_partition (ids : List (Option Nat)) (hnd : ids.Nodup) :
    ∀ (out : List bt_message) (labels : List (Option Nat)),
      labels.length = out.length → (∀ l ∈ labels, l ∈ ids) →
      (ids.flatMap (emitted_from labels out)).Perm out := by
  intro out
  induction out with
  | nil =>
    intro labels hl _
    have : labels = [] := List.length_eq_zero.mp (by simpa using hl)
    subst this
    simp [emitted_from]
  | cons p t ih =>
    intro labels hl hm
    cases labels with
    | nil => simp at hl
    | cons l ls =>
      have hl2 : ls.length = t.length := by simpa using hl
      have ih2 := ih ls hl2 (fun x hx => hm x (List.mem_cons_of_mem _ hx))
      have hfun : (fun i => emitted_from (l :: ls) (p :: t) i) =
          (fun i => if l = i then p :: emitted_from ls t i else emitted_from ls t i) := by
        funext i
        unfold emitted_from
        simp only [List.zip_cons_cons, List.filter_cons]
        by_cases hli : l = i <;> simp [hli]
      show (ids.flatMap (fun i => emitted_from (l :: ls) (p :: t) i)).Perm (p :: t)
      rw [hfun]
      exact (flatMap_ite_perm l p (emitted_from ls t) ids hnd
        (hm l (List.mem_cons_self _ _))).trans (List.Perm.cons p ih2)

/-- A drain that ends on `END`, the timestamps being in the range of an
`int64_t` and the upstreams having only `OK` answers to give before they
end: the output holds what the cursors had to give, and the messages
attributed to each cursor by a labelling of the output are the whole
sequence of that cursor, in order.  The cursors at the end have the
origins of those at the start. -/
theorem drain_fifo_complete {comp : muxer_comp} {capacity fuel : Nat}
    {it itf : muxer_msg_iter} {out : List bt_message}
    (hd : drain comp capacity fuel it = some (.END, out, itf))
    (hid : (cursor_ids it).Nodup) (hinv : within_int64 it) (hdone : ended_are_done it) :
    out.Perm ((all_cursors it).flatMap cursor_stream) ∧
      (∃ labels : List (Option Nat), labels.length = out.length ∧
        ∀ c ∈ all_cursors it, emitted_from labels out (cursor_id c) = cursor_stream c) ∧
      ((all_cursors itf).map cursor_origin).Perm ((all_cursors it).map cursor_origin) := by
  have hempty := drain_end_streams_empty hd hinv hdone
  obtain ⟨labels, hl, hmem, hp⟩ := drain_fifo comp capacity fuel it _ out itf hid hd
  have hall : ∀ c ∈ all_cursors it, emitted_from labels out (cursor_id c) = cursor_stream c := by
    intro c hc
    have hin : (cursor_id c, cursor_stream c) ∈
        (all_cursors it).map (fun c => (cursor_id c, cursor_stream c)) :=
      List.mem_map_of_mem _ hc
    obtain ⟨c1, hc1, heq⟩ := List.mem_map.mp (hp.mem_iff.mpr hin)
    simp only [Prod.mk.injEq] at heq
    rw [hempty c1 hc1, List.append_nil, heq.1] at heq
    exact heq.2
  refine ⟨?_, ⟨labels, hl, hall⟩, ?_⟩
  · have h1 := emitted_from_partition (cursor_ids it) hid out labels hl hmem
    refine h1.symm.trans ?_
    unfold cursor_ids
    rw [List.flatMap_map]
    rw [List.flatMap_congr hall]
  · exact (drain_last comp capacity
      (fun x => ((all_cursors x).map cursor_origin).Perm ((all_cursors it).map cursor_origin))
      (fun x st om x1 h hp => (do_next_one_origin_perm h).trans hp)
      fuel it out itf hd (List.Perm.refl _)).choose_spec.2.2

theorem ended_are_done_merge_input (upstreams : List (List (List bt_message))) :
    ended_are_done (merge_input upstreams) := by
  refine ⟨?_, ?_⟩
  · intro c hc
    simp only [all_cursors, merge_input, initial_iter, List.append_nil] at hc
    obtain ⟨p, _, rfl⟩ := List.mem_map.mp hc
    intro u hu a ha
    simp only [Option.some.injEq] at hu
    subst hu
    simp only [batch_upstream] at ha
    obtain ⟨b, _, rfl⟩ := List.mem_map.mp ha
    rfl
  · intro c hc
    simp [merge_input, initial_iter] at hc

theorem within_int64_merge_input (upstreams : List (List (List bt_message)))
    (hts : ∀ bs ∈ upstreams, ∀ m ∈ bs.flatten, ts_le_int64_max m) :
    within_int64 (merge_input upstreams) := by
  refine ⟨?_, ?_, (by decide : INT64_MIN ≤ INT64_MAX)⟩
  · intro c hc
    simp only [all_cursors, merge_input, initial_iter, List.append_nil] at hc
    obtain ⟨p, _, rfl⟩ := List.mem_map.mp hc
    simp
  · intro c hc m hm
    simp only [all_cursors, merge_input, initial_iter, List.append_nil] at hc
    obtain ⟨p, hp, rfl⟩ := List.mem_map.mp hc
    rw [cursor_stream_batch_upstream] at hm
    exact hts p.2 (List.mem_iff_getElem?.mpr ⟨p.1, List.mem_enum_iff_getElem?.mp hp⟩) m hm

/-- Whatever the upstreams deliver, with timestamps in the range of an
`int64_t`: when a drain until `END`, a seek to the beginning and a second
drain until `END` go through, the two outputs hold the same messages, and
in each of them the messages of every upstream are all the messages of
that upstream, in its order. -/
theorem fifo_round_trip (comp : muxer_comp) (capacity fuel : Nat)
    (upstreams : List (List (List bt_message)))
    (hts : ∀ bs ∈ upstreams, ∀ m ∈ bs.flatten, ts_le_int64_max m)
    (out1 out2 : List bt_message)
    (h : drain_seek_drain comp capacity fuel (merge_input upstreams) = some (out1, out2)) :
    out2.Perm out1 ∧
      ∃ l1 l2 : List (Option Nat), l1.length = out1.length ∧ l2.length = out2.length ∧
        ∀ (i : Nat) (bs : List (List bt_message)), upstreams[i]? = some bs →
          emitted_from l1 out1 (some i) = bs.flatten ∧
          emitted_from l2 out2 (some i) = bs.flatten := by
  unfold drain_seek_drain at h
  split at h
  swap
  · simp at h
  rename_i o1 it1 hd1
  split at h
  swap
  · simp at h
  rename_i it2 hseek
  split at h
  swap
  · simp at h
  rename_i o2 it3 hd2
  simp only [Option.some.injEq, Prod.mk.injEq] at h
  obtain ⟨rfl, rfl⟩ := h
  have hid := merge_input_ids_nodup upstreams
  have hin := within_int64_merge_input upstreams hts
  have hdone := ended_are_done_merge_input upstreams
  obtain ⟨hp1, ⟨l1, hl1, hf1⟩, hk⟩ := drain_fifo_complete hd1 hid hin hdone
  obtain ⟨hseek2, hperm⟩ := seek_back_to_start hk (merge_input_fresh upstreams) rfl
  rw [hseek2] at hseek
  simp only [Option.some.injEq, Prod.mk.injEq, true_and] at hseek
  subst hseek
  have he2 : (iter_after_seek it1).ended_muxer_upstream_msg_iters = [] := by
    simp [iter_after_seek]
  have hall2 : all_cursors (iter_after_seek it1) =
      (iter_after_seek it1).active_muxer_upstream_msg_iters := by
    simp [all_cursors, he2]
  have hall0 : all_cursors (merge_input upstreams) =
      (merge_input upstreams).active_muxer_upstream_msg_iters := by
    simp [all_cursors, merge_input, initial_iter]
  have hpall : (all_cursors (iter_after_seek it1)).Perm (all_cursors (merge_input upstreams)) := by
    rw [hall2, hall0]; exact hperm
  have hid2 : (cursor_ids (iter_after_seek it1)).Nodup :=
    ((hpall.map cursor_id).nodup_iff).mpr hid
  have hin2 : within_int64 (iter_after_seek it1) :=
    ⟨fun c hc => hin.1 c (hpall.mem_iff.mp hc),
      fun c hc => hin.2.1 c (hpall.mem_iff.mp hc),
      by simp only [iter_after_seek]; decide⟩
  have hdone2 : ended_are_done (iter_after_seek it1) :=
    ⟨fun c hc => hdone.1 c (hpall.mem_iff.mp hc), fun c hc => by rw [he2] at hc; simp at hc⟩
  obtain ⟨hp2, ⟨l2, hl2, hf2⟩, _⟩ := drain_fifo_complete hd2 hid2 hin2 hdone2
  refine ⟨?_, l1, l2, hl1, hl2, ?_⟩
  · exact hp2.trans ((hpall.flatMap_right cursor_stream).trans hp1.symm)
  · intro i bs hi
    have hc0 : ({ msg_iter := some (batch_upstream i bs), msgs := [] } :
        muxer_upstream_msg_iter) ∈ all_cursors (merge_input upstreams) := by
      simp only [all_cursors, merge_input, initial_iter, List.append_nil]
      exact List.mem_map.mpr ⟨(i, bs), List.mem_enum_iff_getElem?.mpr hi, rfl⟩
    have h1 := hf1 _ hc0
    have h2 := hf2 _ (hpall.mem_iff.mpr hc0)
    rw [cursor_stream_batch_upstream] at h1 h2
    exact ⟨h1, h2⟩

theorem do_next_one_no_clockless_stream {comp : muxer_comp} {it it' : muxer_msg_iter}
    {st : bt_message_iterator_status} {om : Option bt_message}
    (h : muxer_msg_iter_do_next_one comp it = some (st, om, it'))
    (hinv : no_clockless_stream it) : no_clockless_stream it' := by
  intro c1 hc1 m hm
  obtain ⟨c, hc, _, hs⟩ := do_next_one_stream_mem h c1 hc1
  exact hinv c hc m (hs m hm)

/-- With `assume-absolute-clock-classes`, over any sequence of calls of
`next_one` from a state other than "no clock class" in which no stream
without clock class is to begin: every state of the sequence is such a
state. -/
theorem next_one_calls_assume (comp : muxer_comp)
    (hf : comp.assume_absolute_clock_classes = true) :
    ∀ (n : Nat) (it : muxer_msg_iter), it.clock_class_expectation ≠ .NONE →
      no_clockless_stream it →
      ∀ s ∈ it :: (next_one_calls comp n it).map (·.2.2),
        s.clock_class_expectation ≠ .NONE ∧ no_clockless_stream s := by
  intro n
  induction n with
  | zero =>
    intro it hne hno s hs
    simp only [next_one_calls, List.map_nil, List.mem_singleton] at hs
    subst hs
    exact ⟨hne, hno⟩
  | succ n ih =>
    intro it hne hno s hs
    rcases List.mem_cons.mp hs with rfl | hs
    · exact ⟨hne, hno⟩
    · rw [next_one_calls] at hs
      split at hs
      · simp at hs
      · rename_i r hn
        obtain ⟨st, om, it1⟩ := r
        have hno1 := do_next_one_no_clockless_stream hn hno
        have hne1 : it1.clock_class_expectation ≠ .NONE := by
          refine (do_next_one_assume hf hne ?_ hn).1
          intro sv itv hv c hc m hm
          obtain ⟨c0, hc0, _, hstream⟩ :=
            validate_cursor_of_origin hv c (List.mem_append_left _ hc)
          apply hno c0 hc0 m
          rw [hstream]
          unfold cursor_stream
          exact List.mem_append_left _ (List.mem_of_mem_head? hm)
        exact ih it1 hne1 hno1 s (by simpa using hs)

/-- Over any sequence of calls of `next_one`, the timestamps stored by
the calls that return `OK` do not decrease, from the last returned
timestamp of the start on. -/
theorem next_one_calls_emitted_ts_chain (comp : muxer_comp) :
    ∀ (n : Nat) (it : muxer_msg_iter),
      List.Chain (· ≤ ·) it.last_returned_ts_ns (emitted_ts (next_one_calls comp n it)) := by
  intro n
  induction n with
  | zero => intro it; simp [next_one_calls, emitted_ts]
  | succ n ih =>
    intro it
    rw [next_one_calls]
    split
    · simp [emitted_ts]
    · rename_i r hr
      obtain ⟨st, om, it1⟩ := r
      have hl := do_next_one_last_ts hr
      have ih1 := ih it1
      by_cases hst : st = .OK
      · subst hst
        simp only [emitted_ts, List.filter_cons, decide_True, if_true, List.map_cons]
        exact List.Chain.cons (hl.1 rfl) ih1
      · simp only [emitted_ts, List.filter_cons, hst, decide_False]
        rw [← hl.2 hst]
        exact ih1

/-- C29, as stated, fails for the option true: cursor A begins with a
stream beginning whose clock class has a Unix epoch origin, cursor B with
a stream beginning whose clock class has no epoch origin and a UUID, and
A then begins a stream whose class has no default clock class.  With
`assume-absolute-clock-classes` true, after the two first stream
beginnings the calls of `next` return `ERROR`: the check of the head
without clock class returns -1 in the state "absolute", which the option
does not cover. -/
theorem C29_assume_absolute_stream_without_clock_class :
    assuming_comp.assume_absolute_clock_classes = true ∧
      (drain assuming_comp 4 4 clock_mix_clockless_iter).map (fun r => (r.1, r.2.1)) =
        some (.ERROR,
          [sample_stream_beginning 3 (some (sample_relative_clock_class (some sample_uuid))),
            sample_stream_beginning 1 (some sample_clock_class)]) ∧
      (drain assuming_comp 4 4 clock_mix_clockless_iter).map
          (fun r => r.2.2.clock_class_expectation) = some .ABSOLUTE ∧
      validate_head_clock_class (expecting_iter .ABSOLUTE []) assuming_comp
          (sample_stream_beginning 2 none) =
        some (-1, expecting_iter .ABSOLUTE []) := by
  decide

/-- C29, amended: cursor A begins with a stream beginning whose clock
class has a Unix epoch origin, cursor B with a stream beginning whose
clock class has no epoch origin and a UUID, each upstream answering
`AGAIN` any number of times before it delivers.  With
`assume-absolute-clock-classes` false, the calls of `next` return `AGAIN`
without a message until both have delivered, and the next call returns
`ERROR`, no message at all (so none of B) having been written, in either
order of the cursors; the error is the refusal of the second clock class
by the expectation locked on the first.  With the option true, both
heads are accepted whatever the expectation; provided no upstream begins
a stream whose class has no default clock class, over any sequence of
calls of `next_one`, in either order of the cursors, the timestamps of
the emitted messages do not decrease, the expectation is never "no clock
class", the clock check of every head returns success, and a call
returns `ERROR` only when the validation of the cursors does, when a
timestamp cannot be computed or when a timestamp is below the last
returned one; and when the upstreams deliver, in non-empty batches,
messages that the muxer expects, with timestamps that do not decrease,
and then end, the calls of `next` end on `END` after both streams have
been emitted entirely, in non-decreasing order of timestamp, the
messages of each upstream in their order.  In the scenario both streams
come out in the order of their timestamps, then `END`. -/
theorem C29_clock_incompatibility (comp : muxer_comp) (uA uB : upstream_iterator)
    (mA mB : bt_message) (ccA ccB : bt_clock_class) (restA restB : List bt_message)
    (pA pB againsA againsB : List (bt_message_iterator_status × List bt_message))
    (capacity : Nat)
    (hA : uA.pending = againsA ++ (.OK, mA :: restA) :: pA)
    (hB : uB.pending = againsB ++ (.OK, mB :: restB) :: pB)
    (haA : ∀ e ∈ againsA, e.1 = .AGAIN) (haB : ∀ e ∈ againsB, e.1 = .AGAIN)
    (hmA : mA.type = .STREAM_BEGINNING)
    (hccA : mA.stream_class_default_clock_class = some ccA)
    (hepoch : ccA.origin_is_unix_epoch = true)
    (hmB : mB.type = .STREAM_BEGINNING)
    (hccB : mB.stream_class_default_clock_class = some ccB)
    (hrel : ccB.origin_is_unix_epoch = false) (huuid : ccB.uuid.isSome = true)
    (hcap : 1 ≤ capacity) :
    (comp.assume_absolute_clock_classes = false →
      (∃ it1, next_while_again comp capacity (againsA.length + againsB.length + 1)
          (initial_iter [fresh_cursor uA, fresh_cursor uB]) [] = some (.ERROR, [], it1) ∧
        it1.clock_class_expectation = .ABSOLUTE ∧
        validate_head_clock_class it1 comp mB = some (-1, it1)) ∧
      (∃ it1, next_while_again comp capacity (againsB.length + againsA.length + 1)
          (initial_iter [fresh_cursor uB, fresh_cursor uA]) [] = some (.ERROR, [], it1) ∧
        it1.clock_class_expectation = .NOT_ABS_SPEC_UUID ∧
        validate_head_clock_class it1 comp mA = some (-1, it1))) ∧
      (comp.assume_absolute_clock_classes = true → ∀ it : muxer_msg_iter,
        ∃ it1 it2, validate_head_clock_class it comp mA = some (0, it1) ∧
          validate_head_clock_class it1 comp mB = some (0, it2)) ∧
      (comp.assume_absolute_clock_classes = true →
        (∀ m ∈ upstream_messages uA ++ upstream_messages uB,
          m.type = .STREAM_BEGINNING → m.stream_class_default_clock_class.isSome = true) →
        ∀ cursors : List muxer_upstream_msg_iter,
          cursors = [fresh_cursor uA, fresh_cursor uB] ∨
            cursors = [fresh_cursor uB, fresh_cursor uA] →
          ∀ n, List.Chain (· ≤ ·) INT64_MIN
              (emitted_ts (next_one_calls comp n (initial_iter cursors))) ∧
            ∀ s ∈ initial_iter cursors ::
              (next_one_calls comp n (initial_iter cursors)).map (·.2.2),
            s.clock_class_expectation ≠ .NONE ∧
              ∀ st om s1, muxer_msg_iter_do_next_one comp s = some (st, om, s1) →
                ∃ sv sval, validate_muxer_upstream_msg_iters s = some (sv, sval) ∧
                  (∀ c ∈ sval.active_muxer_upstream_msg_iters, ∀ m ∈ c.msgs.head?,
                    ∀ x r x1, x.clock_class_expectation ≠ .NONE →
                      validate_head_clock_class x comp m = some (r, x1) → r = 0) ∧
                  (st = .ERROR →
                    sv = .ERROR ∨
                    (∃ c ∈ sval.active_muxer_upstream_msg_iters, ∃ m ∈ c.msgs.head?,
                      get_msg_ts_ns sval m sval.last_returned_ts_ns = some .error) ∨
                    ∃ it2 ch ts, muxer_msg_iter_youngest_upstream_msg_iter comp sval =
                      some (.OK, it2, ch, ts) ∧ ts < it2.last_returned_ts_ns)) ∧
      (comp.assume_absolute_clock_classes = true →
        ∀ (tailA tailB : List (List bt_message)) (upstreams : List (List (List bt_message))),
          upstreams = [(mA :: restA) :: tailA, (mB :: restB) :: tailB] ∨
            upstreams = [(mB :: restB) :: tailB, (mA :: restA) :: tailA] →
          (∀ bs ∈ upstreams, ∀ b ∈ bs, b ≠ []) →
          (∀ bs ∈ upstreams, ∀ m ∈ bs.flatten, timed_msg m ∧
            (m.type = .STREAM_BEGINNING → m.stream_class_default_clock_class.isSome = true)) →
          (∀ bs ∈ upstreams, (bs.flatten.filterMap own_ts).Pairwise (· ≤ ·)) →
          ∀ fuel, (upstreams.flatMap List.flatten).length + 1 ≤ fuel →
            ∃ (out : List (Int × bt_message)) (itf : muxer_msg_iter),
              drain comp capacity fuel (merge_input upstreams) =
                some (.END, out.map (·.2), itf) ∧
              out.Perm (upstreams.flatMap (fun bs => annot INT64_MIN bs.flatten)) ∧
              (out.map (·.1)).Pairwise (· ≤ ·) ∧
              ((out.map (·.2)).filterMap own_ts).Pairwise (· ≤ ·) ∧
              ∃ labels : List (Option Nat), labels.length = out.length ∧
                ∀ (i : Nat) (bs : List (List bt_message)), upstreams[i]? = some bs →
                  emitted_with_ts labels out (some i) = annot INT64_MIN bs.flatten) ∧
      (drain assuming_comp 4 3 clock_mix_iter).map (fun r => (r.1, r.2.1)) =
        some (.END,
          [sample_stream_beginning 4 (some (sample_relative_clock_class (some sample_uuid))),
            sample_stream_beginning 1 (some sample_clock_class),
            sample_event_of 2 sample_clock_class 10,
            sample_event_of 5 (sample_relative_clock_class (some sample_uuid)) 20,
            sample_event_of 3 sample_clock_class 30,
            sample_event_of 6 (sample_relative_clock_class (some sample_uuid)) 40]) := by
  obtain ⟨uu, huu⟩ := Option.isSome_iff_exists.mp huuid
  have hfA : fresh_cursor uA = waiting_cursor uA (againsA ++ (.OK, mA :: restA) :: pA) := by
    unfold fresh_cursor waiting_cursor
    rw [← hA]
  have hfB : fresh_cursor uB = waiting_cursor uB (againsB ++ (.OK, mB :: restB) :: pB) := by
    unfold fresh_cursor waiting_cursor
    rw [← hB]
  refine ⟨?_, ?_, ?_, ?_, by decide⟩
  · intro hf
    rw [hfA, hfB]
    constructor
    · refine ⟨_, next_while_again_clock_error comp uA uB mA mB restA restB pA pB capacity
        { initial_iter
            [{ msg_iter := some { uA with pending := pA }, msgs := mA :: restA },
              { msg_iter := some { uB with pending := pB }, msgs := mB :: restB }] with
          clock_class_expectation := .ABSOLUTE }
        ?_ (get_msg_ts_ns_stream_beginning _ _ _ hmA) ?_ hcap againsA againsB haA haB, rfl, ?_⟩
      · simp [validate_head_clock_class, validate_new_stream_clock_class, validate_clock_class,
          hmA, hccA, hepoch, hf, initial_iter]
      · simp [validate_head_clock_class, validate_new_stream_clock_class, validate_clock_class,
          hmB, hccB, hrel, hf, initial_iter]
      · simp [validate_head_clock_class, validate_new_stream_clock_class, validate_clock_class,
          hmB, hccB, hrel, hf, initial_iter]
    · refine ⟨_, next_while_again_clock_error comp uB uA mB mA restB restA pB pA capacity
        { initial_iter
            [{ msg_iter := some { uB with pending := pB }, msgs := mB :: restB },
              { msg_iter := some { uA with pending := pA }, msgs := mA :: restA }] with
          clock_class_expectation := .NOT_ABS_SPEC_UUID
          expected_clock_class_uuid := memcpy uu BABELTRACE_UUID_LEN }
        ?_ (get_msg_ts_ns_stream_beginning _ _ _ hmB) ?_ hcap againsB againsA haB haA, rfl, ?_⟩
      · simp [validate_head_clock_class, validate_new_stream_clock_class, validate_clock_class,
          hmB, hccB, hrel, huu, hf, initial_iter, memcmp, memcpy]
      · simp [validate_head_clock_class, validate_new_stream_clock_class, validate_clock_class,
          hmA, hccA, hepoch, hf, initial_iter]
      · simp [validate_head_clock_class, validate_new_stream_clock_class, validate_clock_class,
          hmA, hccA, hepoch, hf, initial_iter]
  · intro hf it
    simp [validate_head_clock_class, validate_new_stream_clock_class, validate_clock_class,
      hmA, hccA, hepoch, hmB, hccB, hrel, huu, hf]
  · intro hf hsb cursors hcur n
    refine ⟨next_one_calls_emitted_ts_chain comp n (initial_iter cursors), ?_⟩
    intro s hs
    have hno : no_clockless_stream (initial_iter cursors) := by
      intro c hc m hm
      apply hsb m
      have hc2 : c = fresh_cursor uA ∨ c = fresh_cursor uB := by
        rcases hcur with rfl | rfl <;>
          simp only [all_cursors, initial_iter, List.append_nil, List.mem_cons,
            List.mem_singleton, List.not_mem_nil, or_false] at hc
        · exact hc
        · exact hc.symm
      rcases hc2 with rfl | rfl
      · exact List.mem_append_left _ (by simpa [cursor_stream, fresh_cursor] using hm)
      · exact List.mem_append_right _ (by simpa [cursor_stream, fresh_cursor] using hm)
    obtain ⟨hne, hnos⟩ := next_one_calls_assume comp hf n (initial_iter cursors)
      (by simp [initial_iter]) hno s hs
    refine ⟨hne, ?_⟩
    intro st om s1 hn
    have hheads : ∀ sv itv, validate_muxer_upstream_msg_iters s = some (sv, itv) →
        ∀ c ∈ itv.active_muxer_upstream_msg_iters, ∀ m ∈ c.msgs.head?,
          m.type = .STREAM_BEGINNING → m.stream_class_default_clock_class.isSome = true := by
      intro sv itv hv c hc m hm
      obtain ⟨c0, hc0, _, hstream⟩ :=
        validate_cursor_of_origin hv c (List.mem_append_left _ hc)
      apply hnos c0 hc0 m
      rw [hstream]
      unfold cursor_stream
      exact List.mem_append_left _ (List.mem_of_mem_head? hm)
    obtain ⟨_, sv, sval, hv, herr⟩ := do_next_one_assume hf hne hheads hn
    refine ⟨sv, sval, hv, ?_, herr⟩
    intro c hc m hm x r x1 hx hcheck
    exact (validate_head_clock_class_assume hf hx (hheads sv sval hv c hc m hm) hcheck).1
  · intro hf tailA tailB upstreams _ hbatch hmsg hsorted fuel hfuel
    have hclock : clock_compatible comp (upstreams.flatMap List.flatten) := by
      refine ⟨?_, fun h0 => by rw [hf] at h0; simp at h0⟩
      intro m hm
      obtain ⟨bs, hbs, hmb⟩ := List.mem_flatMap.mp hm
      exact (hmsg bs hbs m hmb).2
    obtain ⟨out, itf, hd, hp, hs, labels, hl, hlab⟩ :=
      gen_drain_merge_input comp capacity upstreams hcap hbatch
        (fun bs hbs m hm => (hmsg bs hbs m hm).1) hclock hsorted fuel hfuel
    refine ⟨out, itf, hd, hp, hs, ?_, labels, hl, hlab⟩
    refine hs.sublist (own_ts_sublist out ?_)
    intro p hpm t ht
    obtain ⟨bs, _, hpb⟩ := List.mem_flatMap.mp (hp.mem_iff.mp hpm)
    exact annot_own _ _ p hpb t ht

/-- Witness of C29.  With the option false, the upstream of A answering
`AGAIN` once before it delivers: the first call of `next` returns
`AGAIN`, the second `ERROR`, the expectation being locked on absolute
clock classes.  With the option true, the upstreams of the scenario: the
calls of `next` end on `END` after the two stream beginnings and the
events at 10, 20, 30, 40. -/
theorem C29_clock_incompatibility_witness :
    (∃ it1, next_while_again sample_comp 4 2
        (initial_iter
          [fresh_cursor (sample_upstream 0
            [(.AGAIN, []),
              (.OK, [sample_stream_beginning 1 (some sample_clock_class),
                sample_event_of 2 sample_clock_class 10])]),
            fresh_cursor (sample_upstream 1
              [(.OK, [sample_stream_beginning 4
                  (some (sample_relative_clock_class (some sample_uuid))),
                sample_event_of 5 (sample_relative_clock_class (some sample_uuid)) 20])])])
        [] = some (.ERROR, [], it1) ∧
      it1.clock_class_expectation = .ABSOLUTE) ∧
      (∃ (out : List (Int × bt_message)) (itf : muxer_msg_iter),
        drain assuming_comp 4 7 (merge_input clock_mix_upstreams) =
          some (.END, out.map (·.2), itf) ∧
        out.Perm (clock_mix_upstreams.flatMap (fun bs => annot INT64_MIN bs.flatten)) ∧
        (out.map (·.1)).Pairwise (· ≤ ·) ∧
        ((out.map (·.2)).filterMap own_ts).Pairwise (· ≤ ·)) ∧
      (drain assuming_comp 4 7 (merge_input clock_mix_upstreams)).map
          (fun r => (r.1, r.2.1.map (·.addr))) = some (.END, [4, 1, 2, 5, 3, 6]) := by
  refine ⟨?_, ?_, by decide⟩
  · obtain ⟨it1, h, hc, _⟩ := ((C29_clock_incompatibility sample_comp
      (sample_upstream 0
        [(.AGAIN, []),
          (.OK, [sample_stream_beginning 1 (some sample_clock_class),
            sample_event_of 2 sample_clock_class 10])])
      (sample_upstream 1
        [(.OK, [sample_stream_beginning 4 (some (sample_relative_clock_class (some sample_uuid))),
          sample_event_of 5 (sample_relative_clock_class (some sample_uuid)) 20])])
      (sample_stream_beginning 1 (some sample_clock_class))
      (sample_stream_beginning 4 (some (sample_relative_clock_class (some sample_uuid))))
      sample_clock_class (sample_relative_clock_class (some sample_uuid))
      [sample_event_of 2 sample_clock_class 10]
      [sample_event_of 5 (sample_relative_clock_class (some sample_uuid)) 20]
      [] [] [(.AGAIN, [])] [] 4 rfl rfl (by decide) (by decide) rfl rfl rfl rfl rfl rfl rfl
      (by decide)).1 rfl).1
    exact ⟨it1, h, hc⟩
  · obtain ⟨out, itf, hd, hp, hs, ho, _⟩ := (C29_clock_incompatibility assuming_comp
      (sample_upstream 0
        [(.OK, [sample_stream_beginning 1 (some sample_clock_class),
          sample_event_of 2 sample_clock_class 10, sample_event_of 3 sample_clock_class 30])])
      (sample_upstream 1
        [(.OK, [sample_stream_beginning 4 (some (sample_relative_clock_class (some sample_uuid))),
          sample_event_of 5 (sample_relative_clock_class (some sample_uuid)) 20,
          sample_event_of 6 (sample_relative_clock_class (some sample_uuid)) 40])])
      (sample_stream_beginning 1 (some sample_clock_class))
      (sample_stream_beginning 4 (some (sample_relative_clock_class (some sample_uuid))))
      sample_clock_class (sample_relative_clock_class (some sample_uuid))
      [sample_event_of 2 sample_clock_class 10, sample_event_of 3 sample_clock_class 30]
      [sample_event_of 5 (sample_relative_clock_class (some sample_uuid)) 20,
        sample_event_of 6 (sample_relative_clock_class (some sample_uuid)) 40]
      [] [] [] [] 4 rfl rfl (by decide) (by decide) rfl rfl rfl rfl rfl rfl rfl
      (by decide)).2.2.2.1 rfl [] [] clock_mix_upstreams (Or.inl rfl) (by decide) (by decide)
      (by decide) 7 (by decide)
    exact ⟨out, itf, hd, hp, hs, ho⟩

/-- C24, amended: upstreams that replay the same batches after a seek,
merged by a fresh muxer iterator; the scenario is a drain by calls of
`next` until `END`, a seek to the beginning that returns `OK`, and a
second drain until `END`.  Whatever the messages, with timestamps in the
range of an `int64_t`: when the scenario goes through, the two outputs
hold the same messages, and in each of them the messages of every
upstream are all the messages of that upstream, in its order.  For
upstreams that deliver, in non-empty batches, messages of any type that
the muxer expects, compatible for the clock class checks, with
timestamps that do not decrease, the scenario goes through when enough
calls are allowed; the two outputs, each message taken with the
timestamp with which it is emitted (its own, or for a message without
timestamp that of the message before it in its upstream, `INT64_MIN` for
a first message), hold the same elements and have the same sequence of
timestamps, which does not decrease; and they are the same sequence when
no two messages of different upstreams are emitted with the same
timestamp. -/
theorem C24_seek_round_trip (comp : muxer_comp) (capacity : Nat)
    (upstreams : List (List (List bt_message))) (fuel : Nat) :
    ((∀ bs ∈ upstreams, ∀ m ∈ bs.flatten, ts_le_int64_max m) →
      ∀ out1 out2 : List bt_message,
        drain_seek_drain comp capacity fuel (merge_input upstreams) = some (out1, out2) →
        out2.Perm out1 ∧
          ∃ l1 l2 : List (Option Nat), l1.length = out1.length ∧ l2.length = out2.length ∧
            ∀ (i : Nat) (bs : List (List bt_message)), upstreams[i]? = some bs →
              emitted_from l1 out1 (some i) = bs.flatten ∧
              emitted_from l2 out2 (some i) = bs.flatten) ∧
      (1 ≤ capacity →
        (∀ bs ∈ upstreams, ∀ b ∈ bs, b ≠ []) →
        (∀ bs ∈ upstreams, ∀ m ∈ bs.flatten, timed_msg m) →
        clock_compatible comp (upstreams.flatMap List.flatten) →
        (∀ bs ∈ upstreams, (bs.flatten.filterMap own_ts).Pairwise (· ≤ ·)) →
        (upstreams.flatMap List.flatten).length + 1 ≤ fuel →
        ∃ out1 out2 : List (Int × bt_message),
          drain_seek_drain comp capacity fuel (merge_input upstreams) =
            some (out1.map (·.2), out2.map (·.2)) ∧
          out2.Perm out1 ∧ out2.map (·.1) = out1.map (·.1) ∧
          (out1.map (·.1)).Pairwise (· ≤ ·) ∧
          (∃ l1 l2 : List (Option Nat), l1.length = out1.length ∧ l2.length = out2.length ∧
            ∀ (i : Nat) (bs : List (List bt_message)), upstreams[i]? = some bs →
              emitted_with_ts l1 out1 (some i) = annot INT64_MIN bs.flatten ∧
              emitted_with_ts l2 out2 (some i) = annot INT64_MIN bs.flatten) ∧
          ((∀ (i j : Nat) (bs1 bs2 : List (List bt_message)),
            upstreams[i]? = some bs1 → upstreams[j]? = some bs2 →
            ∀ x ∈ eff_ts INT64_MIN bs1.flatten, ∀ y ∈ eff_ts INT64_MIN bs2.flatten,
              x = y → i = j) → out2 = out1)) :=
  ⟨fun hts out1 out2 h => fifo_round_trip comp capacity fuel upstreams hts out1 out2 h,
    fun hcap hbatch hmsg hclock hsorted hfuel =>
      gen_seek_round_trip comp capacity upstreams hcap hbatch hmsg hclock hsorted fuel hfuel⟩

/-- Witness of C24.  Two streams, each with its beginning, one event
and its end: the scenario goes through, the two stream beginnings, both
emitted with the timestamp `INT64_MIN`, come out in one order in the
first drain and in the other order in the second, and the two outputs
have the same elements and the same timestamps.  One stream without
clock class: the two outputs are its beginning and its end. -/
theorem C24_seek_round_trip_witness :
    (drain_seek_drain sample_comp 4 7 (merge_input two_streams_upstreams)).map
        (fun r => (r.1.map (·.addr), r.2.map (·.addr))) =
        some ([4, 1, 5, 6, 2, 3], [1, 4, 5, 6, 2, 3]) ∧
      (∃ out1 out2 : List (Int × bt_message),
        drain_seek_drain sample_comp 4 7 (merge_input two_streams_upstreams) =
          some (out1.map (·.2), out2.map (·.2)) ∧
        out2.Perm out1 ∧ out2.map (·.1) = out1.map (·.1) ∧
        (out1.map (·.1)).Pairwise (· ≤ ·)) ∧
      ([sample_stream_beginning 1 none, sample_stream_end 2 none].Perm
          [sample_stream_beginning 1 none, sample_stream_end 2 none] ∧
        ∃ l1 l2 : List (Option Nat), l1.length = 2 ∧ l2.length = 2 ∧
          ∀ (i : Nat) (bs : List (List bt_message)), clockless_upstreams[i]? = some bs →
            emitted_from l1 [sample_stream_beginning 1 none, sample_stream_end 2 none]
                (some i) = bs.flatten ∧
              emitted_from l2 [sample_stream_beginning 1 none, sample_stream_end 2 none]
                (some i) = bs.flatten) := by
  refine ⟨by decide, ?_, ?_⟩
  · obtain ⟨out1, out2, h, hp, hts, hs, _⟩ :=
      (C24_seek_round_trip sample_comp 4 two_streams_upstreams 7).2
        (by decide) (by decide) (by decide) (by decide) (by decide) (by decide)
    exact ⟨out1, out2, h, hp, hts, hs⟩
  · exact (C24_seek_round_trip sample_comp 4 clockless_upstreams 4).1 (by decide)
      [sample_stream_beginning 1 none, sample_stream_end 2 none]
      [sample_stream_beginning 1 none, sample_stream_end 2 none] (by decide)

end Muxer
